import Mathlib

/-!
# Perfect bit cube: balanced-number domain and layer generator

A shallow embedding of `BalancedSet.cpp` / `LayerGenerator.cpp`.  Bytes
(`uint8_t`) are natural numbers below 256; every place where the C++ code
truncates to 8 bits carries an explicit `% 256`.  `int` counters are `Int`.
-/

namespace PerfectBitCube

/-! ## Byte helpers -/

/-- Specification-side population count of a byte: the number of bit positions
`0..7` at which `v` has a one.  Used only in statements, never by the embedded
code. -/
def popcount8 (v : Nat) : Nat :=
  ((List.range 8).filter (fun i => v.testBit i)).length

/-- Integer promotion followed by `~` and truncation to `uint8_t`: the `int`
value `~val` has the 32-bit pattern `2^32 - 1 - val`, of which the low 8 bits
are kept. -/
def bitNot8 (val : Nat) : Nat :=
  (2 ^ 32 - 1 - val) % 256

/-! ## `BalancedSet.h` -/

/-- Record `ShiftSet`: `std::array<uint8_t, 8> values` and `uint8_t base`. -/
structure ShiftSet where
  values : List Nat
  base : Nat
deriving DecidableEq, Repr

/-- Data members of class `BalancedSet`.  `complementMap` is the 256-entry
byte array, represented by its contents at each index. -/
structure BalancedSet where
  allBalanced : List Nat
  upSet : List Nat
  shiftSets : List ShiftSet
  filteredShiftSets : List ShiftSet
  complementMap : Nat → Nat

/-! ## `BalancedSet.cpp` -/

/-- The loop `while (n > 0) { n &= (n - 1); count++; }` shared verbatim by
`countSetBits` and `isBalanced`; returns the final `count`. -/
def clearLowestLoop (n count : Nat) : Nat :=
  if 0 < n then clearLowestLoop (n &&& (n - 1)) (count + 1) else count
termination_by n
decreasing_by
  have h : n &&& (n - 1) ≤ n - 1 := Nat.and_le_right
  omega

/-- `BalancedSet::countSetBits`. -/
def countSetBits (n : Nat) : Nat :=
  clearLowestLoop n 0

/-- `BalancedSet::isBalanced`. -/
def isBalanced (val : Nat) : Bool :=
  clearLowestLoop val 0 == 4

/-- `BalancedSet::rotateLeft`: `static_cast<uint8_t>((val << 1) | (val >> 7))`. -/
def rotateLeft (val : Nat) : Nat :=
  ((val <<< 1) ||| (val >>> 7)) % 256

/-- The loop `for i in 0..8 { a[i] = current; current = rotateLeft(current); }`
that fills an 8-entry array, run for `n` iterations from `current`. -/
def rotationFill : Nat → Nat → List Nat
  | 0, _ => []
  | n + 1, current => current :: rotationFill n (rotateLeft current)

/-- `BalancedSet::isValidShiftSet`: the nested uniqueness loops return `false`
at the first equal pair `i < j`. -/
def isValidShiftSet (base : Nat) : Bool :=
  let rotations := rotationFill 8 base
  (List.range 8).all fun i =>
    (List.range' (i + 1) (8 - (i + 1))).all fun j =>
      !(rotations.getD i 0 == rotations.getD j 0)

/-- `BalancedSet::passesFilterRule`. -/
def passesFilterRule (values : List Nat) : Bool :=
  let upperCount := values.countP (fun val => val ≥ 128)
  if upperCount ≠ 4 then false
  else
    let upperEven := values.countP (fun val => val ≥ 128 && val % 2 == 0)
    let upperOdd := values.countP (fun val => val ≥ 128 && !(val % 2 == 0))
    if upperEven ≠ 2 || upperOdd ≠ 2 then false
    else
      let lowerEven := values.countP (fun val => val < 128 && val % 2 == 0)
      let lowerOdd := values.countP (fun val => val < 128 && !(val % 2 == 0))
      if lowerEven ≠ 2 || lowerOdd ≠ 2 then false
      else true

/-- One iteration of the range-for in `BalancedSet::generateShiftSets`. -/
def shiftSetStep (s : BalancedSet) (balanced : Nat) : BalancedSet :=
  if isValidShiftSet balanced then
    let ss : ShiftSet := { values := rotationFill 8 balanced, base := balanced }
    let s1 := { s with shiftSets := s.shiftSets ++ [ss] }
    if passesFilterRule ss.values then
      { s1 with filteredShiftSets := s1.filteredShiftSets ++ [ss] }
    else s1
  else s

/-- `BalancedSet::generateShiftSets`. -/
def generateShiftSets (s : BalancedSet) : BalancedSet :=
  s.allBalanced.foldl shiftSetStep s

/-- One iteration of the constructor loop `for (int i = 0; i < 256; ++i)`. -/
def constructStep (s : BalancedSet) (i : Nat) : BalancedSet :=
  if countSetBits (i % 256) = 4 then
    let val := i % 256
    { s with
      allBalanced := s.allBalanced ++ [val]
      upSet := if val ≥ 128 then s.upSet ++ [val] else s.upSet
      complementMap := Function.update s.complementMap val (bitNot8 val) }
  else s

/-- Insertion into a descending list (helper of `sortDescending`). -/
def insertDescending (x : Nat) : List Nat → List Nat
  | [] => [x]
  | y :: ys => if y ≤ x then x :: y :: ys else y :: insertDescending x ys

/-- Effect of `std::sort(upSet.rbegin(), upSet.rend())`: the vector ends up
in descending order of value. -/
def sortDescending : List Nat → List Nat
  | [] => []
  | x :: xs => insertDescending x (sortDescending xs)

/-- First loop of the constructor, `for (int i = 0; i < 256; ++i)`.  The
object is default-initialised, so the vectors start empty while
`complementMap` starts with whatever its storage holds; `mem` is that initial
content. -/
def constructLoop (mem : Nat → Nat) : BalancedSet :=
  (List.range 256).foldl constructStep
    { allBalanced := [], upSet := [], shiftSets := [], filteredShiftSets := [],
      complementMap := mem }

/-- `BalancedSet::BalancedSet()`: the loop, the sort of `upSet`, then
`generateShiftSets()`. -/
def BalancedSet.construct (mem : Nat → Nat) : BalancedSet :=
  let s1 := constructLoop mem
  generateShiftSets { s1 with upSet := sortDescending s1.upSet }

/-- `BalancedSet::getComplement`: `return complementMap[val];`. -/
def BalancedSet.getComplement (s : BalancedSet) (val : Nat) : Nat :=
  s.complementMap val

/-! ## Evaluation and specification helpers -/

/-- Fuel-indexed twin of `clearLowestLoop`, used to evaluate the loop on
concrete bytes. -/
def clearLowestFuel : Nat → Nat → Nat → Nat
  | 0, _, count => count
  | fuel + 1, n, count =>
    if 0 < n then clearLowestFuel fuel (n &&& (n - 1)) (count + 1) else count

/-- The record built for an accepted base in `generateShiftSets`. -/
def mkShiftSet (b : Nat) : ShiftSet := { values := rotationFill 8 b, base := b }

/-- Specification-side list of the balanced bytes: the bytes `0..255`, in
ascending order, whose population count is 4. -/
def balancedBytes : List Nat :=
  (List.range 256).filter (fun v => popcount8 v = 4)

/-- Specification-side list of the 8 successive rotations of `b`:
`b, rotateLeft b, ..., rotateLeft^7 b`. -/
def rotations8 (b : Nat) : List Nat :=
  (List.range 8).map (fun k => rotateLeft^[k] b)

/-! ## `Layer.h` -/

/-- Record `Layer`: `uint8_t rows[8]`, `uniqueNumbers`, `uint64_t bitMatrix`,
`uint64_t numMask[4]`. -/
structure Layer where
  rows : List Nat
  uniqueNumbers : List Nat
  bitMatrix : Nat
  numMask : List Nat
deriving DecidableEq, Repr

/-! ## `LayerGenerator.h` / `LayerGenerator.cpp` -/

/-- Data members of class `LayerGenerator` (the `BalancedSet` reference is
passed separately). -/
structure LayerGenerator where
  validLayers : List Layer
  colCounts : List Int
  yAxisCounts : List Int
  totalAttempts : Nat

/-- `LayerGenerator::LayerGenerator`: both counter arrays are zeroed;
`totalAttempts` is assigned by `generate` before it is read. -/
def LayerGenerator.new : LayerGenerator :=
  { validLayers := [], colCounts := List.replicate 8 0, yAxisCounts := List.replicate 8 0,
    totalAttempts := 0 }

/-- `LayerGenerator::canAddRow`: the Z-axis loop, then the Y-axis loop; either
returns `false` at the first violated bound. -/
def canAddRow (g : LayerGenerator) (row : Nat) (rowIdx : Nat) : Bool :=
  ((List.range 8).all fun col =>
      let bit : Int := (((row >>> (7 - col)) &&& 1 : Nat) : Int)
      let newCount := g.colCounts.getD col 0 + bit
      let remainingRows : Int := 7 - (rowIdx : Int)
      !(decide (newCount > 4)) && !(decide (newCount + remainingRows < 4)))
    && ((List.range 8).all fun bitPos =>
      let bit : Int := (((row >>> bitPos) &&& 1 : Nat) : Int)
      let newCount := g.yAxisCounts.getD bitPos 0 + bit
      let remainingRows : Int := 7 - (rowIdx : Int)
      !(decide (newCount > 4)) && !(decide (newCount + remainingRows < 4)))

/-- `LayerGenerator::updateCounts`. -/
def updateCounts (g : LayerGenerator) (row : Nat) (delta : Int) : LayerGenerator :=
  { g with
    colCounts := (List.range 8).foldl
      (fun cc col =>
        cc.set col (cc.getD col 0 + (((row >>> (7 - col)) &&& 1 : Nat) : Int) * delta))
      g.colCounts
    yAxisCounts := (List.range 8).foldl
      (fun yc bitPos =>
        yc.set bitPos (yc.getD bitPos 0 + (((row >>> bitPos) &&& 1 : Nat) : Int) * delta))
      g.yAxisCounts }

/-- The layer-building loop at the end of the base case of `backtrack`: copies
the 8 rows and accumulates `bitMatrix` and `numMask`.  `Layer()` zeroes
`bitMatrix` and `numMask`; its `rows` are all overwritten by the loop. -/
def buildLayer (currentRows : List Nat) : Layer :=
  (List.range 8).foldl
    (fun L i =>
      let r := currentRows.getD i 0
      let bucket := r / 64
      let bit := r % 64
      { rows := L.rows.set i r
        uniqueNumbers := L.uniqueNumbers ++ [r]
        bitMatrix := L.bitMatrix ||| (r <<< (i * 8))
        numMask := L.numMask.set bucket (L.numMask.getD bucket 0 ||| (1 <<< bit)) })
    { rows := List.replicate 8 0, uniqueNumbers := [], bitMatrix := 0, numMask := [0, 0, 0, 0] }

/-- The two nested loops of the final verification that fill `finalColCounts`:
entry `c` receives bit `7 - c` of every row. -/
def finalColCounts (currentRows : List Nat) : List Int :=
  (List.range 8).foldl
    (fun fc r => (List.range 8).foldl
      (fun fc c =>
        fc.set c (fc.getD c 0 + (((currentRows.getD r 0 >>> (7 - c)) &&& 1 : Nat) : Int)))
      fc)
    (List.replicate 8 0)

/-- The two nested loops of the final verification that fill `finalYCounts`:
entry `bitPos` receives bit `bitPos` of every row. -/
def finalYCounts (currentRows : List Nat) : List Int :=
  (List.range 8).foldl
    (fun fc r => (List.range 8).foldl
      (fun fc bitPos =>
        fc.set bitPos
          (fc.getD bitPos 0 + (((currentRows.getD r 0 >>> bitPos) &&& 1 : Nat) : Int)))
      fc)
    (List.replicate 8 0)

/-- Base case of `backtrack` (`rowIdx == 4`): append the complement rows,
re-verify both axes, and push the layer if both checks pass.  Returns the
generator and the (mutated) row buffer. -/
def backtrackLeaf (bs : BalancedSet) (g : LayerGenerator) (currentRows : List Nat) :
    LayerGenerator × List Nat :=
  let rows := (List.range 4).foldl
    (fun rs i => rs.set (i + 4) (bs.getComplement (rs.getD i 0))) currentRows
  let validZ := (List.range 8).all fun c => (finalColCounts rows).getD c 0 == 4
  if !validZ then (g, rows)
  else
    let validY := (List.range 8).all fun bitPos => (finalYCounts rows).getD bitPos 0 == 4
    if !validY then (g, rows)
    else ({ g with validLayers := g.validLayers ++ [buildLayer rows] }, rows)

/-- `LayerGenerator::backtrack`.  The state is the generator together with the
caller-owned buffer `currentRows`, which every level writes in place.  `fuel`
bounds the recursion depth; `none` means the bound was hit.  The candidate
index `i` stays below `upSet.size()` (35), so `1ULL << i` never overflows.
Progress printing is omitted. -/
def backtrack (bs : BalancedSet) (fuel : Nat) (rowIdx : Nat)
    (st : LayerGenerator × List Nat) (usedMask : Nat) : Option (LayerGenerator × List Nat) :=
  match fuel with
  | 0 => none
  | fuel + 1 =>
    let g := { st.1 with totalAttempts := (st.1.totalAttempts + 1) % 2 ^ 64 }
    if rowIdx = 4 then some (backtrackLeaf bs g st.2)
    else
      (List.range bs.upSet.length).foldlM
        (fun (cur : LayerGenerator × List Nat) i =>
          if usedMask &&& (1 <<< i) ≠ 0 then some cur
          else
            let candidate := bs.upSet.getD i 0
            if !canAddRow cur.1 candidate rowIdx then some cur
            else
              let rows := cur.2.set rowIdx candidate
              let g1 := updateCounts cur.1 candidate 1
              match backtrack bs fuel (rowIdx + 1) (g1, rows) (usedMask ||| (1 <<< i)) with
              | none => none
              | some next => some (updateCounts next.1 candidate (-1), next.2))
        (g, st.2)
termination_by structural fuel

/-- `LayerGenerator::generate`: `rows0` is the initial content of the local,
uninitialised buffer `uint8_t rows[8]`.  Five nested calls (`rowIdx = 0..4`)
are the deepest the recursion goes. -/
def generate (bs : BalancedSet) (g : LayerGenerator) (rows0 : List Nat) :
    Option LayerGenerator :=
  (backtrack bs 5 0 ({ g with totalAttempts := 0 }, rows0) 0).map (·.1)

/-! ## Specification-side definitions for the layer generator -/

/-- Invariant of the running counters at depth `k`: both arrays have 8
entries, each between 0 and `k`. -/
def CountsOK (g : LayerGenerator) (k : Nat) : Prop :=
  g.colCounts.length = 8 ∧ g.yAxisCounts.length = 8
    ∧ (∀ j < 8, 0 ≤ g.colCounts.getD j 0 ∧ g.colCounts.getD j 0 ≤ k)
    ∧ (∀ j < 8, 0 ≤ g.yAxisCounts.getD j 0 ∧ g.yAxisCounts.getD j 0 ≤ k)

/-- Rows 0..3 followed by their bitwise complements: the 8 rows of the layer
built from the searched prefix `pre`. -/
def completeRows (pre : List Nat) : List Nat :=
  pre ++ pre.map bitNot8

/-- Assumptions on the `BalancedSet` the generator reads: every upper-set
value is a balanced byte of value at least 128, the upper set has no repeats,
and `getComplement` returns the bitwise NOT on balanced bytes. -/
structure GoodSet (bs : BalancedSet) : Prop where
  upSet_balanced : ∀ x ∈ bs.upSet, x ∈ balancedBytes
  upSet_upper : ∀ x ∈ bs.upSet, 128 ≤ x
  upSet_nodup : bs.upSet.Nodup
  complement : ∀ v ∈ balancedBytes, bs.getComplement v = bitNot8 v

/-- Closed form of what `backtrack` appends to `validLayers` when `d` more rows
are to be searched after the prefix `pre` with the candidate indices of
`usedMask` taken: one layer per choice of `d` further unused, pairwise distinct
indices, in lexicographic order of the indices. -/
def layersFrom (u : List Nat) : Nat → List Nat → Nat → List Layer
  | 0, pre, _ => [buildLayer (completeRows pre)]
  | d + 1, pre, usedMask =>
    (List.range u.length).flatMap fun i =>
      if usedMask &&& (1 <<< i) ≠ 0 then []
      else layersFrom u d (pre ++ [u.getD i 0]) (usedMask ||| (1 <<< i))

/-- Body of the candidate loop of `backtrack`, with the recursive call
abstracted as `recur`. -/
def candidateStep (bs : BalancedSet)
    (recur : Nat → LayerGenerator × List Nat → Nat → Option (LayerGenerator × List Nat))
    (rowIdx usedMask : Nat) (cur : LayerGenerator × List Nat) (i : Nat) :
    Option (LayerGenerator × List Nat) :=
  if usedMask &&& (1 <<< i) ≠ 0 then some cur
  else
    let candidate := bs.upSet.getD i 0
    if !canAddRow cur.1 candidate rowIdx then some cur
    else
      let rows := cur.2.set rowIdx candidate
      let g1 := updateCounts cur.1 candidate 1
      match recur (rowIdx + 1) (g1, rows) (usedMask ||| (1 <<< i)) with
      | none => none
      | some next => some (updateCounts next.1 candidate (-1), next.2)

/-- The 8 rows of the layer whose rows 0..3 are the upper-set entries at the
indices `i0..i3`: those four values followed by their bitwise complements. -/
def layerRows (u : List Nat) (i0 i1 i2 i3 : Nat) : List Nat :=
  [u.getD i0 0, u.getD i1 0, u.getD i2 0, u.getD i3 0,
   bitNot8 (u.getD i0 0), bitNot8 (u.getD i1 0), bitNot8 (u.getD i2 0), bitNot8 (u.getD i3 0)]

/-! ## Work partition shared by both parallel searches -/

/-- The chunk-size computation shared by `CubeSearcherV2::search`
(`chunkSize = (numSets + nThreads - 1) / nThreads`) and
`CubeAssembler::assembleParallel` (`chunk = (n + nThreads - 1) / nThreads`).
Integer division by zero has no result: `none` when `nThreads = 0`.  The `int`
operands are far below `2^31` (`n` is at most the number of layers), so the
sum is exact. -/
def chunkSize (n nThreads : Nat) : Option Nat :=
  if nThreads = 0 then none else some ((n + nThreads - 1) / nThreads)

/-- The root indices visited by worker `t`:
`start = t * chunk; end = min(start + chunk, n); for (i = start; i < end; ++i)`. -/
def threadRange (chunk n t : Nat) : List Nat :=
  let start := t * chunk
  let stop := min (start + chunk) n
  List.range' start (stop - start)

/-! ## `Cube.h` -/

/-- Record `Cube`: `uint8_t data[8][8]` (layer `z`, row `y`) and
`usedNumbers`. -/
structure Cube where
  data : List (List Nat)
  usedNumbers : List Nat
deriving DecidableEq, Repr

/-- Entry `data[z][y]` of a cube. -/
def Cube.cell (c : Cube) (z y : Nat) : Nat :=
  (c.data.getD z []).getD y 0

/-! ## `CubeAssembler.cpp`: `saveToDisk` -/

/-- One itemised line failure appended to `errorMsg` by `saveToDisk`. -/
inductive AxisFailure where
  | xAxis (z y : Nat)
  | yAxis (z bitPos : Nat)
  | zAxis (y x : Nat)
deriving DecidableEq, Repr

/-- What `saveToDisk` writes to the result file: the id, the two totals, the
value printed on each of the three "All ?-axis lines balanced" lines, the
verdict, the itemised failures and the 8 layers. -/
structure VerificationReport where
  id : Nat
  totalOnes : Nat
  totalZeros : Nat
  xAxisShown : Bool
  yAxisShown : Bool
  zAxisShown : Bool
  verdictPerfect : Bool
  errorMsg : List AxisFailure
  layers : List (List Nat)
deriving DecidableEq, Repr

/-- The compiler builtin `__builtin_popcount` on the `unsigned int` its byte
argument is promoted to: the number of set bits among bits 0..31. -/
def builtinPopcount (v : Nat) : Nat :=
  ((List.range 32).filter (fun i => v.testBit i)).length

/-- The index pairs visited by two nested loops `for a in 0..8, for b in 0..8`,
in visiting order. -/
def nestedIndices : List (Nat × Nat) :=
  (List.range 8).flatMap fun a => (List.range 8).map fun b => (a, b)

/-- The shape shared by the three verification loops of `saveToDisk`: for each
line in turn, when the line is not balanced set `allAxesValid = false` and
append the failure to `errorMsg`.  The state is `(allAxesValid, errorMsg)`. -/
def checkLines (lineByte : Nat × Nat → Nat) (failure : Nat × Nat → AxisFailure)
    (st : Bool × List AxisFailure) : Bool × List AxisFailure :=
  nestedIndices.foldl
    (fun st idx => if !isBalanced (lineByte idx) then (false, st.2 ++ [failure idx]) else st)
    st

/-- The byte `yLine` built in the Y-axis loop: bit `y` is set when bit
`bitPos` of `data[z][y]` is set. -/
def yLineByte (cube : Cube) (z bitPos : Nat) : Nat :=
  (List.range 8).foldl
    (fun yLine y =>
      if (cube.cell z y >>> bitPos) &&& 1 ≠ 0 then (yLine ||| (1 <<< y)) % 256 else yLine)
    0

/-- The byte `zLine` built in the Z-axis loop: bit `z` is set when bit
`7 - x` of `data[z][y]` is set. -/
def zLineByte (cube : Cube) (y x : Nat) : Nat :=
  (List.range 8).foldl
    (fun zLine z =>
      if (cube.cell z y >>> (7 - x)) &&& 1 ≠ 0 then (zLine ||| (1 <<< z)) % 256 else zLine)
    0

/-- `CubeAssembler::saveToDisk`: the complete verification and the content of
the file written (console output and the mutex are omitted). -/
def saveToDisk (cube : Cube) (id : Nat) : VerificationReport :=
  let totalOnes := nestedIndices.foldl
    (fun total idx => total + builtinPopcount (cube.cell idx.1 idx.2)) 0
  let st0 : Bool × List AxisFailure := (true, [])
  let st1 := checkLines (fun idx => cube.cell idx.1 idx.2)
    (fun idx => AxisFailure.xAxis idx.1 idx.2) st0
  let st2 := checkLines (fun idx => yLineByte cube idx.1 idx.2)
    (fun idx => AxisFailure.yAxis idx.1 idx.2) st1
  let st3 := checkLines (fun idx => zLineByte cube idx.1 idx.2)
    (fun idx => AxisFailure.zAxis idx.1 idx.2) st2
  let allAxesValid := st3.1
  { id := id
    totalOnes := totalOnes
    totalZeros := 512 - totalOnes
    xAxisShown := allAxesValid
    yAxisShown := allAxesValid
    zAxisShown := allAxesValid
    verdictPerfect := allAxesValid && totalOnes == 256
    errorMsg := st3.2
    layers := (List.range 8).map fun z => (List.range 8).map fun y => cube.cell z y }

/-! ## Specification-side line predicates of a cube -/

/-- Every X-line is balanced: each of the 64 row bytes has exactly 4 set
bits. -/
def XBalanced (c : Cube) : Prop :=
  ∀ z < 8, ∀ y < 8, popcount8 (c.cell z y) = 4

/-- Every Y-line is balanced: for each layer `z` and bit position `p`, exactly
4 of the 8 rows of the layer have bit `p` set. -/
def YBalanced (c : Cube) : Prop :=
  ∀ z < 8, ∀ p < 8, ((List.range 8).filter (fun y => (c.cell z y).testBit p)).length = 4

/-- Every Z-line is balanced: for each row `y` and bit position `p`, exactly 4
of the 8 layers have bit `p` set in row `y`. -/
def ZBalanced (c : Cube) : Prop :=
  ∀ y < 8, ∀ p < 8, ((List.range 8).filter (fun z => (c.cell z y).testBit p)).length = 4

/-- All 64 entries of the cube are bytes. -/
def Cube.IsBytes (c : Cube) : Prop :=
  ∀ z < 8, ∀ y < 8, c.cell z y < 256

/-- The 64 row values of a cube, layer by layer. -/
def Cube.rowValues (c : Cube) : List Nat :=
  nestedIndices.map fun idx => c.cell idx.1 idx.2

instance (c : Cube) : Decidable (XBalanced c) := by unfold XBalanced; infer_instance
instance (c : Cube) : Decidable (YBalanced c) := by unfold YBalanced; infer_instance
instance (c : Cube) : Decidable (ZBalanced c) := by unfold ZBalanced; infer_instance
instance (c : Cube) : Decidable (Cube.IsBytes c) := by unfold Cube.IsBytes; infer_instance

/-! ## `CubeAssembler.h` / `CubeAssembler.cpp` -/

/-- Data members of class `CubeAssembler` that the search touches, together
with the calls made to `saveToDisk` (cube and id, in call order); the file
each call writes is `saveToDisk cube id`. -/
structure CubeAssembler where
  checkedPaths : Nat
  foundCount : Nat
  saved : List (Cube × Nat)
deriving DecidableEq, Repr

/-- `CubeAssembler::CubeAssembler`: both counters start at 0. -/
def CubeAssembler.new : CubeAssembler :=
  { checkedPaths := 0, foundCount := 0, saved := [] }

/-- State of one worker while it runs `searchWithLookup`: the shared
assembler, the worker's row buffer `currentCubeRows[4][8]`, which every level
writes in place, and its counter `localChecked`. -/
structure AssemblerRun where
  assembler : CubeAssembler
  currentCubeRows : List (List Nat)
  localChecked : Nat
deriving DecidableEq, Repr

/-- The four-word collision test
`(cand.numMask[0] & currentCubeMask[0]) || ... || (cand.numMask[3] & currentCubeMask[3])`,
written out identically at both depths of `searchWithLookup`. -/
def maskCollision (candMask cubeMask : List Nat) : Bool :=
  (candMask.getD 0 0 &&& cubeMask.getD 0 0 ≠ 0)
    || (candMask.getD 1 0 &&& cubeMask.getD 1 0 ≠ 0)
    || (candMask.getD 2 0 &&& cubeMask.getD 2 0 ≠ 0)
    || (candMask.getD 3 0 &&& cubeMask.getD 3 0 ≠ 0)

/-- The cube built on acceptance in `searchWithLookup`: layers 0..2 are copied
from `currentCubeRows`, layer 3 from the candidate, and
`data[7 - z][y] = getComplement(data[z][y])` for `z = 0..3`.  `Cube c` is not
initialised; all of its 64 entries are written here. -/
def materialiseCube (bs : BalancedSet) (currentCubeRows : List (List Nat)) (cand : Layer) :
    Cube :=
  let d0 : List (List Nat) := List.replicate 8 (List.replicate 8 0)
  let d1 := (List.range 3).foldl (fun d z => d.set z (currentCubeRows.getD z [])) d0
  let d2 := d1.set 3 cand.rows
  let d3 := (List.range 4).foldl
    (fun d z => (List.range 8).foldl
      (fun d y =>
        d.set (7 - z) ((d.getD (7 - z) []).set y (bs.getComplement ((d.getD z []).getD y 0))))
      d)
    d2
  { data := d3, usedNumbers := [] }

/-- Element `layers[i]` of the layer vector. -/
def layerAt (layers : List Layer) (i : Nat) : Layer :=
  layers.getD i { rows := [], uniqueNumbers := [], bitMatrix := 0, numMask := [] }

/-- One iteration of the bucket scan at `currentZ == 3`. -/
def lookupStep (bs : BalancedSet) (layers : List Layer) (layerStartIdx targetMatrix : Nat)
    (currentCubeMask : List Nat) (run : AssemblerRun) (idx : Nat) : AssemblerRun :=
  if idx < layerStartIdx then run
  else
    let run1 := { run with localChecked := run.localChecked + 1 }
    let cand := layerAt layers idx
    if cand.bitMatrix ≠ targetMatrix then run1
    else if maskCollision cand.numMask currentCubeMask then run1
    else
      let c := materialiseCube bs run1.currentCubeRows cand
      let cubeId := run1.assembler.foundCount + 1
      { run1 with
        assembler := { run1.assembler with
          foundCount := cubeId
          saved := run1.assembler.saved ++ [(c, cubeId)] } }

/-- `CubeAssembler::searchWithLookup`.  `zCounts` and `currentCubeMask` are
fresh arrays at every call (`nextCounts`, `nextMask`), the row buffer is
shared.  `fuel` bounds the recursion depth; `none` means the bound was hit. -/
def searchWithLookup (bs : BalancedSet) (layers : List Layer) (lookup : List (List Nat))
    (fuel : Nat) (layerStartIdx currentZ : Nat) (zCounts currentCubeMask : List Nat)
    (run : AssemblerRun) : Option AssemblerRun :=
  match fuel with
  | 0 => none
  | fuel + 1 =>
    if currentZ = 3 then
      let targetMatrix := 2 ^ 64 - 1 - (zCounts.getD 0 0 ||| zCounts.getD 1 0) % 2 ^ 64
      let targetFirstRow := targetMatrix % 256
      some ((lookup.getD targetFirstRow []).foldl
        (lookupStep bs layers layerStartIdx targetMatrix currentCubeMask) run)
    else
      (List.range' layerStartIdx (layers.length - layerStartIdx)).foldlM
        (fun (cur : AssemblerRun) i =>
          let cand := layerAt layers i
          if zCounts.getD 2 0 &&& cand.bitMatrix ≠ 0 then some cur
          else if maskCollision cand.numMask currentCubeMask then some cur
          else
            let cur1 := { cur with localChecked := cur.localChecked + 1 }
            let carry0 := zCounts.getD 0 0 &&& cand.bitMatrix
            let next0 := zCounts.getD 0 0 ^^^ cand.bitMatrix
            let carry1 := zCounts.getD 1 0 &&& carry0
            let next1 := zCounts.getD 1 0 ^^^ carry0
            let next2 := zCounts.getD 2 0 ||| carry1
            let nextMask := (List.range 4).map fun m =>
              currentCubeMask.getD m 0 ||| cand.numMask.getD m 0
            let cur2 := { cur1 with
              currentCubeRows := cur1.currentCubeRows.set currentZ cand.rows }
            searchWithLookup bs layers lookup fuel (i + 1) (currentZ + 1)
              [next0, next1, next2] nextMask cur2)
        run
termination_by structural fuel

/-- The lookup table built by `assembleParallel`: 256 buckets, bucket `v`
receiving the indices `i` with `layers[i].rows[0] == v` in increasing order. -/
def buildLookup (layers : List Layer) : List (List Nat) :=
  (List.range layers.length).foldl
    (fun lookup i =>
      let v := (layerAt layers i).rows.getD 0 0
      lookup.set v (lookup.getD v [] ++ [i]))
    (List.replicate 256 [])

/-- Body of the root loop of one worker of `assembleParallel`; the state is
the worker's run and the shared counter `completedRoots`. -/
def assembleRoot (bs : BalancedSet) (layers : List Layer) (lookup : List (List Nat))
    (st : AssemblerRun × Nat) (i : Nat) : Option (AssemblerRun × Nat) :=
  let L1 := layerAt layers i
  let run0 := { st.1 with currentCubeRows := st.1.currentCubeRows.set 0 L1.rows }
  match searchWithLookup bs layers lookup 3 (i + 1) 1 [L1.bitMatrix, 0, 0]
      ((List.range 4).map fun m => L1.numMask.getD m 0) run0 with
  | none => none
  | some run1 =>
    let completedRoots := st.2 + 1
    if completedRoots % 10 = 0 then
      some ({ run1 with
        assembler := { run1.assembler with
          checkedPaths := run1.assembler.checkedPaths + run1.localChecked }
        localChecked := 0 }, completedRoots)
    else some (run1, completedRoots)

/-- One worker thread of `assembleParallel`: its chunk of roots, then the
final flush of `localChecked`.  `localRows` is not initialised; every row read
at `currentZ == 3` has been written on the way down. -/
def assembleWorker (bs : BalancedSet) (layers : List Layer) (lookup : List (List Nat))
    (chunk : Nat) (st : CubeAssembler × Nat) (t : Nat) : Option (CubeAssembler × Nat) :=
  let run0 : AssemblerRun :=
    { assembler := st.1, currentCubeRows := List.replicate 4 (List.replicate 8 0),
      localChecked := 0 }
  match (threadRange chunk layers.length t).foldlM (assembleRoot bs layers lookup)
      (run0, st.2) with
  | none => none
  | some (run1, completedRoots) =>
    some ({ run1.assembler with
      checkedPaths := run1.assembler.checkedPaths + run1.localChecked }, completedRoots)

/-- `CubeAssembler::assembleParallel`, with the worker threads run one after
the other in index order (one of the schedules the threads can take; with one
thread, the only one).  `none` when the chunk-size division has no result.
Progress printing and timing are omitted. -/
def assembleParallel (bs : BalancedSet) (layers : List Layer) (nThreads : Nat)
    (a : CubeAssembler) : Option CubeAssembler :=
  if layers.length = 0 then some a
  else
    let lookup := buildLookup layers
    match chunkSize layers.length nThreads with
    | none => none
    | some chunk =>
      ((List.range nThreads).foldlM (assembleWorker bs layers lookup chunk) (a, 0)).map
        (·.1)

/-! ## `CubeSearcherV2.h` / `CubeSearcherV2.cpp` -/

/-- Data members of class `CubeSearcherV2` that the search touches, together
with the calls made to `saveResult` (the stacked shift sets and the result id,
in call order). -/
structure CubeSearcherV2 where
  foundCubeCount : Nat
  totalPathsChecked : Nat
  shouldStop : Bool
  totalPermutations : Nat
  firstCubeFound : Bool
  firstCubeData : List ShiftSet
  saved : List (List ShiftSet × Nat)
deriving DecidableEq, Repr

/-- `ShiftSet::ShiftSet()`: base 0 and eight zero values. -/
def ShiftSet.zero : ShiftSet :=
  { values := List.replicate 8 0, base := 0 }

/-- `CubeSearcherV2::CubeSearcherV2` with the default member initialisers. -/
def CubeSearcherV2.new : CubeSearcherV2 :=
  { foundCubeCount := 0, totalPathsChecked := 0, shouldStop := false, totalPermutations := 0,
    firstCubeFound := false, firstCubeData := List.replicate 8 ShiftSet.zero, saved := [] }

/-- `CubeSearcherV2::getTotalPathsChecked`. -/
def CubeSearcherV2.getTotalPathsChecked (s : CubeSearcherV2) : Nat :=
  s.totalPathsChecked

/-- `CubeSearcherV2::getCubeCount`. -/
def CubeSearcherV2.getCubeCount (s : CubeSearcherV2) : Nat :=
  s.foundCubeCount

/-- `CubeSearcherV2::getFirstCube`: `nullptr` is `none`. -/
def CubeSearcherV2.getFirstCube (s : CubeSearcherV2) : Option (List ShiftSet) :=
  if s.firstCubeFound then some s.firstCubeData else none

/-- State of one worker while it runs `searchRecursive`: the shared searcher
and the three objects passed by reference, `usedNumbers`, `currentCube` and
`localChecked`. -/
structure SearchRun where
  searcher : CubeSearcherV2
  usedNumbers : List Nat
  currentCube : List ShiftSet
  localChecked : Nat
deriving DecidableEq, Repr

/-- `CubeSearcherV2::validateZAxis`: returns `false` at the first
`(row, bit_pos)` whose count over the 8 stacked sets is not 4. -/
def validateZAxis (cube : List ShiftSet) : Bool :=
  (List.range 8).all fun row =>
    (List.range 8).all fun bit_pos =>
      (List.range 8).foldl
        (fun bit_count layer =>
          let val := (cube.getD layer ShiftSet.zero).values.getD row 0
          bit_count + ((val >>> bit_pos) &&& 1))
        0 == 4

/-- The 32-bit shift `1U << count` as the x86-64 build computes it.  For
`count >= 32` the C++ shift of a 32-bit operand is out of range; the shift
instruction of the build takes the count modulo 32, so the result is the
single bit `count mod 32`. -/
def shiftOne32 (count : Nat) : Nat :=
  1 <<< (count % 32)

/-- The loop that fills `uint32_t usedBitset` at the start of the recursive
case of `searchRecursive`: `usedBitset |= (1U << num)` under the guard
`num < 64`. -/
def usedBitsetOf (usedNumbers : List Nat) : Nat :=
  usedNumbers.foldl
    (fun usedBitset num =>
      if num < 64 then usedBitset ||| shiftOne32 num else usedBitset)
    0

/-- The computation of the flag `alreadyUsed` for a candidate base:
`(usedBitset & (1U << base)) != 0` for a base below 64, `std::find` over
`usedNumbers` otherwise. -/
def alreadyUsed (usedBitset : Nat) (usedNumbers : List Nat) (base : Nat) : Bool :=
  if base < 64 then usedBitset &&& shiftOne32 base ≠ 0
  else usedNumbers.contains base

/-- The candidate loop `for (const ShiftSet& candidate : shiftSets)` of
`searchRecursive`, run over the remaining candidates; `recur` is the recursive
call `searchRecursive(fixedSet, setIdx + 1, ...)`.  The loop-head `return`
ends the loop. -/
def searchCandidates (recur : SearchRun → Option SearchRun) (setIdx usedBitset : Nat) :
    List ShiftSet → SearchRun → Option SearchRun
  | [], run => some run
  | candidate :: rest, run =>
    if run.searcher.firstCubeFound && run.searcher.shouldStop then some run
    else
      let run1 := { run with localChecked := run.localChecked + 1 }
      if alreadyUsed usedBitset run1.usedNumbers candidate.base then
        searchCandidates recur setIdx usedBitset rest run1
      else
        let run2 := { run1 with
          currentCube := run1.currentCube.set setIdx candidate
          usedNumbers := run1.usedNumbers ++ [candidate.base] }
        match recur run2 with
        | none => none
        | some run3 =>
          searchCandidates recur setIdx usedBitset rest
            { run3 with usedNumbers := run3.usedNumbers.dropLast }

/-- The terminal case `setIdx == 8` of `searchRecursive`. -/
def acceptCube (run : SearchRun) : SearchRun :=
  if !validateZAxis run.currentCube then run
  else
    let resultId := run.searcher.foundCubeCount + 1
    let s1 := { run.searcher with foundCubeCount := resultId }
    let s2 :=
      if resultId = 1 then
        { s1 with firstCubeFound := true, firstCubeData := run.currentCube }
      else s1
    { run with searcher := { s2 with saved := s2.saved ++ [(run.currentCube, resultId)] } }

/-- `CubeSearcherV2::searchRecursive`.  `fuel` bounds the recursion depth;
`none` means the bound was hit. -/
def searchRecursive (bs : BalancedSet) (fuel : Nat) (fixedSet : ShiftSet) (setIdx : Nat)
    (run : SearchRun) : Option SearchRun :=
  match fuel with
  | 0 => none
  | fuel + 1 =>
    if setIdx = 8 then some (acceptCube run)
    else
      searchCandidates (fun r => searchRecursive bs fuel fixedSet (setIdx + 1) r) setIdx
        (usedBitsetOf run.usedNumbers) bs.filteredShiftSets run
termination_by structural fuel

/-- `CubeSearcherV2::calculateTotalPermutations`. -/
def calculateTotalPermutations (bs : BalancedSet) : Nat :=
  let n := bs.filteredShiftSets.length
  if n = 0 then 0
  else (List.range (min 7 n)).foldl (fun total i => total * (n - i)) 1

/-- State threaded through the root loops of `search`: the searcher, the
local atomic `totalLocalChecked` and the worker's `localChecked`. -/
structure RootState where
  searcher : CubeSearcherV2
  totalLocalChecked : Nat
  localChecked : Nat
deriving DecidableEq, Repr

/-- The root loop `for (int i = start; i < end; ++i)` of one worker of
`search`, run over the remaining root indices; the loop-head `break` ends the
loop.  Eight nested calls (`setIdx = 1..8`) are the deepest `searchRecursive`
goes. -/
def searchRoots (bs : BalancedSet) : List Nat → RootState → Option RootState
  | [], st => some st
  | i :: rest, st =>
    if st.searcher.firstCubeFound && st.searcher.shouldStop then some st
    else
      let fixedSet := bs.filteredShiftSets.getD i ShiftSet.zero
      let run0 : SearchRun :=
        { searcher := st.searcher
          usedNumbers := [fixedSet.base]
          currentCube := (List.replicate 8 ShiftSet.zero).set 0 fixedSet
          localChecked := st.localChecked }
      match searchRecursive bs 8 fixedSet 1 run0 with
      | none => none
      | some run1 =>
        searchRoots bs rest
          { searcher := run1.searcher
            totalLocalChecked := st.totalLocalChecked + run1.localChecked
            localChecked := 0 }

/-- One worker thread of `search`: `localChecked` starts at 0. -/
def searchWorker (bs : BalancedSet) (chunk : Nat) (st : CubeSearcherV2 × Nat) (t : Nat) :
    Option (CubeSearcherV2 × Nat) :=
  (searchRoots bs (threadRange chunk bs.filteredShiftSets.length t)
    { searcher := st.1, totalLocalChecked := st.2, localChecked := 0 }).map
    fun r => (r.searcher, r.totalLocalChecked)

/-- `CubeSearcherV2::search`, with the worker threads run one after the other
in index order (one of the schedules the threads can take; with one thread,
the only one).  Returns the searcher and the final value of the local
`totalLocalChecked`; `none` when the chunk-size division has no result.
Printing, timing and the result file header are omitted. -/
def search (bs : BalancedSet) (nThreads : Nat) (findOnlyFirst : Bool) (s : CubeSearcherV2) :
    Option (CubeSearcherV2 × Nat) :=
  if bs.filteredShiftSets.length = 0 then some (s, 0)
  else
    let s1 := if findOnlyFirst then { s with shouldStop := true } else s
    let s2 := { s1 with totalPermutations := calculateTotalPermutations bs }
    match chunkSize bs.filteredShiftSets.length nThreads with
    | none => none
    | some chunk => (List.range nThreads).foldlM (searchWorker bs chunk) (s2, 0)

/-! ## Specification-side definitions for the shift-set searcher -/

/-- A stack accepted below depth `setIdx` of a run whose cube buffer is `cur`:
8 sets, the first `setIdx` of them those of `cur`, the others taken from
`pool`, and `validateZAxis` holds. -/
def AcceptedFrom (pool : List ShiftSet) (setIdx : Nat) (cur cube : List ShiftSet) : Prop :=
  cube.length = 8 ∧ cube.take setIdx = cur.take setIdx
    ∧ (∀ k, setIdx ≤ k → k < 8 → cube.getD k ShiftSet.zero ∈ pool)
    ∧ validateZAxis cube = true

/-- What one call of `searchRecursive` at depth `setIdx` (or any part of its
candidate loop) may change: `usedNumbers` is restored, the first `setIdx`
entries of the cube buffer are kept, the configuration fields and
`totalPathsChecked` are untouched, `localChecked` only grows, and `saved`
grows by stacks accepted below this depth, one per increment of
`foundCubeCount`. -/
structure SearchStep (pool : List ShiftSet) (setIdx : Nat) (run run' : SearchRun) : Prop where
  used : run'.usedNumbers = run.usedNumbers
  cubeLen : run'.currentCube.length = run.currentCube.length
  cubeTake : run'.currentCube.take setIdx = run.currentCube.take setIdx
  paths : run'.searcher.totalPathsChecked = run.searcher.totalPathsChecked
  stop : run'.searcher.shouldStop = run.searcher.shouldStop
  perms : run'.searcher.totalPermutations = run.searcher.totalPermutations
  checked : run.localChecked ≤ run'.localChecked
  saved : ∃ new : List (List ShiftSet × Nat),
    run'.searcher.saved = run.searcher.saved ++ new
      ∧ run'.searcher.foundCubeCount = run.searcher.foundCubeCount + new.length
      ∧ ∀ e ∈ new, AcceptedFrom pool setIdx run.currentCube e.1

/-- What the root loops of `search` may change in the searcher: the
configuration fields and `totalPathsChecked` are untouched, and `saved` grows
by stacks of 8 sets of the pool that pass `validateZAxis`, one per increment of
`foundCubeCount`. -/
structure SearcherStep (pool : List ShiftSet) (s s' : CubeSearcherV2) : Prop where
  paths : s'.totalPathsChecked = s.totalPathsChecked
  stop : s'.shouldStop = s.shouldStop
  perms : s'.totalPermutations = s.totalPermutations
  saved : ∃ new : List (List ShiftSet × Nat),
    s'.saved = s.saved ++ new
      ∧ s'.foundCubeCount = s.foundCubeCount + new.length
      ∧ ∀ e ∈ new, AcceptedFrom pool 0 [] e.1

/-- The searcher as `search` configures it before the workers start. -/
def configured (bs : BalancedSet) (findOnlyFirst : Bool) (s : CubeSearcherV2) :
    CubeSearcherV2 :=
  { (if findOnlyFirst then { s with shouldStop := true } else s) with
    totalPermutations := calculateTotalPermutations bs }

/-- No cube has been accepted yet. -/
def Fresh (s : CubeSearcherV2) : Prop :=
  s.firstCubeFound = false ∧ s.foundCubeCount = 0 ∧ s.saved = []

/-- Exactly one cube has been accepted, and it is the recorded first cube. -/
def Done (s : CubeSearcherV2) : Prop :=
  s.firstCubeFound = true ∧ s.foundCubeCount = 1 ∧ s.saved = [(s.firstCubeData, 1)]

/-- Specification-side closed form of the find-all search below a prefix:
the stacks that extend `pre` by `d` further sets of `pool`, in candidate
order, skipping a candidate exactly when the `alreadyUsed` flag computed from
`used` is set, and keeping a complete stack when `validateZAxis` holds. -/
def sequencesFrom (pool : List ShiftSet) : Nat → List Nat → List ShiftSet → List (List ShiftSet)
  | 0, _, pre => if validateZAxis pre then [pre] else []
  | d + 1, used, pre =>
    pool.flatMap fun c =>
      if alreadyUsed (usedBitsetOf used) used c.base then []
      else sequencesFrom pool d (used ++ [c.base]) (pre ++ [c])

/-- The bases of the records of `filteredShiftSets`, in stored order. -/
def filteredBases : List Nat :=
  [23, 27, 29, 39, 46, 54, 57, 58, 71, 78, 92, 99, 108, 113, 114, 116, 139, 141, 142, 147,
   156, 163, 177, 184, 197, 198, 201, 209, 216, 226, 228, 232]

/-- A stack of 8 shift sets with 8 different bases taken from two rotation
orbits: only 16 different row values occur among its 64 rows. -/
def twoOrbitStack : List ShiftSet :=
  [23, 232, 46, 209, 92, 163, 184, 71].map mkShiftSet

/-- The 8x8 byte cube denoted by a stack of 8 shift sets: layer `z` is the
`z`-th stacked set and its row `y` is `values[y]`, the indexing used by
`validateZAxis` and by the result writer. -/
def stackCube (stack : List ShiftSet) : Cube :=
  { data := stack.map (·.values), usedNumbers := stack.map (·.base) }

/-- Total number of set bits of the 64 row bytes of a cube. -/
def Cube.totalOnes (c : Cube) : Nat :=
  (c.rowValues.map popcount8).sum

/-! ## Specification-side definitions for the layer assembler -/

/-- The Layer invariants the assembler relies on, for the 8 rows of a layer:
8 balanced bytes with exactly 4 of them having bit `p` set, for every bit
position `p`. -/
def RowsInv (rows : List Nat) : Prop :=
  rows.length = 8 ∧ (∀ r ∈ rows, r ∈ balancedBytes)
    ∧ ∀ p < 8, (rows.filter (fun r => r.testBit p)).length = 4

/-- The complement layer written by `searchWithLookup`: row `y` is
`getComplement` of row `y` of the source layer. -/
def complementRows (bs : BalancedSet) (rows : List Nat) : List Nat :=
  (List.range 8).map fun y => bs.getComplement (rows.getD y 0)

/-- A cube as `searchWithLookup` materialises it from layers of the vector
`layers`: the candidate is one of them and the three buffered row blocks are
the rows of three of them. -/
def AsmAccepted (bs : BalancedSet) (layers : List Layer) (c : Cube) : Prop :=
  ∃ (rows : List (List Nat)) (cand : Layer),
    c = materialiseCube bs rows cand ∧ cand ∈ layers
      ∧ ∀ z < 3, ∃ L ∈ layers, rows.getD z [] = L.rows

/-- On entry to depth `currentZ` the row buffer has 4 blocks and the blocks
below `currentZ` hold the rows of layers of the vector. -/
def RowsFrom (layers : List Layer) (currentZ : Nat) (run : AssemblerRun) : Prop :=
  run.currentCubeRows.length = 4
    ∧ ∀ z < currentZ, ∃ L ∈ layers, run.currentCubeRows.getD z [] = L.rows

/-- What one call of `searchWithLookup` at depth `currentZ` (or any part of
its loop) may change: the row blocks below `currentZ` are kept, `checkedPaths`
is untouched, `localChecked` only grows, and `saved` grows by materialised
cubes, one per increment of `foundCount`. -/
structure AsmStep (bs : BalancedSet) (layers : List Layer) (currentZ : Nat)
    (run run' : AssemblerRun) : Prop where
  rowsLen : run'.currentCubeRows.length = run.currentCubeRows.length
  rowsKeep : ∀ z < currentZ, run'.currentCubeRows.getD z [] = run.currentCubeRows.getD z []
  paths : run'.assembler.checkedPaths = run.assembler.checkedPaths
  checked : run.localChecked ≤ run'.localChecked
  saved : ∃ new : List (Cube × Nat),
    run'.assembler.saved = run.assembler.saved ++ new
      ∧ run'.assembler.foundCount = run.assembler.foundCount + new.length
      ∧ ∀ e ∈ new, AsmAccepted bs layers e.1

/-- What a run of the assembler may change: `checkedPaths` only grows and
`saved` grows by materialised cubes, one per increment of `foundCount`. -/
structure AssemblerStep (bs : BalancedSet) (layers : List Layer) (a a' : CubeAssembler) :
    Prop where
  paths : a.checkedPaths ≤ a'.checkedPaths
  saved : ∃ new : List (Cube × Nat),
    a'.saved = a.saved ++ new
      ∧ a'.foundCount = a.foundCount + new.length
      ∧ ∀ e ∈ new, AsmAccepted bs layers e.1

/-- Four layers of the generator's output with pairwise disjoint row values:
rows 0..3 are the upper-set values at indices `4k .. 4k+3`, rows 4..7 their
complements. -/
def fourLayerPool : List Layer :=
  [buildLayer [240, 232, 228, 226, 15, 23, 27, 29],
   buildLayer [225, 216, 212, 210, 30, 39, 43, 45],
   buildLayer [209, 204, 202, 201, 46, 51, 53, 54],
   buildLayer [198, 197, 195, 184, 57, 58, 60, 71]]

/-! ## Specification-side definitions: encodings, reached calls and scans -/

/-- A cube whose layers 0..3 have all rows equal to 15 and whose layers 4..7
have all rows equal to 240: every row and every Z-line is balanced, no Y-line
is. -/
def stripedCube : Cube :=
  { data := List.replicate 4 (List.replicate 8 15) ++ List.replicate 4 (List.replicate 8 240),
    usedNumbers := [] }

/-- Number of candidate indices below `n` whose bit is clear in `usedMask`. -/
def freeCount (n usedMask : Nat) : Nat :=
  ((List.range n).filter (fun i => usedMask &&& (1 <<< i) = 0)).length

/-- The product `free * (free - 1) * ...` of `d` factors. -/
def fallingProduct : Nat → Nat → Nat
  | _, 0 => 1
  | free, d + 1 => free * fallingProduct (free - 1) d

/-- Number of set bits among bits 0..63 of a 64-bit word. -/
def popcount64 (v : Nat) : Nat :=
  ((List.range 64).filter (fun p => v.testBit p)).length

/-- The encoding invariants of a layer that the assembler relies on: 8 balanced
rows, a `bitMatrix` below `2^64` whose bits `[8i, 8i + 8)` are row `i`, and a
`numMask` whose word `m` has bit `k` set exactly when `64 m + k` is one of the
rows. -/
structure LayerEnc (L : Layer) : Prop where
  rowsLen : L.rows.length = 8
  rowsBal : ∀ r ∈ L.rows, r ∈ balancedBytes
  matrixLt : L.bitMatrix < 2 ^ 64
  matrix : ∀ i < 8, (L.bitMatrix >>> (8 * i)) &&& 255 = L.rows.getD i 0
  mask : ∀ m < 4, ∀ k, (L.numMask.getD m 0).testBit k = decide (k < 64 ∧ 64 * m + k ∈ L.rows)

/-- The calls `searchWithLookup(layers, lookup, layerStartIdx, currentZ,
zCounts, currentCubeMask, ...)` made during `assembleParallel`, each with the
layers placed on its path: the call a worker makes for root `i`, and the
recursive call made from a reached call for a candidate `layers[i]` that
passes both prunings.  The arguments are those the code computes. -/
inductive Reached (layers : List Layer) : Nat → Nat → List Nat → List Nat → List Layer → Prop
  | root (i : Nat) (hi : i < layers.length) :
      Reached layers (i + 1) 1 [(layerAt layers i).bitMatrix, 0, 0]
        ((List.range 4).map fun m => (layerAt layers i).numMask.getD m 0) [layerAt layers i]
  | place {layerStartIdx currentZ : Nat} {zCounts currentCubeMask : List Nat}
      {placed : List Layer} (i : Nat)
      (h : Reached layers layerStartIdx currentZ zCounts currentCubeMask placed)
      (hz : currentZ ≠ 3) (hs : layerStartIdx ≤ i) (hi : i < layers.length)
      (hprune : ¬ (zCounts.getD 2 0 &&& (layerAt layers i).bitMatrix ≠ 0))
      (hcoll : ¬ (maskCollision (layerAt layers i).numMask currentCubeMask = true)) :
      Reached layers (i + 1) (currentZ + 1)
        [zCounts.getD 0 0 ^^^ (layerAt layers i).bitMatrix,
         zCounts.getD 1 0 ^^^ (zCounts.getD 0 0 &&& (layerAt layers i).bitMatrix),
         zCounts.getD 2 0
           ||| (zCounts.getD 1 0 &&& (zCounts.getD 0 0 &&& (layerAt layers i).bitMatrix))]
        ((List.range 4).map fun m =>
          currentCubeMask.getD m 0 ||| (layerAt layers i).numMask.getD m 0)
        (placed ++ [layerAt layers i])

/-- The number that bit `p` of the three planes `zCounts[2]`, `zCounts[1]`,
`zCounts[0]` forms. -/
def cellCount (zCounts : List Nat) (p : Nat) : Nat :=
  4 * ((zCounts.getD 2 0).testBit p).toNat + 2 * ((zCounts.getD 1 0).testBit p).toNat
    + ((zCounts.getD 0 0).testBit p).toNat

/-- Two layers share a set bit in some word of their `numMask`. -/
def MasksMeet (A B : Layer) : Prop :=
  ∃ m < 4, ∃ k, (A.numMask.getD m 0).testBit k = true ∧ (B.numMask.getD m 0).testBit k = true

/-- Specification-side depth-3 scan that visits every layer index from
`layerStartIdx` on, in ascending order, with the bitMatrix-equality and
collision checks of the code. -/
def scanAllLayers (bs : BalancedSet) (layers : List Layer) (layerStartIdx targetMatrix : Nat)
    (currentCubeMask : List Nat) (run : AssemblerRun) : AssemblerRun :=
  (List.range' layerStartIdx (layers.length - layerStartIdx)).foldl
    (lookupStep bs layers layerStartIdx targetMatrix currentCubeMask) run

/-- The depth-3 scan of the code: only the bucket `lookup[targetMatrix & 0xFF]`
is visited. -/
def scanBucket (bs : BalancedSet) (layers : List Layer) (lookup : List (List Nat))
    (layerStartIdx targetMatrix : Nat) (currentCubeMask : List Nat) (run : AssemblerRun) :
    AssemblerRun :=
  (lookup.getD (targetMatrix % 256) []).foldl
    (lookupStep bs layers layerStartIdx targetMatrix currentCubeMask) run

/-- A candidate index passes the skip test and both depth-3 checks. -/
def passesDepth3 (layers : List Layer) (layerStartIdx targetMatrix : Nat)
    (currentCubeMask : List Nat) (idx : Nat) : Bool :=
  decide (layerStartIdx ≤ idx) && decide ((layerAt layers idx).bitMatrix = targetMatrix)
    && !maskCollision (layerAt layers idx).numMask currentCubeMask

/-! ## Specification-side definitions: record counts and mirrored layers -/

/-- The bases of the records of `shiftSets`, in stored order. -/
def shiftSetBases : List Nat :=
  [15, 23, 27, 29, 30, 39, 43, 45, 46, 53, 54, 57, 58, 60, 71, 75, 77, 78, 83, 86, 89, 90, 92,
   99, 101, 105, 106, 108, 113, 114, 116, 120, 135, 139, 141, 142, 147, 149, 150, 154, 156,
   163, 165, 166, 169, 172, 177, 178, 180, 184, 195, 197, 198, 201, 202, 209, 210, 212, 216,
   225, 226, 228, 232, 240]

/-- The value sets of two records are equal. -/
def sameValues (a b : ShiftSet) : Prop :=
  (∀ v ∈ a.values, v ∈ b.values) ∧ (∀ v ∈ b.values, v ∈ a.values)

instance (a b : ShiftSet) : Decidable (sameValues a b) := by
  unfold sameValues
  infer_instance

/-- A layer whose rows are `0, 0, 0, 0, 255, 255, 255, 255`: rows 4..7 are the
bitwise NOT of rows 0..3, and no row is balanced. -/
def unbalancedLayer : Layer :=
  buildLayer [0, 0, 0, 0, 255, 255, 255, 255]

/-- The cube `searchWithLookup` materialises from the four layers
`l0, l1, l2` (buffered in `currentCubeRows`) and `l3` (the candidate). -/
def materialiseLayers (bs : BalancedSet) (l0 l1 l2 l3 : Layer) : Cube :=
  materialiseCube bs [l0.rows, l1.rows, l2.rows] l3

/-- Rows 4..7 of the layer are the bitwise NOT of its rows 0..3. -/
def Layer.NotSymmetric (L : Layer) : Prop :=
  ∀ i < 4, L.rows.getD (i + 4) 0 = bitNot8 (L.rows.getD i 0)

instance (L : Layer) : Decidable L.NotSymmetric := by
  unfold Layer.NotSymmetric
  infer_instance

/-! ## Specification-side definitions: distinct bases of the saved stacks -/

/-- Every stack recorded by `saveResult` so far has 8 pairwise distinct base
bytes. -/
def AllDistinct (s : CubeSearcherV2) : Prop :=
  ∀ x ∈ s.saved.map Prod.fst, (x.map (·.base)).Nodup

/-- At depth `setIdx` the list `usedNumbers` holds the bases of the sets placed
so far, and they are pairwise distinct. -/
def UsedOK (setIdx : Nat) (run : SearchRun) : Prop :=
  run.usedNumbers = (run.currentCube.take setIdx).map (·.base) ∧ run.usedNumbers.Nodup

/-! ## Theorems: balanced-number domain -/

theorem clearLowestLoop_eq_fuel (fuel : Nat) :
    ∀ n count, n ≤ fuel → clearLowestLoop n count = clearLowestFuel fuel n count := by
  induction fuel with
  | zero =>
    intro n count h
    have hn : n = 0 := by omega
    subst hn
    rw [clearLowestLoop]
    simp [clearLowestFuel]
  | succ f ih =>
    intro n count h
    rw [clearLowestLoop]
    by_cases hpos : 0 < n
    · have hle : n &&& (n - 1) ≤ n - 1 := Nat.and_le_right
      simp only [clearLowestFuel, hpos, if_true]
      exact ih _ _ (by omega)
    · simp [clearLowestFuel, hpos]

set_option maxRecDepth 100000 in
theorem clearLowestFuel_byte :
    ∀ v < 256, clearLowestFuel 255 v 0 = popcount8 v := by
  decide

theorem countSetBits_eq_popcount8 {v : Nat} (h : v < 256) :
    countSetBits v = popcount8 v := by
  unfold countSetBits
  rw [clearLowestLoop_eq_fuel 255 v 0 (by omega)]
  exact clearLowestFuel_byte v h

theorem isBalanced_iff_popcount8 {v : Nat} (h : v < 256) :
    isBalanced v = true ↔ popcount8 v = 4 := by
  unfold isBalanced
  rw [clearLowestLoop_eq_fuel 255 v 0 (by omega), clearLowestFuel_byte v h]
  simp

theorem constructStep_fold_allBalanced (l : List Nat) :
    ∀ s : BalancedSet, (l.foldl constructStep s).allBalanced
      = s.allBalanced ++ (l.map (· % 256)).filter (fun v => countSetBits v = 4) := by
  induction l with
  | nil => intro s; simp
  | cons i l ih =>
    intro s
    rw [List.foldl_cons, ih]
    by_cases h : countSetBits (i % 256) = 4 <;> simp [constructStep, h]

theorem constructStep_fold_upSet (l : List Nat) :
    ∀ s : BalancedSet, (l.foldl constructStep s).upSet
      = s.upSet ++ (l.map (· % 256)).filter (fun v => countSetBits v = 4 ∧ v ≥ 128) := by
  induction l with
  | nil => intro s; simp
  | cons i l ih =>
    intro s
    rw [List.foldl_cons, ih]
    by_cases h : countSetBits (i % 256) = 4 <;> by_cases h2 : 128 ≤ i % 256 <;>
      simp [constructStep, h, h2]

theorem constructStep_fold_shiftSets (l : List Nat) :
    ∀ s : BalancedSet, (l.foldl constructStep s).shiftSets = s.shiftSets
      ∧ (l.foldl constructStep s).filteredShiftSets = s.filteredShiftSets := by
  induction l with
  | nil => intro s; simp
  | cons i l ih =>
    intro s
    rw [List.foldl_cons, (ih _).1, (ih _).2]
    by_cases h : countSetBits (i % 256) = 4 <;> simp [constructStep, h]

theorem constructStep_fold_complementMap (l : List Nat) :
    ∀ (s : BalancedSet) (v : Nat), (l.foldl constructStep s).complementMap v
      = if v ∈ (l.map (· % 256)).filter (fun v => countSetBits v = 4) then bitNot8 v
        else s.complementMap v := by
  induction l with
  | nil => intro s v; simp
  | cons i l ih =>
    intro s v
    rw [List.foldl_cons, ih]
    by_cases h : countSetBits (i % 256) = 4
    · by_cases hv : v = i % 256
      · subst hv
        simp [constructStep, h]
      · simp [constructStep, h, hv, Function.update_noteq hv]
    · simp [constructStep, h]

theorem shiftSetStep_fold_keeps (l : List Nat) :
    ∀ s : BalancedSet, (l.foldl shiftSetStep s).allBalanced = s.allBalanced
      ∧ (l.foldl shiftSetStep s).upSet = s.upSet
      ∧ (l.foldl shiftSetStep s).complementMap = s.complementMap := by
  induction l with
  | nil => intro s; simp
  | cons b l ih =>
    intro s
    rw [List.foldl_cons, (ih _).1, (ih _).2.1, (ih _).2.2]
    by_cases h : isValidShiftSet b <;> by_cases h2 : passesFilterRule (rotationFill 8 b) <;>
      simp [shiftSetStep, h, h2]

theorem shiftSetStep_fold_shiftSets (l : List Nat) :
    ∀ s : BalancedSet, (l.foldl shiftSetStep s).shiftSets
      = s.shiftSets ++ (l.filter isValidShiftSet).map mkShiftSet := by
  induction l with
  | nil => intro s; simp
  | cons b l ih =>
    intro s
    rw [List.foldl_cons, ih]
    by_cases h : isValidShiftSet b <;> by_cases h2 : passesFilterRule (rotationFill 8 b) <;>
      simp [shiftSetStep, h, h2, mkShiftSet]

theorem shiftSetStep_fold_filtered (l : List Nat) :
    ∀ s : BalancedSet, (l.foldl shiftSetStep s).filteredShiftSets
      = s.filteredShiftSets
        ++ ((l.filter isValidShiftSet).map mkShiftSet).filter
            (fun ss => passesFilterRule ss.values) := by
  induction l with
  | nil => intro s; simp
  | cons b l ih =>
    intro s
    rw [List.foldl_cons, ih]
    by_cases h : isValidShiftSet b <;> by_cases h2 : passesFilterRule (rotationFill 8 b) <;>
      simp [shiftSetStep, h, h2, mkShiftSet]

theorem range_map_mod : (List.range 256).map (· % 256) = List.range 256 := by
  have h : ∀ a ∈ List.range 256, (· % 256) a = id a := by
    intro a ha
    exact Nat.mod_eq_of_lt (List.mem_range.mp ha)
  rw [List.map_congr_left h, List.map_id]

theorem range_mod_filter_countSetBits (p : Nat → Bool) :
    ((List.range 256).map (· % 256)).filter (fun v => decide (countSetBits v = 4) && p v)
      = (List.range 256).filter (fun v => decide (popcount8 v = 4) && p v) := by
  rw [range_map_mod]
  apply List.filter_congr
  intro v hv
  rw [countSetBits_eq_popcount8 (List.mem_range.mp hv)]

theorem generateShiftSets_keeps (s : BalancedSet) :
    (generateShiftSets s).allBalanced = s.allBalanced
      ∧ (generateShiftSets s).upSet = s.upSet
      ∧ (generateShiftSets s).complementMap = s.complementMap :=
  shiftSetStep_fold_keeps _ _

theorem generateShiftSets_shiftSets (s : BalancedSet) :
    (generateShiftSets s).shiftSets
      = s.shiftSets ++ (s.allBalanced.filter isValidShiftSet).map mkShiftSet :=
  shiftSetStep_fold_shiftSets _ _

theorem generateShiftSets_filtered (s : BalancedSet) :
    (generateShiftSets s).filteredShiftSets
      = s.filteredShiftSets
        ++ ((s.allBalanced.filter isValidShiftSet).map mkShiftSet).filter
            (fun ss => passesFilterRule ss.values) :=
  shiftSetStep_fold_filtered _ _

theorem constructLoop_allBalanced (mem : Nat → Nat) :
    (constructLoop mem).allBalanced = balancedBytes := by
  rw [constructLoop, constructStep_fold_allBalanced]
  have h := range_mod_filter_countSetBits (fun _ => true)
  simp only [Bool.and_true] at h
  rw [h, List.nil_append, balancedBytes]

theorem constructLoop_upSet (mem : Nat → Nat) :
    (constructLoop mem).upSet
      = (List.range 256).filter (fun v => popcount8 v = 4 ∧ v ≥ 128) := by
  rw [constructLoop, constructStep_fold_upSet]
  have h := range_mod_filter_countSetBits (fun v => decide (v ≥ 128))
  simp only [Bool.decide_and]
  rw [h, List.nil_append]

theorem constructLoop_shiftSets (mem : Nat → Nat) :
    (constructLoop mem).shiftSets = [] ∧ (constructLoop mem).filteredShiftSets = [] := by
  rw [constructLoop]
  exact constructStep_fold_shiftSets _ _

theorem constructLoop_complementMap (mem : Nat → Nat) (v : Nat) :
    (constructLoop mem).complementMap v
      = if v ∈ balancedBytes then bitNot8 v else mem v := by
  rw [constructLoop, constructStep_fold_complementMap]
  have h := range_mod_filter_countSetBits (fun _ => true)
  simp only [Bool.and_true] at h
  rw [h, balancedBytes]

/-- What the sort and `generateShiftSets` make of the state `s1` left by the
first constructor loop. -/
theorem construct_tail (s1 : BalancedSet) :
    let s := generateShiftSets { s1 with upSet := sortDescending s1.upSet }
    s.allBalanced = s1.allBalanced ∧ s.upSet = sortDescending s1.upSet
      ∧ s.complementMap = s1.complementMap
      ∧ s.shiftSets = s1.shiftSets ++ (s1.allBalanced.filter isValidShiftSet).map mkShiftSet
      ∧ s.filteredShiftSets = s1.filteredShiftSets
          ++ ((s1.allBalanced.filter isValidShiftSet).map mkShiftSet).filter
              (fun ss => passesFilterRule ss.values) := by
  intro s
  refine ⟨(generateShiftSets_keeps _).1, (generateShiftSets_keeps _).2.1,
    (generateShiftSets_keeps _).2.2, generateShiftSets_shiftSets _,
    generateShiftSets_filtered _⟩

theorem construct_allBalanced (mem : Nat → Nat) :
    (BalancedSet.construct mem).allBalanced = balancedBytes := by
  rw [BalancedSet.construct]
  exact (construct_tail (constructLoop mem)).1.trans (constructLoop_allBalanced mem)

theorem construct_upSet (mem : Nat → Nat) :
    (BalancedSet.construct mem).upSet
      = sortDescending ((List.range 256).filter (fun v => popcount8 v = 4 ∧ v ≥ 128)) := by
  rw [BalancedSet.construct]
  exact (construct_tail (constructLoop mem)).2.1.trans
    (congrArg sortDescending (constructLoop_upSet mem))

theorem construct_complementMap (mem : Nat → Nat) (v : Nat) :
    (BalancedSet.construct mem).complementMap v
      = if v ∈ balancedBytes then bitNot8 v else mem v := by
  rw [BalancedSet.construct]
  exact (congrFun (construct_tail (constructLoop mem)).2.2.1 v).trans
    (constructLoop_complementMap mem v)

theorem construct_shiftSets (mem : Nat → Nat) :
    (BalancedSet.construct mem).shiftSets
      = (balancedBytes.filter isValidShiftSet).map mkShiftSet := by
  rw [BalancedSet.construct]
  refine (construct_tail (constructLoop mem)).2.2.2.1.trans ?_
  rw [(constructLoop_shiftSets mem).1, constructLoop_allBalanced, List.nil_append]

theorem construct_filteredShiftSets (mem : Nat → Nat) :
    (BalancedSet.construct mem).filteredShiftSets
      = ((balancedBytes.filter isValidShiftSet).map mkShiftSet).filter
          (fun ss => passesFilterRule ss.values) := by
  rw [BalancedSet.construct]
  refine (construct_tail (constructLoop mem)).2.2.2.2.trans ?_
  rw [(constructLoop_shiftSets mem).2, constructLoop_allBalanced, List.nil_append]

set_option maxRecDepth 100000 in
theorem balancedBytes_eq : balancedBytes =
    [15, 23, 27, 29, 30, 39, 43, 45, 46, 51, 53, 54, 57, 58, 60, 71, 75, 77, 78, 83, 85, 86,
     89, 90, 92, 99, 101, 102, 105, 106, 108, 113, 114, 116, 120, 135, 139, 141, 142, 147,
     149, 150, 153, 154, 156, 163, 165, 166, 169, 170, 172, 177, 178, 180, 184, 195, 197,
     198, 201, 202, 204, 209, 210, 212, 216, 225, 226, 228, 232, 240] := by
  decide

theorem mem_balancedBytes {v : Nat} : v ∈ balancedBytes ↔ v < 256 ∧ popcount8 v = 4 := by
  simp [balancedBytes]

set_option maxRecDepth 100000 in
theorem balancedBytes_pairwise : balancedBytes.Pairwise (· < ·) := by
  rw [balancedBytes_eq]
  decide

set_option maxRecDepth 100000 in
theorem bitNot8_testBit : ∀ v < 256, bitNot8 v < 256 ∧ bitNot8 (bitNot8 v) = v
    ∧ popcount8 (bitNot8 v) = 8 - popcount8 v
    ∧ ∀ i < 8, (bitNot8 v).testBit i = !v.testBit i := by
  decide

/-- C1. After construction `allBalanced` is exactly the list of the bytes
`0..255` with population count 4, each once and in ascending order, 70 in all;
and for every byte `v`, `isBalanced v` holds iff `popcount v = 4` iff `v` occurs
in `allBalanced`. -/
theorem allBalanced_exact (mem : Nat → Nat) :
    (BalancedSet.construct mem).allBalanced
        = (List.range 256).filter (fun v => popcount8 v = 4)
      ∧ (∀ v, v ∈ (BalancedSet.construct mem).allBalanced ↔ v < 256 ∧ popcount8 v = 4)
      ∧ (BalancedSet.construct mem).allBalanced.Pairwise (· < ·)
      ∧ (BalancedSet.construct mem).allBalanced.Nodup
      ∧ (BalancedSet.construct mem).allBalanced.length = 70
      ∧ ∀ v, v < 256 →
          ((isBalanced v = true ↔ popcount8 v = 4)
            ∧ (popcount8 v = 4 ↔ v ∈ (BalancedSet.construct mem).allBalanced)) := by
  rw [construct_allBalanced]
  refine ⟨rfl, fun v => mem_balancedBytes, balancedBytes_pairwise, ?_, ?_, ?_⟩
  · exact balancedBytes_pairwise.imp (fun h => Nat.ne_of_lt h)
  · rw [balancedBytes_eq]; rfl
  · intro v hv
    exact ⟨isBalanced_iff_popcount8 hv, by rw [mem_balancedBytes]; tauto⟩

theorem getComplement_balanced (mem : Nat → Nat) {v : Nat} (h : v ∈ balancedBytes) :
    (BalancedSet.construct mem).getComplement v = bitNot8 v := by
  rw [BalancedSet.getComplement, construct_complementMap, if_pos h]

theorem getComplement_unbalanced (mem : Nat → Nat) {v : Nat} (h : v ∉ balancedBytes) :
    (BalancedSet.construct mem).getComplement v = mem v := by
  rw [BalancedSet.getComplement, construct_complementMap, if_neg h]

theorem bitNot8_mem_balancedBytes {v : Nat} (h : v ∈ balancedBytes) :
    bitNot8 v ∈ balancedBytes := by
  rw [mem_balancedBytes] at h ⊢
  obtain ⟨h1, h2, h3, _⟩ := bitNot8_testBit v h.1
  exact ⟨h1, by omega⟩

theorem isBalanced_iff_mem {v : Nat} (hv : v < 256) :
    isBalanced v = true ↔ v ∈ balancedBytes := by
  rw [isBalanced_iff_popcount8 hv, mem_balancedBytes]
  tauto

/-- C2. For every balanced byte `v`, `getComplement v` is the bitwise NOT of
`v` (a byte whose bits 0..7 are those of `v` inverted), is itself balanced, and
complementing twice gives `v` back; `getComplement` maps the 70 balanced bytes
bijectively onto themselves.  In particular 15 is balanced and its complement
is 240, which is balanced. -/
theorem getComplement_involution (mem : Nat → Nat) :
    (∀ v, v < 256 → isBalanced v = true →
        ((BalancedSet.construct mem).getComplement v < 256
          ∧ (∀ i < 8, ((BalancedSet.construct mem).getComplement v).testBit i = !v.testBit i)
          ∧ isBalanced ((BalancedSet.construct mem).getComplement v) = true
          ∧ (BalancedSet.construct mem).getComplement
              ((BalancedSet.construct mem).getComplement v) = v))
      ∧ Set.BijOn (BalancedSet.construct mem).getComplement
          {v | v ∈ (BalancedSet.construct mem).allBalanced}
          {v | v ∈ (BalancedSet.construct mem).allBalanced}
      ∧ (BalancedSet.construct mem).allBalanced.length = 70
      ∧ isBalanced 15 = true
      ∧ (BalancedSet.construct mem).getComplement 15 = 240
      ∧ isBalanced 240 = true := by
  have key : ∀ v, v ∈ balancedBytes →
      (BalancedSet.construct mem).getComplement v ∈ balancedBytes
        ∧ (BalancedSet.construct mem).getComplement
            ((BalancedSet.construct mem).getComplement v) = v := by
    intro v hv
    have hb := bitNot8_mem_balancedBytes hv
    rw [getComplement_balanced mem hv]
    refine ⟨hb, ?_⟩
    rw [getComplement_balanced mem hb]
    exact (bitNot8_testBit v (mem_balancedBytes.mp hv).1).2.1
  have h15 : (15 : Nat) ∈ balancedBytes := by rw [balancedBytes_eq]; decide
  have h240 : (240 : Nat) ∈ balancedBytes := by rw [balancedBytes_eq]; decide
  refine ⟨?_, ?_, ?_, ?_, ?_, ?_⟩
  · intro v hv hbal
    have hm := (isBalanced_iff_mem hv).mp hbal
    obtain ⟨k1, k2⟩ := key v hm
    have hlt := (mem_balancedBytes.mp k1).1
    refine ⟨hlt, ?_, (isBalanced_iff_mem hlt).mpr k1, k2⟩
    rw [getComplement_balanced mem hm]
    exact (bitNot8_testBit v hv).2.2.2
  · rw [construct_allBalanced]
    refine ⟨fun v hv => (key v hv).1, ?_, ?_⟩
    · intro a ha b hb hab
      have := congrArg (BalancedSet.construct mem).getComplement hab
      rw [(key a ha).2, (key b hb).2] at this
      exact this
    · intro b hb
      exact ⟨_, (key b hb).1, (key b hb).2⟩
  · rw [construct_allBalanced, balancedBytes_eq]; rfl
  · exact (isBalanced_iff_mem (by omega)).mpr h15
  · rw [getComplement_balanced mem h15]; rfl
  · exact (isBalanced_iff_mem (by omega)).mpr h240

/-- C3 fails as stated: with the array storage initially all zero, the
constructor leaves `complementMap[0]` untouched (0 is not balanced), so
`getComplement 0` is 0 while the bitwise NOT of 0 is 255. -/
theorem getComplement_not_total :
    (BalancedSet.construct (fun _ => 0)).getComplement 0 = 0 ∧ bitNot8 0 = 255
      ∧ ¬ (∀ (mem : Nat → Nat) (v : Nat), v < 256 →
            (BalancedSet.construct mem).getComplement v = bitNot8 v) := by
  have h0 : (0 : Nat) ∉ balancedBytes := by rw [balancedBytes_eq]; decide
  have e0 : (BalancedSet.construct (fun _ => 0)).getComplement 0 = 0 :=
    getComplement_unbalanced _ h0
  refine ⟨e0, by decide, ?_⟩
  intro h
  have := h (fun _ => 0) 0 (by omega)
  rw [e0] at this
  exact absurd this (by decide)

/-- C3, amended.  For every balanced byte `v`, `getComplement v` is the bitwise
NOT of `v`, and `getComplement` is injective on the balanced bytes; for a byte
that is not balanced the constructor never writes the entry, and
`getComplement v` is whatever the array storage held before construction. -/
theorem getComplement_written_iff_balanced (mem : Nat → Nat) (v : Nat) (hv : v < 256) :
    (isBalanced v = true →
        (BalancedSet.construct mem).getComplement v = bitNot8 v
          ∧ bitNot8 v < 256 ∧ ∀ i < 8, (bitNot8 v).testBit i = !v.testBit i)
      ∧ (isBalanced v = false → (BalancedSet.construct mem).getComplement v = mem v)
      ∧ (∀ w, w < 256 → isBalanced v = true → isBalanced w = true →
          (BalancedSet.construct mem).getComplement v
            = (BalancedSet.construct mem).getComplement w → v = w) := by
  refine ⟨?_, ?_, ?_⟩
  · intro hb
    have hm := (isBalanced_iff_mem hv).mp hb
    exact ⟨getComplement_balanced mem hm, (bitNot8_testBit v hv).1,
      (bitNot8_testBit v hv).2.2.2⟩
  · intro hb
    apply getComplement_unbalanced
    intro hm
    rw [(isBalanced_iff_mem hv).mpr hm] at hb
    exact absurd hb (by decide)
  · intro w hw hb hbw h
    rw [getComplement_balanced mem ((isBalanced_iff_mem hv).mp hb),
      getComplement_balanced mem ((isBalanced_iff_mem hw).mp hbw)] at h
    have := congrArg bitNot8 h
    rwa [(bitNot8_testBit v hv).2.1, (bitNot8_testBit w hw).2.1] at this

/-- Witness for C3 (amended) at the balanced byte 15 and at the unbalanced
byte 0, over zeroed storage. -/
theorem getComplement_written_iff_balanced_witness :
    (BalancedSet.construct (fun _ => 0)).getComplement 15 = 240
      ∧ (BalancedSet.construct (fun _ => 0)).getComplement 0 = 0 := by
  have h15 : isBalanced 15 = true :=
    (isBalanced_iff_mem (by omega)).mpr (by rw [balancedBytes_eq]; decide)
  have h0 : isBalanced 0 = false := by
    rw [← Bool.not_eq_true, isBalanced_iff_mem (by omega), balancedBytes_eq]; decide
  exact ⟨((getComplement_written_iff_balanced (fun _ => 0) 15 (by omega)).1 h15).1,
    (getComplement_written_iff_balanced (fun _ => 0) 0 (by omega)).2.1 h0⟩

theorem insertDescending_perm (x : Nat) (l : List Nat) :
    (insertDescending x l).Perm (x :: l) := by
  induction l with
  | nil => exact List.Perm.refl _
  | cons y ys ih =>
    unfold insertDescending
    split
    · exact List.Perm.refl _
    · exact (ih.cons y).trans (List.Perm.swap x y ys)

theorem sortDescending_perm (l : List Nat) : (sortDescending l).Perm l := by
  induction l with
  | nil => exact List.Perm.refl _
  | cons x xs ih =>
    exact (insertDescending_perm x _).trans (ih.cons x)

set_option maxRecDepth 100000 in
theorem upSet_eq (mem : Nat → Nat) : (BalancedSet.construct mem).upSet =
    [240, 232, 228, 226, 225, 216, 212, 210, 209, 204, 202, 201, 198, 197, 195, 184, 180,
     178, 177, 172, 170, 169, 166, 165, 163, 156, 154, 153, 150, 149, 147, 142, 141, 139,
     135] := by
  rw [construct_upSet]
  decide

/-- C4. After construction `upSet` holds exactly the balanced bytes with value
at least 128, each once, in strictly descending order: 35 values, the first
240 and the last 135. -/
theorem upSet_exact (mem : Nat → Nat) :
    (∀ v, v ∈ (BalancedSet.construct mem).upSet ↔ v < 256 ∧ popcount8 v = 4 ∧ v ≥ 128)
      ∧ (BalancedSet.construct mem).upSet.Pairwise (· > ·)
      ∧ (BalancedSet.construct mem).upSet.Nodup
      ∧ (BalancedSet.construct mem).upSet.length = 35
      ∧ (BalancedSet.construct mem).upSet.head? = some 240
      ∧ (BalancedSet.construct mem).upSet.getLast? = some 135 := by
  have hp : (BalancedSet.construct mem).upSet.Pairwise (· > ·) := by
    rw [upSet_eq]; decide
  refine ⟨?_, hp, hp.imp (fun h => Nat.ne_of_gt h), ?_, ?_, ?_⟩
  · intro v
    rw [construct_upSet, (sortDescending_perm _).mem_iff]
    simp
  · rw [upSet_eq]; rfl
  · rw [upSet_eq]; rfl
  · rw [upSet_eq]; rfl

theorem mem_shiftSets (mem : Nat → Nat) {ss : ShiftSet} :
    ss ∈ (BalancedSet.construct mem).shiftSets
      ↔ ∃ b, b ∈ balancedBytes ∧ isValidShiftSet b = true ∧ ss = mkShiftSet b := by
  rw [construct_shiftSets]
  simp only [List.mem_map, List.mem_filter]
  constructor
  · rintro ⟨b, ⟨h1, h2⟩, rfl⟩; exact ⟨b, h1, h2, rfl⟩
  · rintro ⟨b, h1, h2, rfl⟩; exact ⟨b, ⟨h1, h2⟩, rfl⟩

set_option maxRecDepth 100000 in
theorem rotation_orbit_facts : ∀ b ∈ balancedBytes, isValidShiftSet b = true →
    (rotationFill 8 b).length = 8
      ∧ (rotationFill 8 b)[0]? = some b
      ∧ (∀ i < 7, (rotationFill 8 b).getD (i + 1) 0 = rotateLeft ((rotationFill 8 b).getD i 0))
      ∧ (rotationFill 8 b).Nodup
      ∧ (∀ v ∈ rotationFill 8 b, v < 256 ∧ popcount8 v = 4)
      ∧ (∀ v ∈ rotationFill 8 b, rotateLeft v ∈ rotationFill 8 b)
      ∧ rotateLeft ((rotationFill 8 b).getD 7 0) = b := by
  rw [balancedBytes_eq]
  decide

/-- C5. Every record of `shiftSets` stores 8 values with `values[0] = base` and
`values[i+1] = rotateLeft(values[i])` for `i = 0..6`; the 8 values are pairwise
distinct, each is a balanced byte, and `rotateLeft` of any stored value is
again a stored value, with `rotateLeft(values[7]) = base`. -/
theorem shiftSets_orbit_invariant (mem : Nat → Nat) (ss : ShiftSet)
    (h : ss ∈ (BalancedSet.construct mem).shiftSets) :
    ss.values.length = 8
      ∧ ss.values[0]? = some ss.base
      ∧ (∀ i < 7, ss.values.getD (i + 1) 0 = rotateLeft (ss.values.getD i 0))
      ∧ ss.values.Nodup
      ∧ (∀ v ∈ ss.values, isBalanced v = true)
      ∧ (∀ v ∈ ss.values, rotateLeft v ∈ ss.values)
      ∧ rotateLeft (ss.values.getD 7 0) = ss.base := by
  obtain ⟨b, hb, hvalid, rfl⟩ := (mem_shiftSets mem).mp h
  obtain ⟨h1, h2, h3, h4, h5, h6, h7⟩ := rotation_orbit_facts b hb hvalid
  refine ⟨h1, h2, h3, h4, ?_, h6, h7⟩
  intro v hv
  exact (isBalanced_iff_popcount8 (h5 v hv).1).mpr (h5 v hv).2

/-- Witness for C5: the record with base 15 is in `shiftSets` (over zeroed
storage) and stores the orbit `15, 30, 60, 120, 240, 225, 195, 135`. -/
theorem shiftSets_orbit_invariant_witness :
    mkShiftSet 15 ∈ (BalancedSet.construct (fun _ => 0)).shiftSets
      ∧ (mkShiftSet 15).values = [15, 30, 60, 120, 240, 225, 195, 135]
      ∧ (mkShiftSet 15).values.Nodup
      ∧ rotateLeft 135 = 15 := by
  have hmem : mkShiftSet 15 ∈ (BalancedSet.construct (fun _ => 0)).shiftSets :=
    (mem_shiftSets _).mpr ⟨15, by rw [balancedBytes_eq]; decide, by decide, rfl⟩
  have h := shiftSets_orbit_invariant (fun _ => 0) (mkShiftSet 15) hmem
  exact ⟨hmem, by decide, h.2.2.2.1, by decide⟩

set_option maxRecDepth 100000 in
theorem isValidShiftSet_facts : ∀ b ∈ balancedBytes,
    rotationFill 8 b = rotations8 b
      ∧ (isValidShiftSet b = true ↔ (rotations8 b).Nodup)
      ∧ (isValidShiftSet b = true →
          ∀ v ∈ rotationFill 8 b, v ∈ balancedBytes ∧ isValidShiftSet v = true) := by
  rw [balancedBytes_eq]
  decide

theorem shiftSets_bases (mem : Nat → Nat) :
    (BalancedSet.construct mem).shiftSets.map (·.base)
      = balancedBytes.filter (fun b => (rotations8 b).Nodup) := by
  rw [construct_shiftSets, List.map_map]
  have hid : ((fun ss : ShiftSet => ss.base) ∘ mkShiftSet) = id := rfl
  rw [hid, List.map_id]
  apply List.filter_congr
  intro b hb
  have := (isValidShiftSet_facts b hb).2.1
  by_cases h : isValidShiftSet b = true
  · simp [h, this.mp h]
  · have hn : ¬ (rotations8 b).Nodup := fun hnd => h (this.mpr hnd)
    simp [h, hn]

/-- C6. `shiftSets` lists, in ascending order of base, exactly one record for
every balanced byte whose 8 successive rotations are pairwise distinct, and no
record for any other byte; each record stores the 8 rotations of its base.
Orbits are not deduplicated: every value stored in a record is the base of a
record of `shiftSets`, a different record unless the value is the record's own
base. -/
theorem shiftSets_one_per_valid_base (mem : Nat → Nat) :
    (BalancedSet.construct mem).shiftSets.map (·.base)
        = ((List.range 256).filter (fun v => popcount8 v = 4)).filter
            (fun b => (rotations8 b).Nodup)
      ∧ ((BalancedSet.construct mem).shiftSets.map (·.base)).Pairwise (· < ·)
      ∧ (∀ b, (BalancedSet.construct mem).shiftSets.countP (fun ss => ss.base = b)
          = if b < 256 ∧ popcount8 b = 4 ∧ (rotations8 b).Nodup then 1 else 0)
      ∧ (∀ ss ∈ (BalancedSet.construct mem).shiftSets, ss.values = rotations8 ss.base)
      ∧ (∀ ss ∈ (BalancedSet.construct mem).shiftSets, ∀ v ∈ ss.values,
          ∃ r ∈ (BalancedSet.construct mem).shiftSets,
            r.base = v ∧ (v ≠ ss.base → r ≠ ss)) := by
  have hb := shiftSets_bases mem
  have hpw : ((BalancedSet.construct mem).shiftSets.map (·.base)).Pairwise (· < ·) := by
    rw [hb]
    exact balancedBytes_pairwise.sublist (List.filter_sublist _)
  refine ⟨hb, hpw, ?_, ?_, ?_⟩
  · intro b
    have hc : (BalancedSet.construct mem).shiftSets.countP (fun ss => ss.base = b)
        = ((BalancedSet.construct mem).shiftSets.map (·.base)).count b := by
      rw [List.count, List.countP_map]
      apply List.countP_congr
      intro ss _
      simp only [Function.comp, beq_iff_eq, decide_eq_true_iff]
    have hnd : ((BalancedSet.construct mem).shiftSets.map (·.base)).Nodup :=
      hpw.imp (fun h => Nat.ne_of_lt h)
    have hmem : b ∈ (BalancedSet.construct mem).shiftSets.map (·.base)
        ↔ b < 256 ∧ popcount8 b = 4 ∧ (rotations8 b).Nodup := by
      rw [hb, List.mem_filter, mem_balancedBytes, decide_eq_true_iff, and_assoc]
    rw [hc]
    by_cases hq : b < 256 ∧ popcount8 b = 4 ∧ (rotations8 b).Nodup
    · rw [if_pos hq]
      exact List.count_eq_one_of_mem hnd (hmem.mpr hq)
    · rw [if_neg hq]
      exact List.count_eq_zero_of_not_mem (fun h => hq (hmem.mp h))
  · intro ss hss
    obtain ⟨b, hbm, _, rfl⟩ := (mem_shiftSets mem).mp hss
    exact (isValidShiftSet_facts b hbm).1
  · intro ss hss v hv
    obtain ⟨b, hbm, hval, rfl⟩ := (mem_shiftSets mem).mp hss
    obtain ⟨hvm, hvv⟩ := (isValidShiftSet_facts b hbm).2.2 hval v hv
    refine ⟨mkShiftSet v, (mem_shiftSets mem).mpr ⟨v, hvm, hvv, rfl⟩, rfl, ?_⟩
    intro hne heq
    exact hne (congrArg ShiftSet.base heq)

theorem filter_length_split (p q : Nat → Bool) (l : List Nat) :
    (l.filter p).length
      = (l.filter (fun v => p v && q v)).length + (l.filter (fun v => p v && !q v)).length := by
  induction l with
  | nil => rfl
  | cons a l ih =>
    simp only [List.filter_cons]
    cases hp : p a <;> cases hq : q a <;> simp [ih] <;> omega

theorem passesFilterRule_counts {values : List Nat} (h : passesFilterRule values = true) :
    (values.filter (fun v => 128 ≤ v)).length = 4
      ∧ (values.filter (fun v => v < 128)).length = 4
      ∧ (values.filter (fun v => 128 ≤ v ∧ v % 2 = 0)).length = 2
      ∧ (values.filter (fun v => 128 ≤ v ∧ v % 2 = 1)).length = 2
      ∧ (values.filter (fun v => v < 128 ∧ v % 2 = 0)).length = 2
      ∧ (values.filter (fun v => v < 128 ∧ v % 2 = 1)).length = 2 := by
  unfold passesFilterRule at h
  simp only [List.countP_eq_length_filter] at h
  have e1 : (fun v : Nat => decide (128 ≤ v ∧ v % 2 = 0))
      = (fun val => decide (val ≥ 128) && val % 2 == 0) := by
    funext v; rcases Nat.mod_two_eq_zero_or_one v with h | h <;> simp [h]
  have e2 : (fun v : Nat => decide (128 ≤ v ∧ v % 2 = 1))
      = (fun val => decide (val ≥ 128) && !(val % 2 == 0)) := by
    funext v; rcases Nat.mod_two_eq_zero_or_one v with h | h <;> simp [h]
  have e3 : (fun v : Nat => decide (v < 128 ∧ v % 2 = 0))
      = (fun val => decide (val < 128) && val % 2 == 0) := by
    funext v; rcases Nat.mod_two_eq_zero_or_one v with h | h <;> simp [h]
  have e4 : (fun v : Nat => decide (v < 128 ∧ v % 2 = 1))
      = (fun val => decide (val < 128) && !(val % 2 == 0)) := by
    funext v; rcases Nat.mod_two_eq_zero_or_one v with h | h <;> simp [h]
  have s2 := filter_length_split (fun v => decide (v < 128)) (fun v => v % 2 == 0) values
  rw [e1, e2, e3, e4]
  split at h
  · exact absurd h (by decide)
  · split at h
    · exact absurd h (by decide)
    · split at h
      · exact absurd h (by decide)
      · rename_i h1 h2 h3
        simp only [ne_eq, Decidable.not_not, Bool.or_eq_true, decide_eq_true_eq, not_or] at h1 h2 h3
        refine ⟨h1, ?_, h2.1, h2.2, h3.1, h3.2⟩
        rw [s2, h3.1, h3.2]

theorem passesFilterRule_of_counts {values : List Nat}
    (h1 : (values.filter (fun v => 128 ≤ v)).length = 4)
    (h2 : (values.filter (fun v => 128 ≤ v ∧ v % 2 = 0)).length = 2)
    (h3 : (values.filter (fun v => 128 ≤ v ∧ v % 2 = 1)).length = 2)
    (h4 : (values.filter (fun v => v < 128 ∧ v % 2 = 0)).length = 2)
    (h5 : (values.filter (fun v => v < 128 ∧ v % 2 = 1)).length = 2) :
    passesFilterRule values = true := by
  have e1 : (fun v : Nat => decide (128 ≤ v ∧ v % 2 = 0))
      = (fun val => decide (val ≥ 128) && val % 2 == 0) := by
    funext v; rcases Nat.mod_two_eq_zero_or_one v with h | h <;> simp [h]
  have e2 : (fun v : Nat => decide (128 ≤ v ∧ v % 2 = 1))
      = (fun val => decide (val ≥ 128) && !(val % 2 == 0)) := by
    funext v; rcases Nat.mod_two_eq_zero_or_one v with h | h <;> simp [h]
  have e3 : (fun v : Nat => decide (v < 128 ∧ v % 2 = 0))
      = (fun val => decide (val < 128) && val % 2 == 0) := by
    funext v; rcases Nat.mod_two_eq_zero_or_one v with h | h <;> simp [h]
  have e4 : (fun v : Nat => decide (v < 128 ∧ v % 2 = 1))
      = (fun val => decide (val < 128) && !(val % 2 == 0)) := by
    funext v; rcases Nat.mod_two_eq_zero_or_one v with h | h <;> simp [h]
  rw [e1] at h2
  rw [e2] at h3
  rw [e3] at h4
  rw [e4] at h5
  unfold passesFilterRule
  simp only [List.countP_eq_length_filter]
  simp [h1, h2, h3, h4, h5]

/-- C7. Every record of `filteredShiftSets` has exactly 4 values at or above
128 and 4 below, with exactly 2 even and 2 odd values in each half;
`filteredShiftSets` is exactly the subsequence of `shiftSets`, in the same
relative order, of the records whose values satisfy `passesFilterRule`, so
`shiftSets` contains every filtered record. -/
theorem filteredShiftSets_exact (mem : Nat → Nat) :
    (BalancedSet.construct mem).filteredShiftSets
        = (BalancedSet.construct mem).shiftSets.filter (fun ss => passesFilterRule ss.values)
      ∧ (BalancedSet.construct mem).filteredShiftSets.Sublist
          (BalancedSet.construct mem).shiftSets
      ∧ (∀ ss, ss ∈ (BalancedSet.construct mem).filteredShiftSets →
          ss ∈ (BalancedSet.construct mem).shiftSets)
      ∧ (∀ ss, ss ∈ (BalancedSet.construct mem).filteredShiftSets →
          ss.values.length = 8
            ∧ (ss.values.filter (fun v => 128 ≤ v)).length = 4
            ∧ (ss.values.filter (fun v => v < 128)).length = 4
            ∧ (ss.values.filter (fun v => 128 ≤ v ∧ v % 2 = 0)).length = 2
            ∧ (ss.values.filter (fun v => 128 ≤ v ∧ v % 2 = 1)).length = 2
            ∧ (ss.values.filter (fun v => v < 128 ∧ v % 2 = 0)).length = 2
            ∧ (ss.values.filter (fun v => v < 128 ∧ v % 2 = 1)).length = 2) := by
  have heq : (BalancedSet.construct mem).filteredShiftSets
      = (BalancedSet.construct mem).shiftSets.filter (fun ss => passesFilterRule ss.values) := by
    rw [construct_filteredShiftSets, construct_shiftSets]
  refine ⟨heq, ?_, ?_, ?_⟩
  · rw [heq]; exact List.filter_sublist _
  · intro ss hss
    rw [heq] at hss
    exact (List.mem_filter.mp hss).1
  · intro ss hss
    rw [heq] at hss
    obtain ⟨hin, hpass⟩ := List.mem_filter.mp hss
    obtain ⟨b, hb, hvalid, rfl⟩ := (mem_shiftSets mem).mp hin
    exact ⟨(rotation_orbit_facts b hb hvalid).1, passesFilterRule_counts hpass⟩

/-! ## Theorems: layer generator -/

theorem getD_set_int (l : List Int) (c : Nat) (v : Int) (j : Nat) :
    (l.set c v).getD j 0 = if j = c ∧ c < l.length then v else l.getD j 0 := by
  simp only [List.getD_eq_getElem?_getD, List.getElem?_set]
  by_cases h : c = j
  · subst h
    by_cases hl : c < l.length
    · simp [hl]
    · simp [hl, List.getElem?_eq_none (Nat.le_of_not_lt hl)]
  · have h' : ¬ j = c := fun e => h e.symm
    simp [h, h']

/-- The counter loop `for c in 0..n: a[c] += b(c)` leaves the length alone and
adds `b j` to every entry `j < n` that exists. -/
theorem bump_fold (b : Nat → Int) (n : Nat) (cc : List Int) :
    ((List.range n).foldl (fun cc c => cc.set c (cc.getD c 0 + b c)) cc).length = cc.length
      ∧ ∀ j, ((List.range n).foldl (fun cc c => cc.set c (cc.getD c 0 + b c)) cc).getD j 0
          = if j < n ∧ j < cc.length then cc.getD j 0 + b j else cc.getD j 0 := by
  induction n with
  | zero =>
    refine ⟨rfl, fun j => ?_⟩
    simp only [List.range_zero, List.foldl_nil, Nat.not_lt_zero, false_and, if_false]
  | succ n ih =>
    rw [List.range_succ, List.foldl_append]
    simp only [List.foldl_cons, List.foldl_nil]
    generalize (List.range n).foldl (fun cc c => cc.set c (cc.getD c 0 + b c)) cc = F at ih ⊢
    obtain ⟨hlen, hget⟩ := ih
    refine ⟨by rw [List.length_set, hlen], ?_⟩
    intro j
    rw [getD_set_int, hget j, hget n, hlen]
    by_cases hj : j = n
    · subst hj
      by_cases hl : j < cc.length
      · simp [hl]
      · simp [hl]
    · by_cases hl : j < cc.length <;> by_cases hn : j < n
      · have : j < n + 1 := by omega
        simp [hl, hn, this, hj]
      · have : ¬ j < n + 1 := by omega
        simp [hl, hn, this, hj]
      · simp [hl, hj]
      · simp [hl, hj]

theorem list_eq_of_getD {l₁ l₂ : List Int} (hlen : l₁.length = l₂.length)
    (h : ∀ j, l₁.getD j 0 = l₂.getD j 0) : l₁ = l₂ := by
  apply List.ext_getElem hlen
  intro n h1 h2
  have := h n
  simp only [List.getD_eq_getElem?_getD, List.getElem?_eq_getElem h1,
    List.getElem?_eq_getElem h2, Option.getD_some] at this
  exact this

theorem bit_le_one (x s : Nat) :
    (((x >>> s) &&& 1 : Nat) : Int) ≤ 1 ∧ 0 ≤ (((x >>> s) &&& 1 : Nat) : Int) := by
  have h : (x >>> s) &&& 1 ≤ 1 := Nat.and_le_right
  omega

theorem updateCounts_fields (g : LayerGenerator) (row : Nat) (delta : Int) :
    (updateCounts g row delta).validLayers = g.validLayers
      ∧ (updateCounts g row delta).totalAttempts = g.totalAttempts
      ∧ (updateCounts g row delta).colCounts.length = g.colCounts.length
      ∧ (updateCounts g row delta).yAxisCounts.length = g.yAxisCounts.length
      ∧ (∀ j, (updateCounts g row delta).colCounts.getD j 0
          = if j < 8 ∧ j < g.colCounts.length
            then g.colCounts.getD j 0 + (((row >>> (7 - j)) &&& 1 : Nat) : Int) * delta
            else g.colCounts.getD j 0)
      ∧ (∀ j, (updateCounts g row delta).yAxisCounts.getD j 0
          = if j < 8 ∧ j < g.yAxisCounts.length
            then g.yAxisCounts.getD j 0 + (((row >>> j) &&& 1 : Nat) : Int) * delta
            else g.yAxisCounts.getD j 0) := by
  have hc := bump_fold (fun col => (((row >>> (7 - col)) &&& 1 : Nat) : Int) * delta) 8
    g.colCounts
  have hy := bump_fold (fun bitPos => (((row >>> bitPos) &&& 1 : Nat) : Int) * delta) 8
    g.yAxisCounts
  exact ⟨rfl, rfl, hc.1, hy.1, hc.2, hy.2⟩

theorem updateCounts_undo (g g' : LayerGenerator) (row : Nat)
    (hc : g'.colCounts = (updateCounts g row 1).colCounts)
    (hy : g'.yAxisCounts = (updateCounts g row 1).yAxisCounts) :
    (updateCounts g' row (-1)).colCounts = g.colCounts
      ∧ (updateCounts g' row (-1)).yAxisCounts = g.yAxisCounts := by
  obtain ⟨-, -, l1, l2, c1, y1⟩ := updateCounts_fields g row 1
  obtain ⟨-, -, l3, l4, c2, y2⟩ := updateCounts_fields g' row (-1)
  rw [hc] at l3 c2
  rw [hy] at l4 y2
  constructor
  · apply list_eq_of_getD (l3.trans l1)
    intro j
    rw [c2 j, c1 j, l1]
    by_cases h : j < 8 ∧ j < g.colCounts.length
    · rw [if_pos h, if_pos h]; ring
    · rw [if_neg h, if_neg h]
  · apply list_eq_of_getD (l4.trans l2)
    intro j
    rw [y2 j, y1 j, l2]
    by_cases h : j < 8 ∧ j < g.yAxisCounts.length
    · rw [if_pos h, if_pos h]; ring
    · rw [if_neg h, if_neg h]

theorem CountsOK_updateCounts {g : LayerGenerator} {k : Nat} (h : CountsOK g k) (row : Nat) :
    CountsOK (updateCounts g row 1) (k + 1) := by
  obtain ⟨h1, h2, h3, h4⟩ := h
  obtain ⟨-, -, l1, l2, c1, y1⟩ := updateCounts_fields g row 1
  refine ⟨l1.trans h1, l2.trans h2, ?_, ?_⟩
  · intro j hj
    rw [c1 j, if_pos ⟨hj, by omega⟩]
    have hb := bit_le_one row (7 - j)
    have := h3 j hj
    push_cast
    omega
  · intro j hj
    rw [y1 j, if_pos ⟨hj, by omega⟩]
    have hb := bit_le_one row j
    have := h4 j hj
    push_cast
    omega

theorem canAddRow_of_CountsOK {g : LayerGenerator} {k : Nat} (h : CountsOK g k) (hk : k ≤ 3)
    (row : Nat) : canAddRow g row k = true := by
  obtain ⟨h1, h2, h3, h4⟩ := h
  unfold canAddRow
  simp only [Bool.and_eq_true, List.all_eq_true, List.mem_range, Bool.not_eq_true',
    decide_eq_false_iff_not]
  constructor
  · intro j hj
    have hb := bit_le_one row (7 - j)
    have := h3 j hj
    constructor <;> omega
  · intro j hj
    have hb := bit_le_one row j
    have := h4 j hj
    constructor <;> omega

theorem nested_bump_fold (b : Nat → Nat → Int) (n : Nat) (init : List Int) :
    ((List.range n).foldl
        (fun fc r => (List.range 8).foldl (fun fc c => fc.set c (fc.getD c 0 + b r c)) fc)
        init).length = init.length
      ∧ ∀ j, ((List.range n).foldl
          (fun fc r => (List.range 8).foldl (fun fc c => fc.set c (fc.getD c 0 + b r c)) fc)
          init).getD j 0
          = if j < 8 ∧ j < init.length
            then init.getD j 0 + ∑ r in Finset.range n, b r j
            else init.getD j 0 := by
  induction n with
  | zero =>
    refine ⟨rfl, fun j => ?_⟩
    simp only [List.range_zero, List.foldl_nil, Finset.range_zero, Finset.sum_empty, add_zero,
      ite_self]
  | succ n ih =>
    rw [List.range_succ n, List.foldl_append]
    simp only [List.foldl_cons, List.foldl_nil]
    generalize (List.range n).foldl
      (fun fc r => (List.range 8).foldl (fun fc c => fc.set c (fc.getD c 0 + b r c)) fc)
      init = F at ih ⊢
    obtain ⟨hlen, hget⟩ := ih
    obtain ⟨h1, h2⟩ := bump_fold (fun c => b n c) 8 F
    refine ⟨h1.trans hlen, ?_⟩
    intro j
    rw [h2 j, hget j, hlen, Finset.sum_range_succ]
    by_cases h : j < 8 ∧ j < init.length
    · simp only [if_pos h]; ring
    · simp only [if_neg h]

set_option maxRecDepth 100000 in
theorem bit_bitNot8 : ∀ v < 256, ∀ p < 8,
    ((bitNot8 v >>> p) &&& 1) + ((v >>> p) &&& 1) = 1 := by
  decide

theorem rows_of_length_eight {rows : List Nat} (h8 : rows.length = 8) :
    ∃ r0 r1 r2 r3 c0 c1 c2 c3 : Nat, rows = r0 :: r1 :: r2 :: r3 :: [c0, c1, c2, c3] := by
  match rows, h8 with
  | [r0, r1, r2, r3, c0, c1, c2, c3], _ => exact ⟨r0, r1, r2, r3, c0, c1, c2, c3, rfl⟩

theorem finalCounts_completeRows {a0 a1 a2 a3 : Nat}
    (h0 : a0 < 256) (h1 : a1 < 256) (h2 : a2 < 256) (h3 : a3 < 256) (j : Nat) (hj : j < 8) :
    (finalColCounts (completeRows [a0, a1, a2, a3])).getD j 0 = 4
      ∧ (finalYCounts (completeRows [a0, a1, a2, a3])).getD j 0 = 4 := by
  have hc := (nested_bump_fold
    (fun r c => ((((completeRows [a0, a1, a2, a3]).getD r 0 >>> (7 - c)) &&& 1 : Nat) : Int))
    8 (List.replicate 8 0)).2 j
  have hy := (nested_bump_fold
    (fun r c => ((((completeRows [a0, a1, a2, a3]).getD r 0 >>> c) &&& 1 : Nat) : Int))
    8 (List.replicate 8 0)).2 j
  have hj' : j < 8 ∧ j < (List.replicate 8 (0 : Int)).length := ⟨hj, by simpa using hj⟩
  rw [if_pos hj'] at hc hy
  have hz : (List.replicate 8 (0 : Int)).getD j 0 = 0 := by
    interval_cases j <;> rfl
  rw [hz] at hc hy
  have e0 := bit_bitNot8 a0 h0
  have e1 := bit_bitNot8 a1 h1
  have e2 := bit_bitNot8 a2 h2
  have e3 := bit_bitNot8 a3 h3
  constructor
  · unfold finalColCounts
    rw [hc]
    simp only [Finset.sum_range_succ, Finset.range_zero, Finset.sum_empty, completeRows,
      List.map, List.cons_append, List.nil_append, List.getD_cons_zero, List.getD_cons_succ]
    have f0 := e0 (7 - j) (by omega)
    have f1 := e1 (7 - j) (by omega)
    have f2 := e2 (7 - j) (by omega)
    have f3 := e3 (7 - j) (by omega)
    omega
  · unfold finalYCounts
    rw [hy]
    simp only [Finset.sum_range_succ, Finset.range_zero, Finset.sum_empty, completeRows,
      List.map, List.cons_append, List.nil_append, List.getD_cons_zero, List.getD_cons_succ]
    have f0 := e0 j hj
    have f1 := e1 j hj
    have f2 := e2 j hj
    have f3 := e3 j hj
    omega

theorem buildLayer_rows {rows : List Nat} (h : rows.length = 8) :
    (buildLayer rows).rows = rows ∧ (buildLayer rows).uniqueNumbers = rows := by
  obtain ⟨a0, a1, a2, a3, a4, a5, a6, a7, rfl⟩ := rows_of_length_eight h
  exact ⟨rfl, rfl⟩

theorem backtrackLeaf_spec {bs : BalancedSet} (hbs : GoodSet bs) (g : LayerGenerator)
    (rows : List Nat) (hlen : rows.length = 8)
    (hbal : ∀ x ∈ rows.take 4, x ∈ balancedBytes) :
    backtrackLeaf bs g rows
      = ({ g with validLayers := g.validLayers ++ [buildLayer (completeRows (rows.take 4))] },
          completeRows (rows.take 4)) := by
  obtain ⟨a0, a1, a2, a3, a4, a5, a6, a7, rfl⟩ := rows_of_length_eight hlen
  have m0 : a0 ∈ balancedBytes := hbal a0 (by simp)
  have m1 : a1 ∈ balancedBytes := hbal a1 (by simp)
  have m2 : a2 ∈ balancedBytes := hbal a2 (by simp)
  have m3 : a3 ∈ balancedBytes := hbal a3 (by simp)
  have hrows : (List.range 4).foldl
      (fun rs i => rs.set (i + 4) (bs.getComplement (rs.getD i 0)))
      [a0, a1, a2, a3, a4, a5, a6, a7] = completeRows [a0, a1, a2, a3] := by
    show [a0, a1, a2, a3, bs.getComplement a0, bs.getComplement a1, bs.getComplement a2,
      bs.getComplement a3] = _
    rw [hbs.complement a0 m0, hbs.complement a1 m1, hbs.complement a2 m2,
      hbs.complement a3 m3]
    rfl
  have hfin := fun j hj => finalCounts_completeRows (mem_balancedBytes.mp m0).1
    (mem_balancedBytes.mp m1).1 (mem_balancedBytes.mp m2).1 (mem_balancedBytes.mp m3).1 j hj
  have hZ : ((List.range 8).all fun c =>
      (finalColCounts (completeRows [a0, a1, a2, a3])).getD c 0 == 4) = true := by
    rw [List.all_eq_true]
    intro c hc
    rw [(hfin c (List.mem_range.mp hc)).1]
    rfl
  have hY : ((List.range 8).all fun c =>
      (finalYCounts (completeRows [a0, a1, a2, a3])).getD c 0 == 4) = true := by
    rw [List.all_eq_true]
    intro c hc
    rw [(hfin c (List.mem_range.mp hc)).2]
    rfl
  unfold backtrackLeaf
  simp only [hrows, hZ, hY, Bool.not_true, Bool.false_eq_true, if_false]
  rfl

theorem backtrack_zero (bs : BalancedSet) (rowIdx : Nat) (st : LayerGenerator × List Nat)
    (usedMask : Nat) : backtrack bs 0 rowIdx st usedMask = none := rfl

theorem backtrack_succ (bs : BalancedSet) (fuel rowIdx : Nat) (st : LayerGenerator × List Nat)
    (usedMask : Nat) :
    backtrack bs (fuel + 1) rowIdx st usedMask
      = if rowIdx = 4 then
          some (backtrackLeaf bs
            { st.1 with totalAttempts := (st.1.totalAttempts + 1) % 2 ^ 64 } st.2)
        else
          (List.range bs.upSet.length).foldlM
            (candidateStep bs (backtrack bs fuel) rowIdx usedMask)
            ({ st.1 with totalAttempts := (st.1.totalAttempts + 1) % 2 ^ 64 }, st.2) := rfl

theorem take_set_succ (l : List Nat) (k x : Nat) (h : k < l.length) :
    (l.set k x).take (k + 1) = l.take k ++ [x] := by
  induction l generalizing k with
  | nil => simp at h
  | cons a l ih =>
    cases k with
    | zero => simp
    | succ k =>
      have hk : k < l.length := by simpa using h
      simp [ih k hk]

theorem candidateLoop_spec {bs : BalancedSet} (hbs : GoodSet bs) (d f rowIdx usedMask : Nat)
    (pre : List Nat) (hrow : rowIdx + (d + 1) = 4)
    (hpre : ∀ x ∈ pre, x ∈ balancedBytes)
    (ih : ∀ (g : LayerGenerator) (rows : List Nat) (mask : Nat),
      rows.length = 8 → CountsOK g (rowIdx + 1) →
      (∀ x ∈ rows.take (rowIdx + 1), x ∈ balancedBytes) →
      ∃ g' rows', backtrack bs f (rowIdx + 1) (g, rows) mask = some (g', rows')
        ∧ g'.validLayers
            = g.validLayers ++ layersFrom bs.upSet d (rows.take (rowIdx + 1)) mask
        ∧ g'.colCounts = g.colCounts ∧ g'.yAxisCounts = g.yAxisCounts
        ∧ rows'.length = 8 ∧ rows'.take (rowIdx + 1) = rows.take (rowIdx + 1)) :
    ∀ (is : List Nat), (∀ i ∈ is, i < bs.upSet.length) →
      ∀ (cur : LayerGenerator × List Nat), cur.2.length = 8 → CountsOK cur.1 rowIdx →
        cur.2.take rowIdx = pre →
        ∃ g' rows', is.foldlM (candidateStep bs (backtrack bs f) rowIdx usedMask) cur
            = some (g', rows')
          ∧ g'.validLayers = cur.1.validLayers ++ is.flatMap (fun i =>
              if usedMask &&& (1 <<< i) ≠ 0 then []
              else layersFrom bs.upSet d (pre ++ [bs.upSet.getD i 0])
                (usedMask ||| (1 <<< i)))
          ∧ g'.colCounts = cur.1.colCounts ∧ g'.yAxisCounts = cur.1.yAxisCounts
          ∧ rows'.length = 8 ∧ rows'.take rowIdx = pre := by
  intro is
  induction is with
  | nil =>
    intro _ cur hlen _ htake
    exact ⟨cur.1, cur.2, rfl, by simp, rfl, rfl, hlen, htake⟩
  | cons i is ihl =>
    intro his cur hlen hok htake
    have hi : i < bs.upSet.length := his i (List.mem_cons_self _ _)
    have his' : ∀ j ∈ is, j < bs.upSet.length := fun j hj => his j (List.mem_cons_of_mem _ hj)
    rw [List.foldlM_cons, List.flatMap_cons]
    by_cases hm : usedMask &&& (1 <<< i) ≠ 0
    · have hstep : candidateStep bs (backtrack bs f) rowIdx usedMask cur i = some cur := by
        unfold candidateStep
        rw [if_pos hm]
      rw [hstep, if_pos hm]
      simpa using ihl his' cur hlen hok htake
    · have hcand : bs.upSet.getD i 0 ∈ balancedBytes := by
        apply hbs.upSet_balanced
        rw [List.getD_eq_getElem?_getD, List.getElem?_eq_getElem hi, Option.getD_some]
        exact List.getElem_mem _
      have hk : rowIdx < cur.2.length := by omega
      have hcan : canAddRow cur.1 (bs.upSet.getD i 0) rowIdx = true :=
        canAddRow_of_CountsOK hok (by omega) _
      have htk : (cur.2.set rowIdx (bs.upSet.getD i 0)).take (rowIdx + 1)
          = pre ++ [bs.upSet.getD i 0] := by
        rw [take_set_succ _ _ _ hk, htake]
      obtain ⟨g1, rows1, hrec, hv, hc, hy, hl1, ht1⟩ := ih
        (updateCounts cur.1 (bs.upSet.getD i 0) 1) (cur.2.set rowIdx (bs.upSet.getD i 0))
        (usedMask ||| (1 <<< i)) (by rw [List.length_set]; exact hlen)
        (CountsOK_updateCounts hok _)
        (by
          rw [htk]
          intro x hx
          rcases List.mem_append.mp hx with h | h
          · exact hpre x h
          · rw [List.mem_singleton.mp h]; exact hcand)
      have hstep : candidateStep bs (backtrack bs f) rowIdx usedMask cur i
          = some (updateCounts g1 (bs.upSet.getD i 0) (-1), rows1) := by
        unfold candidateStep
        rw [if_neg hm]
        simp only [hcan, Bool.not_true, Bool.false_eq_true, if_false, hrec]
      obtain ⟨u1, u2⟩ := updateCounts_undo cur.1 g1 (bs.upSet.getD i 0) hc hy
      have hok' : CountsOK (updateCounts g1 (bs.upSet.getD i 0) (-1)) rowIdx := by
        unfold CountsOK
        rw [u1, u2]
        exact hok
      have ht' : rows1.take rowIdx = pre := by
        have hprelen : pre.length = rowIdx := by
          rw [← htake, List.length_take]; omega
        have h1 := congrArg (List.take rowIdx) (ht1.trans htk)
        rw [List.take_take, List.take_left' hprelen] at h1
        have hmin : min rowIdx (rowIdx + 1) = rowIdx := by omega
        rwa [hmin] at h1
      obtain ⟨g2, rows2, hfold, hv2, hc2, hy2, hl2, ht2⟩ := ihl his'
        (updateCounts g1 (bs.upSet.getD i 0) (-1), rows1) hl1 hok' ht'
      refine ⟨g2, rows2, ?_, ?_, ?_, ?_, hl2, ht2⟩
      · rw [hstep]; exact hfold
      · rw [hv2, if_neg hm]
        show (updateCounts g1 (bs.upSet.getD i 0) (-1)).validLayers ++ _ = _
        rw [(updateCounts_fields g1 _ _).1, hv, htk, (updateCounts_fields cur.1 _ _).1,
          List.append_assoc]
      · rw [hc2]; exact u1
      · rw [hy2]; exact u2

/-- With enough fuel, `backtrack` at depth `rowIdx = 4 - d` returns, appends
exactly `layersFrom` of the current prefix to `validLayers`, restores both
counter arrays and leaves the first `rowIdx` rows of the buffer alone. -/
theorem backtrack_spec {bs : BalancedSet} (hbs : GoodSet bs) :
    ∀ (d fuel rowIdx : Nat) (g : LayerGenerator) (rows : List Nat) (mask : Nat),
      rowIdx + d = 4 → d < fuel → rows.length = 8 → CountsOK g rowIdx →
      (∀ x ∈ rows.take rowIdx, x ∈ balancedBytes) →
      ∃ g' rows', backtrack bs fuel rowIdx (g, rows) mask = some (g', rows')
        ∧ g'.validLayers = g.validLayers ++ layersFrom bs.upSet d (rows.take rowIdx) mask
        ∧ g'.colCounts = g.colCounts ∧ g'.yAxisCounts = g.yAxisCounts
        ∧ rows'.length = 8 ∧ rows'.take rowIdx = rows.take rowIdx := by
  intro d
  induction d with
  | zero =>
    intro fuel rowIdx g rows mask hrow hfuel hlen _ hbal
    obtain ⟨f, rfl⟩ : ∃ f, fuel = f + 1 := ⟨fuel - 1, by omega⟩
    have h4 : rowIdx = 4 := by omega
    subst h4
    rw [backtrack_succ, if_pos rfl, backtrackLeaf_spec hbs _ _ hlen hbal]
    have hl4 : (rows.take 4).length = 4 := by rw [List.length_take]; omega
    refine ⟨_, _, rfl, rfl, rfl, rfl, ?_, ?_⟩
    · unfold completeRows
      rw [List.length_append, List.length_map, hl4]
    · unfold completeRows
      rw [List.take_left' hl4]
  | succ d ihd =>
    intro fuel rowIdx g rows mask hrow hfuel hlen hok hbal
    obtain ⟨f, rfl⟩ : ∃ f, fuel = f + 1 := ⟨fuel - 1, by omega⟩
    have hne : rowIdx ≠ 4 := by omega
    rw [backtrack_succ, if_neg hne]
    have hloop := candidateLoop_spec hbs d f rowIdx mask (rows.take rowIdx) hrow hbal
      (fun g rows mask h1 h2 h3 => ihd f (rowIdx + 1) g rows mask (by omega) (by omega) h1 h2 h3)
      (List.range bs.upSet.length) (fun i hi => List.mem_range.mp hi)
      ({ g with totalAttempts := (g.totalAttempts + 1) % 2 ^ 64 }, rows) hlen hok rfl
    obtain ⟨g', rows', h1, h2, h3, h4, h5, h6⟩ := hloop
    exact ⟨g', rows', h1, h2, h3, h4, h5, h6⟩

theorem CountsOK_new : CountsOK LayerGenerator.new 0 := by
  refine ⟨rfl, rfl, ?_, ?_⟩ <;>
  · intro j hj
    interval_cases j <;> exact ⟨le_refl _, le_refl _⟩

/-- `generate` on a freshly constructed generator returns, and its
`validLayers` is `layersFrom upSet 4 [] 0`. -/
theorem generate_spec {bs : BalancedSet} (hbs : GoodSet bs) (rows0 : List Nat)
    (hlen : rows0.length = 8) :
    ∃ g, generate bs LayerGenerator.new rows0 = some g
      ∧ g.validLayers = layersFrom bs.upSet 4 [] 0 := by
  obtain ⟨g', rows', h1, h2, -⟩ := backtrack_spec hbs 4 5 0
    { LayerGenerator.new with totalAttempts := 0 } rows0 0 rfl (by omega) hlen CountsOK_new
    (by simp)
  refine ⟨g', ?_, ?_⟩
  · unfold generate
    rw [h1]
    rfl
  · rw [h2]
    rfl

theorem and_one_shiftLeft_ne_zero (m j : Nat) : m &&& (1 <<< j) ≠ 0 ↔ m.testBit j = true := by
  rw [Nat.one_shiftLeft, Nat.and_two_pow]
  cases m.testBit j <;> simp

theorem mask_or_bit (m i j : Nat) :
    (m ||| (1 <<< i)) &&& (1 <<< j) = 0 ↔ (m &&& (1 <<< j) = 0 ∧ i ≠ j) := by
  have h1 := and_one_shiftLeft_ne_zero (m ||| (1 <<< i)) j
  have h2 := and_one_shiftLeft_ne_zero m j
  have h3 : (m ||| (1 <<< i)).testBit j = (m.testBit j || decide (i = j)) := by
    rw [Nat.testBit_or, Nat.one_shiftLeft, Nat.testBit_two_pow]
  rw [h3] at h1
  generalize (m ||| (1 <<< i)) &&& (1 <<< j) = A at h1 ⊢
  generalize m &&& (1 <<< j) = B at h2 ⊢
  constructor
  · intro hA
    have hn : ¬ ((m.testBit j || decide (i = j)) = true) := fun h => (h1.mpr h) hA
    simp only [Bool.or_eq_true, decide_eq_true_eq, not_or] at hn
    exact ⟨by_contra (fun hB => hn.1 (h2.mp hB)), hn.2⟩
  · rintro ⟨hB, hij⟩
    by_contra hA
    have ht := h1.mp hA
    simp only [Bool.or_eq_true, decide_eq_true_eq] at ht
    rcases ht with h | h
    · exact (h2.mpr h) hB
    · exact hij h

theorem mem_layersFrom (u : List Nat) :
    ∀ (d : Nat) (pre : List Nat) (mask : Nat) (L : Layer),
      L ∈ layersFrom u d pre mask ↔
        ∃ idxs : List Nat, idxs.length = d ∧ idxs.Nodup
          ∧ (∀ i ∈ idxs, i < u.length ∧ mask &&& (1 <<< i) = 0)
          ∧ L = buildLayer (completeRows (pre ++ idxs.map (fun i => u.getD i 0))) := by
  intro d
  induction d with
  | zero =>
    intro pre mask L
    simp only [layersFrom, List.mem_singleton]
    constructor
    · intro h
      exact ⟨[], rfl, List.nodup_nil, by simp, by simpa using h⟩
    · rintro ⟨idxs, hl, -, -, h⟩
      rw [List.length_eq_zero] at hl
      subst hl
      simpa using h
  | succ d ih =>
    intro pre mask L
    simp only [layersFrom, List.mem_flatMap, List.mem_range]
    constructor
    · rintro ⟨i, hi, hL⟩
      by_cases hm : mask &&& (1 <<< i) ≠ 0
      · rw [if_pos hm] at hL
        exact absurd hL (List.not_mem_nil _)
      · rw [if_neg hm] at hL
        obtain ⟨idxs, hl, hnd, hall, hLeq⟩ := (ih _ _ _).mp hL
        refine ⟨i :: idxs, by simp [hl], ?_, ?_, ?_⟩
        · rw [List.nodup_cons]
          refine ⟨fun hmem => ?_, hnd⟩
          exact ((mask_or_bit mask i i).mp (hall i hmem).2).2 rfl
        · intro j hj
          rcases List.mem_cons.mp hj with rfl | hj
          · exact ⟨hi, by simpa using hm⟩
          · exact ⟨(hall j hj).1, ((mask_or_bit mask i j).mp (hall j hj).2).1⟩
        · rw [hLeq]
          simp [List.append_assoc]
    · rintro ⟨idxs, hl, hnd, hall, hLeq⟩
      match idxs, hl with
      | i :: rest, hl =>
        rw [List.nodup_cons] at hnd
        have hi := hall i (List.mem_cons_self _ _)
        refine ⟨i, hi.1, ?_⟩
        have hm : ¬ (mask &&& (1 <<< i) ≠ 0) := by simpa using hi.2
        rw [if_neg hm]
        apply (ih _ _ _).mpr
        refine ⟨rest, by simpa using hl, hnd.2, ?_, ?_⟩
        · intro j hj
          have hjr := hall j (List.mem_cons_of_mem _ hj)
          refine ⟨hjr.1, (mask_or_bit mask i j).mpr ⟨hjr.2, ?_⟩⟩
          rintro rfl
          exact hnd.1 hj
        · rw [hLeq]
          simp [List.append_assoc]

theorem completeRows_length (pre : List Nat) : (completeRows pre).length = 2 * pre.length := by
  unfold completeRows
  rw [List.length_append, List.length_map]
  omega

theorem completeRows_injective {a b : List Nat} (h : completeRows a = completeRows b)
    (hl : a.length = b.length) : a = b :=
  (List.append_inj h hl).1

theorem getD_inj_of_nodup {u : List Nat} (hu : u.Nodup) {i j : Nat} (hi : i < u.length)
    (hj : j < u.length) (h : u.getD i 0 = u.getD j 0) : i = j := by
  simp only [List.getD_eq_getElem?_getD, List.getElem?_eq_getElem hi,
    List.getElem?_eq_getElem hj, Option.getD_some] at h
  exact (hu.getElem_inj_iff).mp h

theorem layersFrom_rows {u : List Nat} {d : Nat} {pre : List Nat} {mask : Nat} {L : Layer}
    (hd : pre.length + d = 4) (hL : L ∈ layersFrom u d pre mask) :
    ∃ idxs : List Nat, idxs.length = d ∧ idxs.Nodup
      ∧ (∀ i ∈ idxs, i < u.length ∧ mask &&& (1 <<< i) = 0)
      ∧ L = buildLayer (completeRows (pre ++ idxs.map (fun i => u.getD i 0)))
      ∧ L.rows = completeRows (pre ++ idxs.map (fun i => u.getD i 0)) := by
  obtain ⟨idxs, h1, h2, h3, h4⟩ := (mem_layersFrom u d pre mask L).mp hL
  refine ⟨idxs, h1, h2, h3, h4, ?_⟩
  rw [h4]
  apply (buildLayer_rows _).1
  rw [completeRows_length, List.length_append, List.length_map, h1]
  omega

theorem layersFrom_nodup {u : List Nat} (hu : u.Nodup) :
    ∀ (d : Nat) (pre : List Nat) (mask : Nat), pre.length + d = 4 →
      (layersFrom u d pre mask).Nodup := by
  intro d
  induction d with
  | zero => intro pre mask _; simp [layersFrom]
  | succ d ih =>
    intro pre mask hd
    simp only [layersFrom]
    rw [List.nodup_flatMap]
    constructor
    · intro i _
      by_cases hm : mask &&& (1 <<< i) ≠ 0
      · rw [if_pos hm]; exact List.nodup_nil
      · rw [if_neg hm]
        exact ih _ _ (by rw [List.length_append, List.length_singleton]; omega)
    · apply (List.nodup_range _).pairwise_of_forall_ne
      intro a ha b hb hab
      rw [Function.onFun, List.disjoint_left]
      intro L hLa hLb
      by_cases hma : mask &&& (1 <<< a) ≠ 0
      · rw [if_pos hma] at hLa; exact List.not_mem_nil _ hLa
      by_cases hmb : mask &&& (1 <<< b) ≠ 0
      · rw [if_pos hmb] at hLb; exact List.not_mem_nil _ hLb
      rw [if_neg hma] at hLa
      rw [if_neg hmb] at hLb
      have hlen : (pre ++ [u.getD a 0]).length + d = 4 := by
        rw [List.length_append, List.length_singleton]; omega
      have hlen' : (pre ++ [u.getD b 0]).length + d = 4 := by
        rw [List.length_append, List.length_singleton]; omega
      obtain ⟨ia, la, -, -, -, ra⟩ := layersFrom_rows hlen hLa
      obtain ⟨ib, lb, -, -, -, rb⟩ := layersFrom_rows hlen' hLb
      have heq := completeRows_injective (ra.symm.trans rb)
        (by simp only [List.length_append, List.length_map, List.length_singleton, la, lb])
      rw [List.append_assoc, List.append_assoc] at heq
      have h2 := List.append_cancel_left heq
      simp only [List.singleton_append, List.cons.injEq] at h2
      exact hab (getD_inj_of_nodup hu (List.mem_range.mp ha) (List.mem_range.mp hb) h2.1)

theorem mem_upSet (mem : Nat → Nat) (v : Nat) :
    v ∈ (BalancedSet.construct mem).upSet ↔ v < 256 ∧ popcount8 v = 4 ∧ v ≥ 128 := by
  rw [construct_upSet, (sortDescending_perm _).mem_iff]
  simp

theorem upSet_pairwise (mem : Nat → Nat) :
    (BalancedSet.construct mem).upSet.Pairwise (· > ·) := by
  rw [upSet_eq]
  decide

theorem goodSet_construct (mem : Nat → Nat) : GoodSet (BalancedSet.construct mem) where
  upSet_balanced := fun x hx => by
    rw [mem_upSet] at hx
    exact mem_balancedBytes.mpr ⟨hx.1, hx.2.1⟩
  upSet_upper := fun x hx => by
    rw [mem_upSet] at hx
    exact hx.2.2
  upSet_nodup := (upSet_pairwise mem).imp (fun h => Nat.ne_of_gt h)
  complement := fun v hv => getComplement_balanced mem hv

theorem mem_layersFrom_top (u : List Nat) (L : Layer) :
    L ∈ layersFrom u 4 [] 0 ↔
      ∃ i0 i1 i2 i3, i0 < u.length ∧ i1 < u.length ∧ i2 < u.length ∧ i3 < u.length
        ∧ [i0, i1, i2, i3].Nodup ∧ L = buildLayer (layerRows u i0 i1 i2 i3) := by
  rw [mem_layersFrom]
  constructor
  · rintro ⟨idxs, hl, hnd, hall, hL⟩
    match idxs, hl with
    | [i0, i1, i2, i3], _ =>
      exact ⟨i0, i1, i2, i3, (hall i0 (by simp)).1, (hall i1 (by simp)).1,
        (hall i2 (by simp)).1, (hall i3 (by simp)).1, hnd, hL⟩
  · rintro ⟨i0, i1, i2, i3, h0, h1, h2, h3, hnd, hL⟩
    refine ⟨[i0, i1, i2, i3], rfl, hnd, ?_, hL⟩
    intro i hi
    simp only [List.mem_cons, List.mem_singleton, List.not_mem_nil, or_false] at hi
    refine ⟨?_, Nat.zero_and _⟩
    rcases hi with rfl | rfl | rfl | rfl <;> assumption

theorem getD_mem_of_lt {u : List Nat} {i : Nat} (h : i < u.length) : u.getD i 0 ∈ u := by
  rw [List.getD_eq_getElem?_getD, List.getElem?_eq_getElem h, Option.getD_some]
  exact List.getElem_mem _

set_option maxRecDepth 100000 in
theorem bitNot8_eq_sub : ∀ v < 256, bitNot8 v = 255 - v := by
  decide

theorem layerRows_length (u : List Nat) (i0 i1 i2 i3 : Nat) :
    (layerRows u i0 i1 i2 i3).length = 8 := rfl

theorem count_bit_pair {r : Nat} (hr : r < 256) {p : Nat} (hp : p < 8) :
    (if r.testBit p = true then 1 else 0) + (if (bitNot8 r).testBit p = true then 1 else 0)
      = 1 := by
  rw [(bitNot8_testBit r hr).2.2.2 p hp]
  cases r.testBit p <;> rfl

theorem nodup_upper_with_complements {a b c d : Nat}
    (ua : 128 ≤ a) (ub : 128 ≤ b) (uc : 128 ≤ c) (ud : 128 ≤ d)
    (la : a < 256) (lb : b < 256) (lc : c < 256) (ld : d < 256)
    (dab : a ≠ b) (dac : a ≠ c) (dad : a ≠ d) (dbc : b ≠ c) (dbd : b ≠ d) (dcd : c ≠ d) :
    [a, b, c, d, 255 - a, 255 - b, 255 - c, 255 - d].Nodup := by
  simp only [List.nodup_cons, List.mem_cons, List.mem_singleton, List.not_mem_nil, or_false,
    not_or, not_false_eq_true, List.nodup_nil, and_true]
  omega

theorem count_bits_with_complements {a b c d : Nat}
    (la : a < 256) (lb : b < 256) (lc : c < 256) (ld : d < 256) {p : Nat} (hp : p < 8) :
    ([a, b, c, d, bitNot8 a, bitNot8 b, bitNot8 c, bitNot8 d].filter
      (fun r => r.testBit p)).length = 4 := by
  rw [← List.countP_eq_length_filter]
  simp only [List.countP_cons, List.countP_nil]
  have e0 := count_bit_pair la hp
  have e1 := count_bit_pair lb hp
  have e2 := count_bit_pair lc hp
  have e3 := count_bit_pair ld hp
  omega

theorem layerRows_facts {bs : BalancedSet} (hbs : GoodSet bs) {i0 i1 i2 i3 : Nat}
    (h0 : i0 < bs.upSet.length) (h1 : i1 < bs.upSet.length) (h2 : i2 < bs.upSet.length)
    (h3 : i3 < bs.upSet.length) (hnd : [i0, i1, i2, i3].Nodup) :
    (∀ r ∈ layerRows bs.upSet i0 i1 i2 i3, r ∈ balancedBytes)
      ∧ (∀ p < 8, ((layerRows bs.upSet i0 i1 i2 i3).filter (fun r => r.testBit p)).length = 4)
      ∧ (layerRows bs.upSet i0 i1 i2 i3).Nodup
      ∧ (∀ i < 4, 128 ≤ (layerRows bs.upSet i0 i1 i2 i3).getD i 0)
      ∧ (∀ i, 4 ≤ i → i < 8 → (layerRows bs.upSet i0 i1 i2 i3).getD i 0 < 128)
      ∧ (∀ i < 4, (layerRows bs.upSet i0 i1 i2 i3).getD (i + 4) 0
          = bitNot8 ((layerRows bs.upSet i0 i1 i2 i3).getD i 0)
          ∧ (layerRows bs.upSet i0 i1 i2 i3).getD i 0 < 256) := by
  have m0 := getD_mem_of_lt h0
  have m1 := getD_mem_of_lt h1
  have m2 := getD_mem_of_lt h2
  have m3 := getD_mem_of_lt h3
  have b0 := hbs.upSet_balanced _ m0
  have b1 := hbs.upSet_balanced _ m1
  have b2 := hbs.upSet_balanced _ m2
  have b3 := hbs.upSet_balanced _ m3
  have u0 := hbs.upSet_upper _ m0
  have u1 := hbs.upSet_upper _ m1
  have u2 := hbs.upSet_upper _ m2
  have u3 := hbs.upSet_upper _ m3
  have l0 := (mem_balancedBytes.mp b0).1
  have l1 := (mem_balancedBytes.mp b1).1
  have l2 := (mem_balancedBytes.mp b2).1
  have l3 := (mem_balancedBytes.mp b3).1
  have c0 := bitNot8_eq_sub _ l0
  have c1 := bitNot8_eq_sub _ l1
  have c2 := bitNot8_eq_sub _ l2
  have c3 := bitNot8_eq_sub _ l3
  simp only [List.nodup_cons, List.mem_cons, List.mem_singleton, List.not_mem_nil, or_false,
    not_or, not_false_eq_true, List.nodup_nil, and_true] at hnd
  obtain ⟨⟨n01, n02, n03⟩, ⟨n12, n13⟩, n23⟩ := hnd
  have d01 : bs.upSet.getD i0 0 ≠ bs.upSet.getD i1 0 :=
    fun h => n01 (getD_inj_of_nodup hbs.upSet_nodup h0 h1 h)
  have d02 : bs.upSet.getD i0 0 ≠ bs.upSet.getD i2 0 :=
    fun h => n02 (getD_inj_of_nodup hbs.upSet_nodup h0 h2 h)
  have d03 : bs.upSet.getD i0 0 ≠ bs.upSet.getD i3 0 :=
    fun h => n03 (getD_inj_of_nodup hbs.upSet_nodup h0 h3 h)
  have d12 : bs.upSet.getD i1 0 ≠ bs.upSet.getD i2 0 :=
    fun h => n12 (getD_inj_of_nodup hbs.upSet_nodup h1 h2 h)
  have d13 : bs.upSet.getD i1 0 ≠ bs.upSet.getD i3 0 :=
    fun h => n13 (getD_inj_of_nodup hbs.upSet_nodup h1 h3 h)
  have d23 : bs.upSet.getD i2 0 ≠ bs.upSet.getD i3 0 :=
    fun h => n23 (getD_inj_of_nodup hbs.upSet_nodup h2 h3 h)
  unfold layerRows
  generalize bs.upSet.getD i0 0 = a at *
  generalize bs.upSet.getD i1 0 = b at *
  generalize bs.upSet.getD i2 0 = c at *
  generalize bs.upSet.getD i3 0 = d at *
  refine ⟨?_, ?_, ?_, ?_, ?_, ?_⟩
  · intro r hr
    simp only [List.mem_cons, List.mem_singleton, List.not_mem_nil, or_false] at hr
    rcases hr with rfl | rfl | rfl | rfl | rfl | rfl | rfl | rfl
    · exact b0
    · exact b1
    · exact b2
    · exact b3
    · exact bitNot8_mem_balancedBytes b0
    · exact bitNot8_mem_balancedBytes b1
    · exact bitNot8_mem_balancedBytes b2
    · exact bitNot8_mem_balancedBytes b3
  · intro p hp
    exact count_bits_with_complements l0 l1 l2 l3 hp
  · rw [c0, c1, c2, c3]
    exact nodup_upper_with_complements u0 u1 u2 u3 l0 l1 l2 l3 d01 d02 d03 d12 d13 d23
  · intro i hi
    have h : i = 0 ∨ i = 1 ∨ i = 2 ∨ i = 3 := by omega
    rcases h with rfl | rfl | rfl | rfl
    · exact u0
    · exact u1
    · exact u2
    · exact u3
  · intro i hi4 hi8
    have h : i = 4 ∨ i = 5 ∨ i = 6 ∨ i = 7 := by omega
    rcases h with rfl | rfl | rfl | rfl
    · exact lt_of_eq_of_lt c0 (by omega)
    · exact lt_of_eq_of_lt c1 (by omega)
    · exact lt_of_eq_of_lt c2 (by omega)
    · exact lt_of_eq_of_lt c3 (by omega)
  · intro i hi
    have h : i = 0 ∨ i = 1 ∨ i = 2 ∨ i = 3 := by omega
    rcases h with rfl | rfl | rfl | rfl
    · exact ⟨rfl, l0⟩
    · exact ⟨rfl, l1⟩
    · exact ⟨rfl, l2⟩
    · exact ⟨rfl, l3⟩

/-- C8. `generate` returns, and every layer it appended to `validLayers` has 8
rows that are all balanced bytes; for every bit position exactly 4 of the 8
rows have that bit set, whether the position is addressed as column `7 - c` or
as bit position `p`; and `rows[i+4]` is the bitwise complement of `rows[i]` for
`i = 0..3`. -/
theorem validLayers_invariant (mem : Nat → Nat) (rows0 : List Nat)
    (hlen : rows0.length = 8) :
    ∃ g, generate (BalancedSet.construct mem) LayerGenerator.new rows0 = some g
      ∧ ∀ L ∈ g.validLayers,
          L.rows.length = 8
            ∧ (∀ r ∈ L.rows, r < 256 ∧ isBalanced r = true)
            ∧ (∀ c < 8, (L.rows.filter (fun r => r.testBit (7 - c))).length = 4)
            ∧ (∀ p < 8, (L.rows.filter (fun r => r.testBit p)).length = 4)
            ∧ (∀ i < 4, L.rows.getD (i + 4) 0 < 256
                ∧ ∀ p < 8, (L.rows.getD (i + 4) 0).testBit p
                    = !(L.rows.getD i 0).testBit p) := by
  have hbs := goodSet_construct mem
  obtain ⟨g, hg, hv⟩ := generate_spec hbs rows0 hlen
  refine ⟨g, hg, ?_⟩
  intro L hL
  rw [hv, mem_layersFrom_top] at hL
  obtain ⟨i0, i1, i2, i3, h0, h1, h2, h3, hnd, rfl⟩ := hL
  obtain ⟨f1, f2, -, -, -, f6⟩ := layerRows_facts hbs h0 h1 h2 h3 hnd
  rw [(buildLayer_rows (layerRows_length _ _ _ _ _)).1]
  refine ⟨layerRows_length _ _ _ _ _, ?_, ?_, f2, ?_⟩
  · intro r hr
    have hlt := (mem_balancedBytes.mp (f1 r hr)).1
    exact ⟨hlt, (isBalanced_iff_mem hlt).mpr (f1 r hr)⟩
  · intro c _
    exact f2 (7 - c) (by omega)
  · intro i hi
    obtain ⟨e, hlt⟩ := f6 i hi
    rw [e]
    exact ⟨(bitNot8_testBit _ hlt).1, (bitNot8_testBit _ hlt).2.2.2⟩

/-- Witness for C8: from zeroed storage and a zeroed row buffer the generator
returns and every layer it produced has 8 rows. -/
theorem validLayers_invariant_witness :
    ∃ g, generate (BalancedSet.construct (fun _ => 0)) LayerGenerator.new (List.replicate 8 0)
        = some g
      ∧ ∀ L ∈ g.validLayers, L.rows.length = 8 := by
  obtain ⟨g, hg, h⟩ := validLayers_invariant (fun _ => 0) (List.replicate 8 0) rfl
  exact ⟨g, hg, fun L hL => (h L hL).1⟩

/-- C9. `generate` is exhaustive over its restricted search tree: for any four
pairwise distinct upper-set indices, the 8-row layer whose rows 0..3 are the
upper-set values at those indices and whose rows 4..7 are their complements,
all 8 column sums being 4, is the row content of exactly one layer of
`validLayers`. -/
theorem generate_exhaustive (mem : Nat → Nat) (rows0 : List Nat) (i0 i1 i2 i3 : Nat)
    (hlen : rows0.length = 8)
    (h0 : i0 < (BalancedSet.construct mem).upSet.length)
    (h1 : i1 < (BalancedSet.construct mem).upSet.length)
    (h2 : i2 < (BalancedSet.construct mem).upSet.length)
    (h3 : i3 < (BalancedSet.construct mem).upSet.length)
    (hnd : [i0, i1, i2, i3].Nodup)
    (_hsum : ∀ c < 8, ((layerRows (BalancedSet.construct mem).upSet i0 i1 i2 i3).filter
      (fun r => r.testBit c)).length = 4) :
    ∃ g, generate (BalancedSet.construct mem) LayerGenerator.new rows0 = some g
      ∧ (∃ L ∈ g.validLayers, L.rows = layerRows (BalancedSet.construct mem).upSet i0 i1 i2 i3)
      ∧ g.validLayers.countP
          (fun L => L.rows = layerRows (BalancedSet.construct mem).upSet i0 i1 i2 i3) = 1 := by
  have hbs := goodSet_construct mem
  obtain ⟨g, hg, hv⟩ := generate_spec hbs rows0 hlen
  have hrows := (buildLayer_rows (layerRows_length (BalancedSet.construct mem).upSet
    i0 i1 i2 i3)).1
  have hmem : buildLayer (layerRows (BalancedSet.construct mem).upSet i0 i1 i2 i3)
      ∈ g.validLayers := by
    rw [hv, mem_layersFrom_top]
    exact ⟨i0, i1, i2, i3, h0, h1, h2, h3, hnd, rfl⟩
  have hnodup : g.validLayers.Nodup := by
    rw [hv]
    exact layersFrom_nodup hbs.upSet_nodup 4 [] 0 rfl
  refine ⟨g, hg, ⟨_, hmem, hrows⟩, ?_⟩
  have hcongr : g.validLayers.countP
      (fun L => L.rows = layerRows (BalancedSet.construct mem).upSet i0 i1 i2 i3)
      = g.validLayers.count
          (buildLayer (layerRows (BalancedSet.construct mem).upSet i0 i1 i2 i3)) := by
    rw [List.count]
    apply List.countP_congr
    intro L hL
    rw [hv, mem_layersFrom_top] at hL
    obtain ⟨j0, j1, j2, j3, -, -, -, -, -, rfl⟩ := hL
    rw [(buildLayer_rows (layerRows_length _ _ _ _ _)).1]
    simp only [decide_eq_true_eq, beq_iff_eq]
    constructor
    · intro h; rw [h]
    · intro h
      have := congrArg Layer.rows h
      rwa [(buildLayer_rows (layerRows_length _ _ _ _ _)).1, hrows] at this
  rw [hcongr]
  exact List.count_eq_one_of_mem hnodup hmem

/-- Witness for C9 at the upper-set indices 0, 1, 2, 3 (values 240, 232, 228,
226) over zeroed storage: exactly one generated layer has the rows
`240, 232, 228, 226, 15, 23, 27, 29`. -/
theorem generate_exhaustive_witness :
    ∃ g, generate (BalancedSet.construct (fun _ => 0)) LayerGenerator.new (List.replicate 8 0)
        = some g
      ∧ g.validLayers.countP (fun L => L.rows = [240, 232, 228, 226, 15, 23, 27, 29]) = 1 := by
  have hu := upSet_eq (fun _ => 0)
  have hrows : layerRows (BalancedSet.construct (fun _ => 0)).upSet 0 1 2 3
      = [240, 232, 228, 226, 15, 23, 27, 29] := by
    rw [hu]; decide
  obtain ⟨g, hg, -, hc⟩ := generate_exhaustive (fun _ => 0) (List.replicate 8 0) 0 1 2 3 rfl
    (by rw [hu]; decide) (by rw [hu]; decide) (by rw [hu]; decide) (by rw [hu]; decide)
    (by decide) (by rw [hrows]; decide)
  rw [hrows] at hc
  exact ⟨g, hg, hc⟩

/-- C10. The 8 rows of every layer of `validLayers` are pairwise distinct:
rows 0..3 are upper-set values (at least 128) at distinct indices, and rows
4..7, their complements, are all below 128. -/
theorem validLayers_rows_distinct (mem : Nat → Nat) (rows0 : List Nat)
    (hlen : rows0.length = 8) :
    ∃ g, generate (BalancedSet.construct mem) LayerGenerator.new rows0 = some g
      ∧ ∀ L ∈ g.validLayers,
          L.rows.Nodup
            ∧ (∀ i < 4, 128 ≤ L.rows.getD i 0)
            ∧ (∀ i, 4 ≤ i → i < 8 → L.rows.getD i 0 < 128) := by
  have hbs := goodSet_construct mem
  obtain ⟨g, hg, hv⟩ := generate_spec hbs rows0 hlen
  refine ⟨g, hg, ?_⟩
  intro L hL
  rw [hv, mem_layersFrom_top] at hL
  obtain ⟨i0, i1, i2, i3, h0, h1, h2, h3, hnd, rfl⟩ := hL
  obtain ⟨-, -, f3, f4, f5, -⟩ := layerRows_facts hbs h0 h1 h2 h3 hnd
  rw [(buildLayer_rows (layerRows_length _ _ _ _ _)).1]
  exact ⟨f3, f4, f5⟩

/-- Witness for C10: from zeroed storage and a zeroed row buffer the generator
returns and the rows of each of its layers are pairwise distinct. -/
theorem validLayers_rows_distinct_witness :
    ∃ g, generate (BalancedSet.construct (fun _ => 0)) LayerGenerator.new (List.replicate 8 0)
        = some g
      ∧ ∀ L ∈ g.validLayers, L.rows.Nodup := by
  obtain ⟨g, hg, h⟩ := validLayers_rows_distinct (fun _ => 0) (List.replicate 8 0) rfl
  exact ⟨g, hg, fun L hL => (h L hL).1⟩

/-! ## Theorems: layer generator pruning rule -/

/-- C20 fails as stated: on a fresh generator (all counters 0, no row placed)
`canAddRow 240 0` returns `true`, although column 4 (bit 3 of 240 is clear)
would end at count 0 and `0 + (3 - 0) < 4`. -/
theorem canAddRow_not_three_minus_rowIdx :
    canAddRow LayerGenerator.new 240 0 = true
      ∧ ¬ (∀ c < 8,
            LayerGenerator.new.colCounts.getD c 0 + (((240 >>> (7 - c)) &&& 1 : Nat) : Int) ≤ 4
              ∧ LayerGenerator.new.colCounts.getD c 0 + (((240 >>> (7 - c)) &&& 1 : Nat) : Int)
                  + (3 - ((0 : Nat) : Int)) ≥ 4) := by
  refine ⟨by decide, ?_⟩
  intro h
  have := (h 4 (by omega)).2
  revert this
  decide

/-- C20, amended.  For every candidate row, depth `rowIdx` and counter state,
`canAddRow row rowIdx` returns `true` if and only if for every column and
every bit position the running count after adding the row is at most 4 and
that count plus `7 - rowIdx` is at least 4. -/
theorem canAddRow_iff (g : LayerGenerator) (row rowIdx : Nat) :
    canAddRow g row rowIdx = true ↔
      (∀ col < 8,
          g.colCounts.getD col 0 + (((row >>> (7 - col)) &&& 1 : Nat) : Int) ≤ 4
            ∧ g.colCounts.getD col 0 + (((row >>> (7 - col)) &&& 1 : Nat) : Int)
                + (7 - (rowIdx : Int)) ≥ 4)
        ∧ (∀ bitPos < 8,
          g.yAxisCounts.getD bitPos 0 + (((row >>> bitPos) &&& 1 : Nat) : Int) ≤ 4
            ∧ g.yAxisCounts.getD bitPos 0 + (((row >>> bitPos) &&& 1 : Nat) : Int)
                + (7 - (rowIdx : Int)) ≥ 4) := by
  unfold canAddRow
  simp only [Bool.and_eq_true, List.all_eq_true, List.mem_range, Bool.not_eq_true',
    decide_eq_false_iff_not, not_lt, ge_iff_le, gt_iff_lt]

/-! ## Theorems: work partition -/

theorem threadRange_flatMap (chunk n : Nat) :
    ∀ k : Nat, (List.range k).flatMap (threadRange chunk n) = List.range (min (k * chunk) n) := by
  intro k
  induction k with
  | zero => simp
  | succ k ih =>
    rw [List.range_succ, List.flatMap_append, ih, List.flatMap_singleton, threadRange]
    by_cases h : k * chunk ≤ n
    · have h1 : min (k * chunk) n = k * chunk := Nat.min_eq_left h
      rw [h1, List.range_eq_range', List.range_eq_range']
      have h2 : min ((k + 1) * chunk) n = k * chunk + (min (k * chunk + chunk) n - k * chunk) := by
        have : (k + 1) * chunk = k * chunk + chunk := by ring
        rw [this]
        omega
      rw [h2]
      have := List.range'_append 0 (k * chunk) (min (k * chunk + chunk) n - k * chunk) 1
      simp only [Nat.zero_add, Nat.one_mul] at this
      rw [this, Nat.add_comm]
    · have h1 : min (k * chunk) n = n := Nat.min_eq_right (by omega)
      have h2 : min ((k + 1) * chunk) n = n := by
        have : (k + 1) * chunk = k * chunk + chunk := by ring
        rw [this]
        omega
      have h3 : min (k * chunk + chunk) n - k * chunk = 0 := by omega
      rw [h1, h2, h3]
      simp

theorem chunk_mul_ge (n nThreads : Nat) (ht : 1 ≤ nThreads) :
    n ≤ nThreads * ((n + nThreads - 1) / nThreads) := by
  have h := Nat.div_add_mod (n + nThreads - 1) nThreads
  have hm := Nat.mod_lt (n + nThreads - 1) (by omega : nThreads > 0)
  omega

theorem mem_threadRange (chunk n t i : Nat) :
    i ∈ threadRange chunk n t ↔ t * chunk ≤ i ∧ i < min (t * chunk + chunk) n := by
  unfold threadRange
  simp only [List.mem_range'_1]
  omega

/-- C18. For `n ≥ 1` roots and `nThreads ≥ 1`, the chunk size computed by the
code is `ceil(n / nThreads)`; the index ranges
`[t*chunk, min(t*chunk + chunk, n))` of the workers `t = 0..nThreads-1`,
taken in order, concatenate to exactly `0, 1, ..., n-1`, so they are pairwise
disjoint and cover `[0, n)`; the roots explored are the same as with one
thread. -/
theorem chunk_partition (n nThreads : Nat) (hn : 1 ≤ n) (ht : 1 ≤ nThreads) :
    ∃ chunk, chunkSize n nThreads = some chunk
      ∧ (chunk - 1) * nThreads < n ∧ n ≤ chunk * nThreads
      ∧ (∀ t i, i ∈ threadRange chunk n t ↔ t * chunk ≤ i ∧ i < min (t * chunk + chunk) n)
      ∧ (List.range nThreads).flatMap (threadRange chunk n) = List.range n
      ∧ (∀ i, i < n ↔ ∃ t < nThreads, i ∈ threadRange chunk n t)
      ∧ (∀ t1 < nThreads, ∀ t2 < nThreads, t1 ≠ t2 →
          List.Disjoint (threadRange chunk n t1) (threadRange chunk n t2))
      ∧ ∃ chunk1, chunkSize n 1 = some chunk1
          ∧ (List.range 1).flatMap (threadRange chunk1 n)
              = (List.range nThreads).flatMap (threadRange chunk n) := by
  have hge := chunk_mul_ge n nThreads ht
  have hcover : (List.range nThreads).flatMap (threadRange ((n + nThreads - 1) / nThreads) n)
      = List.range n := by
    rw [threadRange_flatMap, Nat.min_eq_right hge]
  refine ⟨(n + nThreads - 1) / nThreads, ?_, ?_, ?_, fun t i => mem_threadRange _ _ _ _,
    hcover, ?_, ?_, ?_⟩
  · unfold chunkSize
    rw [if_neg (by omega)]
  · have hle : (n + nThreads - 1) / nThreads * nThreads ≤ n + nThreads - 1 :=
      Nat.div_mul_le_self _ _
    have hpos : 1 ≤ (n + nThreads - 1) / nThreads := by
      rw [Nat.le_div_iff_mul_le (by omega)]
      omega
    have hsub : ((n + nThreads - 1) / nThreads - 1) * nThreads
        = (n + nThreads - 1) / nThreads * nThreads - nThreads := by
      rw [Nat.sub_mul, Nat.one_mul]
    rw [hsub]
    omega
  · rw [Nat.mul_comm]; exact hge
  · intro i
    rw [← List.mem_range, ← hcover, List.mem_flatMap]
    simp only [List.mem_range]
  · have hnd : ((List.range nThreads).flatMap
        (threadRange ((n + nThreads - 1) / nThreads) n)).Nodup := by
      rw [hcover]; exact List.nodup_range n
    have hpw := (List.nodup_flatMap.mp hnd).2
    intro t1 h1 t2 h2 hne
    rcases Nat.lt_or_gt_of_ne hne with hlt | hgt
    · exact List.pairwise_iff_get.mp hpw ⟨t1, by simpa using h1⟩ ⟨t2, by simpa using h2⟩
        (by simpa using hlt) |> fun h => by simpa using h
    · have := List.pairwise_iff_get.mp hpw ⟨t2, by simpa using h2⟩ ⟨t1, by simpa using h1⟩
        (by simpa using hgt)
      simp only [List.get_eq_getElem, List.getElem_range, Function.onFun] at this
      exact this.symm
  · refine ⟨(n + 1 - 1) / 1, ?_, ?_⟩
    · unfold chunkSize
      rw [if_neg (by omega)]
    · rw [hcover, threadRange_flatMap]
      congr 1
      simp

/-! ## Theorems: persistence-time verification -/

theorem mem_nestedIndices (a b : Nat) : (a, b) ∈ nestedIndices ↔ a < 8 ∧ b < 8 := by
  unfold nestedIndices
  simp only [List.mem_flatMap, List.mem_range, List.mem_map, Prod.mk.injEq]
  constructor
  · rintro ⟨a', ha, b', hb, rfl, rfl⟩; exact ⟨ha, hb⟩
  · rintro ⟨ha, hb⟩; exact ⟨a, ha, b, hb, rfl, rfl⟩

theorem checkLines_fold (lineByte : Nat × Nat → Nat) (failure : Nat × Nat → AxisFailure)
    (l : List (Nat × Nat)) :
    ∀ st : Bool × List AxisFailure,
      l.foldl
          (fun st idx =>
            if !isBalanced (lineByte idx) then (false, st.2 ++ [failure idx]) else st) st
        = (st.1 && l.all (fun idx => isBalanced (lineByte idx)),
            st.2 ++ (l.filter (fun idx => !isBalanced (lineByte idx))).map failure) := by
  induction l with
  | nil => intro st; simp
  | cons i l ih =>
    intro st
    rw [List.foldl_cons, ih]
    cases h : isBalanced (lineByte i) <;> simp [h]

theorem checkLines_valid (lineByte : Nat × Nat → Nat) (failure : Nat × Nat → AxisFailure)
    (st : Bool × List AxisFailure) :
    (checkLines lineByte failure st).1 = true
      ↔ st.1 = true ∧ ∀ a < 8, ∀ b < 8, isBalanced (lineByte (a, b)) = true := by
  unfold checkLines
  rw [checkLines_fold]
  simp only [Bool.and_eq_true, List.all_eq_true]
  constructor
  · rintro ⟨h1, h2⟩
    exact ⟨h1, fun a ha b hb => h2 (a, b) ((mem_nestedIndices a b).mpr ⟨ha, hb⟩)⟩
  · rintro ⟨h1, h2⟩
    refine ⟨h1, ?_⟩
    rintro ⟨a, b⟩ hab
    obtain ⟨ha, hb⟩ := (mem_nestedIndices a b).mp hab
    exact h2 a ha b hb

theorem shift_and_one_ne_zero (x p : Nat) : (x >>> p) &&& 1 ≠ 0 ↔ x.testBit p = true := by
  unfold Nat.testBit
  rw [Nat.and_comm]
  simp

/-- The byte assembled bit by bit in the Y- and Z-axis loops has bit `j` set
exactly when the tested condition holds at `j`. -/
theorem lineFold_testBit (f : Nat → Prop) [DecidablePred f] (k : Nat) (hk : k ≤ 8) :
    (List.range k).foldl (fun acc i => if f i then (acc ||| (1 <<< i)) % 256 else acc) 0 < 256
      ∧ ∀ j, ((List.range k).foldl
          (fun acc i => if f i then (acc ||| (1 <<< i)) % 256 else acc) 0).testBit j
          = (decide (j < k) && decide (f j)) := by
  induction k with
  | zero =>
    refine ⟨by simp, fun j => ?_⟩
    simp
  | succ k ih =>
    obtain ⟨hlt, hbit⟩ := ih (by omega)
    rw [List.range_succ, List.foldl_append]
    simp only [List.foldl_cons, List.foldl_nil]
    generalize (List.range k).foldl
      (fun acc i => if f i then (acc ||| (1 <<< i)) % 256 else acc) 0 = A at hlt hbit ⊢
    by_cases hf : f k
    · rw [if_pos hf]
      refine ⟨Nat.mod_lt _ (by omega), fun j => ?_⟩
      have h256 : (256 : Nat) = 2 ^ 8 := rfl
      rw [h256, Nat.testBit_mod_two_pow, Nat.testBit_or, hbit j, Nat.one_shiftLeft,
        Nat.testBit_two_pow]
      by_cases hjk : j = k
      · subst hjk
        have : j < 8 := by omega
        simp [this, hf]
      · have hkj : ¬ k = j := fun e => hjk e.symm
        by_cases hj : j < k
        · have h1 : j < k + 1 := by omega
          have h2 : j < 8 := by omega
          simp [hj, h1, h2, hkj]
        · have h1 : ¬ j < k + 1 := by omega
          simp [hj, h1, hkj]
    · rw [if_neg hf]
      refine ⟨hlt, fun j => ?_⟩
      rw [hbit j]
      by_cases hjk : j = k
      · subst hjk
        simp [hf]
      · by_cases hj : j < k
        · have h1 : j < k + 1 := by omega
          simp [hj, h1]
        · have h1 : ¬ j < k + 1 := by omega
          simp [hj, h1]

theorem lineFold_balanced (f : Nat → Prop) [DecidablePred f] :
    isBalanced ((List.range 8).foldl
        (fun acc i => if f i then (acc ||| (1 <<< i)) % 256 else acc) 0) = true
      ↔ ((List.range 8).filter (fun i => decide (f i))).length = 4 := by
  obtain ⟨hlt, hbit⟩ := lineFold_testBit f 8 (le_refl 8)
  rw [isBalanced_iff_popcount8 hlt, popcount8]
  have : (List.range 8).filter (fun i => ((List.range 8).foldl
      (fun acc i => if f i then (acc ||| (1 <<< i)) % 256 else acc) 0).testBit i)
      = (List.range 8).filter (fun i => decide (f i)) := by
    apply List.filter_congr
    intro j hj
    rw [hbit j]
    simp [List.mem_range.mp hj]
  rw [this]

set_option maxRecDepth 100000 in
theorem builtinPopcount_byte : ∀ v < 256, builtinPopcount v = popcount8 v := by
  decide

theorem foldl_add_const (g : Nat × Nat → Nat) (c : Nat) (l : List (Nat × Nat))
    (h : ∀ idx ∈ l, g idx = c) :
    ∀ t0 : Nat, l.foldl (fun total idx => total + g idx) t0 = t0 + l.length * c := by
  induction l with
  | nil => intro t0; simp
  | cons i l ih =>
    intro t0
    rw [List.foldl_cons, ih (fun idx hidx => h idx (List.mem_cons_of_mem _ hidx)),
      h i (List.mem_cons_self _ _), List.length_cons]
    ring

theorem nestedIndices_length : nestedIndices.length = 64 := by
  decide

theorem totalOnes_of_XBalanced {cube : Cube} (hb : cube.IsBytes) (hx : XBalanced cube)
    (id : Nat) : (saveToDisk cube id).totalOnes = 256 := by
  show nestedIndices.foldl
    (fun total idx => total + builtinPopcount (cube.cell idx.1 idx.2)) 0 = 256
  rw [foldl_add_const _ 4, nestedIndices_length]
  rintro ⟨a, b⟩ hab
  obtain ⟨ha, hb'⟩ := (mem_nestedIndices a b).mp hab
  show builtinPopcount (cube.cell a b) = 4
  rw [builtinPopcount_byte _ (hb a ha b hb')]
  exact hx a ha b hb'

theorem yLineByte_balanced (cube : Cube) (z p : Nat) :
    isBalanced (yLineByte cube z p) = true
      ↔ ((List.range 8).filter (fun y => (cube.cell z y).testBit p)).length = 4 := by
  unfold yLineByte
  rw [lineFold_balanced (fun y => (cube.cell z y >>> p) &&& 1 ≠ 0)]
  have : (List.range 8).filter (fun y => decide ((cube.cell z y >>> p) &&& 1 ≠ 0))
      = (List.range 8).filter (fun y => (cube.cell z y).testBit p) := by
    apply List.filter_congr
    intro y _
    by_cases h : (cube.cell z y).testBit p = true
    · rw [h, decide_eq_true ((shift_and_one_ne_zero _ _).mpr h)]
    · rw [Bool.not_eq_true] at h
      rw [h, decide_eq_false]
      intro hne
      have := (shift_and_one_ne_zero _ _).mp hne
      rw [h] at this
      exact absurd this (by decide)
  rw [this]

theorem zLineByte_balanced (cube : Cube) (y x : Nat) :
    isBalanced (zLineByte cube y x) = true
      ↔ ((List.range 8).filter (fun z => (cube.cell z y).testBit (7 - x))).length = 4 := by
  unfold zLineByte
  rw [lineFold_balanced (fun z => (cube.cell z y >>> (7 - x)) &&& 1 ≠ 0)]
  have : (List.range 8).filter (fun z => decide ((cube.cell z y >>> (7 - x)) &&& 1 ≠ 0))
      = (List.range 8).filter (fun z => (cube.cell z y).testBit (7 - x)) := by
    apply List.filter_congr
    intro z _
    by_cases h : (cube.cell z y).testBit (7 - x) = true
    · rw [h, decide_eq_true ((shift_and_one_ne_zero _ _).mpr h)]
    · rw [Bool.not_eq_true] at h
      rw [h, decide_eq_false]
      intro hne
      have := (shift_and_one_ne_zero _ _).mp hne
      rw [h] at this
      exact absurd this (by decide)
  rw [this]

/-- The flag `allAxesValid` at the end of `saveToDisk` is the conjunction of
the three axis checks. -/
theorem saveToDisk_allAxesValid {cube : Cube} (hb : cube.IsBytes) (id : Nat) :
    (saveToDisk cube id).xAxisShown = true
      ↔ XBalanced cube ∧ YBalanced cube ∧ ZBalanced cube := by
  show (checkLines (fun idx => zLineByte cube idx.1 idx.2)
      (fun idx => AxisFailure.zAxis idx.1 idx.2)
      (checkLines (fun idx => yLineByte cube idx.1 idx.2)
        (fun idx => AxisFailure.yAxis idx.1 idx.2)
        (checkLines (fun idx => cube.cell idx.1 idx.2)
          (fun idx => AxisFailure.xAxis idx.1 idx.2) (true, [])))).1 = true ↔ _
  rw [checkLines_valid, checkLines_valid, checkLines_valid]
  simp only [true_and, and_assoc]
  have hX : (∀ a < 8, ∀ b < 8, isBalanced (cube.cell a b) = true) ↔ XBalanced cube := by
    unfold XBalanced
    constructor
    · intro h z hz y hy
      exact (isBalanced_iff_popcount8 (hb z hz y hy)).mp (h z hz y hy)
    · intro h z hz y hy
      exact (isBalanced_iff_popcount8 (hb z hz y hy)).mpr (h z hz y hy)
  have hY : (∀ a < 8, ∀ b < 8, isBalanced (yLineByte cube a b) = true) ↔ YBalanced cube := by
    unfold YBalanced
    constructor
    · intro h z hz p hp
      exact (yLineByte_balanced cube z p).mp (h z hz p hp)
    · intro h z hz p hp
      exact (yLineByte_balanced cube z p).mpr (h z hz p hp)
  have hZ : (∀ a < 8, ∀ b < 8, isBalanced (zLineByte cube a b) = true) ↔ ZBalanced cube := by
    unfold ZBalanced
    constructor
    · intro h y hy p hp
      have := (zLineByte_balanced cube y (7 - p)).mp (h y hy (7 - p) (by omega))
      have e : 7 - (7 - p) = p := by omega
      rwa [e] at this
    · intro h y hy x hx
      exact (zLineByte_balanced cube y x).mpr (h y hy (7 - x) (by omega))
  rw [hX, hY, hZ]

theorem saveToDisk_verdict {cube : Cube} (hb : cube.IsBytes) (id : Nat) :
    (saveToDisk cube id).verdictPerfect = true
      ↔ XBalanced cube ∧ YBalanced cube ∧ ZBalanced cube := by
  have hv : (saveToDisk cube id).verdictPerfect
      = ((saveToDisk cube id).xAxisShown && (saveToDisk cube id).totalOnes == 256) := rfl
  rw [hv, Bool.and_eq_true, saveToDisk_allAxesValid hb id]
  constructor
  · exact fun h => h.1
  · intro h
    refine ⟨h, ?_⟩
    rw [totalOnes_of_XBalanced hb h.1 id]
    rfl

/-! ## Theorems: shift-set searcher invariants -/

theorem SearchStep.stay (pool : List ShiftSet) (setIdx : Nat) (run : SearchRun) :
    SearchStep pool setIdx run run :=
  ⟨rfl, rfl, rfl, rfl, rfl, rfl, le_refl _, [], by simp, by simp, by simp⟩

theorem SearchStep.seq {pool : List ShiftSet} {setIdx : Nat} {a b c : SearchRun}
    (h1 : SearchStep pool setIdx a b) (h2 : SearchStep pool setIdx b c) :
    SearchStep pool setIdx a c := by
  obtain ⟨n1, s1, c1, a1⟩ := h1.saved
  obtain ⟨n2, s2, c2, a2⟩ := h2.saved
  refine ⟨h2.used.trans h1.used, h2.cubeLen.trans h1.cubeLen, h2.cubeTake.trans h1.cubeTake,
    h2.paths.trans h1.paths, h2.stop.trans h1.stop, h2.perms.trans h1.perms,
    le_trans h1.checked h2.checked, n1 ++ n2, ?_, ?_, ?_⟩
  · rw [s2, s1, List.append_assoc]
  · rw [c2, c1, List.length_append]; omega
  · intro e he
    rcases List.mem_append.mp he with h | h
    · exact a1 e h
    · obtain ⟨x1, x2, x3, x4⟩ := a2 e h
      exact ⟨x1, x2.trans h1.cubeTake, x3, x4⟩

theorem searchRecursive_succ (bs : BalancedSet) (fuel : Nat) (fixedSet : ShiftSet)
    (setIdx : Nat) (run : SearchRun) :
    searchRecursive bs (fuel + 1) fixedSet setIdx run
      = if setIdx = 8 then some (acceptCube run)
        else searchCandidates (fun r => searchRecursive bs fuel fixedSet (setIdx + 1) r) setIdx
          (usedBitsetOf run.usedNumbers) bs.filteredShiftSets run := rfl

theorem acceptCube_step (pool : List ShiftSet) (run : SearchRun)
    (hlen : run.currentCube.length = 8) : SearchStep pool 8 run (acceptCube run) := by
  unfold acceptCube
  by_cases hv : validateZAxis run.currentCube = true
  · simp only [hv, Bool.not_true, Bool.false_eq_true, if_false]
    refine ⟨rfl, rfl, rfl, ?_, ?_, ?_, le_refl _, [(run.currentCube,
      run.searcher.foundCubeCount + 1)], ?_, ?_, ?_⟩
    · by_cases h1 : run.searcher.foundCubeCount + 1 = 1 <;> simp [h1]
    · by_cases h1 : run.searcher.foundCubeCount + 1 = 1 <;> simp [h1]
    · by_cases h1 : run.searcher.foundCubeCount + 1 = 1 <;> simp [h1]
    · by_cases h1 : run.searcher.foundCubeCount + 1 = 1 <;> simp [h1]
    · by_cases h1 : run.searcher.foundCubeCount + 1 = 1 <;> simp [h1]
    · intro e he
      rw [List.mem_singleton] at he
      subst he
      exact ⟨hlen, rfl, fun k h1 h2 => absurd h1 (by omega), hv⟩
  · simp only [hv, Bool.not_false, if_true]
    exact SearchStep.stay pool 8 run

theorem take_set_same (l : List ShiftSet) (k : Nat) (x : ShiftSet) :
    (l.set k x).take k = l.take k := by
  induction l generalizing k with
  | nil => simp
  | cons a l ih =>
    cases k with
    | zero => simp
    | succ k => simp [ih k]

theorem take_of_take_succ_eq {l₁ l₂ : List ShiftSet} {k : Nat}
    (h : l₁.take (k + 1) = l₂.take (k + 1)) : l₁.take k = l₂.take k := by
  have h1 := congrArg (List.take k) h
  rw [List.take_take, List.take_take] at h1
  have hmin : min k (k + 1) = k := by omega
  rwa [hmin] at h1

theorem getD_of_take_succ_eq {l₁ l₂ : List ShiftSet} {k : Nat}
    (h : l₁.take (k + 1) = l₂.take (k + 1)) :
    l₁.getD k ShiftSet.zero = l₂.getD k ShiftSet.zero := by
  have h1 := congrArg (fun l => l.getD k ShiftSet.zero) h
  simp only [List.getD_eq_getElem?_getD, List.getElem?_take] at h1
  simpa using h1

theorem getD_set_self (l : List ShiftSet) (k : Nat) (x : ShiftSet) (hk : k < l.length) :
    (l.set k x).getD k ShiftSet.zero = x := by
  simp [List.getD_eq_getElem?_getD, List.getElem?_set, hk]

/-- One full iteration of the candidate loop that places `candidate` and
recurses, seen from depth `setIdx`. -/
theorem place_step {pool : List ShiftSet} {setIdx : Nat} {run run3 : SearchRun}
    {candidate : ShiftSet} (hc : candidate ∈ pool) (hk : setIdx < run.currentCube.length)
    (h : SearchStep pool (setIdx + 1)
      { run with
        localChecked := run.localChecked + 1
        currentCube := run.currentCube.set setIdx candidate
        usedNumbers := run.usedNumbers ++ [candidate.base] } run3) :
    SearchStep pool setIdx run { run3 with usedNumbers := run3.usedNumbers.dropLast } := by
  obtain ⟨new, s1, c1, a1⟩ := h.saved
  refine ⟨?_, ?_, ?_, h.paths, h.stop, h.perms, ?_, new, s1, c1, ?_⟩
  · show run3.usedNumbers.dropLast = run.usedNumbers
    rw [h.used]
    simp
  · show run3.currentCube.length = run.currentCube.length
    rw [h.cubeLen]
    simp
  · show run3.currentCube.take setIdx = run.currentCube.take setIdx
    rw [take_of_take_succ_eq h.cubeTake]
    exact take_set_same _ _ _
  · have := h.checked
    show run.localChecked ≤ run3.localChecked
    simp only at this
    omega
  · intro e he
    obtain ⟨x1, x2, x3, x4⟩ := a1 e he
    refine ⟨x1, ?_, ?_, x4⟩
    · rw [take_of_take_succ_eq x2]
      exact take_set_same _ _ _
    · intro k h1 h2
      by_cases hks : k = setIdx
      · subst hks
        rw [getD_of_take_succ_eq x2]
        show (run.currentCube.set k candidate).getD k ShiftSet.zero ∈ pool
        rw [getD_set_self _ _ _ hk]
        exact hc
      · exact x3 k (by omega) h2

theorem checked_step (pool : List ShiftSet) (setIdx : Nat) (run : SearchRun) :
    SearchStep pool setIdx run { run with localChecked := run.localChecked + 1 } :=
  ⟨rfl, rfl, rfl, rfl, rfl, rfl, Nat.le_succ _, [], by simp, by simp, by simp⟩

/-- The candidate loop returns and is a `SearchStep`, provided the recursive
call one level down does. -/
theorem searchCandidates_step {pool : List ShiftSet} {setIdx usedBitset : Nat}
    {recur : SearchRun → Option SearchRun} (hidx : setIdx < 8)
    (hrec : ∀ r : SearchRun, r.currentCube.length = 8 →
      ∃ r', recur r = some r' ∧ SearchStep pool (setIdx + 1) r r') :
    ∀ (cands : List ShiftSet), (∀ c ∈ cands, c ∈ pool) →
      ∀ run : SearchRun, run.currentCube.length = 8 →
        ∃ run', searchCandidates recur setIdx usedBitset cands run = some run'
          ∧ SearchStep pool setIdx run run' := by
  intro cands
  induction cands with
  | nil =>
    intro _ run _
    exact ⟨run, rfl, SearchStep.stay _ _ _⟩
  | cons candidate rest ih =>
    intro hin run hlen
    have hrest : ∀ c ∈ rest, c ∈ pool := fun c hc => hin c (List.mem_cons_of_mem _ hc)
    unfold searchCandidates
    by_cases hstop : (run.searcher.firstCubeFound && run.searcher.shouldStop) = true
    · rw [if_pos hstop]
      exact ⟨run, rfl, SearchStep.stay _ _ _⟩
    · rw [if_neg hstop]
      by_cases hused : alreadyUsed usedBitset run.usedNumbers candidate.base = true
      · simp only [hused, if_true]
        obtain ⟨run', h1, h2⟩ := ih hrest { run with localChecked := run.localChecked + 1 } hlen
        exact ⟨run', h1, (checked_step pool setIdx run).seq h2⟩
      · simp only [hused, if_false]
        obtain ⟨r3, hr3, hstep⟩ := hrec
          { run with
            localChecked := run.localChecked + 1
            currentCube := run.currentCube.set setIdx candidate
            usedNumbers := run.usedNumbers ++ [candidate.base] }
          (by simp [hlen])
        simp only [hr3]
        have hplace := place_step (hin candidate (List.mem_cons_self _ _))
          (by omega : setIdx < run.currentCube.length) hstep
        obtain ⟨run', h1, h2⟩ := ih hrest
          { r3 with usedNumbers := r3.usedNumbers.dropLast }
          (by show r3.currentCube.length = 8; rw [hstep.cubeLen]; simp [hlen])
        exact ⟨run', h1, hplace.seq h2⟩

/-- With enough fuel `searchRecursive` returns, and the call is a
`SearchStep` over the filtered pool. -/
theorem searchRecursive_step (bs : BalancedSet) (fixedSet : ShiftSet) :
    ∀ (d fuel setIdx : Nat) (run : SearchRun), setIdx + d = 8 → d < fuel →
      run.currentCube.length = 8 →
      ∃ run', searchRecursive bs fuel fixedSet setIdx run = some run'
        ∧ SearchStep bs.filteredShiftSets setIdx run run' := by
  intro d
  induction d with
  | zero =>
    intro fuel setIdx run hd hfuel hlen
    obtain ⟨f, rfl⟩ : ∃ f, fuel = f + 1 := ⟨fuel - 1, by omega⟩
    have h8 : setIdx = 8 := by omega
    subst h8
    rw [searchRecursive_succ, if_pos rfl]
    exact ⟨_, rfl, acceptCube_step _ run hlen⟩
  | succ d ih =>
    intro fuel setIdx run hd hfuel hlen
    obtain ⟨f, rfl⟩ : ∃ f, fuel = f + 1 := ⟨fuel - 1, by omega⟩
    rw [searchRecursive_succ, if_neg (by omega)]
    exact searchCandidates_step (by omega)
      (fun r hr => ih f (setIdx + 1) r (by omega) (by omega) hr)
      bs.filteredShiftSets (fun c hc => hc) run hlen

theorem SearcherStep.keep (pool : List ShiftSet) (s : CubeSearcherV2) :
    SearcherStep pool s s :=
  ⟨rfl, rfl, rfl, [], by simp, by simp, by simp⟩

theorem SearcherStep.chain {pool : List ShiftSet} {a b c : CubeSearcherV2}
    (h1 : SearcherStep pool a b) (h2 : SearcherStep pool b c) : SearcherStep pool a c := by
  obtain ⟨n1, s1, c1, a1⟩ := h1.saved
  obtain ⟨n2, s2, c2, a2⟩ := h2.saved
  refine ⟨h2.paths.trans h1.paths, h2.stop.trans h1.stop, h2.perms.trans h1.perms,
    n1 ++ n2, ?_, ?_, ?_⟩
  · rw [s2, s1, List.append_assoc]
  · rw [c2, c1, List.length_append]; omega
  · intro e he
    rcases List.mem_append.mp he with h | h
    · exact a1 e h
    · exact a2 e h

theorem getD_mem_pool {pool : List ShiftSet} {i : Nat} (h : i < pool.length) :
    pool.getD i ShiftSet.zero ∈ pool := by
  rw [List.getD_eq_getElem?_getD, List.getElem?_eq_getElem h, Option.getD_some]
  exact List.getElem_mem _

/-- One root of the root loop, seen from the searcher. -/
theorem root_step {pool : List ShiftSet} {fixedSet : ShiftSet} (hf : fixedSet ∈ pool)
    {s : CubeSearcherV2} {lc : Nat} {run1 : SearchRun}
    (h : SearchStep pool 1
      { searcher := s, usedNumbers := [fixedSet.base],
        currentCube := (List.replicate 8 ShiftSet.zero).set 0 fixedSet, localChecked := lc }
      run1) :
    SearcherStep pool s run1.searcher := by
  obtain ⟨new, s1, c1, a1⟩ := h.saved
  refine ⟨h.paths, h.stop, h.perms, new, s1, c1, ?_⟩
  intro e he
  obtain ⟨x1, x2, x3, x4⟩ := a1 e he
  refine ⟨x1, rfl, ?_, x4⟩
  intro k _ hk
  by_cases hk0 : k = 0
  · subst hk0
    have e0 : e.1.getD 0 ShiftSet.zero = fixedSet := by
      have := getD_of_take_succ_eq (k := 0) x2
      rw [this]
      rfl
    rw [e0]
    exact hf
  · exact x3 k (by omega) hk

/-- The root loop returns; it is a `SearcherStep` and `totalLocalChecked` only
grows. -/
theorem searchRoots_step (bs : BalancedSet) :
    ∀ (roots : List Nat), (∀ i ∈ roots, i < bs.filteredShiftSets.length) →
      ∀ st : RootState,
        ∃ st', searchRoots bs roots st = some st'
          ∧ SearcherStep bs.filteredShiftSets st.searcher st'.searcher
          ∧ st.totalLocalChecked ≤ st'.totalLocalChecked := by
  intro roots
  induction roots with
  | nil =>
    intro _ st
    exact ⟨st, rfl, SearcherStep.keep _ _, le_refl _⟩
  | cons i rest ih =>
    intro hin st
    have hrest : ∀ j ∈ rest, j < bs.filteredShiftSets.length :=
      fun j hj => hin j (List.mem_cons_of_mem _ hj)
    unfold searchRoots
    by_cases hstop : (st.searcher.firstCubeFound && st.searcher.shouldStop) = true
    · rw [if_pos hstop]
      exact ⟨st, rfl, SearcherStep.keep _ _, le_refl _⟩
    · rw [if_neg hstop]
      obtain ⟨run1, hr, hstep⟩ := searchRecursive_step bs
        (bs.filteredShiftSets.getD i ShiftSet.zero) 7 8 1
        { searcher := st.searcher
          usedNumbers := [(bs.filteredShiftSets.getD i ShiftSet.zero).base]
          currentCube := (List.replicate 8 ShiftSet.zero).set 0
            (bs.filteredShiftSets.getD i ShiftSet.zero)
          localChecked := st.localChecked }
        rfl (by omega) (by simp)
      simp only [hr]
      have h1 := root_step (getD_mem_pool (hin i (List.mem_cons_self _ _))) hstep
      obtain ⟨st', h2, h3, h4⟩ := ih hrest
        { searcher := run1.searcher
          totalLocalChecked := st.totalLocalChecked + run1.localChecked
          localChecked := 0 }
      refine ⟨st', h2, h1.chain h3, ?_⟩
      simp only at h4
      omega

theorem searchWorkers_step (bs : BalancedSet) (chunk : Nat) :
    ∀ (ts : List Nat) (st : CubeSearcherV2 × Nat),
      ∃ st', ts.foldlM (searchWorker bs chunk) st = some st'
        ∧ SearcherStep bs.filteredShiftSets st.1 st'.1 ∧ st.2 ≤ st'.2 := by
  intro ts
  induction ts with
  | nil =>
    intro st
    exact ⟨st, rfl, SearcherStep.keep _ _, le_refl _⟩
  | cons t rest ih =>
    intro st
    obtain ⟨r, h1, h2, h3⟩ := searchRoots_step bs
      (threadRange chunk bs.filteredShiftSets.length t)
      (fun i hi => by
        have := (mem_threadRange _ _ _ _).mp hi
        omega)
      { searcher := st.1, totalLocalChecked := st.2, localChecked := 0 }
    have hw : searchWorker bs chunk st t = some (r.searcher, r.totalLocalChecked) := by
      unfold searchWorker
      rw [h1]
      rfl
    obtain ⟨st', h4, h5, h6⟩ := ih (r.searcher, r.totalLocalChecked)
    refine ⟨st', ?_, h2.chain h5, le_trans h3 h6⟩
    rw [List.foldlM_cons, hw]
    exact h4

theorem search_eq (bs : BalancedSet) (nThreads : Nat) (findOnlyFirst : Bool)
    (s : CubeSearcherV2) (hn : bs.filteredShiftSets.length ≠ 0) (ht : nThreads ≠ 0) :
    search bs nThreads findOnlyFirst s
      = (List.range nThreads).foldlM
          (searchWorker bs ((bs.filteredShiftSets.length + nThreads - 1) / nThreads))
          (configured bs findOnlyFirst s, 0) := by
  unfold search chunkSize configured
  rw [if_neg hn, if_neg ht]

/-- For every thread count `>= 1` and either mode, `search` returns; it never
writes `totalPathsChecked`, and every stack it passes to `saveResult` is made
of 8 sets of the filtered pool and passes `validateZAxis`. -/
theorem search_step (bs : BalancedSet) (nThreads : Nat) (findOnlyFirst : Bool)
    (s : CubeSearcherV2) (ht : nThreads ≠ 0) :
    ∃ s' total, search bs nThreads findOnlyFirst s = some (s', total)
      ∧ s'.totalPathsChecked = s.totalPathsChecked
      ∧ ∃ new : List (List ShiftSet × Nat),
          s'.saved = s.saved ++ new
            ∧ s'.foundCubeCount = s.foundCubeCount + new.length
            ∧ ∀ e ∈ new, AcceptedFrom bs.filteredShiftSets 0 [] e.1 := by
  by_cases hn : bs.filteredShiftSets.length = 0
  · refine ⟨s, 0, ?_, rfl, [], by simp, by simp, by simp⟩
    unfold search
    rw [if_pos hn]
  · rw [search_eq bs nThreads findOnlyFirst s hn ht]
    obtain ⟨st', h1, h2, -⟩ := searchWorkers_step bs
      ((bs.filteredShiftSets.length + nThreads - 1) / nThreads) (List.range nThreads)
      (configured bs findOnlyFirst s, 0)
    refine ⟨st'.1, st'.2, h1, ?_, ?_⟩
    · rw [h2.paths]
      unfold configured
      cases findOnlyFirst <;> rfl
    · obtain ⟨new, e1, e2, e3⟩ := h2.saved
      refine ⟨new, ?_, ?_, e3⟩
      · rw [e1]
        unfold configured
        cases findOnlyFirst <;> rfl
      · rw [e2]
        unfold configured
        cases findOnlyFirst <;> rfl

theorem searchCandidates_stopped (recur : SearchRun → Option SearchRun)
    (setIdx usedBitset : Nat) (cands : List ShiftSet) (run : SearchRun)
    (hf : run.searcher.firstCubeFound = true) (hs : run.searcher.shouldStop = true) :
    searchCandidates recur setIdx usedBitset cands run = some run := by
  cases cands with
  | nil => rfl
  | cons c rest =>
    unfold searchCandidates
    rw [hf, hs]
    rfl

theorem searchRoots_stopped (bs : BalancedSet) (roots : List Nat) (st : RootState)
    (hf : st.searcher.firstCubeFound = true) (hs : st.searcher.shouldStop = true) :
    searchRoots bs roots st = some st := by
  cases roots with
  | nil => rfl
  | cons i rest =>
    unfold searchRoots
    rw [hf, hs]
    rfl

theorem acceptCube_fresh (run : SearchRun) (h : Fresh run.searcher) :
    Fresh (acceptCube run).searcher ∨ Done (acceptCube run).searcher := by
  obtain ⟨h1, h2, h3⟩ := h
  unfold acceptCube
  by_cases hv : validateZAxis run.currentCube = true
  · right
    simp only [hv, Bool.not_true, Bool.false_eq_true, if_false, h2, h3]
    exact ⟨rfl, rfl, rfl⟩
  · left
    simp only [hv, Bool.not_false, if_true]
    exact ⟨h1, h2, h3⟩

/-- With the stop flag set, a candidate loop entered before any acceptance
returns with either none or exactly one accepted cube. -/
theorem searchCandidates_fresh {setIdx usedBitset : Nat}
    {recur : SearchRun → Option SearchRun}
    (hrec : ∀ r : SearchRun, r.searcher.shouldStop = true → Fresh r.searcher →
      ∃ r', recur r = some r' ∧ r'.searcher.shouldStop = true
        ∧ (Fresh r'.searcher ∨ Done r'.searcher)) :
    ∀ (cands : List ShiftSet) (run : SearchRun), run.searcher.shouldStop = true →
      Fresh run.searcher →
      ∃ run', searchCandidates recur setIdx usedBitset cands run = some run'
        ∧ run'.searcher.shouldStop = true
        ∧ (Fresh run'.searcher ∨ Done run'.searcher) := by
  intro cands
  induction cands with
  | nil =>
    intro run hs hf
    exact ⟨run, rfl, hs, Or.inl hf⟩
  | cons c rest ih =>
    intro run hs hf
    unfold searchCandidates
    rw [hf.1]
    simp only [Bool.false_and, Bool.false_eq_true, if_false]
    by_cases hu : alreadyUsed usedBitset run.usedNumbers c.base = true
    · rw [if_pos hu]
      exact ih { run with localChecked := run.localChecked + 1 } hs hf
    · rw [if_neg hu]
      obtain ⟨r3, e1, e2, e3⟩ := hrec
        { run with
          localChecked := run.localChecked + 1
          currentCube := run.currentCube.set setIdx c
          usedNumbers := run.usedNumbers ++ [c.base] } hs hf
      rw [e1]
      rcases e3 with e3 | e3
      · exact ih { r3 with usedNumbers := r3.usedNumbers.dropLast } e2 e3
      · refine ⟨{ r3 with usedNumbers := r3.usedNumbers.dropLast }, ?_, e2, Or.inr e3⟩
        exact searchCandidates_stopped recur setIdx usedBitset rest _ e3.1 e2

theorem searchRecursive_fresh (bs : BalancedSet) (fixedSet : ShiftSet) :
    ∀ (d fuel setIdx : Nat) (run : SearchRun), setIdx + d = 8 → d < fuel →
      run.searcher.shouldStop = true → Fresh run.searcher →
      ∃ run', searchRecursive bs fuel fixedSet setIdx run = some run'
        ∧ run'.searcher.shouldStop = true
        ∧ (Fresh run'.searcher ∨ Done run'.searcher) := by
  intro d
  induction d with
  | zero =>
    intro fuel setIdx run h8 hfuel hs hf
    obtain ⟨f, rfl⟩ : ∃ f, fuel = f + 1 := ⟨fuel - 1, by omega⟩
    have h : setIdx = 8 := by omega
    rw [searchRecursive_succ, if_pos h]
    refine ⟨acceptCube run, rfl, ?_, acceptCube_fresh run hf⟩
    unfold acceptCube
    by_cases hv : validateZAxis run.currentCube = true
    · simp only [hv, Bool.not_true, Bool.false_eq_true, if_false]
      by_cases h1 : run.searcher.foundCubeCount + 1 = 1 <;> simp [h1, hs]
    · simp only [hv, Bool.not_false, if_true]
      exact hs
  | succ d ih =>
    intro fuel setIdx run h8 hfuel hs hf
    obtain ⟨f, rfl⟩ : ∃ f, fuel = f + 1 := ⟨fuel - 1, by omega⟩
    have h : setIdx ≠ 8 := by omega
    rw [searchRecursive_succ, if_neg h]
    exact searchCandidates_fresh
      (fun r h1 h2 => ih f (setIdx + 1) r (by omega) (by omega) h1 h2)
      bs.filteredShiftSets run hs hf

theorem searchRoots_fresh (bs : BalancedSet) :
    ∀ (roots : List Nat) (st : RootState), st.searcher.shouldStop = true →
      Fresh st.searcher →
      ∃ st', searchRoots bs roots st = some st' ∧ st'.searcher.shouldStop = true
        ∧ (Fresh st'.searcher ∨ Done st'.searcher) := by
  intro roots
  induction roots with
  | nil =>
    intro st hs hf
    exact ⟨st, rfl, hs, Or.inl hf⟩
  | cons i rest ih =>
    intro st hs hf
    unfold searchRoots
    rw [hf.1]
    simp only [Bool.false_and, Bool.false_eq_true, if_false]
    obtain ⟨r1, e1, e2, e3⟩ := searchRecursive_fresh bs
      (bs.filteredShiftSets.getD i ShiftSet.zero) 7 8 1
      { searcher := st.searcher
        usedNumbers := [(bs.filteredShiftSets.getD i ShiftSet.zero).base]
        currentCube := (List.replicate 8 ShiftSet.zero).set 0
          (bs.filteredShiftSets.getD i ShiftSet.zero)
        localChecked := st.localChecked } rfl (by omega) hs hf
    rw [e1]
    rcases e3 with e3 | e3
    · exact ih _ e2 e3
    · exact ⟨_, searchRoots_stopped bs rest _ e3.1 e2, e2, Or.inr e3⟩

/-- A single-worker find-first search from a new searcher ends with none or
exactly one accepted cube. -/
theorem search_first_fresh (bs : BalancedSet) :
    ∃ s' total, search bs 1 true CubeSearcherV2.new = some (s', total)
      ∧ (Fresh s' ∨ Done s') := by
  by_cases hn : bs.filteredShiftSets.length = 0
  · refine ⟨CubeSearcherV2.new, 0, ?_, Or.inl ⟨rfl, rfl, rfl⟩⟩
    unfold search
    rw [if_pos hn]
  · rw [search_eq bs 1 true _ hn (by decide)]
    obtain ⟨st', e1, -, e3⟩ := searchRoots_fresh bs
      (threadRange ((bs.filteredShiftSets.length + 1 - 1) / 1) bs.filteredShiftSets.length 0)
      { searcher := configured bs true CubeSearcherV2.new, totalLocalChecked := 0,
        localChecked := 0 } rfl ⟨rfl, rfl, rfl⟩
    refine ⟨st'.searcher, st'.totalLocalChecked, ?_, e3⟩
    show (searchWorker bs _ (configured bs true CubeSearcherV2.new, 0) 0).bind _ = _
    unfold searchWorker
    rw [e1]
    rfl

theorem take_set_place (l : List ShiftSet) (k : Nat) (x : ShiftSet) (hk : k < l.length) :
    (l.set k x).take (k + 1) = l.take k ++ [x] := by
  induction l generalizing k with
  | nil => simp at hk
  | cons a l ih =>
    cases k with
    | zero => simp
    | succ k =>
      simp only [List.length_cons, Nat.add_lt_add_iff_right] at hk
      simp [ih k hk]

/-- Find-all mode: the candidate loop appends to `saved`, in order, the stacks
of `sequencesFrom` for each candidate that is not flagged as used. -/
theorem searchCandidates_all {pool : List ShiftSet} {setIdx d : Nat}
    {recur : SearchRun → Option SearchRun} {U : List Nat} {P : List ShiftSet}
    (hidx : setIdx < 8)
    (hrec : ∀ r r' : SearchRun, r.searcher.shouldStop = false → r.currentCube.length = 8 →
      recur r = some r' →
      SearchStep pool (setIdx + 1) r r'
        ∧ r'.searcher.saved.map Prod.fst
            = r.searcher.saved.map Prod.fst
              ++ sequencesFrom pool d r.usedNumbers (r.currentCube.take (setIdx + 1))) :
    ∀ (cands : List ShiftSet) (run run' : SearchRun), run.searcher.shouldStop = false →
      run.currentCube.length = 8 → run.usedNumbers = U → run.currentCube.take setIdx = P →
      searchCandidates recur setIdx (usedBitsetOf U) cands run = some run' →
      run'.searcher.saved.map Prod.fst
        = run.searcher.saved.map Prod.fst
          ++ cands.flatMap (fun c =>
              if alreadyUsed (usedBitsetOf U) U c.base then []
              else sequencesFrom pool d (U ++ [c.base]) (P ++ [c])) := by
  intro cands
  induction cands with
  | nil =>
    intro run run' hs hl hu hp h
    simp only [searchCandidates, Option.some.injEq] at h
    subst h
    simp
  | cons c rest ih =>
    intro run run' hs hl hu hp h
    unfold searchCandidates at h
    rw [hs] at h
    simp only [Bool.and_false, Bool.false_eq_true, if_false] at h
    rw [List.flatMap_cons]
    by_cases hused : alreadyUsed (usedBitsetOf U) run.usedNumbers c.base = true
    · rw [if_pos hused] at h
      rw [hu] at hused
      rw [if_pos hused, List.nil_append]
      exact ih { run with localChecked := run.localChecked + 1 } run' hs hl hu hp h
    · rw [if_neg hused] at h
      rw [hu] at hused
      rw [if_neg hused]
      cases hr : recur { run with
          localChecked := run.localChecked + 1
          currentCube := run.currentCube.set setIdx c
          usedNumbers := run.usedNumbers ++ [c.base] } with
      | none =>
        simp [hr] at h
      | some r3 =>
        simp only [hr] at h
        obtain ⟨st, cf⟩ := hrec { run with
          localChecked := run.localChecked + 1
          currentCube := run.currentCube.set setIdx c
          usedNumbers := run.usedNumbers ++ [c.base] } r3 hs (by simp [hl]) hr
        have h3 := ih { r3 with usedNumbers := r3.usedNumbers.dropLast } run'
          (st.stop.trans hs) (st.cubeLen.trans (by simp [hl]))
          (by
            show r3.usedNumbers.dropLast = U
            rw [st.used]
            simp [hu])
          (by
            show r3.currentCube.take setIdx = P
            rw [take_of_take_succ_eq st.cubeTake]
            exact (take_set_same _ _ _).trans hp)
          h
        rw [h3]
        show r3.searcher.saved.map Prod.fst ++ _ = _
        rw [cf]
        show (run.searcher.saved.map Prod.fst
          ++ sequencesFrom pool d (run.usedNumbers ++ [c.base])
              ((run.currentCube.set setIdx c).take (setIdx + 1))) ++ _ = _
        rw [take_set_place _ _ _ (by omega), hp, hu, List.append_assoc]

theorem acceptCube_saved (run : SearchRun) :
    (acceptCube run).searcher.saved.map Prod.fst
      = run.searcher.saved.map Prod.fst
        ++ (if validateZAxis run.currentCube then [run.currentCube] else []) := by
  unfold acceptCube
  by_cases hv : validateZAxis run.currentCube = true
  · simp only [hv, Bool.not_true, Bool.false_eq_true, if_false, if_true]
    by_cases h1 : run.searcher.foundCubeCount + 1 = 1 <;> simp [h1]
  · simp [hv]

/-- Find-all mode: a call of `searchRecursive` at depth `setIdx` appends to
`saved` exactly the stacks of `sequencesFrom` below the current prefix. -/
theorem searchRecursive_all (bs : BalancedSet) (fixedSet : ShiftSet) :
    ∀ (d fuel setIdx : Nat) (run run' : SearchRun), setIdx + d = 8 → d < fuel →
      run.searcher.shouldStop = false → run.currentCube.length = 8 →
      searchRecursive bs fuel fixedSet setIdx run = some run' →
      run'.searcher.saved.map Prod.fst
        = run.searcher.saved.map Prod.fst
          ++ sequencesFrom bs.filteredShiftSets d run.usedNumbers
              (run.currentCube.take setIdx) := by
  intro d
  induction d with
  | zero =>
    intro fuel setIdx run run' h8 hfuel hs hl h
    obtain ⟨f, rfl⟩ : ∃ f, fuel = f + 1 := ⟨fuel - 1, by omega⟩
    have h0 : setIdx = 8 := by omega
    rw [searchRecursive_succ, if_pos h0, Option.some.injEq] at h
    subst h
    rw [acceptCube_saved, h0, List.take_of_length_le (by omega)]
    rfl
  | succ d ih =>
    intro fuel setIdx run run' h8 hfuel hs hl h
    obtain ⟨f, rfl⟩ : ∃ f, fuel = f + 1 := ⟨fuel - 1, by omega⟩
    have h0 : setIdx ≠ 8 := by omega
    rw [searchRecursive_succ, if_neg h0] at h
    exact searchCandidates_all (by omega)
      (fun r r' h1 h2 h3 => by
        obtain ⟨r'', e1, e2⟩ := searchRecursive_step bs fixedSet d f (setIdx + 1) r
          (by omega) (by omega) h2
        have e3 : r'' = r' := Option.some.inj (e1.symm.trans h3)
        subst e3
        exact ⟨e2, ih f (setIdx + 1) r r'' (by omega) (by omega) h1 h2 h3⟩)
      bs.filteredShiftSets run run' hs hl rfl rfl h

theorem searchRoots_all (bs : BalancedSet) :
    ∀ (roots : List Nat), (∀ i ∈ roots, i < bs.filteredShiftSets.length) →
      ∀ st st' : RootState, st.searcher.shouldStop = false →
      searchRoots bs roots st = some st' →
      st'.searcher.saved.map Prod.fst
        = st.searcher.saved.map Prod.fst
          ++ roots.flatMap (fun i =>
              sequencesFrom bs.filteredShiftSets 7
                [(bs.filteredShiftSets.getD i ShiftSet.zero).base]
                [bs.filteredShiftSets.getD i ShiftSet.zero]) := by
  intro roots
  induction roots with
  | nil =>
    intro _ st st' hs h
    simp only [searchRoots, Option.some.injEq] at h
    subst h
    simp
  | cons i rest ih =>
    intro hmem st st' hs h
    unfold searchRoots at h
    rw [hs] at h
    simp only [Bool.and_false, Bool.false_eq_true, if_false] at h
    obtain ⟨r1, e1, e2⟩ := searchRecursive_step bs
      (bs.filteredShiftSets.getD i ShiftSet.zero) 7 8 1
      { searcher := st.searcher
        usedNumbers := [(bs.filteredShiftSets.getD i ShiftSet.zero).base]
        currentCube := (List.replicate 8 ShiftSet.zero).set 0
          (bs.filteredShiftSets.getD i ShiftSet.zero)
        localChecked := st.localChecked } rfl (by omega) rfl
    have e3 := searchRecursive_all bs (bs.filteredShiftSets.getD i ShiftSet.zero) 7 8 1
      { searcher := st.searcher
        usedNumbers := [(bs.filteredShiftSets.getD i ShiftSet.zero).base]
        currentCube := (List.replicate 8 ShiftSet.zero).set 0
          (bs.filteredShiftSets.getD i ShiftSet.zero)
        localChecked := st.localChecked } r1 rfl (by omega) hs rfl e1
    rw [e1] at h
    have e4 := ih (fun j hj => hmem j (List.mem_cons_of_mem _ hj)) _ st'
      (e2.stop.trans hs) h
    rw [e4, List.flatMap_cons, ← List.append_assoc]
    congr 1

theorem threadRange_single (n : Nat) : threadRange ((n + 1 - 1) / 1) n 0 = List.range n := by
  unfold threadRange
  simp [List.range_eq_range']

/-- A single-worker find-all search from a new searcher returns, and the
stacks it passes to `saveResult` are, in order, those of `sequencesFrom` for
each root. -/
theorem search_all (bs : BalancedSet) (hn : bs.filteredShiftSets.length ≠ 0) :
    ∃ s' total, search bs 1 false CubeSearcherV2.new = some (s', total)
      ∧ s'.saved.map Prod.fst
          = (List.range bs.filteredShiftSets.length).flatMap (fun i =>
              sequencesFrom bs.filteredShiftSets 7
                [(bs.filteredShiftSets.getD i ShiftSet.zero).base]
                [bs.filteredShiftSets.getD i ShiftSet.zero]) := by
  rw [search_eq bs 1 false _ hn (by decide)]
  obtain ⟨st', e1, -, -⟩ := searchRoots_step bs
    (threadRange ((bs.filteredShiftSets.length + 1 - 1) / 1) bs.filteredShiftSets.length 0)
    (fun i hi => by
      have := (mem_threadRange _ _ _ _).mp hi
      omega)
    { searcher := configured bs false CubeSearcherV2.new, totalLocalChecked := 0,
      localChecked := 0 }
  have e2 := searchRoots_all bs _
    (fun i hi => by
      have := (mem_threadRange _ _ _ _).mp hi
      omega) _ st' rfl e1
  rw [threadRange_single] at e2
  refine ⟨st'.searcher, st'.totalLocalChecked, ?_, e2⟩
  show (searchWorker bs _ (configured bs false CubeSearcherV2.new, 0) 0).bind _ = _
  unfold searchWorker
  rw [e1]
  rfl

set_option maxRecDepth 100000 in
theorem filteredShiftSets_eq (mem : Nat → Nat) :
    (BalancedSet.construct mem).filteredShiftSets = filteredBases.map mkShiftSet := by
  rw [construct_filteredShiftSets, balancedBytes_eq]
  decide

theorem mem_sequencesFrom_zero (pool : List ShiftSet) (used : List Nat) (pre : List ShiftSet)
    (h : validateZAxis pre = true) : pre ∈ sequencesFrom pool 0 used pre := by
  simp [sequencesFrom, h]

theorem mem_sequencesFrom_succ {pool : List ShiftSet} {d : Nat} {used : List Nat}
    {pre x : List ShiftSet} (c : ShiftSet) (hc : c ∈ pool)
    (hu : alreadyUsed (usedBitsetOf used) used c.base = false)
    (hx : x ∈ sequencesFrom pool d (used ++ [c.base]) (pre ++ [c])) :
    x ∈ sequencesFrom pool (d + 1) used pre := by
  rw [sequencesFrom, List.mem_flatMap]
  exact ⟨c, hc, by rw [hu]; exact hx⟩

set_option maxRecDepth 100000 in
theorem twoOrbitStack_found :
    twoOrbitStack ∈ sequencesFrom (filteredBases.map mkShiftSet) 7 [23] [mkShiftSet 23] := by
  refine mem_sequencesFrom_succ (mkShiftSet 232) (by decide) (by decide) ?_
  refine mem_sequencesFrom_succ (mkShiftSet 46) (by decide) (by decide) ?_
  refine mem_sequencesFrom_succ (mkShiftSet 209) (by decide) (by decide) ?_
  refine mem_sequencesFrom_succ (mkShiftSet 92) (by decide) (by decide) ?_
  refine mem_sequencesFrom_succ (mkShiftSet 163) (by decide) (by decide) ?_
  refine mem_sequencesFrom_succ (mkShiftSet 184) (by decide) (by decide) ?_
  refine mem_sequencesFrom_succ (mkShiftSet 71) (by decide) (by decide) ?_
  exact mem_sequencesFrom_zero _ _ _ (by decide)

/-- Membership in the result list of a single-worker find-all search, from
membership below one root. -/
theorem search_all_mem (mem : Nat → Nat) (i : Nat) (hi : i < filteredBases.length)
    (x : List ShiftSet)
    (hx : x ∈ sequencesFrom (filteredBases.map mkShiftSet) 7
      [filteredBases.getD i 0] [mkShiftSet (filteredBases.getD i 0)]) :
    ∃ s' total, search (BalancedSet.construct mem) 1 false CubeSearcherV2.new = some (s', total)
      ∧ x ∈ s'.saved.map Prod.fst := by
  obtain ⟨s', total, h1, h2⟩ := search_all (BalancedSet.construct mem)
    (by rw [filteredShiftSets_eq]; decide)
  refine ⟨s', total, h1, ?_⟩
  rw [h2, filteredShiftSets_eq, List.mem_flatMap]
  refine ⟨i, by simpa using hi, ?_⟩
  have hg : (filteredBases.map mkShiftSet).getD i ShiftSet.zero
      = mkShiftSet (filteredBases.getD i 0) := by
    simp [List.getD_eq_getElem?_getD, List.getElem?_map, List.getElem?_eq_getElem hi]
  rw [hg]
  exact hx

theorem cell_stackCube (stack : List ShiftSet) (z y : Nat) :
    (stackCube stack).cell z y = (stack.getD z ShiftSet.zero).values.getD y 0 := by
  unfold stackCube Cube.cell
  by_cases hz : z < stack.length
  · simp [List.getD_eq_getElem?_getD, List.getElem?_map, List.getElem?_eq_getElem hz]
  · have e1 : (stack.map (·.values)).getD z [] = [] :=
      List.getD_eq_default _ _ (by simpa using hz)
    have e2 : stack.getD z ShiftSet.zero = ShiftSet.zero :=
      List.getD_eq_default _ _ (by omega)
    rw [e1, e2]
    show (0 : Nat) = (List.replicate 8 0).getD y 0
    rw [List.getD_eq_getElem?_getD, List.getElem?_replicate]
    split <;> rfl

set_option maxRecDepth 100000 in
theorem orbit_ylines : ∀ b ∈ balancedBytes, ∀ p < 8,
    ((List.range 8).filter (fun y => ((rotationFill 8 b).getD y 0).testBit p)).length = 4 := by
  rw [balancedBytes_eq]
  decide

theorem shift_and_one_eq (x p : Nat) : (x >>> p) &&& 1 = if x.testBit p then 1 else 0 := by
  have h := shift_and_one_ne_zero x p
  have hle : (x >>> p) &&& 1 ≤ 1 := Nat.and_le_right
  by_cases hb : x.testBit p = true
  · rw [if_pos hb]
    have := h.mpr hb
    omega
  · rw [if_neg hb]
    by_contra hne
    exact hb (h.mp hne)

theorem bitSum_eq_count (g : Nat → Nat) (p : Nat) (l : List Nat) :
    ∀ c0 : Nat, l.foldl (fun c i => c + ((g i >>> p) &&& 1)) c0
      = c0 + (l.filter (fun i => (g i).testBit p)).length := by
  induction l with
  | nil => intro c0; rfl
  | cons a l ih =>
    intro c0
    rw [List.foldl_cons, ih, shift_and_one_eq, List.filter_cons]
    by_cases hb : (g a).testBit p = true
    · simp only [hb, if_true, List.length_cons]
      omega
    · simp only [hb, if_false, Bool.false_eq_true]
      omega

theorem validateZAxis_iff (stack : List ShiftSet) :
    validateZAxis stack = true ↔ ZBalanced (stackCube stack) := by
  unfold validateZAxis ZBalanced
  simp only [List.all_eq_true, List.mem_range, beq_iff_eq]
  constructor
  · intro h y hy p hp
    have := h y hy p hp
    rw [bitSum_eq_count (fun layer => (stack.getD layer ShiftSet.zero).values.getD y 0) p,
      Nat.zero_add] at this
    rw [← this]
    congr 1
    apply List.filter_congr
    intro z _
    rw [cell_stackCube]
  · intro h y hy p hp
    rw [bitSum_eq_count (fun layer => (stack.getD layer ShiftSet.zero).values.getD y 0) p,
      Nat.zero_add, ← h y hy p hp]
    congr 1
    apply List.filter_congr
    intro z _
    rw [cell_stackCube]

theorem totalOnes_of_X {c : Cube} (hx : XBalanced c) : c.totalOnes = 256 := by
  unfold Cube.totalOnes Cube.rowValues
  rw [List.map_map]
  have h : ∀ idx ∈ nestedIndices,
      (popcount8 ∘ fun idx : Nat × Nat => c.cell idx.1 idx.2) idx = 4 := by
    rintro ⟨a, b⟩ hab
    obtain ⟨ha, hb⟩ := (mem_nestedIndices a b).mp hab
    exact hx a ha b hb
  rw [List.map_congr_left h, List.map_const', List.sum_replicate, nestedIndices_length]
  rfl

/-- A stack of 8 records of `filteredShiftSets` that passes `validateZAxis`
has all 192 lines balanced and 256 set bits. -/
theorem accepted_balanced (mem : Nat → Nat) (stack : List ShiftSet)
    (h : AcceptedFrom (BalancedSet.construct mem).filteredShiftSets 0 [] stack) :
    XBalanced (stackCube stack) ∧ YBalanced (stackCube stack) ∧ ZBalanced (stackCube stack)
      ∧ (stackCube stack).totalOnes = 256 := by
  obtain ⟨-, -, hpool, hz⟩ := h
  have hrec : ∀ z < 8, ∃ b, b ∈ balancedBytes ∧ isValidShiftSet b = true
      ∧ stack.getD z ShiftSet.zero = mkShiftSet b := by
    intro z hz8
    have h1 := hpool z (Nat.zero_le _) hz8
    rw [construct_filteredShiftSets] at h1
    have h2 := (List.mem_filter.mp h1).1
    obtain ⟨b, hb, e⟩ := List.mem_map.mp h2
    exact ⟨b, (List.mem_filter.mp hb).1, (List.mem_filter.mp hb).2, e.symm⟩
  have hX : XBalanced (stackCube stack) := by
    intro z hz8 y hy
    obtain ⟨b, hb, hv, e⟩ := hrec z hz8
    rw [cell_stackCube, e]
    obtain ⟨hl, -, -, -, hbal, -⟩ := rotation_orbit_facts b hb hv
    have hm : (mkShiftSet b).values.getD y 0 ∈ rotationFill 8 b := by
      show (rotationFill 8 b).getD y 0 ∈ rotationFill 8 b
      rw [List.getD_eq_getElem _ _ (by omega)]
      exact List.getElem_mem _
    exact (hbal _ hm).2
  refine ⟨hX, ?_, (validateZAxis_iff stack).mp hz, totalOnes_of_X hX⟩
  intro z hz8 p hp
  obtain ⟨b, hb, -, e⟩ := hrec z hz8
  rw [← orbit_ylines b hb p hp]
  congr 1
  apply List.filter_congr
  intro y _
  rw [cell_stackCube, e]
  rfl

/-! ## Theorems: layer assembler invariants -/

theorem range_three : List.range 3 = [0, 1, 2] := rfl
theorem range_four : List.range 4 = [0, 1, 2, 3] := rfl
theorem range_eight : List.range 8 = [0, 1, 2, 3, 4, 5, 6, 7] := rfl

theorem materialiseCube_data (bs : BalancedSet) (rows : List (List Nat)) (cand : Layer) :
    (materialiseCube bs rows cand).data
      = [rows.getD 0 [], rows.getD 1 [], rows.getD 2 [], cand.rows,
         complementRows bs cand.rows, complementRows bs (rows.getD 2 []),
         complementRows bs (rows.getD 1 []), complementRows bs (rows.getD 0 [])] := by
  unfold materialiseCube complementRows
  simp only [range_three, range_four, range_eight, List.foldl_cons, List.foldl_nil,
    List.replicate, List.set_cons_zero, List.set_cons_succ, List.getD_cons_zero,
    List.getD_cons_succ, List.map_cons, List.map_nil, Nat.reduceSub]

theorem cell_materialiseCube (bs : BalancedSet) (rows : List (List Nat)) (cand : Layer)
    (L : Nat → List Nat) (h0 : L 0 = rows.getD 0 []) (h1 : L 1 = rows.getD 1 [])
    (h2 : L 2 = rows.getD 2 []) (h3 : L 3 = cand.rows) :
    ∀ z < 4, ∀ y < 8,
      (materialiseCube bs rows cand).cell z y = (L z).getD y 0
        ∧ (materialiseCube bs rows cand).cell (7 - z) y = bs.getComplement ((L z).getD y 0) := by
  intro z hz y hy
  unfold Cube.cell
  rw [materialiseCube_data, ← h0, ← h1, ← h2, ← h3]
  unfold complementRows
  rw [range_eight]
  interval_cases z <;> interval_cases y <;> exact ⟨rfl, rfl⟩

theorem filter_getD_range (q : Nat → Bool) (rows : List Nat) (h : rows.length = 8) :
    ((List.range 8).filter (fun y => q (rows.getD y 0))).length = (rows.filter q).length := by
  have e : rows = (List.range 8).map (fun y => rows.getD y 0) := by
    apply List.ext_getElem
    · simp [h]
    · intro n h1 h2
      simp [List.getD_eq_getElem?_getD, List.getElem?_eq_getElem h1]
  conv_rhs => rw [e, List.filter_map, List.length_map]
  rfl

theorem filter_not_length (q : Nat → Bool) (l : List Nat) :
    (l.filter (fun x => !q x)).length + (l.filter q).length = l.length := by
  induction l with
  | nil => rfl
  | cons a l ih =>
    rw [List.filter_cons, List.filter_cons]
    cases q a <;> simp <;> omega

/-- A cube materialised from four layers that satisfy the Layer invariants has
all 192 lines balanced and 256 set bits. -/
theorem materialiseCube_balanced (mem : Nat → Nat) (rows : List (List Nat)) (cand : Layer)
    (hA : RowsInv (rows.getD 0 [])) (hB : RowsInv (rows.getD 1 []))
    (hC : RowsInv (rows.getD 2 [])) (hD : RowsInv cand.rows) :
    XBalanced (materialiseCube (BalancedSet.construct mem) rows cand)
      ∧ YBalanced (materialiseCube (BalancedSet.construct mem) rows cand)
      ∧ ZBalanced (materialiseCube (BalancedSet.construct mem) rows cand)
      ∧ (materialiseCube (BalancedSet.construct mem) rows cand).totalOnes = 256 := by
  obtain ⟨L, h0, h1, h2, h3⟩ : ∃ L : Nat → List Nat, L 0 = rows.getD 0 [] ∧ L 1 = rows.getD 1 []
      ∧ L 2 = rows.getD 2 [] ∧ L 3 = cand.rows :=
    ⟨fun z => if z = 0 then rows.getD 0 [] else if z = 1 then rows.getD 1 []
      else if z = 2 then rows.getD 2 [] else cand.rows, rfl, rfl, rfl, rfl⟩
  have hL : ∀ z < 4, RowsInv (L z) := by
    intro z hz
    interval_cases z
    · rw [h0]; exact hA
    · rw [h1]; exact hB
    · rw [h2]; exact hC
    · rw [h3]; exact hD
  have hcell := cell_materialiseCube (BalancedSet.construct mem) rows cand L h0 h1 h2 h3
  generalize materialiseCube (BalancedSet.construct mem) rows cand = cube at hcell ⊢
  have hmem : ∀ z < 4, ∀ y < 8, (L z).getD y 0 ∈ balancedBytes := by
    intro z hz y hy
    obtain ⟨hl, hb, -⟩ := hL z hz
    apply hb
    rw [List.getD_eq_getElem _ _ (by omega)]
    exact List.getElem_mem _
  have hlow : ∀ z < 4, ∀ y < 8, cube.cell z y = (L z).getD y 0 :=
    fun z hz y hy => (hcell z hz y hy).1
  have hhigh : ∀ z < 4, ∀ y < 8, cube.cell (7 - z) y = bitNot8 ((L z).getD y 0) := by
    intro z hz y hy
    rw [(hcell z hz y hy).2]
    exact getComplement_balanced mem (hmem z hz y hy)
  have hX : XBalanced cube := by
    intro z hz y hy
    by_cases h4 : z < 4
    · rw [hlow z h4 y hy]
      exact (mem_balancedBytes.mp (hmem z h4 y hy)).2
    · obtain ⟨k, hk, rfl⟩ : ∃ k, k < 4 ∧ z = 7 - k := ⟨7 - z, by omega, by omega⟩
      rw [hhigh k hk y hy]
      exact (mem_balancedBytes.mp (bitNot8_mem_balancedBytes (hmem k hk y hy))).2
  refine ⟨hX, ?_, ?_, totalOnes_of_X hX⟩
  · intro z hz p hp
    by_cases h4 : z < 4
    · obtain ⟨hl, -, hy4⟩ := hL z h4
      rw [← hy4 p hp, ← filter_getD_range (fun r => r.testBit p) (L z) hl]
      congr 1
      apply List.filter_congr
      intro y hy
      rw [hlow z h4 y (List.mem_range.mp hy)]
    · obtain ⟨k, hk, rfl⟩ : ∃ k, k < 4 ∧ z = 7 - k := ⟨7 - z, by omega, by omega⟩
      obtain ⟨hl, -, hy4⟩ := hL k hk
      have e : (List.range 8).filter (fun y => (cube.cell (7 - k) y).testBit p)
          = (List.range 8).filter (fun y => !((L k).getD y 0).testBit p) := by
        apply List.filter_congr
        intro y hy
        have hy8 := List.mem_range.mp hy
        rw [hhigh k hk y hy8]
        exact (bitNot8_testBit _ (mem_balancedBytes.mp (hmem k hk y hy8)).1).2.2.2 p hp
      rw [e]
      have e1 := filter_getD_range (fun r => !r.testBit p) (L k) hl
      have e2 := filter_not_length (fun r => r.testBit p) (L k)
      have e3 := hy4 p hp
      simp only at e1
      omega
  · intro y hy p hp
    have e : (List.range 8).filter (fun z => (cube.cell z y).testBit p)
        = (List.range 8).filter (fun z =>
            [((L 0).getD y 0).testBit p, ((L 1).getD y 0).testBit p,
             ((L 2).getD y 0).testBit p, ((L 3).getD y 0).testBit p,
             !((L 3).getD y 0).testBit p, !((L 2).getD y 0).testBit p,
             !((L 1).getD y 0).testBit p, !((L 0).getD y 0).testBit p].getD z false) := by
      apply List.filter_congr
      intro z hz
      have hz8 := List.mem_range.mp hz
      have hnot : ∀ k < 4, (cube.cell (7 - k) y).testBit p = !((L k).getD y 0).testBit p := by
        intro k hk
        rw [hhigh k hk y hy]
        exact (bitNot8_testBit _ (mem_balancedBytes.mp (hmem k hk y hy)).1).2.2.2 p hp
      interval_cases z
      · rw [hlow 0 (by omega) y hy]; rfl
      · rw [hlow 1 (by omega) y hy]; rfl
      · rw [hlow 2 (by omega) y hy]; rfl
      · rw [hlow 3 (by omega) y hy]; rfl
      · exact hnot 3 (by omega)
      · exact hnot 2 (by omega)
      · exact hnot 1 (by omega)
      · exact hnot 0 (by omega)
    rw [e]
    generalize ((L 0).getD y 0).testBit p = b0
    generalize ((L 1).getD y 0).testBit p = b1
    generalize ((L 2).getD y 0).testBit p = b2
    generalize ((L 3).getD y 0).testBit p = b3
    cases b0 <;> cases b1 <;> cases b2 <;> cases b3 <;> rfl

theorem AsmStep.idle (bs : BalancedSet) (layers : List Layer) (currentZ : Nat)
    (run : AssemblerRun) : AsmStep bs layers currentZ run run :=
  ⟨rfl, fun _ _ => rfl, rfl, le_refl _, [], by simp, by simp, by simp⟩

theorem AsmStep.next {bs : BalancedSet} {layers : List Layer} {currentZ : Nat}
    {a b c : AssemblerRun} (h1 : AsmStep bs layers currentZ a b)
    (h2 : AsmStep bs layers currentZ b c) : AsmStep bs layers currentZ a c := by
  obtain ⟨n1, s1, c1, a1⟩ := h1.saved
  obtain ⟨n2, s2, c2, a2⟩ := h2.saved
  refine ⟨h2.rowsLen.trans h1.rowsLen, fun z hz => (h2.rowsKeep z hz).trans (h1.rowsKeep z hz),
    h2.paths.trans h1.paths, le_trans h1.checked h2.checked, n1 ++ n2, ?_, ?_, ?_⟩
  · rw [s2, s1, List.append_assoc]
  · rw [c2, c1, List.length_append]; omega
  · intro e he
    rcases List.mem_append.mp he with h | h
    · exact a1 e h
    · exact a2 e h

theorem RowsFrom.step {bs : BalancedSet} {layers : List Layer} {currentZ : Nat}
    {a b : AssemblerRun} (h : RowsFrom layers currentZ a) (hs : AsmStep bs layers currentZ a b) :
    RowsFrom layers currentZ b :=
  ⟨hs.rowsLen.trans h.1, fun z hz => by rw [hs.rowsKeep z hz]; exact h.2 z hz⟩

theorem layerAt_mem (layers : List Layer) (i : Nat) (h : i < layers.length) :
    layerAt layers i ∈ layers := by
  unfold layerAt
  rw [List.getD_eq_getElem _ _ h]
  exact List.getElem_mem _

theorem lookupStep_step (bs : BalancedSet) (layers : List Layer)
    (layerStartIdx targetMatrix : Nat) (currentCubeMask : List Nat) (run : AssemblerRun)
    (idx : Nat) (hidx : idx < layers.length) (hr : RowsFrom layers 3 run) :
    AsmStep bs layers 3 run
      (lookupStep bs layers layerStartIdx targetMatrix currentCubeMask run idx) := by
  unfold lookupStep
  by_cases h1 : idx < layerStartIdx
  · rw [if_pos h1]
    exact AsmStep.idle _ _ _ _
  · rw [if_neg h1]
    have hchk : AsmStep bs layers 3 run { run with localChecked := run.localChecked + 1 } :=
      ⟨rfl, fun _ _ => rfl, rfl, Nat.le_succ _, [], by simp, by simp, by simp⟩
    by_cases h2 : (layerAt layers idx).bitMatrix ≠ targetMatrix
    · simp only [h2, if_true, ne_eq, not_false_eq_true]
      exact hchk
    · by_cases h3 : maskCollision (layerAt layers idx).numMask currentCubeMask = true
      · simp only [h2, if_false, h3, if_true]
        exact hchk
      · simp only [h2, if_false, h3, Bool.false_eq_true]
        refine ⟨rfl, fun _ _ => rfl, rfl, Nat.le_succ _,
          [(materialiseCube bs run.currentCubeRows (layerAt layers idx),
            run.assembler.foundCount + 1)], rfl, rfl, ?_⟩
        intro e he
        rw [List.mem_singleton] at he
        subst he
        exact ⟨run.currentCubeRows, layerAt layers idx, rfl, layerAt_mem layers idx hidx, hr.2⟩

theorem lookupFold_step (bs : BalancedSet) (layers : List Layer)
    (layerStartIdx targetMatrix : Nat) (currentCubeMask : List Nat) :
    ∀ (idxs : List Nat), (∀ i ∈ idxs, i < layers.length) →
      ∀ run : AssemblerRun, RowsFrom layers 3 run →
        AsmStep bs layers 3 run
          (idxs.foldl (lookupStep bs layers layerStartIdx targetMatrix currentCubeMask) run) := by
  intro idxs
  induction idxs with
  | nil =>
    intro _ run _
    exact AsmStep.idle _ _ _ _
  | cons i rest ih =>
    intro hmem run hr
    have h1 := lookupStep_step bs layers layerStartIdx targetMatrix currentCubeMask run i
      (hmem i (List.mem_cons_self _ _)) hr
    exact h1.next (ih (fun j hj => hmem j (List.mem_cons_of_mem _ hj)) _ (hr.step h1))

theorem searchWithLookup_succ (bs : BalancedSet) (layers : List Layer)
    (lookup : List (List Nat)) (fuel layerStartIdx currentZ : Nat)
    (zCounts currentCubeMask : List Nat) (run : AssemblerRun) :
    searchWithLookup bs layers lookup (fuel + 1) layerStartIdx currentZ zCounts currentCubeMask run
      = if currentZ = 3 then
          some ((lookup.getD
              ((2 ^ 64 - 1 - (zCounts.getD 0 0 ||| zCounts.getD 1 0) % 2 ^ 64) % 256) []).foldl
            (lookupStep bs layers layerStartIdx
              (2 ^ 64 - 1 - (zCounts.getD 0 0 ||| zCounts.getD 1 0) % 2 ^ 64) currentCubeMask) run)
        else
          (List.range' layerStartIdx (layers.length - layerStartIdx)).foldlM
            (fun (cur : AssemblerRun) i =>
              if zCounts.getD 2 0 &&& (layerAt layers i).bitMatrix ≠ 0 then some cur
              else if maskCollision (layerAt layers i).numMask currentCubeMask then some cur
              else
                searchWithLookup bs layers lookup fuel (i + 1) (currentZ + 1)
                  [zCounts.getD 0 0 ^^^ (layerAt layers i).bitMatrix,
                   zCounts.getD 1 0 ^^^ (zCounts.getD 0 0 &&& (layerAt layers i).bitMatrix),
                   zCounts.getD 2 0
                     ||| (zCounts.getD 1 0 &&& (zCounts.getD 0 0 &&& (layerAt layers i).bitMatrix))]
                  ((List.range 4).map fun m =>
                    currentCubeMask.getD m 0 ||| (layerAt layers i).numMask.getD m 0)
                  { cur with
                    localChecked := cur.localChecked + 1
                    currentCubeRows := cur.currentCubeRows.set currentZ (layerAt layers i).rows })
            run := rfl

/-- Placing a layer at depth `currentZ` and searching below it, seen from
depth `currentZ`. -/
theorem placeLayer_step {bs : BalancedSet} {layers : List Layer} {currentZ : Nat}
    {cur r : AssemblerRun} (rows : List Nat)
    (h : AsmStep bs layers (currentZ + 1)
      { cur with
        localChecked := cur.localChecked + 1
        currentCubeRows := cur.currentCubeRows.set currentZ rows } r) :
    AsmStep bs layers currentZ cur r := by
  refine ⟨?_, ?_, h.paths, ?_, h.saved⟩
  · rw [h.rowsLen]
    simp
  · intro z hz
    rw [h.rowsKeep z (by omega)]
    show (cur.currentCubeRows.set currentZ rows).getD z [] = _
    simp only [List.getD_eq_getElem?_getD]
    rw [List.getElem?_set_ne (by omega)]
  · have := h.checked
    simp only at this
    omega

theorem RowsFrom.place {layers : List Layer} {currentZ : Nat} {cur : AssemblerRun}
    (h : RowsFrom layers currentZ cur) (hz : currentZ < 3) (L : Layer) (hL : L ∈ layers) :
    RowsFrom layers (currentZ + 1)
      { cur with
        localChecked := cur.localChecked + 1
        currentCubeRows := cur.currentCubeRows.set currentZ L.rows } := by
  refine ⟨by simp [h.1], ?_⟩
  intro z hz1
  show ∃ L0 ∈ layers, (cur.currentCubeRows.set currentZ L.rows).getD z [] = L0.rows
  by_cases e : z = currentZ
  · subst e
    refine ⟨L, hL, ?_⟩
    simp only [List.getD_eq_getElem?_getD]
    rw [List.getElem?_set_self (by rw [h.1]; omega)]
    rfl
  · obtain ⟨L0, h0, h1⟩ := h.2 z (by omega)
    refine ⟨L0, h0, ?_⟩
    rw [← h1]
    simp only [List.getD_eq_getElem?_getD]
    rw [List.getElem?_set_ne (by omega)]

/-- With a lookup table that only holds valid indices, `searchWithLookup`
returns (three nested calls are the deepest it goes) and is an `AsmStep`. -/
theorem searchWithLookup_step (bs : BalancedSet) (layers : List Layer)
    (lookup : List (List Nat))
    (hlook : ∀ v, ∀ i ∈ lookup.getD v [], i < layers.length) :
    ∀ (d fuel currentZ layerStartIdx : Nat) (zCounts currentCubeMask : List Nat)
      (run : AssemblerRun), currentZ + d = 3 → d < fuel → RowsFrom layers currentZ run →
      ∃ run', searchWithLookup bs layers lookup fuel layerStartIdx currentZ zCounts
          currentCubeMask run = some run'
        ∧ AsmStep bs layers currentZ run run' := by
  intro d
  induction d with
  | zero =>
    intro fuel currentZ layerStartIdx zCounts currentCubeMask run h3 hfuel hr
    obtain ⟨f, rfl⟩ : ∃ f, fuel = f + 1 := ⟨fuel - 1, by omega⟩
    have hz : currentZ = 3 := by omega
    subst hz
    rw [searchWithLookup_succ, if_pos rfl]
    exact ⟨_, rfl, lookupFold_step bs layers _ _ _ _ (hlook _) run hr⟩
  | succ d ih =>
    intro fuel currentZ layerStartIdx zCounts currentCubeMask run h3 hfuel hr
    obtain ⟨f, rfl⟩ : ∃ f, fuel = f + 1 := ⟨fuel - 1, by omega⟩
    have hz : currentZ ≠ 3 := by omega
    rw [searchWithLookup_succ, if_neg hz]
    have hmem : ∀ i ∈ List.range' layerStartIdx (layers.length - layerStartIdx),
        i < layers.length := by
      intro i hi
      rw [List.mem_range'_1] at hi
      omega
    generalize List.range' layerStartIdx (layers.length - layerStartIdx) = is at hmem
    have hz3 : currentZ < 3 := by omega
    have hd : currentZ + 1 + d = 3 := by omega
    have hf : d < f := by omega
    induction is generalizing run with
    | nil => exact ⟨run, rfl, AsmStep.idle _ _ _ _⟩
    | cons i rest ihl =>
      rw [List.foldlM_cons]
      have hrest : ∀ j ∈ rest, j < layers.length :=
        fun j hj => hmem j (List.mem_cons_of_mem _ hj)
      by_cases h1 : zCounts.getD 2 0 &&& (layerAt layers i).bitMatrix ≠ 0
      · rw [if_pos h1]
        exact ihl run hr hrest
      · rw [if_neg h1]
        by_cases h2 : maskCollision (layerAt layers i).numMask currentCubeMask = true
        · rw [if_pos h2]
          exact ihl run hr hrest
        · rw [if_neg h2]
          have hL := layerAt_mem layers i (hmem i (List.mem_cons_self _ _))
          obtain ⟨r, e1, e2⟩ := ih f (currentZ + 1) (i + 1)
            [zCounts.getD 0 0 ^^^ (layerAt layers i).bitMatrix,
             zCounts.getD 1 0 ^^^ (zCounts.getD 0 0 &&& (layerAt layers i).bitMatrix),
             zCounts.getD 2 0
               ||| (zCounts.getD 1 0 &&& (zCounts.getD 0 0 &&& (layerAt layers i).bitMatrix))]
            ((List.range 4).map fun m =>
              currentCubeMask.getD m 0 ||| (layerAt layers i).numMask.getD m 0)
            { run with
              localChecked := run.localChecked + 1
              currentCubeRows := run.currentCubeRows.set currentZ (layerAt layers i).rows }
            hd hf (hr.place hz3 _ hL)
          rw [e1]
          have e3 := placeLayer_step _ e2
          obtain ⟨r', e4, e5⟩ := ihl r (hr.step e3) hrest
          exact ⟨r', e4, e3.next e5⟩

theorem buildLookup_bound (layers : List Layer) :
    ∀ v, ∀ i ∈ (buildLookup layers).getD v [], i < layers.length := by
  unfold buildLookup
  have key : ∀ (k : Nat) , ∀ v, ∀ i ∈ ((List.range k).foldl
      (fun lookup i =>
        lookup.set ((layerAt layers i).rows.getD 0 0)
          (lookup.getD ((layerAt layers i).rows.getD 0 0) [] ++ [i]))
      (List.replicate 256 [])).getD v [], i < k := by
    intro k
    induction k with
    | zero =>
      intro v i hi
      simp only [List.range_zero, List.foldl_nil, List.getD_eq_getElem?_getD,
        List.getElem?_replicate] at hi
      split at hi <;> simp at hi
    | succ k ih =>
      intro v i hi
      rw [List.range_succ k, List.foldl_append, List.foldl_cons, List.foldl_nil] at hi
      generalize (List.range k).foldl
        (fun lookup i =>
          lookup.set ((layerAt layers i).rows.getD 0 0)
            (lookup.getD ((layerAt layers i).rows.getD 0 0) [] ++ [i]))
        (List.replicate 256 []) = T at ih hi
      simp only [List.getD_eq_getElem?_getD, List.getElem?_set] at hi
      split at hi
      · split at hi
        · simp only [Option.getD_some, List.mem_append, List.mem_singleton] at hi
          rcases hi with hi | hi
          · have := ih _ i (by simpa [List.getD_eq_getElem?_getD] using hi)
            omega
          · omega
        · simp at hi
      · have := ih v i (by simpa [List.getD_eq_getElem?_getD] using hi)
        omega
  exact key layers.length

theorem AssemblerStep.still (bs : BalancedSet) (layers : List Layer) (a : CubeAssembler) :
    AssemblerStep bs layers a a :=
  ⟨le_refl _, [], by simp, by simp, by simp⟩

theorem AssemblerStep.compose {bs : BalancedSet} {layers : List Layer} {a b c : CubeAssembler}
    (h1 : AssemblerStep bs layers a b) (h2 : AssemblerStep bs layers b c) :
    AssemblerStep bs layers a c := by
  obtain ⟨n1, s1, c1, a1⟩ := h1.saved
  obtain ⟨n2, s2, c2, a2⟩ := h2.saved
  refine ⟨le_trans h1.paths h2.paths, n1 ++ n2, ?_, ?_, ?_⟩
  · rw [s2, s1, List.append_assoc]
  · rw [c2, c1, List.length_append]; omega
  · intro e he
    rcases List.mem_append.mp he with h | h
    · exact a1 e h
    · exact a2 e h

theorem assembleRoot_step (bs : BalancedSet) (layers : List Layer)
    (st : AssemblerRun × Nat) (i : Nat) (hi : i < layers.length)
    (hlen : st.1.currentCubeRows.length = 4) :
    ∃ st', assembleRoot bs layers (buildLookup layers) st i = some st'
      ∧ st'.1.currentCubeRows.length = 4
      ∧ AssemblerStep bs layers st.1.assembler st'.1.assembler := by
  unfold assembleRoot
  have hr : RowsFrom layers 1
      { st.1 with currentCubeRows := st.1.currentCubeRows.set 0 (layerAt layers i).rows } := by
    refine ⟨by simp [hlen], ?_⟩
    intro z hz
    have hz0 : z = 0 := by omega
    subst hz0
    refine ⟨layerAt layers i, layerAt_mem layers i hi, ?_⟩
    show (st.1.currentCubeRows.set 0 (layerAt layers i).rows).getD 0 [] = _
    simp only [List.getD_eq_getElem?_getD]
    rw [List.getElem?_set_self (by rw [hlen]; omega)]
    rfl
  obtain ⟨run1, e1, e2⟩ := searchWithLookup_step bs layers (buildLookup layers)
    (buildLookup_bound layers) 2 3 1 (i + 1) [(layerAt layers i).bitMatrix, 0, 0]
    ((List.range 4).map fun m => (layerAt layers i).numMask.getD m 0) _ rfl (by omega) hr
  simp only [e1]
  have hl1 : run1.currentCubeRows.length = 4 := by
    rw [e2.rowsLen]
    simp [hlen]
  have hstep : AssemblerStep bs layers st.1.assembler run1.assembler :=
    ⟨le_of_eq e2.paths.symm, e2.saved⟩
  by_cases h10 : (st.2 + 1) % 10 = 0
  · rw [if_pos h10]
    refine ⟨_, rfl, hl1, hstep.compose ⟨Nat.le_add_right _ _, [], by simp, by simp, by simp⟩⟩
  · rw [if_neg h10]
    exact ⟨_, rfl, hl1, hstep⟩

theorem assembleRoots_step (bs : BalancedSet) (layers : List Layer) :
    ∀ (roots : List Nat), (∀ i ∈ roots, i < layers.length) →
      ∀ st : AssemblerRun × Nat, st.1.currentCubeRows.length = 4 →
        ∃ st', roots.foldlM (assembleRoot bs layers (buildLookup layers)) st = some st'
          ∧ AssemblerStep bs layers st.1.assembler st'.1.assembler := by
  intro roots
  induction roots with
  | nil =>
    intro _ st _
    exact ⟨st, rfl, AssemblerStep.still _ _ _⟩
  | cons i rest ih =>
    intro hmem st hlen
    obtain ⟨s1, e1, e2, e3⟩ := assembleRoot_step bs layers st i
      (hmem i (List.mem_cons_self _ _)) hlen
    obtain ⟨s2, e4, e5⟩ := ih (fun j hj => hmem j (List.mem_cons_of_mem _ hj)) s1 e2
    refine ⟨s2, ?_, e3.compose e5⟩
    rw [List.foldlM_cons, e1]
    exact e4

theorem assembleWorker_step (bs : BalancedSet) (layers : List Layer) (chunk : Nat)
    (st : CubeAssembler × Nat) (t : Nat) :
    ∃ st', assembleWorker bs layers (buildLookup layers) chunk st t = some st'
      ∧ AssemblerStep bs layers st.1 st'.1 := by
  unfold assembleWorker
  obtain ⟨s1, e1, e2⟩ := assembleRoots_step bs layers (threadRange chunk layers.length t)
    (fun i hi => by
      have := (mem_threadRange _ _ _ _).mp hi
      omega)
    ({ assembler := st.1, currentCubeRows := List.replicate 4 (List.replicate 8 0),
       localChecked := 0 }, st.2) rfl
  simp only [e1]
  exact ⟨_, rfl, e2.compose ⟨Nat.le_add_right _ _, [], by simp, by simp, by simp⟩⟩

theorem assembleWorkers_step (bs : BalancedSet) (layers : List Layer) (chunk : Nat) :
    ∀ (ts : List Nat) (st : CubeAssembler × Nat),
      ∃ st', ts.foldlM (assembleWorker bs layers (buildLookup layers) chunk) st = some st'
        ∧ AssemblerStep bs layers st.1 st'.1 := by
  intro ts
  induction ts with
  | nil =>
    intro st
    exact ⟨st, rfl, AssemblerStep.still _ _ _⟩
  | cons t rest ih =>
    intro st
    obtain ⟨s1, e1, e2⟩ := assembleWorker_step bs layers chunk st t
    obtain ⟨s2, e3, e4⟩ := ih s1
    refine ⟨s2, ?_, e2.compose e4⟩
    rw [List.foldlM_cons, e1]
    exact e3

/-- For every thread count `>= 1`, `assembleParallel` returns, and every cube
it passes to `saveToDisk` was materialised from layers of the vector. -/
theorem assembleParallel_step (bs : BalancedSet) (layers : List Layer) (nThreads : Nat)
    (a : CubeAssembler) (ht : nThreads ≠ 0) :
    ∃ a', assembleParallel bs layers nThreads a = some a' ∧ AssemblerStep bs layers a a' := by
  unfold assembleParallel
  by_cases hn : layers.length = 0
  · rw [if_pos hn]
    exact ⟨a, rfl, AssemblerStep.still _ _ _⟩
  · rw [if_neg hn]
    unfold chunkSize
    rw [if_neg ht]
    obtain ⟨s1, e1, e2⟩ := assembleWorkers_step bs layers
      ((layers.length + nThreads - 1) / nThreads) (List.range nThreads) (a, 0)
    simp only [e1]
    exact ⟨s1.1, rfl, e2⟩

/-! ## Theorems: path counter and thread count -/

/-- The first candidate of a root is always examined: a call at depth 1 made
before any acceptance increments `localChecked` at least once. -/
theorem searchRecursive_checks (bs : BalancedSet) (fixedSet : ShiftSet) (run : SearchRun)
    (hn : bs.filteredShiftSets ≠ []) (hf : run.searcher.firstCubeFound = false)
    (hlen : run.currentCube.length = 8) :
    ∃ run', searchRecursive bs 8 fixedSet 1 run = some run'
      ∧ run.localChecked + 1 ≤ run'.localChecked
      ∧ SearchStep bs.filteredShiftSets 1 run run' := by
  obtain ⟨r, e1, e2⟩ := searchRecursive_step bs fixedSet 7 8 1 run rfl (by omega) hlen
  refine ⟨r, e1, ?_, e2⟩
  obtain ⟨c, rest, hp⟩ := List.exists_cons_of_ne_nil hn
  have hrec : ∀ r0 : SearchRun, r0.currentCube.length = 8 →
      ∃ r', searchRecursive bs 7 fixedSet 2 r0 = some r'
        ∧ SearchStep bs.filteredShiftSets 2 r0 r' :=
    fun r0 h0 => searchRecursive_step bs fixedSet 6 7 2 r0 rfl (by omega) h0
  have hrest : ∀ x ∈ rest, x ∈ bs.filteredShiftSets := by
    intro x hx
    rw [hp]
    exact List.mem_cons_of_mem _ hx
  rw [searchRecursive_succ, if_neg (by omega), hp] at e1
  unfold searchCandidates at e1
  rw [hf] at e1
  simp only [Bool.false_and, Bool.false_eq_true, if_false, Nat.reduceAdd] at e1
  by_cases hu : alreadyUsed (usedBitsetOf run.usedNumbers) run.usedNumbers c.base = true
  · rw [if_pos hu] at e1
    obtain ⟨r', e3, e4⟩ := searchCandidates_step (by omega) hrec rest hrest
      { run with localChecked := run.localChecked + 1 } hlen
    have e5 : r' = r := Option.some.inj (e3.symm.trans e1)
    subst e5
    exact e4.checked
  · rw [if_neg hu] at e1
    obtain ⟨r3, e3, e4⟩ := hrec
      { run with
        localChecked := run.localChecked + 1
        currentCube := run.currentCube.set 1 c
        usedNumbers := run.usedNumbers ++ [c.base] } (by simp [hlen])
    simp only [Nat.reduceAdd, e3] at e1
    obtain ⟨r', e5, e6⟩ := searchCandidates_step (by omega) hrec rest hrest
      { r3 with usedNumbers := r3.usedNumbers.dropLast } (e4.cubeLen.trans (by simp [hlen]))
    have e7 : r' = r := Option.some.inj (e5.symm.trans e1)
    subst e7
    have h1 := e4.checked
    have h2 := e6.checked
    simp only at h1 h2
    omega

/-- A run of `search` on a non-empty pool from a state without an accepted
cube examines at least one candidate. -/
theorem search_checks (bs : BalancedSet) (nThreads : Nat) (findOnlyFirst : Bool)
    (s : CubeSearcherV2) (hn : bs.filteredShiftSets ≠ []) (ht : nThreads ≠ 0)
    (hf : s.firstCubeFound = false) :
    ∃ s' total, search bs nThreads findOnlyFirst s = some (s', total) ∧ 1 ≤ total := by
  have hlen : bs.filteredShiftSets.length ≠ 0 := by
    intro h
    exact hn (List.length_eq_zero.mp h)
  rw [search_eq bs nThreads findOnlyFirst s hlen ht]
  obtain ⟨k, rfl⟩ : ∃ k, nThreads = k + 1 := ⟨nThreads - 1, by omega⟩
  have hchunk : 1 ≤ (bs.filteredShiftSets.length + (k + 1) - 1) / (k + 1) := by
    rw [Nat.le_div_iff_mul_le (by omega)]
    omega
  generalize (bs.filteredShiftSets.length + (k + 1) - 1) / (k + 1) = chunk at hchunk
  have hrange : List.range (k + 1) = 0 :: List.range' 1 k := by
    rw [List.range_eq_range', List.range'_succ]
  obtain ⟨m, hm⟩ : ∃ m, threadRange chunk bs.filteredShiftSets.length 0
      = 0 :: List.range' 1 m := by
    unfold threadRange
    refine ⟨min (0 * chunk + chunk) bs.filteredShiftSets.length - 0 * chunk - 1, ?_⟩
    have h1 : min (0 * chunk + chunk) bs.filteredShiftSets.length - 0 * chunk
        = (min (0 * chunk + chunk) bs.filteredShiftSets.length - 0 * chunk - 1) + 1 := by
      omega
    simp only [Nat.zero_mul] at h1 ⊢
    rw [h1, List.range'_succ]
    simp
  have hcfg : (configured bs findOnlyFirst s).firstCubeFound = false := by
    unfold configured
    cases findOnlyFirst <;> exact hf
  obtain ⟨r1, e1, e2, -⟩ := searchRecursive_checks bs (bs.filteredShiftSets.getD 0 ShiftSet.zero)
    { searcher := configured bs findOnlyFirst s
      usedNumbers := [(bs.filteredShiftSets.getD 0 ShiftSet.zero).base]
      currentCube := (List.replicate 8 ShiftSet.zero).set 0
        (bs.filteredShiftSets.getD 0 ShiftSet.zero)
      localChecked := 0 } hn hcfg rfl
  obtain ⟨st1, e3, -, e4⟩ := searchRoots_step bs (List.range' 1 m)
    (fun i hi => by
      have : i ∈ threadRange chunk bs.filteredShiftSets.length 0 := by
        rw [hm]
        exact List.mem_cons_of_mem _ hi
      have := (mem_threadRange _ _ _ _).mp this
      omega)
    { searcher := r1.searcher, totalLocalChecked := 0 + r1.localChecked, localChecked := 0 }
  have hw : searchWorker bs chunk (configured bs findOnlyFirst s, 0) 0
      = some (st1.searcher, st1.totalLocalChecked) := by
    unfold searchWorker
    rw [hm]
    unfold searchRoots
    rw [hcfg]
    simp only [Bool.false_and, Bool.false_eq_true, if_false, e1]
    rw [e3]
    rfl
  obtain ⟨st2, e5, -, e6⟩ := searchWorkers_step bs chunk (List.range' 1 k)
    (st1.searcher, st1.totalLocalChecked)
  refine ⟨st2.1, st2.2, ?_, ?_⟩
  · rw [hrange, List.foldlM_cons, hw]
    exact e5
  · simp only at e2 e4 e6
    omega

theorem map_getD_range (rows : List Nat) (h : rows.length = 8) :
    (List.range 8).map (fun y => rows.getD y 0) = rows := by
  apply List.ext_getElem
  · simp [h]
  · intro n h1 h2
    simp [List.getD_eq_getElem?_getD, List.getElem?_eq_getElem h2]

theorem search_zero_threads (bs : BalancedSet) (findOnlyFirst : Bool) (s : CubeSearcherV2)
    (hn : bs.filteredShiftSets.length ≠ 0) : search bs 0 findOnlyFirst s = none := by
  unfold search chunkSize
  rw [if_neg hn, if_pos rfl]

theorem assembleParallel_zero_threads (bs : BalancedSet) (layers : List Layer)
    (a : CubeAssembler) (hn : layers.length ≠ 0) : assembleParallel bs layers 0 a = none := by
  unfold assembleParallel chunkSize
  rw [if_neg hn, if_pos rfl]

theorem filteredShiftSets_length (mem : Nat → Nat) :
    (BalancedSet.construct mem).filteredShiftSets.length = 32 := by
  rw [filteredShiftSets_eq]
  rfl

/-- The field `totalPathsChecked` is the same before and after any run of
`search`. -/
theorem search_paths (bs : BalancedSet) (nThreads : Nat) (findOnlyFirst : Bool)
    (s s' : CubeSearcherV2) (total : Nat)
    (h : search bs nThreads findOnlyFirst s = some (s', total)) :
    s'.totalPathsChecked = s.totalPathsChecked := by
  by_cases ht : nThreads = 0
  · subst ht
    by_cases hn : bs.filteredShiftSets.length = 0
    · unfold search at h
      rw [if_pos hn] at h
      have := Option.some.inj h
      rw [← (Prod.mk.inj this).1]
    · rw [search_zero_threads bs findOnlyFirst s hn] at h
      exact absurd h (by simp)
  · obtain ⟨s1, t1, e1, e2, -⟩ := search_step bs nThreads findOnlyFirst s ht
    have := Option.some.inj (e1.symm.trans h)
    rw [← (Prod.mk.inj this).1]
    exact e2

/-! ## Theorems: the layer assembler on a four-layer pool -/

theorem fourLayerPool_generated (mem : Nat → Nat) (rows0 : List Nat) (hlen : rows0.length = 8) :
    ∃ g, generate (BalancedSet.construct mem) LayerGenerator.new rows0 = some g
      ∧ ∀ L ∈ fourLayerPool, L ∈ g.validLayers := by
  obtain ⟨g, hg, hv⟩ := generate_spec (goodSet_construct mem) rows0 hlen
  refine ⟨g, hg, ?_⟩
  intro L hL
  rw [hv, mem_layersFrom_top, upSet_eq]
  simp only [fourLayerPool, List.mem_cons, List.mem_singleton, List.not_mem_nil, or_false] at hL
  rcases hL with rfl | rfl | rfl | rfl
  · exact ⟨0, 1, 2, 3, by decide, by decide, by decide, by decide, by decide, rfl⟩
  · exact ⟨4, 5, 6, 7, by decide, by decide, by decide, by decide, by decide, rfl⟩
  · exact ⟨8, 9, 10, 11, by decide, by decide, by decide, by decide, by decide, rfl⟩
  · exact ⟨12, 13, 14, 15, by decide, by decide, by decide, by decide, by decide, rfl⟩

set_option maxRecDepth 100000 in
theorem fourLayerPool_rowsInv : ∀ L ∈ fourLayerPool, RowsInv L.rows := by
  intro L hL
  simp only [fourLayerPool, List.mem_cons, List.mem_singleton, List.not_mem_nil, or_false] at hL
  unfold RowsInv
  rw [balancedBytes_eq]
  rcases hL with rfl | rfl | rfl | rfl <;> decide

/-- C11 (defect of the code, evaluated at a failing input). `fourLayerPool`
holds four layers that `generate` produces; they satisfy the Layer
invariants, their 32 row values are pairwise distinct, and stacking them with
their four complement layers gives 4 ones on every Z-line: the pool admits
the stacking of indices 0 < 1 < 2 < 3, and no other.  `assembleParallel`,
with one worker or with three, examines 10 paths and materialises nothing:
`foundCount` stays 0 and no cube is saved, where the claim requires
`foundCount = 1`. -/
theorem assembler_misses_valid_stacking :
    (∃ g, generate (BalancedSet.construct (fun _ => 0)) LayerGenerator.new (List.replicate 8 0)
        = some g ∧ ∀ L ∈ fourLayerPool, L ∈ g.validLayers)
      ∧ (∀ L ∈ fourLayerPool, RowsInv L.rows)
      ∧ (fourLayerPool.flatMap (·.rows)).Nodup
      ∧ ZBalanced (materialiseCube (BalancedSet.construct (fun _ => 0))
          ((fourLayerPool.take 3).map (·.rows)) (layerAt fourLayerPool 3))
      ∧ assembleParallel (BalancedSet.construct (fun _ => 0)) fourLayerPool 1 CubeAssembler.new
          = some { checkedPaths := 10, foundCount := 0, saved := [] }
      ∧ assembleParallel (BalancedSet.construct (fun _ => 0)) fourLayerPool 3 CubeAssembler.new
          = some { checkedPaths := 10, foundCount := 0, saved := [] } := by
  refine ⟨fourLayerPool_generated _ _ rfl, fourLayerPool_rowsInv, by decide, ?_,
    by decide, by decide⟩
  exact (materialiseCube_balanced (fun _ => 0) _ _
    (fourLayerPool_rowsInv _ (by decide)) (fourLayerPool_rowsInv _ (by decide))
    (fourLayerPool_rowsInv _ (by decide)) (fourLayerPool_rowsInv _ (by decide))).2.2.1

/-! ## Theorems: accepted cubes -/

/-- C13. Every cube accepted on either construction path has all 192 lines
balanced and 256 set bits.  Searcher: for every thread count `>= 1` and either
mode, `search` returns and every stack it passed to `saveResult` has balanced
X-, Y- and Z-lines.  Assembler: on layers that satisfy the Layer invariants,
for every thread count `>= 1`, `assembleParallel` returns and every cube it
passed to `saveToDisk` has balanced X-, Y- and Z-lines; and so has any cube
that the materialisation step of `searchWithLookup` builds from four such
layers. -/
theorem accepted_cubes_lines_balanced (mem : Nat → Nat) :
    (∀ (nThreads : Nat) (findOnlyFirst : Bool), nThreads ≠ 0 →
        ∃ s' total,
          search (BalancedSet.construct mem) nThreads findOnlyFirst CubeSearcherV2.new
            = some (s', total)
          ∧ ∀ e ∈ s'.saved,
              XBalanced (stackCube e.1) ∧ YBalanced (stackCube e.1)
                ∧ ZBalanced (stackCube e.1) ∧ (stackCube e.1).totalOnes = 256)
      ∧ (∀ (layers : List Layer) (nThreads : Nat), nThreads ≠ 0 →
          (∀ L ∈ layers, RowsInv L.rows) →
          ∃ a', assembleParallel (BalancedSet.construct mem) layers nThreads CubeAssembler.new
              = some a'
            ∧ ∀ e ∈ a'.saved,
                XBalanced e.1 ∧ YBalanced e.1 ∧ ZBalanced e.1 ∧ e.1.totalOnes = 256)
      ∧ (∀ (rows : List (List Nat)) (cand : Layer),
          RowsInv (rows.getD 0 []) → RowsInv (rows.getD 1 []) → RowsInv (rows.getD 2 []) →
          RowsInv cand.rows →
          XBalanced (materialiseCube (BalancedSet.construct mem) rows cand)
            ∧ YBalanced (materialiseCube (BalancedSet.construct mem) rows cand)
            ∧ ZBalanced (materialiseCube (BalancedSet.construct mem) rows cand)
            ∧ (materialiseCube (BalancedSet.construct mem) rows cand).totalOnes = 256) := by
  refine ⟨?_, ?_, fun rows cand hA hB hC hD => materialiseCube_balanced mem rows cand hA hB hC hD⟩
  · intro nThreads findOnlyFirst ht
    obtain ⟨s', total, h1, -, new, h2, -, h3⟩ :=
      search_step (BalancedSet.construct mem) nThreads findOnlyFirst CubeSearcherV2.new ht
    refine ⟨s', total, h1, ?_⟩
    intro e he
    rw [h2] at he
    exact accepted_balanced mem e.1 (h3 e (by simpa [CubeSearcherV2.new] using he))
  · intro layers nThreads ht hinv
    obtain ⟨a', h1, h2⟩ :=
      assembleParallel_step (BalancedSet.construct mem) layers nThreads CubeAssembler.new ht
    refine ⟨a', h1, ?_⟩
    intro e he
    obtain ⟨new, e1, -, e2⟩ := h2.saved
    rw [e1] at he
    obtain ⟨rows, cand, hc, hcand, hrows⟩ := e2 e (by simpa [CubeAssembler.new] using he)
    rw [hc]
    obtain ⟨L0, m0, r0⟩ := hrows 0 (by omega)
    obtain ⟨L1, m1, r1⟩ := hrows 1 (by omega)
    obtain ⟨L2, m2, r2⟩ := hrows 2 (by omega)
    exact materialiseCube_balanced mem rows cand (r0 ▸ hinv L0 m0) (r1 ▸ hinv L1 m1)
      (r2 ▸ hinv L2 m2) (hinv cand hcand)

/-- C14 fails as stated: in find-all mode with one worker the searcher passes
to `saveResult` the stack with the 8 different bases
`23, 232, 46, 209, 92, 163, 184, 71`; its 64 row bytes take only 16 different
values. -/
theorem search_accepts_repeated_rows :
    ∃ s' total,
      search (BalancedSet.construct (fun _ => 0)) 1 false CubeSearcherV2.new = some (s', total)
        ∧ twoOrbitStack ∈ s'.saved.map Prod.fst
        ∧ (twoOrbitStack.map (·.base)).Nodup
        ∧ ¬ (stackCube twoOrbitStack).rowValues.Nodup
        ∧ (stackCube twoOrbitStack).rowValues.dedup.length = 16 := by
  obtain ⟨s', total, h1, h2⟩ := search_all_mem (fun _ => 0) 0 (by decide) twoOrbitStack
    twoOrbitStack_found
  exact ⟨s', total, h1, h2, by decide, by decide, by decide⟩

/-! ## Theorems: verdict, thread count, counters and early stop -/

/-- C15 fails as stated: `saveToDisk` gives the verdict 'perfect' to the cube
of `twoOrbitStack`, all of whose 192 lines are balanced, although only 16
different byte values occur among its 64 rows. -/
theorem saveToDisk_ignores_repeated_rows :
    (saveToDisk (stackCube twoOrbitStack) 1).verdictPerfect = true
      ∧ (stackCube twoOrbitStack).IsBytes
      ∧ ¬ (stackCube twoOrbitStack).rowValues.Nodup := by
  have hb : (stackCube twoOrbitStack).IsBytes := by decide
  exact ⟨(saveToDisk_verdict hb 1).mpr ⟨by decide, by decide, by decide⟩, hb, by decide⟩

/-- C15, amended. For every 8x8 byte cube handed to `saveToDisk`, the verdict
is 'perfect' (`allAxesValid` and `totalOnes == 256`) if and only if all 64
X-lines, all 64 Y-lines and all 64 Z-lines are balanced; and then `totalOnes`
is 256. -/
theorem saveToDisk_verdict_iff_lines (cube : Cube) (id : Nat) (hb : cube.IsBytes) :
    ((saveToDisk cube id).verdictPerfect = true
        ↔ XBalanced cube ∧ YBalanced cube ∧ ZBalanced cube)
      ∧ ((saveToDisk cube id).verdictPerfect = true → (saveToDisk cube id).totalOnes = 256) := by
  refine ⟨saveToDisk_verdict hb id, ?_⟩
  intro h
  exact totalOnes_of_XBalanced hb ((saveToDisk_verdict hb id).mp h).1 id

/-- Witness for C15, amended: the cube of `twoOrbitStack` is an 8x8 byte cube
and gets the verdict 'perfect'. -/
theorem saveToDisk_verdict_iff_lines_witness :
    (stackCube twoOrbitStack).IsBytes
      ∧ (saveToDisk (stackCube twoOrbitStack) 1).verdictPerfect = true
      ∧ (saveToDisk (stackCube twoOrbitStack) 1).totalOnes = 256 := by
  have hb : (stackCube twoOrbitStack).IsBytes := by decide
  have h := saveToDisk_verdict_iff_lines (stackCube twoOrbitStack) 1 hb
  have hv := h.1.mpr ⟨by decide, by decide, by decide⟩
  exact ⟨hb, hv, h.2 hv⟩

/-- C16 fails as stated: with a thread count of 0 and the 32 filtered shift
sets (or the four layers of `fourLayerPool`) the chunk-size division has no
result, so neither search explores any root, while with one thread both
return. -/
theorem zero_threads_no_fallback :
    chunkSize 32 0 = none
      ∧ search (BalancedSet.construct (fun _ => 0)) 0 false CubeSearcherV2.new = none
      ∧ assembleParallel (BalancedSet.construct (fun _ => 0)) fourLayerPool 0 CubeAssembler.new
          = none
      ∧ (∃ r, search (BalancedSet.construct (fun _ => 0)) 1 false CubeSearcherV2.new = some r)
      ∧ ∃ a, assembleParallel (BalancedSet.construct (fun _ => 0)) fourLayerPool 1
          CubeAssembler.new = some a := by
  refine ⟨rfl, search_zero_threads _ _ _ (by rw [filteredShiftSets_length]; decide),
    assembleParallel_zero_threads _ _ _ (by decide), ?_, ?_⟩
  · obtain ⟨s', total, h, -⟩ := search_step (BalancedSet.construct (fun _ => 0)) 1 false
      CubeSearcherV2.new (by decide)
    exact ⟨(s', total), h⟩
  · obtain ⟨a, h, -⟩ := assembleParallel_step (BalancedSet.construct (fun _ => 0))
      fourLayerPool 1 CubeAssembler.new (by decide)
    exact ⟨a, h⟩

/-- C16, amended. Neither `search` nor `assembleParallel` has a fallback for a
thread count of 0: on a non-empty pool the chunk-size computation divides by
zero.  For every thread count `>= 1` the chunk size is computed and both
searches run to completion. -/
theorem thread_count_zero_not_handled (bs : BalancedSet) (layers : List Layer)
    (findOnlyFirst : Bool) (s : CubeSearcherV2) (a : CubeAssembler) :
    (∀ n, chunkSize n 0 = none)
      ∧ (bs.filteredShiftSets.length ≠ 0 → search bs 0 findOnlyFirst s = none)
      ∧ (layers.length ≠ 0 → assembleParallel bs layers 0 a = none)
      ∧ ∀ nThreads, nThreads ≠ 0 →
          (∀ n, chunkSize n nThreads = some ((n + nThreads - 1) / nThreads))
            ∧ (∃ r, search bs nThreads findOnlyFirst s = some r)
            ∧ ∃ a', assembleParallel bs layers nThreads a = some a' := by
  refine ⟨fun n => rfl, search_zero_threads bs findOnlyFirst s,
    assembleParallel_zero_threads bs layers a, ?_⟩
  intro nThreads ht
  refine ⟨fun n => by unfold chunkSize; rw [if_neg ht], ?_, ?_⟩
  · obtain ⟨s', total, h, -⟩ := search_step bs nThreads findOnlyFirst s ht
    exact ⟨(s', total), h⟩
  · obtain ⟨a', h, -⟩ := assembleParallel_step bs layers nThreads a ht
    exact ⟨a', h⟩

/-- C17 (defect of the code, evaluated at a failing input). A single-worker
run of `search` from a new searcher, in either mode, returns with at least one
candidate examined, and `getTotalPathsChecked()` is 0 afterwards: `search`
adds the workers' counts to a local variable and never to the member.  In
general the member is the same before and after any run. -/
theorem totalPathsChecked_never_updated (mem : Nat → Nat) (findOnlyFirst : Bool) :
    (∃ s' total,
        search (BalancedSet.construct mem) 1 findOnlyFirst CubeSearcherV2.new = some (s', total)
          ∧ 1 ≤ total ∧ s'.getTotalPathsChecked = 0)
      ∧ ∀ (bs : BalancedSet) (nThreads : Nat) (f : Bool) (s s' : CubeSearcherV2) (total : Nat),
          search bs nThreads f s = some (s', total) →
            s'.getTotalPathsChecked = s.getTotalPathsChecked := by
  refine ⟨?_, fun bs nThreads f s s' total h => search_paths bs nThreads f s s' total h⟩
  obtain ⟨s', total, h1, h2⟩ := search_checks (BalancedSet.construct mem) 1 findOnlyFirst
    CubeSearcherV2.new
    (by
      intro h
      have := filteredShiftSets_length mem
      rw [h] at this
      exact absurd this (by decide))
    (by decide) rfl
  exact ⟨s', total, h1, h2, search_paths _ _ _ _ _ _ h1⟩

/-- Witness for C18: 32 roots on 4 threads give chunks of 8, and the four
ranges concatenate to `0..31`. -/
theorem chunk_partition_witness :
    1 ≤ 32 ∧ 1 ≤ 4 ∧ chunkSize 32 4 = some 8
      ∧ (List.range 4).flatMap (threadRange 8 32) = List.range 32 := by
  obtain ⟨chunk, h1, -, -, -, h2, -⟩ := chunk_partition 32 4 (by decide) (by decide)
  have hc : chunk = 8 := (Option.some.inj h1).symm
  subst hc
  exact ⟨by decide, by decide, h1, h2⟩

/-- C19. A single-worker run of `search` with `findOnlyFirst = true` from a
new searcher returns with `foundCubeCount` at most 1 and one saved stack per
count; when a cube was accepted, it is the stored first cube.  Accepting the
first cube sets `firstCubeFound` and stores the stack; from then on, with the
stop flag set, the candidate loop at any depth returns the state as it is, no
candidate examined, and the root loop starts no further root. -/
theorem find_first_stops_after_first_cube (bs : BalancedSet) :
    (∃ s' total, search bs 1 true CubeSearcherV2.new = some (s', total)
        ∧ s'.foundCubeCount ≤ 1
        ∧ s'.saved.length = s'.foundCubeCount
        ∧ (s'.foundCubeCount = 1 →
            s'.saved = [(s'.firstCubeData, 1)] ∧ s'.getFirstCube = some s'.firstCubeData))
      ∧ (configured bs true CubeSearcherV2.new).shouldStop = true
      ∧ (∀ run : SearchRun, validateZAxis run.currentCube = true →
          run.searcher.foundCubeCount = 0 →
          (acceptCube run).searcher.firstCubeFound = true
            ∧ (acceptCube run).searcher.firstCubeData = run.currentCube
            ∧ (acceptCube run).searcher.foundCubeCount = 1
            ∧ (acceptCube run).searcher.shouldStop = run.searcher.shouldStop)
      ∧ (∀ (run : SearchRun), run.searcher.firstCubeFound = true →
          run.searcher.shouldStop = true →
          ∀ (recur : SearchRun → Option SearchRun) (setIdx usedBitset : Nat)
            (cands : List ShiftSet),
            searchCandidates recur setIdx usedBitset cands run = some run)
      ∧ (∀ (st : RootState), st.searcher.firstCubeFound = true →
          st.searcher.shouldStop = true →
          ∀ roots : List Nat, searchRoots bs roots st = some st) := by
  refine ⟨?_, rfl, ?_, ?_, ?_⟩
  · obtain ⟨s', total, h1, h2⟩ := search_first_fresh bs
    refine ⟨s', total, h1, ?_⟩
    rcases h2 with ⟨-, c0, s0⟩ | ⟨f1, c1, s1⟩
    · rw [c0, s0]
      exact ⟨by omega, rfl, fun h => absurd h (by decide)⟩
    · refine ⟨by omega, by rw [s1, c1]; rfl, fun _ => ⟨s1, ?_⟩⟩
      unfold CubeSearcherV2.getFirstCube
      rw [f1]
      rfl
  · intro run hv hc
    unfold acceptCube
    simp only [hv, Bool.not_true, Bool.false_eq_true, if_false, hc]
    exact ⟨rfl, rfl, rfl, rfl⟩
  · intro run hf hs recur setIdx usedBitset cands
    exact searchCandidates_stopped recur setIdx usedBitset cands run hf hs
  · intro st hf hs roots
    exact searchRoots_stopped bs roots st hf hs

/-! ## Theorems: rotation validity -/

set_option maxRecDepth 100000 in
theorem isValidShiftSet_byte_facts : ∀ b < 256,
    (isValidShiftSet b = true ↔ (rotations8 b).Nodup)
      ∧ rotateLeft^[8] b = b
      ∧ ((∀ v ∈ rotations8 b, v < 256 ∧ popcount8 v = 4) ↔ popcount8 b = 4) := by
  decide

/-- C21 fails as stated: the 8 rotations of the byte 1 are the pairwise
distinct values 1, 2, 4, ..., 128 and `isValidShiftSet 1` returns `true`,
although none of them is balanced. -/
theorem isValidShiftSet_accepts_unbalanced :
    isValidShiftSet 1 = true
      ∧ rotations8 1 = [1, 2, 4, 8, 16, 32, 64, 128]
      ∧ (rotations8 1).Nodup
      ∧ ¬ (∀ v ∈ rotations8 1, popcount8 v = 4) := by
  decide

/-- C21, amended. For every byte `b`, `isValidShiftSet b` returns `true` if and
only if the 8 values `b, rotateLeft b, ..., rotateLeft^7 b` are pairwise
distinct; the 9th value is `b` again; balance is not checked: the 8 values are
all balanced bytes exactly when `b` is balanced.  For `b = 136` the function
returns `false`. -/
theorem isValidShiftSet_iff_distinct (b : Nat) (hb : b < 256) :
    (isValidShiftSet b = true ↔ (rotations8 b).Nodup)
      ∧ rotateLeft^[8] b = b
      ∧ ((∀ v ∈ rotations8 b, v < 256 ∧ popcount8 v = 4) ↔ popcount8 b = 4)
      ∧ isValidShiftSet 136 = false :=
  ⟨(isValidShiftSet_byte_facts b hb).1, (isValidShiftSet_byte_facts b hb).2.1,
    (isValidShiftSet_byte_facts b hb).2.2, by decide⟩

/-- Witness for C21, amended: the byte 23 is accepted and its 8 rotations are
distinct. -/
theorem isValidShiftSet_iff_distinct_witness :
    23 < 256 ∧ isValidShiftSet 23 = true ∧ (rotations8 23).Nodup := by
  have h := isValidShiftSet_iff_distinct 23 (by decide)
  exact ⟨by decide, h.1.mpr (by decide), by decide⟩

/-! ## Theorems: presence mask and axis report -/

theorem and_two_pow_ne_zero (x b : Nat) : x &&& 2 ^ b ≠ 0 ↔ x.testBit b = true := by
  constructor
  · intro h
    by_contra hb
    apply h
    apply Nat.eq_of_testBit_eq
    intro i
    rw [Nat.testBit_and, Nat.testBit_two_pow, Nat.zero_testBit]
    by_cases e : b = i
    · subst e
      simp [hb]
    · simp [e]
  · intro h e
    have := congrArg (fun n => n.testBit b) e
    simp [Nat.testBit_and, Nat.testBit_two_pow, h] at this

/-- C28 (defect of the code, evaluated at a failing input). For `stripedCube`
all 64 rows and all 64 Z-lines are balanced and only Y-lines fail, yet the
report shows "NO" on the X-axis and Z-axis lines as well: the three lines
print the one flag `allAxesValid`, so for every cube the three shown values
are equal, and each is "YES" only when all 192 lines are balanced. -/
theorem saveToDisk_axis_lines_share_flag :
    XBalanced stripedCube ∧ ZBalanced stripedCube ∧ ¬ YBalanced stripedCube
      ∧ (saveToDisk stripedCube 1).xAxisShown = false
      ∧ (saveToDisk stripedCube 1).yAxisShown = false
      ∧ (saveToDisk stripedCube 1).zAxisShown = false
      ∧ (∀ (cube : Cube) (id : Nat),
          (saveToDisk cube id).xAxisShown = (saveToDisk cube id).yAxisShown
            ∧ (saveToDisk cube id).yAxisShown = (saveToDisk cube id).zAxisShown)
      ∧ (∀ (cube : Cube) (id : Nat), cube.IsBytes →
          ((saveToDisk cube id).xAxisShown = true
            ↔ XBalanced cube ∧ YBalanced cube ∧ ZBalanced cube)) := by
  have hb : stripedCube.IsBytes := by decide
  have hy : ¬ YBalanced stripedCube := by decide
  have hx : (saveToDisk stripedCube 1).xAxisShown = false := by
    cases h : (saveToDisk stripedCube 1).xAxisShown with
    | false => rfl
    | true => exact absurd ((saveToDisk_allAxesValid hb 1).mp h).2.1 hy
  exact ⟨by decide, by decide, hy, hx, hx, hx, fun _ _ => ⟨rfl, rfl⟩,
    fun cube id h => saveToDisk_allAxesValid h id⟩

/-! ## Theorems: the generator never rejects -/

theorem freeCount_or_bit (n mask i : Nat) (hi : i < n) (hfree : mask &&& (1 <<< i) = 0) :
    freeCount n (mask ||| (1 <<< i)) = freeCount n mask - 1 := by
  unfold freeCount
  have e : (List.range n).filter (fun j => (mask ||| (1 <<< i)) &&& (1 <<< j) = 0)
      = ((List.range n).filter (fun j => mask &&& (1 <<< j) = 0)).erase i := by
    rw [((List.nodup_range n).filter _).erase_eq_filter, List.filter_filter]
    apply List.filter_congr
    intro j _
    have := mask_or_bit mask i j
    by_cases h1 : mask &&& (1 <<< j) = 0 <;> by_cases h2 : i = j <;> simp_all
    · intro h
      exact h2 h.symm
  rw [e, List.length_erase_of_mem]
  exact List.mem_filter.mpr ⟨List.mem_range.mpr hi, by simpa using hfree⟩

theorem flatMap_free_length (F : Nat → List Layer) (used : Nat → Prop) [DecidablePred used]
    (c : Nat) :
    ∀ l : List Nat, (∀ i ∈ l, ¬ used i → (F i).length = c) →
      (l.flatMap (fun i => if used i then [] else F i)).length
        = (l.filter (fun i => decide (¬ used i))).length * c := by
  intro l
  induction l with
  | nil => intro _; simp
  | cons a l ih =>
    intro h
    rw [List.flatMap_cons, List.length_append,
      ih (fun i hi => h i (List.mem_cons_of_mem _ hi)), List.filter_cons]
    by_cases hu : used a
    · simp [hu]
    · simp only [hu, if_false, not_false_eq_true, decide_True, if_true, List.length_cons,
        h a (List.mem_cons_self _ _) hu]
      ring

/-- The closed form has one layer per choice of `d` further free indices in
order. -/
theorem layersFrom_length (u : List Nat) :
    ∀ (d : Nat) (pre : List Nat) (mask : Nat),
      (layersFrom u d pre mask).length = fallingProduct (freeCount u.length mask) d := by
  intro d
  induction d with
  | zero => intro pre mask; rfl
  | succ d ih =>
    intro pre mask
    simp only [layersFrom, fallingProduct]
    rw [flatMap_free_length (fun i => layersFrom u d (pre ++ [u.getD i 0]) (mask ||| (1 <<< i)))
      (fun i => mask &&& (1 <<< i) ≠ 0) (fallingProduct (freeCount u.length mask - 1) d)]
    · unfold freeCount
      congr 2
      apply List.filter_congr
      intro i _
      simp
    · intro i hi hfree
      rw [ih, freeCount_or_bit u.length mask i (List.mem_range.mp hi) (by simpa using hfree)]

theorem countsOK_of_placed (placed : List Nat) :
    CountsOK (placed.foldl (fun g r => updateCounts g r 1) LayerGenerator.new) placed.length := by
  induction placed using List.reverseRecOn with
  | nil => exact CountsOK_new
  | append_singleton l a ih =>
    rw [List.foldl_append, List.length_append]
    exact CountsOK_updateCounts ih a

theorem upSet_length (mem : Nat → Nat) : (BalancedSet.construct mem).upSet.length = 35 := by
  rw [upSet_eq]
  rfl

/-- C30. The generator's pruning and final re-verification never reject.
With the counters equal to the column sums of the at most 3 rows already
placed, `canAddRow` returns `true` for every row; at depth 4, with rows 0..3
balanced, the base case always appends the layer, the recomputed column and
bit-position sums of 4 bytes followed by their complements being 4.  So
`generate` returns with exactly one layer per ordered choice of 4 distinct
upper-set entries: `35 * 34 * 33 * 32 = 1256640` layers, no two equal. -/
theorem generate_never_rejects (mem : Nat → Nat) (rows0 : List Nat) (hlen : rows0.length = 8) :
    (∀ (placed : List Nat) (row : Nat), placed.length ≤ 3 →
        canAddRow (placed.foldl (fun g r => updateCounts g r 1) LayerGenerator.new) row
          placed.length = true)
      ∧ (∀ a0 < 256, ∀ a1 < 256, ∀ a2 < 256, ∀ a3 < 256, ∀ j < 8,
          (finalColCounts (completeRows [a0, a1, a2, a3])).getD j 0 = 4
            ∧ (finalYCounts (completeRows [a0, a1, a2, a3])).getD j 0 = 4)
      ∧ (∀ (g : LayerGenerator) (rows : List Nat), rows.length = 8 →
          (∀ x ∈ rows.take 4, x ∈ balancedBytes) →
          (backtrackLeaf (BalancedSet.construct mem) g rows).1.validLayers
            = g.validLayers ++ [buildLayer (completeRows (rows.take 4))])
      ∧ ∃ g, generate (BalancedSet.construct mem) LayerGenerator.new rows0 = some g
          ∧ g.validLayers.length = 35 * 34 * 33 * 32
          ∧ g.validLayers.length = 1256640
          ∧ g.validLayers.Nodup
          ∧ ∀ L, L ∈ g.validLayers ↔
              ∃ i0 i1 i2 i3, i0 < 35 ∧ i1 < 35 ∧ i2 < 35 ∧ i3 < 35 ∧ [i0, i1, i2, i3].Nodup
                ∧ L = buildLayer (layerRows (BalancedSet.construct mem).upSet i0 i1 i2 i3) := by
  have hbs := goodSet_construct mem
  refine ⟨?_, ?_, ?_, ?_⟩
  · intro placed row h3
    exact canAddRow_of_CountsOK (countsOK_of_placed placed) h3 row
  · intro a0 h0 a1 h1 a2 h2 a3 h3 j hj
    exact finalCounts_completeRows h0 h1 h2 h3 j hj
  · intro g rows hl hbal
    rw [backtrackLeaf_spec hbs g rows hl hbal]
  · obtain ⟨g, hg, hv⟩ := generate_spec hbs rows0 hlen
    have hlen4 : g.validLayers.length = 1256640 := by
      rw [hv, layersFrom_length, upSet_length]
      decide
    refine ⟨g, hg, hlen4, hlen4, ?_, ?_⟩
    · rw [hv]
      exact layersFrom_nodup hbs.upSet_nodup 4 [] 0 rfl
    · intro L
      rw [hv, mem_layersFrom_top, upSet_length]

/-- Witness for C30: from a zeroed row buffer the generator returns with
1256640 layers. -/
theorem generate_never_rejects_witness :
    (List.replicate 8 0).length = 8
      ∧ ∃ g, generate (BalancedSet.construct (fun _ => 0)) LayerGenerator.new
          (List.replicate 8 0) = some g
        ∧ g.validLayers.length = 1256640 := by
  obtain ⟨-, -, -, g, h1, -, h2, -⟩ := generate_never_rejects (fun _ => 0) (List.replicate 8 0) rfl
  exact ⟨rfl, g, h1, h2⟩

/-! ## Theorems: layer encoding -/

theorem or_shiftLeft_eq_add (x a k : Nat) (hx : x < 2 ^ k) : x ||| (a <<< k) = x + a * 2 ^ k := by
  rw [Nat.or_comm, Nat.shiftLeft_eq, Nat.mul_comm, ← Nat.mul_add_lt_is_or hx a, Nat.add_comm]

theorem bitMatrix_sum (a0 a1 a2 a3 a4 a5 a6 a7 : Nat)
    (h0 : a0 < 256) (h1 : a1 < 256) (h2 : a2 < 256) (h3 : a3 < 256)
    (h4 : a4 < 256) (h5 : a5 < 256) (h6 : a6 < 256) (_h7 : a7 < 256) :
    (buildLayer [a0, a1, a2, a3, a4, a5, a6, a7]).bitMatrix
      = a0 + a1 * 2 ^ 8 + a2 * 2 ^ 16 + a3 * 2 ^ 24 + a4 * 2 ^ 32 + a5 * 2 ^ 40 + a6 * 2 ^ 48
        + a7 * 2 ^ 56 := by
  show (((((((0 ||| a0 <<< (0 * 8)) ||| a1 <<< (1 * 8)) ||| a2 <<< (2 * 8)) ||| a3 <<< (3 * 8))
    ||| a4 <<< (4 * 8)) ||| a5 <<< (5 * 8)) ||| a6 <<< (6 * 8)) ||| a7 <<< (7 * 8) = _
  rw [or_shiftLeft_eq_add 0 a0 (0 * 8) (by norm_num)]
  rw [or_shiftLeft_eq_add _ a1 (1 * 8) (by norm_num; omega)]
  rw [or_shiftLeft_eq_add _ a2 (2 * 8) (by norm_num; omega)]
  rw [or_shiftLeft_eq_add _ a3 (3 * 8) (by norm_num; omega)]
  rw [or_shiftLeft_eq_add _ a4 (4 * 8) (by norm_num; omega)]
  rw [or_shiftLeft_eq_add _ a5 (5 * 8) (by norm_num; omega)]
  rw [or_shiftLeft_eq_add _ a6 (6 * 8) (by norm_num; omega)]
  rw [or_shiftLeft_eq_add _ a7 (7 * 8) (by norm_num; omega)]
  norm_num

theorem shift_and_255 (x i : Nat) : (x >>> (8 * i)) &&& 255 = x / 2 ^ (8 * i) % 256 := by
  rw [Nat.shiftRight_eq_div_pow]
  exact Nat.and_pow_two_sub_one_eq_mod _ 8

/-- Row `i` of a layer built from 8 bytes is read back from bits
`[8i, 8i + 8)` of its `bitMatrix`, which is below `2^64`. -/
theorem buildLayer_bitMatrix {rows : List Nat} (hlen : rows.length = 8)
    (hb : ∀ r ∈ rows, r < 256) :
    (buildLayer rows).bitMatrix < 2 ^ 64
      ∧ ∀ i < 8, ((buildLayer rows).bitMatrix >>> (8 * i)) &&& 255 = rows.getD i 0 := by
  obtain ⟨a0, a1, a2, a3, a4, a5, a6, a7, rfl⟩ := rows_of_length_eight hlen
  have h0 : a0 < 256 := hb a0 (by simp)
  have h1 : a1 < 256 := hb a1 (by simp)
  have h2 : a2 < 256 := hb a2 (by simp)
  have h3 : a3 < 256 := hb a3 (by simp)
  have h4 : a4 < 256 := hb a4 (by simp)
  have h5 : a5 < 256 := hb a5 (by simp)
  have h6 : a6 < 256 := hb a6 (by simp)
  have h7 : a7 < 256 := hb a7 (by simp)
  rw [bitMatrix_sum a0 a1 a2 a3 a4 a5 a6 a7 h0 h1 h2 h3 h4 h5 h6 h7]
  constructor
  · norm_num
    omega
  · intro i hi
    rw [shift_and_255]
    interval_cases i
    · show _ = a0
      norm_num
      omega
    · show _ = a1
      norm_num
      omega
    · show _ = a2
      norm_num
      omega
    · show _ = a3
      norm_num
      omega
    · show _ = a4
      norm_num
      omega
    · show _ = a5
      norm_num
      omega
    · show _ = a6
      norm_num
      omega
    · show _ = a7
      norm_num
      omega

theorem testBit_255 : ∀ j < 8, Nat.testBit 255 j = true := by
  decide

theorem matrix_testBit {bm : Nat} {rows : List Nat}
    (h : ∀ i < 8, (bm >>> (8 * i)) &&& 255 = rows.getD i 0) (i j : Nat) (hi : i < 8)
    (hj : j < 8) : bm.testBit (8 * i + j) = (rows.getD i 0).testBit j := by
  rw [← h i hi, Nat.testBit_and, Nat.testBit_shiftRight, testBit_255 j hj, Bool.and_true]

theorem range_64_blocks :
    List.range 64 = (List.range 8).flatMap (fun i => (List.range 8).map (fun j => 8 * i + j)) := by
  decide

theorem flatMap_filter_length (p : Nat → Bool) (f : Nat → List Nat) (c : Nat) :
    ∀ l : List Nat, (∀ i ∈ l, ((f i).filter p).length = c) →
      ((l.flatMap f).filter p).length = l.length * c := by
  intro l
  induction l with
  | nil => intro _; simp
  | cons a l ih =>
    intro h
    rw [List.flatMap_cons, List.filter_append, List.length_append,
      ih (fun i hi => h i (List.mem_cons_of_mem _ hi)), h a (List.mem_cons_self _ _),
      List.length_cons]
    ring

/-- A `bitMatrix` that encodes 8 balanced rows has exactly 32 set bits. -/
theorem popcount64_bitMatrix {bm : Nat} {rows : List Nat} (hlen : rows.length = 8)
    (hbal : ∀ r ∈ rows, r ∈ balancedBytes)
    (h : ∀ i < 8, (bm >>> (8 * i)) &&& 255 = rows.getD i 0) : popcount64 bm = 32 := by
  unfold popcount64
  rw [range_64_blocks, flatMap_filter_length (fun p => bm.testBit p) _ 4]
  · rfl
  · intro i hi
    have hi8 := List.mem_range.mp hi
    rw [List.filter_map, List.length_map]
    have hm : rows.getD i 0 ∈ rows := by
      rw [List.getD_eq_getElem _ _ (by omega)]
      exact List.getElem_mem _
    rw [← (mem_balancedBytes.mp (hbal _ hm)).2]
    unfold popcount8
    congr 1
    apply List.filter_congr
    intro j hj
    exact matrix_testBit h i j hi8 (List.mem_range.mp hj)

/-- Two encodings that agree on bits 0..63 encode the same rows. -/
theorem rows_eq_of_bits_eq {A B : Layer} (hA : LayerEnc A) (hB : LayerEnc B)
    (h : ∀ p < 64, A.bitMatrix.testBit p = B.bitMatrix.testBit p) : A.rows = B.rows := by
  apply List.ext_getElem (hA.rowsLen.trans hB.rowsLen.symm)
  intro i h1 h2
  have hi : i < 8 := by rw [hA.rowsLen] at h1; exact h1
  have e1 : A.rows.getD i 0 = B.rows.getD i 0 := by
    apply Nat.eq_of_testBit_eq
    intro j
    by_cases hj : j < 8
    · rw [← matrix_testBit hA.matrix i j hi hj, ← matrix_testBit hB.matrix i j hi hj]
      exact h _ (by omega)
    · have la : A.rows.getD i 0 < 2 ^ j := by
        have : A.rows.getD i 0 < 256 := by
          rw [← hA.matrix i hi, shift_and_255]
          exact Nat.mod_lt _ (by norm_num)
        exact lt_of_lt_of_le this (by
          have : (2 : Nat) ^ 8 ≤ 2 ^ j := Nat.pow_le_pow_right (by norm_num) (by omega)
          simpa using this)
      have lb : B.rows.getD i 0 < 2 ^ j := by
        have : B.rows.getD i 0 < 256 := by
          rw [← hB.matrix i hi, shift_and_255]
          exact Nat.mod_lt _ (by norm_num)
        exact lt_of_lt_of_le this (by
          have : (2 : Nat) ^ 8 ≤ 2 ^ j := Nat.pow_le_pow_right (by norm_num) (by omega)
          simpa using this)
      rw [Nat.testBit_lt_two_pow la, Nat.testBit_lt_two_pow lb]
  rw [List.getD_eq_getElem _ _ h1, List.getD_eq_getElem _ _ h2] at e1
  exact e1

theorem numMask_fold :
    ∀ (l : List Nat) (acc : List Nat), acc.length = 4 → (∀ r ∈ l, r < 256) →
      (l.foldl (fun nm r => nm.set (r / 64) (nm.getD (r / 64) 0 ||| (1 <<< (r % 64)))) acc).length
          = 4
        ∧ ∀ m < 4, ∀ k,
            ((l.foldl (fun nm r => nm.set (r / 64) (nm.getD (r / 64) 0 ||| (1 <<< (r % 64))))
                acc).getD m 0).testBit k
              = ((acc.getD m 0).testBit k || decide (k < 64 ∧ 64 * m + k ∈ l)) := by
  intro l
  induction l with
  | nil =>
    intro acc hacc _
    exact ⟨hacc, fun m _ k => by simp⟩
  | cons r rest ih =>
    intro acc hacc hb
    have hr : r < 256 := hb r (List.mem_cons_self _ _)
    obtain ⟨h1, h2⟩ := ih (acc.set (r / 64) (acc.getD (r / 64) 0 ||| (1 <<< (r % 64))))
      (by simpa using hacc) (fun x hx => hb x (List.mem_cons_of_mem _ hx))
    rw [List.foldl_cons]
    refine ⟨h1, ?_⟩
    intro m hm k
    rw [h2 m hm k]
    have hset : ((acc.set (r / 64) (acc.getD (r / 64) 0 ||| (1 <<< (r % 64)))).getD m 0).testBit k
        = ((acc.getD m 0).testBit k || decide (m = r / 64 ∧ k = r % 64)) := by
      by_cases e : r / 64 = m
      · subst e
        have : (acc.set (r / 64) (acc.getD (r / 64) 0 ||| (1 <<< (r % 64)))).getD (r / 64) 0
            = acc.getD (r / 64) 0 ||| (1 <<< (r % 64)) := by
          simp only [List.getD_eq_getElem?_getD]
          rw [List.getElem?_set_self (by omega)]
          rfl
        rw [this, Nat.testBit_or, Nat.one_shiftLeft, Nat.testBit_two_pow]
        by_cases e2 : r % 64 = k
        · subst e2; simp
        · have e3 : ¬ k = r % 64 := fun h => e2 h.symm
          simp [e2, e3]
      · have : (acc.set (r / 64) (acc.getD (r / 64) 0 ||| (1 <<< (r % 64)))).getD m 0
            = acc.getD m 0 := by
          simp only [List.getD_eq_getElem?_getD]
          rw [List.getElem?_set_ne e]
        have e3 : ¬ m = r / 64 := fun h => e h.symm
        rw [this]
        simp [e3]
    rw [hset, Bool.or_assoc]
    congr 1
    rw [← Bool.decide_or]
    apply decide_eq_decide.mpr
    simp only [List.mem_cons]
    constructor
    · rintro (⟨h3, h4⟩ | ⟨h3, h4⟩)
      · exact ⟨by omega, Or.inl (by omega)⟩
      · exact ⟨h3, Or.inr h4⟩
    · rintro ⟨h3, h4 | h4⟩
      · exact Or.inl ⟨by omega, by omega⟩
      · exact Or.inr ⟨h3, h4⟩

/-- A layer built from 8 balanced rows satisfies the encoding invariants. -/
theorem buildLayer_enc {rows : List Nat} (hlen : rows.length = 8)
    (hbal : ∀ r ∈ rows, r ∈ balancedBytes) : LayerEnc (buildLayer rows) := by
  have hb : ∀ r ∈ rows, r < 256 := fun r hr => (mem_balancedBytes.mp (hbal r hr)).1
  have hrows := (buildLayer_rows hlen).1
  obtain ⟨m1, m2⟩ := buildLayer_bitMatrix hlen hb
  have hmask : (buildLayer rows).numMask
      = rows.foldl (fun nm r => nm.set (r / 64) (nm.getD (r / 64) 0 ||| (1 <<< (r % 64))))
          [0, 0, 0, 0] := by
    obtain ⟨a0, a1, a2, a3, a4, a5, a6, a7, rfl⟩ := rows_of_length_eight hlen
    rfl
  refine ⟨hrows ▸ hlen, hrows ▸ hbal, m1, hrows ▸ m2, ?_⟩
  intro m hm k
  rw [hmask, (numMask_fold rows [0, 0, 0, 0] rfl hb).2 m hm k, hrows]
  have hz : ([0, 0, 0, 0] : List Nat).getD m 0 = 0 := by
    interval_cases m <;> rfl
  rw [hz, Nat.zero_testBit, Bool.false_or]

/-- Every layer that `generate` produces satisfies the encoding invariants. -/
theorem validLayers_enc (mem : Nat → Nat) (rows0 : List Nat) (hlen : rows0.length = 8) :
    ∃ g, generate (BalancedSet.construct mem) LayerGenerator.new rows0 = some g
      ∧ ∀ L ∈ g.validLayers, LayerEnc L := by
  have hbs := goodSet_construct mem
  obtain ⟨g, hg, hv⟩ := generate_spec hbs rows0 hlen
  refine ⟨g, hg, ?_⟩
  intro L hL
  rw [hv, mem_layersFrom_top] at hL
  obtain ⟨i0, i1, i2, i3, h0, h1, h2, h3, hnd, rfl⟩ := hL
  exact buildLayer_enc (layerRows_length _ _ _ _ _) (layerRows_facts hbs h0 h1 h2 h3 hnd).1

/-! ## Theorems: calls of the layer assembler -/

/-- The bit-sliced step is exact per cell as long as the count is at most 4
and the candidate's bit is clear where it is 4. -/
theorem cellCount_step (zCounts : List Nat) (bm p : Nat) (h4 : cellCount zCounts p ≤ 4)
    (hfull : cellCount zCounts p = 4 → bm.testBit p = false) :
    cellCount
        [zCounts.getD 0 0 ^^^ bm, zCounts.getD 1 0 ^^^ (zCounts.getD 0 0 &&& bm),
         zCounts.getD 2 0 ||| (zCounts.getD 1 0 &&& (zCounts.getD 0 0 &&& bm))] p
      = cellCount zCounts p + (bm.testBit p).toNat := by
  unfold cellCount at *
  simp only [List.getD_cons_zero, List.getD_cons_succ, Nat.testBit_xor, Nat.testBit_and,
    Nat.testBit_or]
  revert h4 hfull
  cases (zCounts.getD 0 0).testBit p <;> cases (zCounts.getD 1 0).testBit p
    <;> cases (zCounts.getD 2 0).testBit p <;> cases bm.testBit p <;> simp

theorem and_ne_zero_iff_bit (a b : Nat) :
    a &&& b ≠ 0 ↔ ∃ k, a.testBit k = true ∧ b.testBit k = true := by
  constructor
  · intro h
    obtain ⟨k, hk⟩ := Nat.ne_zero_implies_bit_true h
    rw [Nat.testBit_and, Bool.and_eq_true] at hk
    exact ⟨k, hk⟩
  · rintro ⟨k, h1, h2⟩ e
    have := congrArg (fun n => n.testBit k) e
    simp [Nat.testBit_and, h1, h2] at this

theorem maskCollision_iff (candMask cubeMask : List Nat) :
    maskCollision candMask cubeMask = true
      ↔ ∃ m < 4, ∃ k, (candMask.getD m 0).testBit k = true
          ∧ (cubeMask.getD m 0).testBit k = true := by
  unfold maskCollision
  simp only [Bool.or_eq_true, decide_eq_true_eq, and_ne_zero_iff_bit]
  constructor
  · rintro (((h | h) | h) | h)
    · exact ⟨0, by omega, h⟩
    · exact ⟨1, by omega, h⟩
    · exact ⟨2, by omega, h⟩
    · exact ⟨3, by omega, h⟩
  · rintro ⟨m, hm, h⟩
    interval_cases m
    · exact Or.inl (Or.inl (Or.inl h))
    · exact Or.inl (Or.inl (Or.inr h))
    · exact Or.inl (Or.inr h)
    · exact Or.inr h

theorem getD_map_range_four (f : Nat → Nat) (m : Nat) (hm : m < 4) :
    ((List.range 4).map f).getD m 0 = f m := by
  interval_cases m <;> rfl

/-- What holds at every reached call: `currentZ` layers of the vector are
placed, between 1 and 3; per cell the planes encode the number of placed
layers with a one there; the accumulated mask is the union of the placed
layers' masks; and no two placed layers' masks meet. -/
theorem Reached.facts {layers : List Layer} {layerStartIdx currentZ : Nat}
    {zCounts currentCubeMask : List Nat} {placed : List Layer}
    (h : Reached layers layerStartIdx currentZ zCounts currentCubeMask placed) :
    placed.length = currentZ ∧ 1 ≤ currentZ ∧ currentZ ≤ 3
      ∧ (∀ L ∈ placed, L ∈ layers)
      ∧ (∀ p, cellCount zCounts p = (placed.filter (fun L => L.bitMatrix.testBit p)).length)
      ∧ (∀ m < 4, ∀ k, (currentCubeMask.getD m 0).testBit k = true
          ↔ ∃ L ∈ placed, (L.numMask.getD m 0).testBit k = true)
      ∧ placed.Pairwise (fun A B => ¬ MasksMeet A B) := by
  induction h with
  | root i hi =>
    refine ⟨rfl, le_refl _, by omega, ?_, ?_, ?_, List.pairwise_singleton _ _⟩
    · intro L hL
      rw [List.mem_singleton] at hL
      subst hL
      exact layerAt_mem layers i hi
    · intro p
      unfold cellCount
      simp only [List.getD_cons_zero, List.getD_cons_succ, Nat.zero_testBit, List.filter_cons,
        List.filter_nil]
      cases (layerAt layers i).bitMatrix.testBit p <;> simp
    · intro m hm k
      rw [getD_map_range_four _ m hm]
      simp
  | @place s k zc mask pl i h hz hs hi hprune hcoll ih =>
    obtain ⟨f1, f2, f3, f4, f5, f6, f7⟩ := ih
    refine ⟨by rw [List.length_append, f1]; rfl, by omega, by omega, ?_, ?_, ?_, ?_⟩
    · intro L hL
      rcases List.mem_append.mp hL with h1 | h1
      · exact f4 L h1
      · rw [List.mem_singleton] at h1
        subst h1
        exact layerAt_mem layers i hi
    · intro p
      have hle := List.length_filter_le (fun L : Layer => L.bitMatrix.testBit p) pl
      rw [cellCount_step _ _ p (by rw [f5 p]; omega) (by rw [f5 p]; omega), f5 p,
        List.filter_append, List.length_append]
      by_cases hb : (layerAt layers i).bitMatrix.testBit p = true <;> simp [hb]
    · intro m hm k
      rw [getD_map_range_four _ m hm, Nat.testBit_or, Bool.or_eq_true, f6 m hm k]
      constructor
      · rintro (⟨L, h1, h2⟩ | h1)
        · exact ⟨L, List.mem_append_left _ h1, h2⟩
        · exact ⟨_, List.mem_append_right _ (List.mem_singleton_self _), h1⟩
      · rintro ⟨L, h1, h2⟩
        rcases List.mem_append.mp h1 with h3 | h3
        · exact Or.inl ⟨L, h3, h2⟩
        · rw [List.mem_singleton] at h3
          subst h3
          exact Or.inr h2
    · rw [List.pairwise_append]
      refine ⟨f7, List.pairwise_singleton _ _, ?_⟩
      intro A hA B hB
      rw [List.mem_singleton] at hB
      subst hB
      rintro ⟨m, hm, k, h1, h2⟩
      apply hcoll
      rw [maskCollision_iff]
      exact ⟨m, hm, k, h2, (f6 m hm k).mpr ⟨A, hA, h1⟩⟩

theorem popcount64_eq_card (v : Nat) :
    popcount64 v = ((Finset.range 64).filter (fun p => v.testBit p = true)).card := by
  unfold popcount64
  rw [Finset.card_def, Finset.filter_val, Finset.range_val, Multiset.range,
    Multiset.filter_coe, Multiset.coe_card]
  congr 1
  apply List.filter_congr
  intro x _
  simp

/-- Two bit sets of 32 elements each that both avoid a third set of 32
elements of `0..63` are equal. -/
theorem bits_eq_of_avoid (a b c : Nat) (ha : popcount64 a = 32) (hb : popcount64 b = 32)
    (hc : popcount64 c = 32)
    (hac : ∀ p < 64, c.testBit p = true → a.testBit p = false)
    (hbc : ∀ p < 64, c.testBit p = true → b.testBit p = false) :
    ∀ p < 64, a.testBit p = b.testBit p := by
  rw [popcount64_eq_card] at ha hb hc
  have hN : ((Finset.range 64).filter (fun p => ¬ c.testBit p = true)).card = 32 := by
    have hsum : ((Finset.range 64).filter (fun p => c.testBit p = true)).card
        + ((Finset.range 64).filter (fun p => ¬ c.testBit p = true)).card
        = (Finset.range 64).card :=
      Finset.filter_card_add_filter_neg_card_eq_card _
    rw [hc, Finset.card_range] at hsum
    omega
  have sub : ∀ x : Nat, popcount64 x = 32 → (∀ p < 64, c.testBit p = true → x.testBit p = false) →
      (Finset.range 64).filter (fun p => x.testBit p = true)
        = (Finset.range 64).filter (fun p => ¬ c.testBit p = true) := by
    intro x hx hxc
    rw [popcount64_eq_card] at hx
    apply Finset.eq_of_subset_of_card_le
    · intro p hp
      rw [Finset.mem_filter, Finset.mem_range] at hp ⊢
      refine ⟨hp.1, ?_⟩
      intro hcp
      have := hxc p hp.1 hcp
      rw [hp.2] at this
      exact absurd this (by decide)
    · rw [hN, hx]
  have ea := sub a (by rw [popcount64_eq_card]; exact ha) hac
  have eb := sub b (by rw [popcount64_eq_card]; exact hb) hbc
  intro p hp
  have h1 : p ∈ (Finset.range 64).filter (fun p => a.testBit p = true)
      ↔ p ∈ (Finset.range 64).filter (fun p => b.testBit p = true) := by
    rw [ea, eb]
  simp only [Finset.mem_filter, Finset.mem_range, hp, true_and] at h1
  cases hA : a.testBit p <;> cases hB : b.testBit p <;> simp_all

/-- Bit `p < 64` of the depth-3 target is set exactly when it is clear in both
low planes. -/
theorem target_testBit (z0 z1 p : Nat) (hp : p < 64) :
    (2 ^ 64 - 1 - (z0 ||| z1) % 2 ^ 64).testBit p = !(z0.testBit p || z1.testBit p) := by
  have hlt : (z0 ||| z1) % 2 ^ 64 < 2 ^ 64 := Nat.mod_lt _ (by norm_num)
  have e : 2 ^ 64 - 1 - (z0 ||| z1) % 2 ^ 64 = 2 ^ 64 - ((z0 ||| z1) % 2 ^ 64 + 1) := by omega
  rw [e, Nat.testBit_two_pow_sub_succ hlt, Nat.testBit_mod_two_pow, Nat.testBit_or]
  simp [hp]

/-- A layer with encoded rows whose first row is shared has a `numMask` that
meets the other's. -/
theorem masksMeet_of_rows_eq {A B : Layer} (hA : LayerEnc A) (hB : LayerEnc B)
    (h : A.rows = B.rows) : MasksMeet A B := by
  have hm : A.rows.getD 0 0 ∈ A.rows := by
    rw [List.getD_eq_getElem _ _ (by rw [hA.rowsLen]; omega)]
    exact List.getElem_mem _
  have hlt := (mem_balancedBytes.mp (hA.rowsBal _ hm)).1
  generalize A.rows.getD 0 0 = v at hm hlt
  refine ⟨v / 64, by omega, v % 64, ?_, ?_⟩
  · rw [hA.mask (v / 64) (by omega)]
    have e : 64 * (v / 64) + v % 64 = v := by omega
    simp [e, hm, Nat.mod_lt]
  · rw [hB.mask (v / 64) (by omega)]
    have e : 64 * (v / 64) + v % 64 = v := by omega
    rw [← h]
    simp [e, hm, Nat.mod_lt]

/-- At a reached call at depth 3 no layer of the vector passes both checks:
its `bitMatrix` cannot equal the target unless two placed layers have the same
rows, which the collision pruning excluded when the second was placed. -/
theorem depth3_rejects {layers : List Layer} {layerStartIdx : Nat}
    {zCounts currentCubeMask : List Nat} {placed : List Layer}
    (hr : Reached layers layerStartIdx 3 zCounts currentCubeMask placed)
    (henc : ∀ L ∈ layers, LayerEnc L) (cand : Layer) (hcand : LayerEnc cand) :
    cand.bitMatrix ≠ 2 ^ 64 - 1 - (zCounts.getD 0 0 ||| zCounts.getD 1 0) % 2 ^ 64 := by
  intro heq
  obtain ⟨f1, -, -, f4, f5, -, f7⟩ := hr.facts
  obtain ⟨A, B, C, rfl⟩ : ∃ A B C, placed = [A, B, C] := by
    match placed, f1 with
    | [A, B, C], _ => exact ⟨A, B, C, rfl⟩
  have hA := henc A (f4 A (by simp))
  have hB := henc B (f4 B (by simp))
  have avoid : ∀ L ∈ [A, B, C], ∀ p < 64, cand.bitMatrix.testBit p = true →
      L.bitMatrix.testBit p = false := by
    intro L hL p hp hc
    rw [heq, target_testBit _ _ p hp] at hc
    have h5 := f5 p
    have hle := List.length_filter_le (fun L : Layer => L.bitMatrix.testBit p) [A, B, C]
    unfold cellCount at h5
    have h01 : (zCounts.getD 0 0).testBit p = false ∧ (zCounts.getD 1 0).testBit p = false := by
      cases h0 : (zCounts.getD 0 0).testBit p <;> cases h1 : (zCounts.getD 1 0).testBit p
        <;> simp_all
    rw [h01.1, h01.2] at h5
    have h2 : (zCounts.getD 2 0).testBit p = false := by
      cases h2 : (zCounts.getD 2 0).testBit p
      · rfl
      · rw [h2] at h5
        simp only [Bool.toNat_true, Bool.toNat_false, List.length_cons, List.length_nil] at h5 hle
        omega
    rw [h2] at h5
    have hnil : [A, B, C].filter (fun L => L.bitMatrix.testBit p) = [] := by
      apply List.length_eq_zero.mp
      simp only [Bool.toNat_false] at h5
      omega
    by_contra hb
    have : L ∈ [A, B, C].filter (fun L => L.bitMatrix.testBit p) :=
      List.mem_filter.mpr ⟨hL, by simpa using hb⟩
    rw [hnil] at this
    exact absurd this (List.not_mem_nil _)
  have hbits := bits_eq_of_avoid A.bitMatrix B.bitMatrix cand.bitMatrix
    (popcount64_bitMatrix hA.rowsLen hA.rowsBal hA.matrix)
    (popcount64_bitMatrix hB.rowsLen hB.rowsBal hB.matrix)
    (popcount64_bitMatrix hcand.rowsLen hcand.rowsBal hcand.matrix)
    (avoid A (by simp)) (avoid B (by simp))
  have hrows := rows_eq_of_bits_eq hA hB hbits
  have hmeet := masksMeet_of_rows_eq hA hB hrows
  rw [List.pairwise_cons] at f7
  exact f7.1 B (by simp) hmeet

theorem lookupStep_nothing {bs : BalancedSet} {layers : List Layer} {layerStartIdx : Nat}
    {zCounts currentCubeMask : List Nat} {placed : List Layer}
    (hr : Reached layers layerStartIdx 3 zCounts currentCubeMask placed)
    (henc : ∀ L ∈ layers, LayerEnc L) (run : AssemblerRun) (idx : Nat)
    (hidx : idx < layers.length) :
    (lookupStep bs layers layerStartIdx
      (2 ^ 64 - 1 - (zCounts.getD 0 0 ||| zCounts.getD 1 0) % 2 ^ 64) currentCubeMask run
      idx).assembler = run.assembler := by
  unfold lookupStep
  by_cases h1 : idx < layerStartIdx
  · rw [if_pos h1]
  · rw [if_neg h1]
    have h2 := depth3_rejects hr henc (layerAt layers idx)
      (henc _ (layerAt_mem layers idx hidx))
    simp only [ne_eq, h2, not_false_eq_true, if_true]

theorem lookupFold_nothing {bs : BalancedSet} {layers : List Layer} {layerStartIdx : Nat}
    {zCounts currentCubeMask : List Nat} {placed : List Layer}
    (hr : Reached layers layerStartIdx 3 zCounts currentCubeMask placed)
    (henc : ∀ L ∈ layers, LayerEnc L) :
    ∀ (idxs : List Nat), (∀ i ∈ idxs, i < layers.length) → ∀ run : AssemblerRun,
      (idxs.foldl (lookupStep bs layers layerStartIdx
        (2 ^ 64 - 1 - (zCounts.getD 0 0 ||| zCounts.getD 1 0) % 2 ^ 64) currentCubeMask)
        run).assembler = run.assembler := by
  intro idxs
  induction idxs with
  | nil => intro _ run; rfl
  | cons i rest ih =>
    intro hmem run
    rw [List.foldl_cons, ih (fun j hj => hmem j (List.mem_cons_of_mem _ hj))]
    exact lookupStep_nothing hr henc run i (hmem i (List.mem_cons_self _ _))

/-- A reached call of `searchWithLookup` leaves the assembler as it is: no
cube is materialised below it. -/
theorem searchWithLookup_nothing (bs : BalancedSet) (layers : List Layer)
    (lookup : List (List Nat)) (hlook : ∀ v, ∀ i ∈ lookup.getD v [], i < layers.length)
    (henc : ∀ L ∈ layers, LayerEnc L) :
    ∀ (d fuel currentZ layerStartIdx : Nat) (zCounts currentCubeMask : List Nat)
      (placed : List Layer) (run run' : AssemblerRun), currentZ + d = 3 →
      Reached layers layerStartIdx currentZ zCounts currentCubeMask placed →
      searchWithLookup bs layers lookup fuel layerStartIdx currentZ zCounts currentCubeMask run
        = some run' →
      run'.assembler = run.assembler := by
  intro d
  induction d with
  | zero =>
    intro fuel currentZ layerStartIdx zCounts currentCubeMask placed run run' h3 hr h
    have hz : currentZ = 3 := by omega
    subst hz
    cases fuel with
    | zero => simp [searchWithLookup] at h
    | succ f =>
      rw [searchWithLookup_succ, if_pos rfl, Option.some.injEq] at h
      rw [← h]
      exact lookupFold_nothing hr henc _ (hlook _) run
  | succ d ih =>
    intro fuel currentZ layerStartIdx zCounts currentCubeMask placed run run' h3 hr h
    have hz : currentZ ≠ 3 := by omega
    cases fuel with
    | zero => simp [searchWithLookup] at h
    | succ f =>
      rw [searchWithLookup_succ, if_neg hz] at h
      have hmem : ∀ i ∈ List.range' layerStartIdx (layers.length - layerStartIdx),
          layerStartIdx ≤ i ∧ i < layers.length := by
        intro i hi
        rw [List.mem_range'_1] at hi
        omega
      generalize List.range' layerStartIdx (layers.length - layerStartIdx) = is at hmem h
      induction is generalizing run with
      | nil =>
        simp only [List.foldlM_nil] at h
        rw [← Option.some.inj h]
      | cons i rest ihl =>
        rw [List.foldlM_cons] at h
        have hrest : ∀ j ∈ rest, layerStartIdx ≤ j ∧ j < layers.length :=
          fun j hj => hmem j (List.mem_cons_of_mem _ hj)
        obtain ⟨hs, hi⟩ := hmem i (List.mem_cons_self _ _)
        by_cases h1 : zCounts.getD 2 0 &&& (layerAt layers i).bitMatrix ≠ 0
        · rw [if_pos h1] at h
          exact ihl run hrest h
        · rw [if_neg h1] at h
          by_cases h2 : maskCollision (layerAt layers i).numMask currentCubeMask = true
          · rw [if_pos h2] at h
            exact ihl run hrest h
          · rw [if_neg h2] at h
            cases hrec : searchWithLookup bs layers lookup f (i + 1) (currentZ + 1)
                [zCounts.getD 0 0 ^^^ (layerAt layers i).bitMatrix,
                 zCounts.getD 1 0 ^^^ (zCounts.getD 0 0 &&& (layerAt layers i).bitMatrix),
                 zCounts.getD 2 0
                   ||| (zCounts.getD 1 0
                     &&& (zCounts.getD 0 0 &&& (layerAt layers i).bitMatrix))]
                ((List.range 4).map fun m =>
                  currentCubeMask.getD m 0 ||| (layerAt layers i).numMask.getD m 0)
                { run with
                  localChecked := run.localChecked + 1
                  currentCubeRows := run.currentCubeRows.set currentZ (layerAt layers i).rows }
              with
            | none =>
              rw [hrec] at h
              simp at h
            | some r =>
              rw [hrec] at h
              have e1 := ih f (currentZ + 1) (i + 1) _ _ _ _ r (by omega)
                (Reached.place i hr hz hs hi h1 h2) hrec
              have e2 := ihl r hrest h
              rw [e2, e1]

theorem assembleRoot_nothing (bs : BalancedSet) (layers : List Layer)
    (henc : ∀ L ∈ layers, LayerEnc L) (st st' : AssemblerRun × Nat) (i : Nat)
    (hi : i < layers.length)
    (h : assembleRoot bs layers (buildLookup layers) st i = some st') :
    st'.1.assembler.saved = st.1.assembler.saved
      ∧ st'.1.assembler.foundCount = st.1.assembler.foundCount := by
  unfold assembleRoot at h
  dsimp only at h
  split at h
  · exact absurd h (by simp)
  · rename_i run1 hrec
    have e := searchWithLookup_nothing bs layers (buildLookup layers) (buildLookup_bound layers)
      henc 2 3 1 (i + 1) _ _ _ _ run1 rfl (Reached.root i hi) hrec
    by_cases h10 : (st.2 + 1) % 10 = 0
    · rw [if_pos h10, Option.some.injEq] at h
      rw [← h]
      show run1.assembler.saved = _ ∧ run1.assembler.foundCount = _
      rw [e]
      exact ⟨rfl, rfl⟩
    · rw [if_neg h10, Option.some.injEq] at h
      rw [← h]
      show run1.assembler.saved = _ ∧ run1.assembler.foundCount = _
      rw [e]
      exact ⟨rfl, rfl⟩

theorem assembleRoots_nothing (bs : BalancedSet) (layers : List Layer)
    (henc : ∀ L ∈ layers, LayerEnc L) :
    ∀ (roots : List Nat), (∀ i ∈ roots, i < layers.length) →
      ∀ st st' : AssemblerRun × Nat,
        roots.foldlM (assembleRoot bs layers (buildLookup layers)) st = some st' →
        st'.1.assembler.saved = st.1.assembler.saved
          ∧ st'.1.assembler.foundCount = st.1.assembler.foundCount := by
  intro roots
  induction roots with
  | nil =>
    intro _ st st' h
    simp only [List.foldlM_nil] at h
    rw [← Option.some.inj h]
    exact ⟨rfl, rfl⟩
  | cons i rest ih =>
    intro hmem st st' h
    rw [List.foldlM_cons] at h
    cases h1 : assembleRoot bs layers (buildLookup layers) st i with
    | none => simp [h1] at h
    | some s1 =>
      rw [h1] at h
      obtain ⟨e1, e2⟩ := assembleRoot_nothing bs layers henc st s1 i
        (hmem i (List.mem_cons_self _ _)) h1
      obtain ⟨e3, e4⟩ := ih (fun j hj => hmem j (List.mem_cons_of_mem _ hj)) s1 st' h
      exact ⟨e3.trans e1, e4.trans e2⟩

theorem assembleWorker_nothing (bs : BalancedSet) (layers : List Layer)
    (henc : ∀ L ∈ layers, LayerEnc L) (chunk : Nat) (st st' : CubeAssembler × Nat) (t : Nat)
    (h : assembleWorker bs layers (buildLookup layers) chunk st t = some st') :
    st'.1.saved = st.1.saved ∧ st'.1.foundCount = st.1.foundCount := by
  unfold assembleWorker at h
  dsimp only at h
  split at h
  · exact absurd h (by simp)
  · rename_i run1 completedRoots h1
    obtain ⟨e1, e2⟩ := assembleRoots_nothing bs layers henc _
      (fun i hi => by
        have := (mem_threadRange _ _ _ _).mp hi
        omega) _ (run1, completedRoots) h1
    rw [Option.some.injEq] at h
    rw [← h]
    exact ⟨e1, e2⟩

theorem assembleWorkers_nothing (bs : BalancedSet) (layers : List Layer)
    (henc : ∀ L ∈ layers, LayerEnc L) (chunk : Nat) :
    ∀ (ts : List Nat) (st st' : CubeAssembler × Nat),
      ts.foldlM (assembleWorker bs layers (buildLookup layers) chunk) st = some st' →
      st'.1.saved = st.1.saved ∧ st'.1.foundCount = st.1.foundCount := by
  intro ts
  induction ts with
  | nil =>
    intro st st' h
    simp only [List.foldlM_nil] at h
    rw [← Option.some.inj h]
    exact ⟨rfl, rfl⟩
  | cons t rest ih =>
    intro st st' h
    rw [List.foldlM_cons] at h
    cases h1 : assembleWorker bs layers (buildLookup layers) chunk st t with
    | none => simp [h1] at h
    | some s1 =>
      rw [h1] at h
      obtain ⟨e1, e2⟩ := assembleWorker_nothing bs layers henc chunk st s1 t h1
      obtain ⟨e3, e4⟩ := ih s1 st' h
      exact ⟨e3.trans e1, e4.trans e2⟩

/-- On layers with encoded rows `assembleParallel` never calls `saveToDisk`:
whatever it returns has `saved` and `foundCount` as before. -/
theorem assembleParallel_nothing (bs : BalancedSet) (layers : List Layer)
    (henc : ∀ L ∈ layers, LayerEnc L) (nThreads : Nat) (a a' : CubeAssembler)
    (h : assembleParallel bs layers nThreads a = some a') :
    a'.saved = a.saved ∧ a'.foundCount = a.foundCount := by
  unfold assembleParallel at h
  by_cases hn : layers.length = 0
  · rw [if_pos hn, Option.some.injEq] at h
    rw [← h]
    exact ⟨rfl, rfl⟩
  · rw [if_neg hn] at h
    dsimp only at h
    split at h
    · exact absurd h (by simp)
    · rename_i chunk hc
      cases hw : (List.range nThreads).foldlM
          (assembleWorker bs layers (buildLookup layers) chunk) (a, 0) with
      | none =>
        rw [hw] at h
        exact absurd h (by simp)
      | some s1 =>
        rw [hw, Option.map_some', Option.some.injEq] at h
        rw [← h]
        exact assembleWorkers_nothing bs layers henc chunk _ (a, 0) s1 hw

/-! ## Theorems: encoding, collision test, bit-sliced counts, no acceptance -/

theorem validLayers_built (mem : Nat → Nat) (rows0 : List Nat) (hlen : rows0.length = 8) :
    ∃ g, generate (BalancedSet.construct mem) LayerGenerator.new rows0 = some g
      ∧ ∀ L ∈ g.validLayers, LayerEnc L ∧ L = buildLayer L.rows := by
  have hbs := goodSet_construct mem
  obtain ⟨g, hg, hv⟩ := generate_spec hbs rows0 hlen
  refine ⟨g, hg, ?_⟩
  intro L hL
  rw [hv, mem_layersFrom_top] at hL
  obtain ⟨i0, i1, i2, i3, h0, h1, h2, h3, hnd, rfl⟩ := hL
  refine ⟨buildLayer_enc (layerRows_length _ _ _ _ _) (layerRows_facts hbs h0 h1 h2 h3 hnd).1, ?_⟩
  rw [(buildLayer_rows (layerRows_length _ _ _ _ _)).1]

/-- C22. `generate` returns, and for every layer of `validLayers` and every
`i` in `0..7`, `(bitMatrix >> 8i) & 0xFF = rows[i]`; so the rows are read back
from `bitMatrix`, two layers have equal `bitMatrix` exactly when they have
equal rows in the same order, and `bitMatrix`, a 64-bit value, has exactly 32
set bits. -/
theorem bitMatrix_encodes_rows (mem : Nat → Nat) (rows0 : List Nat) (hlen : rows0.length = 8) :
    ∃ g, generate (BalancedSet.construct mem) LayerGenerator.new rows0 = some g
      ∧ (∀ L ∈ g.validLayers,
          (∀ i < 8, (L.bitMatrix >>> (8 * i)) &&& 255 = L.rows.getD i 0)
            ∧ L.rows = (List.range 8).map (fun i => (L.bitMatrix >>> (8 * i)) &&& 255)
            ∧ L.bitMatrix < 2 ^ 64
            ∧ popcount64 L.bitMatrix = 32)
      ∧ (∀ L1 ∈ g.validLayers, ∀ L2 ∈ g.validLayers,
          (L1.bitMatrix = L2.bitMatrix ↔ L1.rows = L2.rows)) := by
  obtain ⟨g, hg, h⟩ := validLayers_built mem rows0 hlen
  refine ⟨g, hg, ?_, ?_⟩
  · intro L hL
    obtain ⟨he, -⟩ := h L hL
    refine ⟨he.matrix, ?_, he.matrixLt, popcount64_bitMatrix he.rowsLen he.rowsBal he.matrix⟩
    rw [← map_getD_range L.rows he.rowsLen]
    apply List.map_congr_left
    intro i hi
    rw [he.matrix i (List.mem_range.mp hi)]
  · intro L1 h1 L2 h2
    obtain ⟨e1, b1⟩ := h L1 h1
    obtain ⟨e2, b2⟩ := h L2 h2
    constructor
    · intro hbm
      exact rows_eq_of_bits_eq e1 e2 (fun p _ => by rw [hbm])
    · intro hrows
      rw [b1, b2, hrows]

/-- Witness for C22: from a zeroed row buffer the generator returns and the
first row of every layer is the low byte of its `bitMatrix`. -/
theorem bitMatrix_encodes_rows_witness :
    (List.replicate 8 0).length = 8
      ∧ ∃ g, generate (BalancedSet.construct (fun _ => 0)) LayerGenerator.new
          (List.replicate 8 0) = some g
        ∧ ∀ L ∈ g.validLayers, (L.bitMatrix >>> (8 * 0)) &&& 255 = L.rows.getD 0 0 := by
  obtain ⟨g, h1, h2, -⟩ := bitMatrix_encodes_rows (fun _ => 0) (List.replicate 8 0) rfl
  exact ⟨rfl, g, h1, fun L hL => (h2 L hL).1 0 (by omega)⟩

/-- On layers with encoded rows, the four-word test against the accumulated
mask of a reached call answers whether the candidate shares a row value with a
placed layer. -/
theorem maskCollision_iff_shared_row {layers : List Layer} {layerStartIdx currentZ : Nat}
    {zCounts currentCubeMask : List Nat} {placed : List Layer}
    (hr : Reached layers layerStartIdx currentZ zCounts currentCubeMask placed)
    (henc : ∀ L ∈ layers, LayerEnc L) (cand : Layer) (hcand : LayerEnc cand) :
    maskCollision cand.numMask currentCubeMask = true
      ↔ ∃ L ∈ placed, ∃ v, v ∈ cand.rows ∧ v ∈ L.rows := by
  obtain ⟨-, -, -, f4, -, f6, -⟩ := hr.facts
  rw [maskCollision_iff]
  constructor
  · rintro ⟨m, hm, k, h1, h2⟩
    obtain ⟨L, hL, h3⟩ := (f6 m hm k).mp h2
    rw [hcand.mask m hm k] at h1
    rw [(henc L (f4 L hL)).mask m hm k] at h3
    simp only [decide_eq_true_eq] at h1 h3
    exact ⟨L, hL, 64 * m + k, h1.2, h3.2⟩
  · rintro ⟨L, hL, v, h1, h2⟩
    have hv := (mem_balancedBytes.mp (hcand.rowsBal v h1)).1
    have e : 64 * (v / 64) + v % 64 = v := by omega
    refine ⟨v / 64, by omega, v % 64, ?_, (f6 _ (by omega) _).mpr ⟨L, hL, ?_⟩⟩
    · rw [hcand.mask _ (by omega)]
      simp [e, h1, Nat.mod_lt]
    · rw [(henc L (f4 L hL)).mask _ (by omega)]
      simp [e, h2, Nat.mod_lt]

/-- C23. `generate` returns, and for every layer of `validLayers` and every
byte `v`, bit `v mod 64` of `numMask[v div 64]` is set exactly when `v` is one
of the layer's 8 rows.  At every call of `searchWithLookup` reached on layers
with encoded rows, the four-word AND test between a candidate's `numMask` and
`currentCubeMask` is non-zero exactly when the candidate shares a row value
with a layer placed on the current path. -/
theorem numMask_marks_rows (mem : Nat → Nat) (rows0 : List Nat) (hlen : rows0.length = 8) :
    (∃ g, generate (BalancedSet.construct mem) LayerGenerator.new rows0 = some g
        ∧ ∀ L ∈ g.validLayers, ∀ v < 256,
            ((L.numMask.getD (v / 64) 0).testBit (v % 64) = true ↔ v ∈ L.rows))
      ∧ (∀ (layers : List Layer) (layerStartIdx currentZ : Nat)
          (zCounts currentCubeMask : List Nat) (placed : List Layer) (cand : Layer),
          (∀ L ∈ layers, LayerEnc L) → LayerEnc cand →
          Reached layers layerStartIdx currentZ zCounts currentCubeMask placed →
          ((cand.numMask.getD 0 0 &&& currentCubeMask.getD 0 0 ≠ 0
              ∨ cand.numMask.getD 1 0 &&& currentCubeMask.getD 1 0 ≠ 0
              ∨ cand.numMask.getD 2 0 &&& currentCubeMask.getD 2 0 ≠ 0
              ∨ cand.numMask.getD 3 0 &&& currentCubeMask.getD 3 0 ≠ 0)
            ↔ ∃ L ∈ placed, ∃ v, v ∈ cand.rows ∧ v ∈ L.rows)
          ∧ (maskCollision cand.numMask currentCubeMask = true
            ↔ ∃ L ∈ placed, ∃ v, v ∈ cand.rows ∧ v ∈ L.rows)) := by
  constructor
  · obtain ⟨g, hg, h⟩ := validLayers_enc mem rows0 hlen
    refine ⟨g, hg, ?_⟩
    intro L hL v hv
    have e : 64 * (v / 64) + v % 64 = v := by omega
    rw [(h L hL).mask (v / 64) (by omega)]
    simp [e, Nat.mod_lt]
  · intro layers layerStartIdx currentZ zCounts currentCubeMask placed cand henc hcand hr
    have h := maskCollision_iff_shared_row hr henc cand hcand
    refine ⟨?_, h⟩
    rw [← h]
    unfold maskCollision
    simp only [Bool.or_eq_true, decide_eq_true_eq, or_assoc]

/-- Witness for C23: from a zeroed row buffer the generator returns and every
layer's first row is marked in its `numMask`. -/
theorem numMask_marks_rows_witness :
    (List.replicate 8 0).length = 8
      ∧ ∃ g, generate (BalancedSet.construct (fun _ => 0)) LayerGenerator.new
          (List.replicate 8 0) = some g
        ∧ ∀ L ∈ g.validLayers, ∀ v < 256,
            ((L.numMask.getD (v / 64) 0).testBit (v % 64) = true ↔ v ∈ L.rows) := by
  obtain ⟨⟨g, h1, h2⟩, -⟩ := numMask_marks_rows (fun _ => 0) (List.replicate 8 0) rfl
  exact ⟨rfl, g, h1, h2⟩

/-- C24. The bit-sliced addition of `searchWithLookup` is exact: when the
three planes hold, at cell `p`, a count of at most 4 and the candidate's bit is
clear wherever the count is 4, the planes computed for the recursive call hold
that count plus the candidate's bit; these are the planes `searchWithLookup`
passes to its recursive call.  Consequently at every reached call with
`currentZ = k` (`1 <= k <= 3`) exactly `k` layers are placed and, per cell,
the planes hold the number of placed layers with a one in that cell. -/
theorem bitSliced_addition_exact :
    (∀ (zCounts : List Nat) (bm p : Nat), cellCount zCounts p ≤ 4 →
        (cellCount zCounts p = 4 → bm.testBit p = false) →
        cellCount
            [zCounts.getD 0 0 ^^^ bm, zCounts.getD 1 0 ^^^ (zCounts.getD 0 0 &&& bm),
             zCounts.getD 2 0 ||| (zCounts.getD 1 0 &&& (zCounts.getD 0 0 &&& bm))] p
          = cellCount zCounts p + (bm.testBit p).toNat)
      ∧ (∀ (bs : BalancedSet) (layers : List Layer) (lookup : List (List Nat))
          (fuel layerStartIdx currentZ : Nat) (zCounts currentCubeMask : List Nat)
          (run : AssemblerRun), currentZ ≠ 3 →
          searchWithLookup bs layers lookup (fuel + 1) layerStartIdx currentZ zCounts
              currentCubeMask run
            = (List.range' layerStartIdx (layers.length - layerStartIdx)).foldlM
                (fun (cur : AssemblerRun) i =>
                  if zCounts.getD 2 0 &&& (layerAt layers i).bitMatrix ≠ 0 then some cur
                  else if maskCollision (layerAt layers i).numMask currentCubeMask then some cur
                  else
                    searchWithLookup bs layers lookup fuel (i + 1) (currentZ + 1)
                      [zCounts.getD 0 0 ^^^ (layerAt layers i).bitMatrix,
                       zCounts.getD 1 0 ^^^ (zCounts.getD 0 0 &&& (layerAt layers i).bitMatrix),
                       zCounts.getD 2 0
                         ||| (zCounts.getD 1 0
                           &&& (zCounts.getD 0 0 &&& (layerAt layers i).bitMatrix))]
                      ((List.range 4).map fun m =>
                        currentCubeMask.getD m 0 ||| (layerAt layers i).numMask.getD m 0)
                      { cur with
                        localChecked := cur.localChecked + 1
                        currentCubeRows :=
                          cur.currentCubeRows.set currentZ (layerAt layers i).rows })
                run)
      ∧ (∀ (layers : List Layer) (layerStartIdx currentZ : Nat)
          (zCounts currentCubeMask : List Nat) (placed : List Layer),
          Reached layers layerStartIdx currentZ zCounts currentCubeMask placed →
          1 ≤ currentZ ∧ currentZ ≤ 3 ∧ placed.length = currentZ
            ∧ ∀ p, cellCount zCounts p
                = (placed.filter (fun L => L.bitMatrix.testBit p)).length) := by
  refine ⟨fun zCounts bm p h4 hfull => cellCount_step zCounts bm p h4 hfull, ?_, ?_⟩
  · intro bs layers lookup fuel layerStartIdx currentZ zCounts currentCubeMask run hz
    rw [searchWithLookup_succ, if_neg hz]
  · intro layers layerStartIdx currentZ zCounts currentCubeMask placed hr
    obtain ⟨f1, f2, f3, -, f5, -⟩ := hr.facts
    exact ⟨f2, f3, f1, f5⟩

theorem fourLayerPool_enc : ∀ L ∈ fourLayerPool, LayerEnc L := by
  intro L hL
  have hinv := fourLayerPool_rowsInv L hL
  simp only [fourLayerPool, List.mem_cons, List.mem_singleton, List.not_mem_nil, or_false] at hL
  rcases hL with rfl | rfl | rfl | rfl
  · have hr := (@buildLayer_rows [240, 232, 228, 226, 15, 23, 27, 29] rfl).1
    rw [hr] at hinv
    exact buildLayer_enc rfl hinv.2.1
  · have hr := (@buildLayer_rows [225, 216, 212, 210, 30, 39, 43, 45] rfl).1
    rw [hr] at hinv
    exact buildLayer_enc rfl hinv.2.1
  · have hr := (@buildLayer_rows [209, 204, 202, 201, 46, 51, 53, 54] rfl).1
    rw [hr] at hinv
    exact buildLayer_enc rfl hinv.2.1
  · have hr := (@buildLayer_rows [198, 197, 195, 184, 57, 58, 60, 71] rfl).1
    rw [hr] at hinv
    exact buildLayer_enc rfl hinv.2.1

/-- C29. `CubeAssembler` never accepts anything: for every list of layers each
of which has 8 balanced rows, a `bitMatrix` encoding those rows and a `numMask`
marking exactly those rows, and every thread count `>= 1`, `assembleParallel`
returns from a new assembler with `foundCount = 0` and no call to
`saveToDisk`; at a reached call at depth 3 no such layer has a `bitMatrix`
equal to the target. -/
theorem assembler_never_accepts (bs : BalancedSet) (layers : List Layer) (nThreads : Nat)
    (henc : ∀ L ∈ layers, LayerEnc L) (ht : 1 ≤ nThreads) :
    (∃ a', assembleParallel bs layers nThreads CubeAssembler.new = some a'
        ∧ a'.foundCount = 0 ∧ a'.saved = [])
      ∧ (∀ (layerStartIdx : Nat) (zCounts currentCubeMask : List Nat) (placed : List Layer)
          (cand : Layer), LayerEnc cand →
          Reached layers layerStartIdx 3 zCounts currentCubeMask placed →
          cand.bitMatrix ≠ 2 ^ 64 - 1 - (zCounts.getD 0 0 ||| zCounts.getD 1 0) % 2 ^ 64) := by
  constructor
  · obtain ⟨a', h1, -⟩ := assembleParallel_step bs layers nThreads CubeAssembler.new (by omega)
    obtain ⟨e1, e2⟩ := assembleParallel_nothing bs layers henc nThreads _ a' h1
    exact ⟨a', h1, e2, e1⟩
  · intro layerStartIdx zCounts currentCubeMask placed cand hcand hr
    exact depth3_rejects hr henc cand hcand

/-- Witness for C29: the four layers of `fourLayerPool` have encoded rows, and
with one thread the assembler returns with nothing found. -/
theorem assembler_never_accepts_witness :
    (∀ L ∈ fourLayerPool, LayerEnc L) ∧ 1 ≤ 1
      ∧ ∃ a', assembleParallel (BalancedSet.construct (fun _ => 0)) fourLayerPool 1
            CubeAssembler.new = some a'
          ∧ a'.foundCount = 0 ∧ a'.saved = [] :=
  ⟨fourLayerPool_enc, le_refl _,
    (assembler_never_accepts (BalancedSet.construct (fun _ => 0)) fourLayerPool 1
      fourLayerPool_enc (le_refl _)).1⟩

/-! ## Theorems: lookup table and depth-3 target -/

/-- The lookup table has 256 buckets and bucket `v` holds, in ascending
order, the indices whose first row is `v`. -/
theorem buildLookup_closed (layers : List Layer) :
    (buildLookup layers).length = 256
      ∧ ∀ v < 256, (buildLookup layers).getD v []
          = (List.range layers.length).filter
              (fun i => decide ((layerAt layers i).rows.getD 0 0 = v)) := by
  unfold buildLookup
  have key : ∀ k : Nat,
      ((List.range k).foldl
        (fun lookup i =>
          lookup.set ((layerAt layers i).rows.getD 0 0)
            (lookup.getD ((layerAt layers i).rows.getD 0 0) [] ++ [i]))
        (List.replicate 256 [])).length = 256
      ∧ ∀ v < 256, ((List.range k).foldl
          (fun lookup i =>
            lookup.set ((layerAt layers i).rows.getD 0 0)
              (lookup.getD ((layerAt layers i).rows.getD 0 0) [] ++ [i]))
          (List.replicate 256 [])).getD v []
            = (List.range k).filter (fun i => decide ((layerAt layers i).rows.getD 0 0 = v)) := by
    intro k
    induction k with
    | zero =>
      refine ⟨List.length_replicate _ _, ?_⟩
      intro v hv
      show (List.replicate 256 ([] : List Nat)).getD v [] = []
      rw [List.getD_eq_getElem?_getD, List.getElem?_replicate]
      split <;> rfl
    | succ k ih =>
      rw [List.range_succ k, List.foldl_append, List.foldl_cons, List.foldl_nil]
      generalize (List.range k).foldl
        (fun lookup i =>
          lookup.set ((layerAt layers i).rows.getD 0 0)
            (lookup.getD ((layerAt layers i).rows.getD 0 0) [] ++ [i]))
        (List.replicate 256 []) = T at ih ⊢
      obtain ⟨hl, hv⟩ := ih
      refine ⟨by rw [List.length_set]; exact hl, ?_⟩
      intro v hv256
      rw [List.filter_append, ← hv v hv256, List.filter_cons, List.filter_nil]
      generalize (layerAt layers k).rows.getD 0 0 = r
      by_cases e : r = v
      · subst e
        rw [List.getD_eq_getElem?_getD, List.getElem?_set_self (by omega)]
        simp
      · rw [List.getD_eq_getElem?_getD, List.getElem?_set_ne e, ← List.getD_eq_getElem?_getD]
        simp [e]
  exact key layers.length

theorem lookupStep_rows (bs : BalancedSet) (layers : List Layer) (s target : Nat)
    (mask : List Nat) (run : AssemblerRun) (idx : Nat) :
    (lookupStep bs layers s target mask run idx).currentCubeRows = run.currentCubeRows := by
  unfold lookupStep
  split
  · rfl
  · dsimp only
    split
    · rfl
    · split <;> rfl

theorem lookupStep_skip (bs : BalancedSet) (layers : List Layer) (s target : Nat)
    (mask : List Nat) (run : AssemblerRun) (idx : Nat)
    (h : passesDepth3 layers s target mask idx = false) :
    (lookupStep bs layers s target mask run idx).assembler = run.assembler := by
  unfold lookupStep
  unfold passesDepth3 at h
  by_cases h1 : idx < s
  · rw [if_pos h1]
  · rw [if_neg h1]
    dsimp only
    by_cases h2 : (layerAt layers idx).bitMatrix ≠ target
    · rw [if_pos h2]
    · rw [if_neg h2]
      by_cases h3 : maskCollision (layerAt layers idx).numMask mask = true
      · rw [if_pos h3]
      · exfalso
        have h4 : s ≤ idx := by omega
        have h5 : (layerAt layers idx).bitMatrix = target := by
          by_contra hne
          exact h2 hne
        simp [h4, h5, h3] at h

theorem lookupStep_congr (bs : BalancedSet) (layers : List Layer) (s target : Nat)
    (mask : List Nat) (r1 r2 : AssemblerRun) (idx : Nat) (ha : r1.assembler = r2.assembler)
    (hr : r1.currentCubeRows = r2.currentCubeRows) :
    (lookupStep bs layers s target mask r1 idx).assembler
      = (lookupStep bs layers s target mask r2 idx).assembler := by
  unfold lookupStep
  by_cases h1 : idx < s
  · rw [if_pos h1, if_pos h1]
    exact ha
  · rw [if_neg h1, if_neg h1]
    dsimp only
    by_cases h2 : (layerAt layers idx).bitMatrix ≠ target
    · rw [if_pos h2, if_pos h2]
      exact ha
    · rw [if_neg h2, if_neg h2]
      by_cases h3 : maskCollision (layerAt layers idx).numMask mask = true
      · rw [if_pos h3, if_pos h3]
        exact ha
      · rw [if_neg h3, if_neg h3]
        show ({ r1.assembler with
            foundCount := r1.assembler.foundCount + 1
            saved := r1.assembler.saved ++ [(materialiseCube bs r1.currentCubeRows
              (layerAt layers idx), r1.assembler.foundCount + 1)] } : CubeAssembler) = _
        rw [ha, hr]

/-- Scanning a list of indices and scanning only those of its indices that
pass the checks leave the same assembler and row buffer. -/
theorem scan_filter (bs : BalancedSet) (layers : List Layer) (s target : Nat)
    (mask : List Nat) :
    ∀ (l : List Nat) (r1 r2 : AssemblerRun), r1.assembler = r2.assembler →
      r1.currentCubeRows = r2.currentCubeRows →
      (l.foldl (lookupStep bs layers s target mask) r1).assembler
          = ((l.filter (passesDepth3 layers s target mask)).foldl
              (lookupStep bs layers s target mask) r2).assembler
        ∧ (l.foldl (lookupStep bs layers s target mask) r1).currentCubeRows
          = ((l.filter (passesDepth3 layers s target mask)).foldl
              (lookupStep bs layers s target mask) r2).currentCubeRows := by
  intro l
  induction l with
  | nil => intro r1 r2 ha hr; exact ⟨ha, hr⟩
  | cons i rest ih =>
    intro r1 r2 ha hr
    rw [List.foldl_cons, List.filter_cons]
    by_cases hp : passesDepth3 layers s target mask i = true
    · rw [if_pos hp, List.foldl_cons]
      exact ih _ _ (lookupStep_congr bs layers s target mask r1 r2 i ha hr)
        ((lookupStep_rows _ _ _ _ _ _ _).trans (hr.trans (lookupStep_rows _ _ _ _ _ _ _).symm))
    · rw [if_neg hp]
      have hp2 : passesDepth3 layers s target mask i = false := by simpa using hp
      exact ih _ _ ((lookupStep_skip bs layers s target mask r1 i hp2).trans ha)
        ((lookupStep_rows _ _ _ _ _ _ _).trans hr)

theorem range_filter_ge (s : Nat) :
    ∀ n, (List.range n).filter (fun i => decide (s ≤ i)) = List.range' s (n - s) := by
  intro n
  induction n with
  | zero => simp
  | succ n ih =>
    rw [List.range_succ n, List.filter_append, ih, List.filter_cons, List.filter_nil]
    by_cases h : s ≤ n
    · have e : n + 1 - s = (n - s) + 1 := by omega
      rw [e, List.range'_concat]
      have e2 : s + 1 * (n - s) = n := by omega
      simp [h, e2]
    · have e : n + 1 - s = 0 := by omega
      have e2 : n - s = 0 := by omega
      simp [h, e, e2]

theorem and_255_eq_mod (x : Nat) : x &&& 255 = x % 256 :=
  Nat.and_pow_two_sub_one_eq_mod x 8

/-- The bucket of the target's low byte and the full index range hold the same
passing indices, in the same order. -/
theorem passing_indices_eq (layers : List Layer) (s target : Nat) (mask : List Nat)
    (hmat : ∀ L ∈ layers, ∀ i < 8, (L.bitMatrix >>> (8 * i)) &&& 255 = L.rows.getD i 0) :
    ((buildLookup layers).getD (target % 256) []).filter (passesDepth3 layers s target mask)
      = (List.range' s (layers.length - s)).filter (passesDepth3 layers s target mask) := by
  rw [(buildLookup_closed layers).2 (target % 256) (Nat.mod_lt _ (by norm_num)),
    ← range_filter_ge s layers.length, List.filter_filter, List.filter_filter]
  apply List.filter_congr
  intro i hi
  have hi2 := List.mem_range.mp hi
  by_cases hp : passesDepth3 layers s target mask i = true
  · have hp2 := hp
    unfold passesDepth3 at hp2
    simp only [Bool.and_eq_true, decide_eq_true_eq, Bool.not_eq_true'] at hp2
    obtain ⟨⟨h1, h2⟩, -⟩ := hp2
    have h0 := hmat _ (layerAt_mem layers i hi2) 0 (by omega)
    rw [Nat.mul_zero, Nat.shiftRight_zero, and_255_eq_mod, h2] at h0
    simp [hp, h1, h0]
  · have hp2 : passesDepth3 layers s target mask i = false := by simpa using hp
    simp [hp2]

/-- The bucket scan and the scan of all indices from `layerStartIdx` on leave
the same assembler and row buffer. -/
theorem scanBucket_eq_scanAll (bs : BalancedSet) (layers : List Layer) (s target : Nat)
    (mask : List Nat) (run : AssemblerRun)
    (hmat : ∀ L ∈ layers, ∀ i < 8, (L.bitMatrix >>> (8 * i)) &&& 255 = L.rows.getD i 0) :
    (scanBucket bs layers (buildLookup layers) s target mask run).assembler
        = (scanAllLayers bs layers s target mask run).assembler
      ∧ (scanBucket bs layers (buildLookup layers) s target mask run).currentCubeRows
        = (scanAllLayers bs layers s target mask run).currentCubeRows := by
  unfold scanBucket scanAllLayers
  obtain ⟨a1, r1⟩ := scan_filter bs layers s target mask
    ((buildLookup layers).getD (target % 256) []) run run rfl rfl
  obtain ⟨a2, r2⟩ := scan_filter bs layers s target mask
    (List.range' s (layers.length - s)) run run rfl rfl
  rw [a1, r1, a2, r2, passing_indices_eq layers s target mask hmat]
  exact ⟨rfl, rfl⟩

/-- C26. The lookup table built by `assembleParallel` has 256 buckets and
maps each byte `v` to exactly the indices `i` with `layers[i].rows[0] = v`, in
ascending order.  At depth 3 `searchWithLookup` returns the result of scanning
the bucket of the target's low byte, and, provided each layer's `bitMatrix`
encodes its rows, that scan accepts exactly the same candidates as the scan of
every index from `layerStartIdx` on with the same checks: both leave the same
`foundCount`, the same saved cubes and the same row buffer. -/
theorem lookup_scan_equivalent (bs : BalancedSet) (layers : List Layer)
    (layerStartIdx : Nat) (zCounts currentCubeMask : List Nat) (run : AssemblerRun) (fuel : Nat)
    (hmat : ∀ L ∈ layers, ∀ i < 8, (L.bitMatrix >>> (8 * i)) &&& 255 = L.rows.getD i 0) :
    (buildLookup layers).length = 256
      ∧ (∀ v < 256, (buildLookup layers).getD v []
          = (List.range layers.length).filter
              (fun i => decide ((layerAt layers i).rows.getD 0 0 = v)))
      ∧ searchWithLookup bs layers (buildLookup layers) (fuel + 1) layerStartIdx 3 zCounts
          currentCubeMask run
        = some (scanBucket bs layers (buildLookup layers) layerStartIdx
            (2 ^ 64 - 1 - (zCounts.getD 0 0 ||| zCounts.getD 1 0) % 2 ^ 64) currentCubeMask run)
      ∧ (∀ target : Nat,
          (scanBucket bs layers (buildLookup layers) layerStartIdx target currentCubeMask
              run).assembler
            = (scanAllLayers bs layers layerStartIdx target currentCubeMask run).assembler
          ∧ (scanBucket bs layers (buildLookup layers) layerStartIdx target currentCubeMask
              run).currentCubeRows
            = (scanAllLayers bs layers layerStartIdx target currentCubeMask
              run).currentCubeRows) := by
  refine ⟨(buildLookup_closed layers).1, (buildLookup_closed layers).2, ?_, ?_⟩
  · rw [searchWithLookup_succ, if_pos rfl]
    rfl
  · intro target
    exact scanBucket_eq_scanAll bs layers layerStartIdx target currentCubeMask run hmat

theorem fourLayerPool_matrix :
    ∀ L ∈ fourLayerPool, ∀ i < 8, (L.bitMatrix >>> (8 * i)) &&& 255 = L.rows.getD i 0 :=
  fun L hL => (fourLayerPool_enc L hL).matrix

/-- Witness for C26: on `fourLayerPool`, with the `bitMatrix` of layer 3 as the
target and an empty mask, both scans accept layer 3. -/
theorem lookup_scan_equivalent_witness :
    (∀ L ∈ fourLayerPool, ∀ i < 8, (L.bitMatrix >>> (8 * i)) &&& 255 = L.rows.getD i 0)
      ∧ (scanBucket (BalancedSet.construct (fun _ => 0)) fourLayerPool
            (buildLookup fourLayerPool) 0 (layerAt fourLayerPool 3).bitMatrix [0, 0, 0, 0]
            { assembler := CubeAssembler.new, currentCubeRows := List.replicate 4 [],
              localChecked := 0 }).assembler
          = (scanAllLayers (BalancedSet.construct (fun _ => 0)) fourLayerPool 0
            (layerAt fourLayerPool 3).bitMatrix [0, 0, 0, 0]
            { assembler := CubeAssembler.new, currentCubeRows := List.replicate 4 [],
              localChecked := 0 }).assembler
      ∧ (scanAllLayers (BalancedSet.construct (fun _ => 0)) fourLayerPool 0
            (layerAt fourLayerPool 3).bitMatrix [0, 0, 0, 0]
            { assembler := CubeAssembler.new, currentCubeRows := List.replicate 4 [],
              localChecked := 0 }).assembler.foundCount = 1 := by
  have h := lookup_scan_equivalent (BalancedSet.construct (fun _ => 0)) fourLayerPool 0
    [0, 0, 0] [0, 0, 0, 0]
    { assembler := CubeAssembler.new, currentCubeRows := List.replicate 4 [],
      localChecked := 0 } 0 fourLayerPool_matrix
  exact ⟨fourLayerPool_matrix, (h.2.2.2 _).1, by decide⟩

/-- C25 (defect of the code, evaluated at a failing input). On
`fourLayerPool` the call at depth 3 with layers 0, 1, 2 placed is reached;
stacking layer 3 on them, with the four complement layers, gives a cube with
4 ones on every Z-line (as any candidate with balanced rows does), and its
mask does not collide, but its `bitMatrix` is not
`~(zCounts[0] | zCounts[1])`, so `lookupStep` does not accept it. -/
theorem target_rejects_balanced_stacking :
    ∃ zCounts currentCubeMask : List Nat,
      Reached fourLayerPool 3 3 zCounts currentCubeMask
          [layerAt fourLayerPool 0, layerAt fourLayerPool 1, layerAt fourLayerPool 2]
        ∧ ZBalanced (materialiseCube (BalancedSet.construct (fun _ => 0))
            [(layerAt fourLayerPool 0).rows, (layerAt fourLayerPool 1).rows,
             (layerAt fourLayerPool 2).rows] (layerAt fourLayerPool 3))
        ∧ maskCollision (layerAt fourLayerPool 3).numMask currentCubeMask = false
        ∧ (layerAt fourLayerPool 3).bitMatrix
            ≠ 2 ^ 64 - 1 - (zCounts.getD 0 0 ||| zCounts.getD 1 0) % 2 ^ 64
        ∧ ∀ run : AssemblerRun,
            (lookupStep (BalancedSet.construct (fun _ => 0)) fourLayerPool 3
              (2 ^ 64 - 1 - (zCounts.getD 0 0 ||| zCounts.getD 1 0) % 2 ^ 64) currentCubeMask
              run 3).assembler = run.assembler := by
  have hr := Reached.place 2
    (Reached.place 1 (@Reached.root fourLayerPool 0 (by decide))
      (by decide) (by decide) (by decide) (by decide) (by decide))
    (by decide) (by decide) (by decide) (by decide) (by decide)
  refine ⟨_, _, hr, ?_, by decide, ?_, ?_⟩
  · exact (materialiseCube_balanced (fun _ => 0) _ _
      (fourLayerPool_rowsInv _ (by decide)) (fourLayerPool_rowsInv _ (by decide))
      (fourLayerPool_rowsInv _ (by decide)) (fourLayerPool_rowsInv _ (by decide))).2.2.1
  · exact depth3_rejects hr fourLayerPool_enc _ (fourLayerPool_enc _ (by decide))
  · intro run
    exact lookupStep_nothing hr fourLayerPool_enc run 3 (by decide)

/-! ## Theorems: record counts of the shift sets -/

set_option maxRecDepth 100000 in
theorem shiftSets_eq (mem : Nat → Nat) :
    (BalancedSet.construct mem).shiftSets = shiftSetBases.map mkShiftSet := by
  rw [construct_shiftSets, balancedBytes_eq]
  decide

set_option maxRecDepth 100000 in
theorem shiftSetBases_facts :
    shiftSetBases.length = 64
      ∧ shiftSetBases = balancedBytes.filter (fun b => decide (b ∉ [51, 85, 102, 153, 170, 204]))
      ∧ (∀ b ∈ [51, 85, 102, 153, 170, 204],
          b ∈ balancedBytes ∧ ∃ k < 8, 0 < k ∧ rotateLeft^[k] b = b)
      ∧ (∀ b ∈ shiftSetBases, ∀ k < 8, 0 < k → rotateLeft^[k] b ≠ b) := by
  rw [balancedBytes_eq]
  decide

set_option maxRecDepth 100000 in
theorem filteredValues_facts :
    filteredBases.length = 32
      ∧ ((filteredBases.map mkShiftSet).flatMap (·.values)).length = 256
      ∧ ((filteredBases.map mkShiftSet).flatMap (·.values)).dedup.length = 32
      ∧ (∀ v < 256, v ∈ (filteredBases.map mkShiftSet).flatMap (·.values) ↔ v ∈ filteredBases)
      ∧ (∀ v ∈ filteredBases,
          ((filteredBases.map mkShiftSet).flatMap (·.values)).count v = 8)
      ∧ (∀ b ∈ filteredBases,
          sameValues (mkShiftSet b) (mkShiftSet 23) ∨ sameValues (mkShiftSet b) (mkShiftSet 27)
            ∨ sameValues (mkShiftSet b) (mkShiftSet 29)
            ∨ sameValues (mkShiftSet b) (mkShiftSet 39))
      ∧ (∀ r ∈ [23, 27, 29, 39],
          (filteredBases.filter (fun b => decide (sameValues (mkShiftSet b) (mkShiftSet r)))).length
            = 8) := by
  decide

/-- C31. After construction `shiftSets` has exactly 64 records, one for every
balanced byte except 51, 85, 102, 153, 170 and 204, the six whose rotation
period is below 8, and `filteredShiftSets` has exactly 32 records.  The 256
values of the filtered records take only 32 distinct byte values, the 32
filtered bases themselves: they form 4 rotation orbits (those of 23, 27, 29
and 39), each listed once per base, 8 times. -/
theorem shiftSets_counts (mem : Nat → Nat) :
    (BalancedSet.construct mem).shiftSets.length = 64
      ∧ (BalancedSet.construct mem).shiftSets.map (·.base)
          = balancedBytes.filter (fun b => decide (b ∉ [51, 85, 102, 153, 170, 204]))
      ∧ (∀ b ∈ [51, 85, 102, 153, 170, 204],
          b ∈ balancedBytes ∧ ∃ k < 8, 0 < k ∧ rotateLeft^[k] b = b)
      ∧ (∀ ss ∈ (BalancedSet.construct mem).shiftSets,
          ∀ k < 8, 0 < k → rotateLeft^[k] ss.base ≠ ss.base)
      ∧ (BalancedSet.construct mem).filteredShiftSets.length = 32
      ∧ ((BalancedSet.construct mem).filteredShiftSets.flatMap (·.values)).length = 256
      ∧ ((BalancedSet.construct mem).filteredShiftSets.flatMap (·.values)).dedup.length = 32
      ∧ (∀ v < 256, v ∈ (BalancedSet.construct mem).filteredShiftSets.flatMap (·.values)
          ↔ v ∈ (BalancedSet.construct mem).filteredShiftSets.map (·.base))
      ∧ (∀ ss ∈ (BalancedSet.construct mem).filteredShiftSets,
          sameValues ss (mkShiftSet 23) ∨ sameValues ss (mkShiftSet 27)
            ∨ sameValues ss (mkShiftSet 29) ∨ sameValues ss (mkShiftSet 39))
      ∧ (∀ r ∈ [23, 27, 29, 39],
          ((BalancedSet.construct mem).filteredShiftSets.filter
            (fun ss => decide (sameValues ss (mkShiftSet r)))).length = 8) := by
  obtain ⟨s1, s2, s3, s4⟩ := shiftSetBases_facts
  obtain ⟨f1, f2, f3, f4, -, f6, f7⟩ := filteredValues_facts
  have hb : (shiftSetBases.map mkShiftSet).map (·.base) = shiftSetBases := by
    rw [List.map_map]
    exact List.map_id _
  have hfb : (filteredBases.map mkShiftSet).map (·.base) = filteredBases := by
    rw [List.map_map]
    exact List.map_id _
  rw [shiftSets_eq, filteredShiftSets_eq, hb, hfb]
  refine ⟨by rw [List.length_map]; exact s1, s2, s3, ?_, by rw [List.length_map]; exact f1,
    f2, f3, f4, ?_, ?_⟩
  · intro ss hss
    obtain ⟨b, hb, rfl⟩ := List.mem_map.mp hss
    exact s4 b hb
  · intro ss hss
    obtain ⟨b, hb, rfl⟩ := List.mem_map.mp hss
    exact f6 b hb
  · intro r hr
    rw [List.filter_map, List.length_map]
    exact f7 r hr

/-! ## Theorems: Z-axis check on the base bytes -/

set_option maxRecDepth 100000 in
theorem rotateLeft_testBit : ∀ b < 256,
    rotateLeft b < 256 ∧ ∀ p < 8, (rotateLeft b).testBit p = b.testBit ((p + 7) % 8) := by
  decide

theorem rotateLeft_iterate_testBit (r : Nat) :
    ∀ b < 256, rotateLeft^[r] b < 256
      ∧ ∀ p < 8, (rotateLeft^[r] b).testBit p = b.testBit ((p + 7 * r) % 8) := by
  induction r with
  | zero =>
    intro b hb
    refine ⟨hb, ?_⟩
    intro p hp
    have e : (p + 7 * 0) % 8 = p := by omega
    rw [e]
    rfl
  | succ r ih =>
    intro b hb
    obtain ⟨h1, h2⟩ := rotateLeft_testBit b hb
    obtain ⟨h3, h4⟩ := ih (rotateLeft b) h1
    rw [Function.iterate_succ_apply]
    refine ⟨h3, ?_⟩
    intro p hp
    rw [h4 p hp, h2 _ (Nat.mod_lt _ (by omega))]
    congr 1
    omega

theorem rotations8_getD (b r : Nat) (hr : r < 8) : (rotations8 b).getD r 0 = rotateLeft^[r] b := by
  unfold rotations8
  interval_cases r <;> rfl

theorem stack_eq_map_getD (stack : List ShiftSet) (h : stack.length = 8) :
    (List.range 8).map (fun z => stack.getD z ShiftSet.zero) = stack := by
  apply List.ext_getElem
  · simp [h]
  · intro n h1 h2
    simp [List.getD_eq_getElem?_getD, List.getElem?_eq_getElem h2]

theorem filter_bases_range (stack : List ShiftSet) (h : stack.length = 8) (q : ShiftSet → Bool) :
    ((List.range 8).filter (fun z => q (stack.getD z ShiftSet.zero))).length
      = (stack.filter q).length := by
  conv_rhs => rw [← stack_eq_map_getD stack h, List.filter_map, List.length_map]
  rfl

/-- C33. For every array of 8 shift sets whose records hold the successive
rotations of their base byte, `validateZAxis` returns `true` if and only if
for every bit position `p` in `0..7` exactly 4 of the 8 base bytes have bit
`p` set, which is the check on row 0 alone. -/
theorem validateZAxis_iff_bases (cube : List ShiftSet) (hlen : cube.length = 8)
    (hrot : ∀ ss ∈ cube, ss.base < 256 ∧ ss.values = rotations8 ss.base) :
    (validateZAxis cube = true
        ↔ ∀ p < 8, (cube.filter (fun ss => ss.base.testBit p)).length = 4)
      ∧ (validateZAxis cube = true
        ↔ ∀ p < 8, (cube.filter (fun ss => (ss.values.getD 0 0).testBit p)).length = 4) := by
  have hcell : ∀ z < 8, ∀ y < 8, ∀ p < 8,
      ((stackCube cube).cell z y).testBit p
        = (cube.getD z ShiftSet.zero).base.testBit ((p + 7 * y) % 8) := by
    intro z hz y hy p hp
    have hm : cube.getD z ShiftSet.zero ∈ cube := by
      rw [List.getD_eq_getElem _ _ (by omega)]
      exact List.getElem_mem _
    obtain ⟨hb, hv⟩ := hrot _ hm
    rw [cell_stackCube, hv, rotations8_getD _ y hy]
    exact (rotateLeft_iterate_testBit y _ hb).2 p hp
  have hrow0 : ∀ p, (cube.filter (fun ss => (ss.values.getD 0 0).testBit p))
      = cube.filter (fun ss => ss.base.testBit p) := by
    intro p
    apply List.filter_congr
    intro ss hss
    rw [(hrot ss hss).2, rotations8_getD _ 0 (by omega)]
    rfl
  have main : validateZAxis cube = true
      ↔ ∀ p < 8, (cube.filter (fun ss => ss.base.testBit p)).length = 4 := by
    rw [validateZAxis_iff]
    unfold ZBalanced
    constructor
    · intro h p hp
      rw [← filter_bases_range cube hlen (fun ss => ss.base.testBit p), ← h 0 (by omega) p hp]
      congr 1
      apply List.filter_congr
      intro z hz
      rw [hcell z (List.mem_range.mp hz) 0 (by omega) p hp]
      congr 1
      omega
    · intro h y hy p hp
      rw [← h ((p + 7 * y) % 8) (Nat.mod_lt _ (by omega)),
        ← filter_bases_range cube hlen (fun ss => ss.base.testBit ((p + 7 * y) % 8))]
      congr 1
      apply List.filter_congr
      intro z hz
      exact hcell z (List.mem_range.mp hz) y hy p hp
  refine ⟨main, ?_⟩
  rw [main]
  constructor
  · intro h p hp
    rw [hrow0 p]
    exact h p hp
  · intro h p hp
    rw [← hrow0 p]
    exact h p hp

/-- Witness for C33: the stack with bases 23, 232, 46, 209, 92, 163, 184, 71
holds rotation sequences, passes `validateZAxis`, and 4 of its bases have bit
0 set. -/
theorem validateZAxis_iff_bases_witness :
    twoOrbitStack.length = 8
      ∧ (∀ ss ∈ twoOrbitStack, ss.base < 256 ∧ ss.values = rotations8 ss.base)
      ∧ validateZAxis twoOrbitStack = true
      ∧ (twoOrbitStack.filter (fun ss => ss.base.testBit 0)).length = 4 := by
  have hrot : ∀ ss ∈ twoOrbitStack, ss.base < 256 ∧ ss.values = rotations8 ss.base := by
    decide
  have h := (validateZAxis_iff_bases twoOrbitStack rfl hrot).1
  exact ⟨rfl, hrot, h.mpr (by decide), by decide⟩

/-! ## Theorems: a sequence the search accepts -/

/-- C34. The rotation-orbit search is not vacuous: the records with bases
23, 232, 46, 209, 92, 163, 184, 71 (four bases and their complements) are 8
records of `filteredShiftSets` with pairwise distinct bases that
`validateZAxis` accepts; in find-all mode `searchRecursive`, started with the
first of them as root, returns with this sequence passed to `saveResult`, and
so does a single-worker `search`. -/
theorem search_not_vacuous (mem : Nat → Nat) :
    twoOrbitStack.length = 8
      ∧ twoOrbitStack.map (·.base) = [23, 232, 46, 209, 92, 163, 184, 71]
      ∧ [bitNot8 23, bitNot8 46, bitNot8 92, bitNot8 184] = [232, 209, 163, 71]
      ∧ (twoOrbitStack.map (·.base)).Nodup
      ∧ (∀ ss ∈ twoOrbitStack, ss ∈ (BalancedSet.construct mem).filteredShiftSets)
      ∧ validateZAxis twoOrbitStack = true
      ∧ (∃ run',
          searchRecursive (BalancedSet.construct mem) 8 (mkShiftSet 23) 1
              { searcher := configured (BalancedSet.construct mem) false CubeSearcherV2.new
                usedNumbers := [(mkShiftSet 23).base]
                currentCube := (List.replicate 8 ShiftSet.zero).set 0 (mkShiftSet 23)
                localChecked := 0 } = some run'
            ∧ twoOrbitStack ∈ run'.searcher.saved.map Prod.fst)
      ∧ ∃ s' total,
          search (BalancedSet.construct mem) 1 false CubeSearcherV2.new = some (s', total)
            ∧ twoOrbitStack ∈ s'.saved.map Prod.fst := by
  refine ⟨rfl, rfl, by decide, by decide, ?_, by decide, ?_,
    search_all_mem mem 0 (by decide) twoOrbitStack twoOrbitStack_found⟩
  · rw [filteredShiftSets_eq]
    decide
  · obtain ⟨run', h1, -⟩ := searchRecursive_step (BalancedSet.construct mem) (mkShiftSet 23) 7 8 1
      { searcher := configured (BalancedSet.construct mem) false CubeSearcherV2.new
        usedNumbers := [(mkShiftSet 23).base]
        currentCube := (List.replicate 8 ShiftSet.zero).set 0 (mkShiftSet 23)
        localChecked := 0 } rfl (by omega) rfl
    refine ⟨run', h1, ?_⟩
    have h2 := searchRecursive_all (BalancedSet.construct mem) (mkShiftSet 23) 7 8 1
      { searcher := configured (BalancedSet.construct mem) false CubeSearcherV2.new
        usedNumbers := [(mkShiftSet 23).base]
        currentCube := (List.replicate 8 ShiftSet.zero).set 0 (mkShiftSet 23)
        localChecked := 0 } run' rfl (by omega) rfl rfl h1
    rw [h2, filteredShiftSets_eq]
    exact List.mem_append_right _ twoOrbitStack_found

/-! ## Theorems: mirrored layers of a materialised cube -/

theorem two_le_length_of_mem {α : Type} {l : List α} {x y : α} (hx : x ∈ l) (hy : y ∈ l)
    (hne : x ≠ y) : 2 ≤ l.length := by
  match l, hx, hy with
  | [], hx, _ => cases hx
  | [a], hx, hy =>
    rw [List.mem_singleton] at hx hy
    exact absurd (hx.trans hy.symm) hne
  | _ :: _ :: _, _, _ =>
    simp only [List.length_cons]
    omega

theorem two_le_count_map {α : Type} (f : α → Nat) (l : List α) (x y : α) (hx : x ∈ l)
    (hy : y ∈ l) (hne : x ≠ y) (hf : f y = f x) : 2 ≤ (l.map f).count (f x) := by
  rw [List.count, List.countP_map, List.countP_eq_length_filter]
  apply two_le_length_of_mem (x := x) (y := y)
  · exact List.mem_filter.mpr ⟨hx, by simp⟩
  · exact List.mem_filter.mpr ⟨hy, by simp [hf]⟩
  · exact hne

theorem mirrored_cells (mem : Nat → Nat) (l0 l1 l2 l3 : Layer)
    (hlen : ∀ L ∈ [l0, l1, l2, l3], L.rows.length = 8)
    (hbal : ∀ L ∈ [l0, l1, l2, l3], ∀ v ∈ L.rows, v ∈ balancedBytes)
    (hsym : ∀ L ∈ [l0, l1, l2, l3], L.NotSymmetric) :
    ∀ z < 4, ∀ y < 8,
      (materialiseLayers (BalancedSet.construct mem) l0 l1 l2 l3).cell z y
          = (layerAt [l0, l1, l2, l3] z).rows.getD y 0
        ∧ (materialiseLayers (BalancedSet.construct mem) l0 l1 l2 l3).cell (7 - z) y
          = (layerAt [l0, l1, l2, l3] z).rows.getD ((y + 4) % 8) 0 := by
  intro z hz y hy
  obtain ⟨c1, c2⟩ := cell_materialiseCube (BalancedSet.construct mem) [l0.rows, l1.rows, l2.rows] l3
    (fun z => (layerAt [l0, l1, l2, l3] z).rows) rfl rfl rfl rfl z hz y hy
  refine ⟨c1, ?_⟩
  unfold materialiseLayers
  rw [c2]
  have hm : layerAt [l0, l1, l2, l3] z ∈ [l0, l1, l2, l3] := by
    unfold layerAt
    interval_cases z <;> simp
  generalize layerAt [l0, l1, l2, l3] z = L at hm ⊢
  have hl := hlen L hm
  have hb : ∀ i < 8, L.rows.getD i 0 ∈ balancedBytes := by
    intro i hi
    apply hbal L hm
    rw [List.getD_eq_getElem _ _ (by omega)]
    exact List.getElem_mem _
  have hs := hsym L hm
  show (BalancedSet.construct mem).getComplement (L.rows.getD y 0) = _
  rw [getComplement_balanced mem (hb y hy)]
  by_cases h4 : y < 4
  · have e : (y + 4) % 8 = y + 4 := by omega
    rw [e, hs y h4]
  · obtain ⟨i, hi, rfl⟩ : ∃ i, i < 4 ∧ y = i + 4 := ⟨y - 4, by omega, by omega⟩
    have e : (i + 4 + 4) % 8 = i := by omega
    rw [e, hs i hi]
    exact (bitNot8_testBit _ (mem_balancedBytes.mp (hb i (by omega))).1).2.1

/-- C32 (as stated, refuted). The layer with rows `0, 0, 0, 0, 255, 255, 255,
255` satisfies `rows[i+4] = bitwise_not(rows[i])`, yet in the cube materialised
from four copies of it over zeroed `complementMap` storage row 0 of layer 7 is
`0` while row 4 of layer 0 is `255`, and the value `255` of layer 0 does not
occur in layer 7. -/
theorem materialise_unbalanced_not_mirrored :
    unbalancedLayer.rows = [0, 0, 0, 0, 255, 255, 255, 255]
      ∧ unbalancedLayer.NotSymmetric
      ∧ (materialiseLayers (BalancedSet.construct (fun _ => 0)) unbalancedLayer unbalancedLayer
            unbalancedLayer unbalancedLayer).cell 7 0 = 0
      ∧ (materialiseLayers (BalancedSet.construct (fun _ => 0)) unbalancedLayer unbalancedLayer
            unbalancedLayer unbalancedLayer).cell 0 4 = 255
      ∧ (∃ y < 8, (materialiseLayers (BalancedSet.construct (fun _ => 0)) unbalancedLayer
            unbalancedLayer unbalancedLayer unbalancedLayer).cell 0 y = 255)
      ∧ ¬ ∃ y < 8, (materialiseLayers (BalancedSet.construct (fun _ => 0)) unbalancedLayer
            unbalancedLayer unbalancedLayer unbalancedLayer).cell 7 y = 255 := by
  have hrows : unbalancedLayer.rows = [0, 0, 0, 0, 255, 255, 255, 255] := by decide
  have h0 : (0 : Nat) ∉ balancedBytes := by rw [balancedBytes_eq]; decide
  have h255 : (255 : Nat) ∉ balancedBytes := by rw [balancedBytes_eq]; decide
  have g0 : (BalancedSet.construct (fun _ => 0)).getComplement 0 = 0 :=
    getComplement_unbalanced _ h0
  have g255 : (BalancedSet.construct (fun _ => 0)).getComplement 255 = 0 :=
    getComplement_unbalanced _ h255
  have hc := cell_materialiseCube (BalancedSet.construct (fun _ => 0))
    [unbalancedLayer.rows, unbalancedLayer.rows, unbalancedLayer.rows] unbalancedLayer
    (fun _ => unbalancedLayer.rows) rfl rfl rfl rfl 0 (by omega)
  have h7 : ∀ y < 8, (materialiseLayers (BalancedSet.construct (fun _ => 0)) unbalancedLayer
      unbalancedLayer unbalancedLayer unbalancedLayer).cell 7 y = 0 := by
    intro y hy
    have h : _ = (BalancedSet.construct (fun _ => 0)).getComplement
        (unbalancedLayer.rows.getD y 0) := (hc y hy).2
    refine h.trans ?_
    rw [hrows]
    interval_cases y <;> first | exact g0 | exact g255
  have h04 : (materialiseLayers (BalancedSet.construct (fun _ => 0)) unbalancedLayer
      unbalancedLayer unbalancedLayer unbalancedLayer).cell 0 4 = 255 := by
    have h : _ = unbalancedLayer.rows.getD 4 0 := (hc 4 (by omega)).1
    refine h.trans ?_
    rw [hrows]
    rfl
  refine ⟨hrows, by decide, h7 0 (by omega), h04, ⟨4, by omega, h04⟩, ?_⟩
  rintro ⟨y, hy, h⟩
  rw [h7 y hy] at h
  omega

/-- C32 (amended). For every four layers of 8 balanced rows that satisfy
`rows[i+4] = bitwise_not(rows[i])` for `i = 0..3`, the cube materialised by
`searchWithLookup` has, for each `z` in `0..3`, row `y` of layer `7 - z` equal
to row `(y + 4) mod 8` of layer `z`, so both layers hold the same set of row
values; hence every row value of the cube occurs at least twice among its 64
rows. -/
theorem materialised_layers_mirror (mem : Nat → Nat) (l0 l1 l2 l3 : Layer)
    (hlen : ∀ L ∈ [l0, l1, l2, l3], L.rows.length = 8)
    (hbal : ∀ L ∈ [l0, l1, l2, l3], ∀ v ∈ L.rows, v ∈ balancedBytes)
    (hsym : ∀ L ∈ [l0, l1, l2, l3], L.NotSymmetric) :
    (∀ z < 4, ∀ y < 8,
        (materialiseLayers (BalancedSet.construct mem) l0 l1 l2 l3).cell z y
            = (layerAt [l0, l1, l2, l3] z).rows.getD y 0
          ∧ (materialiseLayers (BalancedSet.construct mem) l0 l1 l2 l3).cell (7 - z) y
            = (layerAt [l0, l1, l2, l3] z).rows.getD ((y + 4) % 8) 0
          ∧ (materialiseLayers (BalancedSet.construct mem) l0 l1 l2 l3).cell (7 - z) y
            = (materialiseLayers (BalancedSet.construct mem) l0 l1 l2 l3).cell z ((y + 4) % 8))
      ∧ (∀ z < 4, ∀ v,
          (∃ y < 8, (materialiseLayers (BalancedSet.construct mem) l0 l1 l2 l3).cell (7 - z) y = v)
            ↔ ∃ y < 8, (materialiseLayers (BalancedSet.construct mem) l0 l1 l2 l3).cell z y = v)
      ∧ ∀ v ∈ (materialiseLayers (BalancedSet.construct mem) l0 l1 l2 l3).rowValues,
          2 ≤ (materialiseLayers (BalancedSet.construct mem) l0 l1 l2 l3).rowValues.count v := by
  have hc := mirrored_cells mem l0 l1 l2 l3 hlen hbal hsym
  generalize materialiseLayers (BalancedSet.construct mem) l0 l1 l2 l3 = c at hc ⊢
  have hmir : ∀ z < 4, ∀ y < 8, c.cell (7 - z) y = c.cell z ((y + 4) % 8) := by
    intro z hz y hy
    rw [(hc z hz y hy).2, (hc z hz ((y + 4) % 8) (Nat.mod_lt _ (by omega))).1]
  have hback : ∀ z < 4, ∀ y < 8, c.cell z y = c.cell (7 - z) ((y + 4) % 8) := by
    intro z hz y hy
    rw [hmir z hz _ (Nat.mod_lt _ (by omega))]
    congr 1
    omega
  refine ⟨fun z hz y hy => ⟨(hc z hz y hy).1, (hc z hz y hy).2, hmir z hz y hy⟩, ?_, ?_⟩
  · intro z hz v
    constructor
    · rintro ⟨y, hy, h⟩
      exact ⟨(y + 4) % 8, Nat.mod_lt _ (by omega), by rw [← hmir z hz y hy]; exact h⟩
    · rintro ⟨y, hy, h⟩
      exact ⟨(y + 4) % 8, Nat.mod_lt _ (by omega), by rw [← hback z hz y hy]; exact h⟩
  · intro v hv
    unfold Cube.rowValues at hv ⊢
    obtain ⟨⟨a, b⟩, hab, rfl⟩ := List.mem_map.mp hv
    obtain ⟨ha, hb⟩ := (mem_nestedIndices a b).mp hab
    apply two_le_count_map (fun idx : Nat × Nat => c.cell idx.1 idx.2) nestedIndices (a, b)
      (7 - a, (b + 4) % 8) hab
    · exact (mem_nestedIndices _ _).mpr ⟨by omega, Nat.mod_lt _ (by omega)⟩
    · intro h
      have := congrArg Prod.fst h
      simp only at this
      omega
    · show c.cell (7 - a) ((b + 4) % 8) = c.cell a b
      by_cases h4 : a < 4
      · exact (hback a h4 b hb).symm
      · obtain ⟨z, hz, rfl⟩ : ∃ z, z < 4 ∧ a = 7 - z := ⟨7 - a, by omega, by omega⟩
        have e : 7 - (7 - z) = z := by omega
        rw [e]
        exact (hmir z hz b hb).symm

/-- Witness for the amended C32: the four layers of `fourLayerPool` have 8
balanced rows with rows 4..7 the bitwise NOT of rows 0..3, and in the cube
materialised from them row 0 of layer 7 equals row 4 of layer 0. -/
theorem materialised_layers_mirror_witness :
    (∀ L ∈ fourLayerPool, L.rows.length = 8)
      ∧ (∀ L ∈ fourLayerPool, ∀ v ∈ L.rows, v ∈ balancedBytes)
      ∧ (∀ L ∈ fourLayerPool, L.NotSymmetric)
      ∧ (materialiseLayers (BalancedSet.construct (fun _ => 0))
            (buildLayer [240, 232, 228, 226, 15, 23, 27, 29])
            (buildLayer [225, 216, 212, 210, 30, 39, 43, 45])
            (buildLayer [209, 204, 202, 201, 46, 51, 53, 54])
            (buildLayer [198, 197, 195, 184, 57, 58, 60, 71])).cell (7 - 0) 0
          = (materialiseLayers (BalancedSet.construct (fun _ => 0))
            (buildLayer [240, 232, 228, 226, 15, 23, 27, 29])
            (buildLayer [225, 216, 212, 210, 30, 39, 43, 45])
            (buildLayer [209, 204, 202, 201, 46, 51, 53, 54])
            (buildLayer [198, 197, 195, 184, 57, 58, 60, 71])).cell 0 ((0 + 4) % 8) := by
  have h1 : ∀ L ∈ fourLayerPool, L.rows.length = 8 := by decide
  have h2 : ∀ L ∈ fourLayerPool, ∀ v ∈ L.rows, v ∈ balancedBytes := by
    rw [balancedBytes_eq]
    decide
  have h3 : ∀ L ∈ fourLayerPool, L.NotSymmetric := by decide
  exact ⟨h1, h2, h3,
    ((materialised_layers_mirror (fun _ => 0) _ _ _ _ h1 h2 h3).1 0 (by omega) 0 (by omega)).2.2⟩

/-! ## Theorems: presence mask of the used bases -/

theorem shiftOne32_eq (b : Nat) : shiftOne32 b = 2 ^ (b % 32) := by
  unfold shiftOne32
  exact Nat.one_shiftLeft _

/-- Bit `i` of the presence mask is set exactly when some used number below 64
has residue `i` modulo 32. -/
theorem usedBitsetOf_testBit (i : Nat) (used : List Nat) :
    (usedBitsetOf used).testBit i = decide (∃ u ∈ used, u < 64 ∧ u % 32 = i) := by
  unfold usedBitsetOf
  have key : ∀ (l : List Nat) (acc : Nat),
      (l.foldl (fun usedBitset num =>
        if num < 64 then usedBitset ||| shiftOne32 num else usedBitset) acc).testBit i
        = (acc.testBit i || decide (∃ u ∈ l, u < 64 ∧ u % 32 = i)) := by
    intro l
    induction l with
    | nil => intro acc; simp
    | cons num rest ih =>
      intro acc
      rw [List.foldl_cons, ih]
      by_cases h64 : num < 64
      · rw [if_pos h64, Nat.testBit_or, shiftOne32_eq, Nat.testBit_two_pow]
        by_cases e : num % 32 = i
        · simp [e, h64]
        · simp [e]
      · rw [if_neg h64]
        simp [h64]
  rw [key, Nat.zero_testBit, Bool.false_or]

/-- The `alreadyUsed` flag for a base below 64 is set exactly when some used
number below 64 has the same residue modulo 32. -/
theorem alreadyUsed_low (used : List Nat) (b : Nat) (hb : b < 64) :
    alreadyUsed (usedBitsetOf used) used b = true ↔ ∃ u ∈ used, u < 64 ∧ u % 32 = b % 32 := by
  unfold alreadyUsed
  rw [if_pos hb, shiftOne32_eq]
  simp only [decide_eq_true_eq]
  rw [and_two_pow_ne_zero, usedBitsetOf_testBit]
  simp

/-- The `alreadyUsed` flag for a base from 64 on is the linear scan. -/
theorem alreadyUsed_high (used : List Nat) (b : Nat) (hb : 64 ≤ b) :
    alreadyUsed (usedBitsetOf used) used b = true ↔ b ∈ used := by
  unfold alreadyUsed
  rw [if_neg (by omega)]
  simp

/-- A base that occurs in `usedNumbers` is always flagged. -/
theorem alreadyUsed_of_mem (used : List Nat) (b : Nat) (h : b ∈ used) :
    alreadyUsed (usedBitsetOf used) used b = true := by
  by_cases hb : b < 64
  · exact (alreadyUsed_low used b hb).mpr ⟨b, h, hb, rfl⟩
  · exact (alreadyUsed_high used b (by omega)).mpr h

theorem filteredBases_residues :
    ∀ u ∈ filteredBases, ∀ b ∈ filteredBases, u < 64 → b < 64 → u % 32 = b % 32 → u = b := by
  decide

/-- On the bases of the filtered pool the flag agrees with the linear scan. -/
theorem alreadyUsed_pool (used : List Nat) (b : Nat) (hu : ∀ u ∈ used, u ∈ filteredBases)
    (hb : b ∈ filteredBases) :
    alreadyUsed (usedBitsetOf used) used b = true ↔ b ∈ used := by
  constructor
  · intro h
    by_cases h64 : b < 64
    · obtain ⟨u, hu1, hu2, hu3⟩ := (alreadyUsed_low used b h64).mp h
      have := filteredBases_residues u (hu u hu1) b hb hu2 h64 hu3
      exact this ▸ hu1
    · exact (alreadyUsed_high used b (by omega)).mp h
  · exact alreadyUsed_of_mem used b

theorem acceptCube_distinct (run : SearchRun) (hlen : run.currentCube.length = 8)
    (hu : UsedOK 8 run) (hd : AllDistinct run.searcher) :
    AllDistinct (acceptCube run).searcher := by
  intro x hx
  rw [acceptCube_saved, List.mem_append] at hx
  rcases hx with h | h
  · exact hd x h
  · by_cases hv : validateZAxis run.currentCube = true
    · rw [if_pos hv, List.mem_singleton] at h
      subst h
      have h1 := hu.1
      rw [List.take_of_length_le (by omega)] at h1
      rw [← h1]
      exact hu.2
    · rw [if_neg hv] at h
      cases h

/-- The candidate loop keeps `AllDistinct`, provided the recursive call one
level down does. -/
theorem searchCandidates_distinct {pool : List ShiftSet} {setIdx : Nat}
    {recur : SearchRun → Option SearchRun} {U : List Nat} (hidx : setIdx < 8)
    (hrec : ∀ r r' : SearchRun, r.currentCube.length = 8 → recur r = some r' →
      SearchStep pool (setIdx + 1) r r'
        ∧ (UsedOK (setIdx + 1) r → AllDistinct r.searcher → AllDistinct r'.searcher)) :
    ∀ (cands : List ShiftSet) (run run' : SearchRun), run.currentCube.length = 8 →
      run.usedNumbers = U → UsedOK setIdx run → AllDistinct run.searcher →
      searchCandidates recur setIdx (usedBitsetOf U) cands run = some run' →
      AllDistinct run'.searcher := by
  intro cands
  induction cands with
  | nil =>
    intro run run' _ _ _ hd h
    simp only [searchCandidates, Option.some.injEq] at h
    subst h
    exact hd
  | cons c rest ih =>
    intro run run' hlen hU hu hd h
    unfold searchCandidates at h
    by_cases hstop : (run.searcher.firstCubeFound && run.searcher.shouldStop) = true
    · rw [if_pos hstop, Option.some.injEq] at h
      subst h
      exact hd
    · rw [if_neg hstop] at h
      by_cases hused : alreadyUsed (usedBitsetOf U) run.usedNumbers c.base = true
      · simp only [hused, if_true] at h
        exact ih { run with localChecked := run.localChecked + 1 } run' hlen hU hu hd h
      · simp only [hused, if_false] at h
        have hfresh : c.base ∉ run.usedNumbers := by
          intro hm
          apply hused
          rw [← hU]
          exact alreadyUsed_of_mem _ _ hm
        cases hr : recur
          { run with
            localChecked := run.localChecked + 1
            currentCube := run.currentCube.set setIdx c
            usedNumbers := run.usedNumbers ++ [c.base] } with
        | none =>
          rw [hr] at h
          cases h
        | some r3 =>
          rw [hr] at h
          obtain ⟨hstep, hkeep⟩ := hrec _ r3 (by simp [hlen]) hr
          have hu2 : UsedOK (setIdx + 1)
              { run with
                localChecked := run.localChecked + 1
                currentCube := run.currentCube.set setIdx c
                usedNumbers := run.usedNumbers ++ [c.base] } := by
            constructor
            · show run.usedNumbers ++ [c.base]
                = ((run.currentCube.set setIdx c).take (setIdx + 1)).map (·.base)
              rw [take_set_place _ _ _ (by omega), List.map_append, ← hu.1]
              rfl
            · show (run.usedNumbers ++ [c.base]).Nodup
              rw [List.nodup_append]
              refine ⟨hu.2, List.nodup_singleton _, ?_⟩
              intro a ha hb
              rw [List.mem_singleton] at hb
              exact hfresh (hb ▸ ha)
          have hd3 := hkeep hu2 hd
          have hused3 : r3.usedNumbers.dropLast = run.usedNumbers := by
            rw [hstep.used]
            simp
          refine ih { r3 with usedNumbers := r3.usedNumbers.dropLast } run' ?_ ?_ ?_ hd3 h
          · show r3.currentCube.length = 8
            rw [hstep.cubeLen]
            simp [hlen]
          · exact hused3.trans hU
          · constructor
            · show r3.usedNumbers.dropLast = (r3.currentCube.take setIdx).map (·.base)
              rw [hused3, take_of_take_succ_eq hstep.cubeTake]
              show run.usedNumbers = ((run.currentCube.set setIdx c).take setIdx).map (·.base)
              rw [take_set_same]
              exact hu.1
            · show (r3.usedNumbers.dropLast).Nodup
              rw [hused3]
              exact hu.2

theorem searchRecursive_distinct (bs : BalancedSet) (fixedSet : ShiftSet) :
    ∀ (d fuel setIdx : Nat) (run run' : SearchRun), setIdx + d = 8 → d < fuel →
      run.currentCube.length = 8 → UsedOK setIdx run → AllDistinct run.searcher →
      searchRecursive bs fuel fixedSet setIdx run = some run' →
      AllDistinct run'.searcher := by
  intro d
  induction d with
  | zero =>
    intro fuel setIdx run run' h8 hfuel hlen hu hd h
    obtain ⟨f, rfl⟩ : ∃ f, fuel = f + 1 := ⟨fuel - 1, by omega⟩
    have h0 : setIdx = 8 := by omega
    subst h0
    rw [searchRecursive_succ, if_pos rfl, Option.some.injEq] at h
    subst h
    exact acceptCube_distinct run hlen hu hd
  | succ d ih =>
    intro fuel setIdx run run' h8 hfuel hlen hu hd h
    obtain ⟨f, rfl⟩ : ∃ f, fuel = f + 1 := ⟨fuel - 1, by omega⟩
    rw [searchRecursive_succ, if_neg (by omega)] at h
    exact searchCandidates_distinct (by omega)
      (fun r r' h1 h2 => by
        obtain ⟨r'', e1, e2⟩ := searchRecursive_step bs fixedSet d f (setIdx + 1) r
          (by omega) (by omega) h1
        have e3 : r'' = r' := Option.some.inj (e1.symm.trans h2)
        subst e3
        exact ⟨e2, fun k1 k2 => ih f (setIdx + 1) r r'' (by omega) (by omega) h1 k1 k2 h2⟩)
      bs.filteredShiftSets run run' hlen rfl hu hd h

theorem searchRoots_distinct (bs : BalancedSet) :
    ∀ (roots : List Nat) (st st' : RootState), AllDistinct st.searcher →
      searchRoots bs roots st = some st' → AllDistinct st'.searcher := by
  intro roots
  induction roots with
  | nil =>
    intro st st' hd h
    simp only [searchRoots, Option.some.injEq] at h
    subst h
    exact hd
  | cons i rest ih =>
    intro st st' hd h
    unfold searchRoots at h
    by_cases hstop : (st.searcher.firstCubeFound && st.searcher.shouldStop) = true
    · rw [if_pos hstop, Option.some.injEq] at h
      subst h
      exact hd
    · rw [if_neg hstop] at h
      cases hr : searchRecursive bs 8 (bs.filteredShiftSets.getD i ShiftSet.zero) 1
          { searcher := st.searcher
            usedNumbers := [(bs.filteredShiftSets.getD i ShiftSet.zero).base]
            currentCube := (List.replicate 8 ShiftSet.zero).set 0
              (bs.filteredShiftSets.getD i ShiftSet.zero)
            localChecked := st.localChecked } with
      | none =>
        simp only [hr] at h
        cases h
      | some run1 =>
        simp only [hr] at h
        have hd1 := searchRecursive_distinct bs _ 7 8 1
          { searcher := st.searcher
            usedNumbers := [(bs.filteredShiftSets.getD i ShiftSet.zero).base]
            currentCube := (List.replicate 8 ShiftSet.zero).set 0
              (bs.filteredShiftSets.getD i ShiftSet.zero)
            localChecked := st.localChecked } run1 rfl (by omega) rfl
          ⟨rfl, List.nodup_singleton _⟩ hd hr
        exact ih _ st' hd1 h

theorem searchWorkers_distinct (bs : BalancedSet) (chunk : Nat) :
    ∀ (ts : List Nat) (st st' : CubeSearcherV2 × Nat), AllDistinct st.1 →
      ts.foldlM (searchWorker bs chunk) st = some st' → AllDistinct st'.1 := by
  intro ts
  induction ts with
  | nil =>
    intro st st' hd h
    simp only [List.foldlM_nil, Option.pure_def, Option.some.injEq] at h
    subst h
    exact hd
  | cons t rest ih =>
    intro st st' hd h
    rw [List.foldlM_cons] at h
    cases hw : searchWorker bs chunk st t with
    | none =>
      rw [hw] at h
      cases h
    | some w =>
      rw [hw] at h
      refine ih w st' ?_ h
      unfold searchWorker at hw
      cases hr : searchRoots bs (threadRange chunk bs.filteredShiftSets.length t)
          { searcher := st.1, totalLocalChecked := st.2, localChecked := 0 } with
      | none =>
        rw [hr] at hw
        cases hw
      | some r =>
        rw [hr] at hw
        simp only [Option.map_some', Option.some.injEq] at hw
        subst hw
        exact searchRoots_distinct bs _ _ r hd hr

/-- For every thread count and either mode, every stack that `search` passes to
`saveResult` has 8 pairwise distinct base bytes. -/
theorem search_distinct (bs : BalancedSet) (nThreads : Nat) (findOnlyFirst : Bool)
    (s s' : CubeSearcherV2) (total : Nat) (hd : AllDistinct s)
    (h : search bs nThreads findOnlyFirst s = some (s', total)) : AllDistinct s' := by
  by_cases hn : bs.filteredShiftSets.length = 0
  · unfold search at h
    rw [if_pos hn, Option.some.injEq] at h
    rw [← (Prod.mk.inj h).1]
    exact hd
  · by_cases ht : nThreads = 0
    · subst ht
      rw [search_zero_threads bs findOnlyFirst s hn] at h
      cases h
    · rw [search_eq bs nThreads findOnlyFirst s hn ht] at h
      refine searchWorkers_distinct bs _ _ (configured bs findOnlyFirst s, 0) (s', total) ?_ h
      show AllDistinct (configured bs findOnlyFirst s)
      unfold configured
      cases findOnlyFirst <;> exact hd

/-! ## Theorems: the stacks reported by the find-all search -/

theorem alreadyUsed_nil (b : Nat) : alreadyUsed (usedBitsetOf []) [] b = false := by
  unfold alreadyUsed usedBitsetOf
  by_cases hb : b < 64
  · rw [if_pos hb]
    simp
  · rw [if_neg hb]
    rfl

/-- Below the empty prefix the closed form is the concatenation over the
roots. -/
theorem sequencesFrom_roots (pool : List ShiftSet) :
    sequencesFrom pool 8 [] [] = pool.flatMap (fun r => sequencesFrom pool 7 [r.base] [r]) := by
  rw [sequencesFrom]
  congr 1
  funext c
  rw [alreadyUsed_nil]
  rfl

theorem flatMap_getD_range (pool : List ShiftSet) (f : ShiftSet → List (List ShiftSet)) :
    (List.range pool.length).flatMap (fun i => f (pool.getD i ShiftSet.zero))
      = pool.flatMap f := by
  have e : (List.range pool.length).map (fun i => pool.getD i ShiftSet.zero) = pool := by
    apply List.ext_getElem
    · simp
    · intro n h1 h2
      simp [List.getD_eq_getElem?_getD, List.getElem?_eq_getElem h2]
  conv_rhs => rw [← e, List.flatMap_map]

/-- Every stack of the closed form extends the prefix by `d` sets. -/
theorem sequencesFrom_extends (pool : List ShiftSet) :
    ∀ (d : Nat) (used : List Nat) (pre x : List ShiftSet), x ∈ sequencesFrom pool d used pre →
      ∃ ext, x = pre ++ ext ∧ ext.length = d := by
  intro d
  induction d with
  | zero =>
    intro used pre x hx
    rw [sequencesFrom] at hx
    by_cases hv : validateZAxis pre = true
    · rw [if_pos hv, List.mem_singleton] at hx
      exact ⟨[], by simp [hx], rfl⟩
    · rw [if_neg hv] at hx
      cases hx
  | succ d ih =>
    intro used pre x hx
    rw [sequencesFrom, List.mem_flatMap] at hx
    obtain ⟨c, -, hc⟩ := hx
    by_cases hu : alreadyUsed (usedBitsetOf used) used c.base = true
    · rw [if_pos hu] at hc
      cases hc
    · rw [if_neg hu] at hc
      obtain ⟨ext, e1, e2⟩ := ih _ _ x hc
      exact ⟨c :: ext, by rw [e1, List.append_assoc]; rfl, by simp [e2]⟩

/-- The closed form lists no stack twice. -/
theorem sequencesFrom_nodup {pool : List ShiftSet} (hp : pool.Nodup) :
    ∀ (d : Nat) (used : List Nat) (pre : List ShiftSet),
      (sequencesFrom pool d used pre).Nodup := by
  intro d
  induction d with
  | zero =>
    intro used pre
    rw [sequencesFrom]
    by_cases hv : validateZAxis pre = true
    · rw [if_pos hv]
      exact List.nodup_singleton _
    · rw [if_neg hv]
      exact List.nodup_nil
  | succ d ih =>
    intro used pre
    rw [sequencesFrom, List.nodup_flatMap]
    constructor
    · intro c _
      by_cases hu : alreadyUsed (usedBitsetOf used) used c.base = true
      · rw [if_pos hu]
        exact List.nodup_nil
      · rw [if_neg hu]
        exact ih _ _
    · refine hp.imp ?_
      intro a b hab
      show List.Disjoint _ _
      intro x hxa hxb
      dsimp only at hxa hxb
      by_cases hua : alreadyUsed (usedBitsetOf used) used a.base = true
      · rw [if_pos hua] at hxa
        cases hxa
      · by_cases hub : alreadyUsed (usedBitsetOf used) used b.base = true
        · rw [if_pos hub] at hxb
          cases hxb
        · rw [if_neg hua] at hxa
          rw [if_neg hub] at hxb
          obtain ⟨e1, h1, -⟩ := sequencesFrom_extends pool _ _ _ x hxa
          obtain ⟨e2, h2, -⟩ := sequencesFrom_extends pool _ _ _ x hxb
          rw [h1, List.append_assoc, List.append_assoc] at h2
          have h3 := List.append_cancel_left h2
          exact hab (List.cons.inj h3).1

/-- When the flag agrees with the linear scan on the bases of the pool, the
closed form below a prefix lists exactly the extensions by `d` sets of the pool
whose bases are pairwise distinct and not yet used, and that pass
`validateZAxis`. -/
theorem mem_sequencesFrom_iff {pool : List ShiftSet}
    (hflag : ∀ (used : List Nat) (b : Nat), (∀ u ∈ used, u ∈ pool.map (·.base)) →
      b ∈ pool.map (·.base) → (alreadyUsed (usedBitsetOf used) used b = true ↔ b ∈ used)) :
    ∀ (d : Nat) (used : List Nat) (pre x : List ShiftSet),
      (∀ u ∈ used, u ∈ pool.map (·.base)) → used.Nodup →
      (x ∈ sequencesFrom pool d used pre
        ↔ ∃ ext, x = pre ++ ext ∧ ext.length = d ∧ (∀ c ∈ ext, c ∈ pool)
            ∧ (used ++ ext.map (·.base)).Nodup ∧ validateZAxis x = true) := by
  intro d
  induction d with
  | zero =>
    intro used pre x hu hnd
    rw [sequencesFrom]
    constructor
    · intro hx
      by_cases hv : validateZAxis pre = true
      · rw [if_pos hv, List.mem_singleton] at hx
        subst hx
        exact ⟨[], by simp, rfl, by simp, by simpa using hnd, hv⟩
      · rw [if_neg hv] at hx
        cases hx
    · rintro ⟨ext, e1, e2, -, -, hv⟩
      have e3 : ext = [] := List.length_eq_zero.mp e2
      subst e3
      rw [List.append_nil] at e1
      subst e1
      rw [if_pos hv]
      exact List.mem_singleton_self _
  | succ d ih =>
    intro used pre x hu hnd
    rw [sequencesFrom, List.mem_flatMap]
    constructor
    · rintro ⟨c, hc, hx⟩
      have hcb : c.base ∈ pool.map (·.base) := List.mem_map_of_mem _ hc
      by_cases hf : alreadyUsed (usedBitsetOf used) used c.base = true
      · rw [if_pos hf] at hx
        cases hx
      · rw [if_neg hf] at hx
        have hfresh : c.base ∉ used := fun hm => hf ((hflag used c.base hu hcb).mpr hm)
        have hu2 : ∀ u ∈ used ++ [c.base], u ∈ pool.map (·.base) := by
          intro u hm
          rcases List.mem_append.mp hm with h | h
          · exact hu u h
          · rw [List.mem_singleton] at h
            exact h ▸ hcb
        have hnd2 : (used ++ [c.base]).Nodup := by
          rw [List.nodup_append]
          refine ⟨hnd, List.nodup_singleton _, ?_⟩
          intro a ha hb
          rw [List.mem_singleton] at hb
          exact hfresh (hb ▸ ha)
        obtain ⟨ext, e1, e2, e3, e4, e5⟩ := (ih _ _ x hu2 hnd2).mp hx
        refine ⟨c :: ext, ?_, by simp [e2], ?_, ?_, e5⟩
        · rw [e1, List.append_assoc]
          rfl
        · intro y hy
          rcases List.mem_cons.mp hy with h | h
          · exact h ▸ hc
          · exact e3 y h
        · rw [List.map_cons]
          rw [List.append_assoc] at e4
          exact e4
    · rintro ⟨ext, e1, e2, e3, e4, e5⟩
      obtain ⟨c, ext', rfl⟩ : ∃ c ext', ext = c :: ext' := by
        cases ext with
        | nil => simp at e2
        | cons c ext' => exact ⟨c, ext', rfl⟩
      have hc : c ∈ pool := e3 c (List.mem_cons_self _ _)
      have hcb : c.base ∈ pool.map (·.base) := List.mem_map_of_mem _ hc
      rw [List.map_cons] at e4
      have hfresh : c.base ∉ used := by
        intro hm
        have := (List.nodup_append.mp e4).2.2
        exact this hm (List.mem_cons_self _ _)
      have hf : ¬ alreadyUsed (usedBitsetOf used) used c.base = true :=
        fun h => hfresh ((hflag used c.base hu hcb).mp h)
      refine ⟨c, hc, ?_⟩
      rw [if_neg hf]
      have hu2 : ∀ u ∈ used ++ [c.base], u ∈ pool.map (·.base) := by
        intro u hm
        rcases List.mem_append.mp hm with h | h
        · exact hu u h
        · rw [List.mem_singleton] at h
          exact h ▸ hcb
      have hnd2 : (used ++ [c.base]).Nodup := by
        rw [List.nodup_append]
        refine ⟨hnd, List.nodup_singleton _, ?_⟩
        intro a ha hb
        rw [List.mem_singleton] at hb
        exact hfresh (hb ▸ ha)
      refine (ih _ _ x hu2 hnd2).mpr ⟨ext', ?_, ?_, ?_, ?_, e5⟩
      · rw [e1, List.append_assoc]
        rfl
      · simpa using e2
      · intro y hy
        exact e3 y (List.mem_cons_of_mem _ hy)
      · rw [List.append_assoc]
        exact e4

/-- The check of `validateZAxis` on a stack of 8 sets, counted over the
stacked records. -/
theorem validateZAxis_iff_counts (x : List ShiftSet) (hlen : x.length = 8) :
    validateZAxis x = true
      ↔ ∀ r < 8, ∀ p < 8, (x.filter (fun ss => (ss.values.getD r 0).testBit p)).length = 4 := by
  rw [validateZAxis_iff]
  unfold ZBalanced
  have e : ∀ r p, ((List.range 8).filter (fun z => ((stackCube x).cell z r).testBit p)).length
      = (x.filter (fun ss => (ss.values.getD r 0).testBit p)).length := by
    intro r p
    rw [← filter_bases_range x hlen (fun ss => (ss.values.getD r 0).testBit p)]
    congr 1
    apply List.filter_congr
    intro z _
    rw [cell_stackCube]
  constructor
  · intro h r hr p hp
    rw [← e]
    exact h r hr p hp
  · intro h r hr p hp
    rw [e]
    exact h r hr p hp

theorem filteredBases_nodup : (filteredBases.map mkShiftSet).Nodup := by
  decide

/-- C12. In find-all mode with one worker, `search` from a new searcher
returns, and the stacks it passed to `saveResult` are exactly the ordered
8-sequences of records of `filteredShiftSets` whose 8 base bytes are pairwise
distinct and for which, for every row `r` and bit position `p` in `0..7`,
exactly 4 of the 8 stacked records have bit `p` set in `values[r]`; no stack
is reported twice, and `foundCubeCount` is the number of reported stacks. -/
theorem search_reports_distinct_balanced_stacks (mem : Nat → Nat) :
    ∃ s' total,
      search (BalancedSet.construct mem) 1 false CubeSearcherV2.new = some (s', total)
        ∧ (∀ x : List ShiftSet, x ∈ s'.saved.map Prod.fst
            ↔ x.length = 8
              ∧ (∀ ss ∈ x, ss ∈ (BalancedSet.construct mem).filteredShiftSets)
              ∧ (x.map (·.base)).Nodup
              ∧ ∀ r < 8, ∀ p < 8,
                  (x.filter (fun ss => (ss.values.getD r 0).testBit p)).length = 4)
        ∧ (s'.saved.map Prod.fst).Nodup
        ∧ s'.foundCubeCount = (s'.saved.map Prod.fst).length := by
  have hne : (BalancedSet.construct mem).filteredShiftSets.length ≠ 0 := by
    rw [filteredShiftSets_eq]
    decide
  obtain ⟨s', total, h1, h2⟩ := search_all (BalancedSet.construct mem) hne
  obtain ⟨s2, total2, k1, -, new, k2, k3, -⟩ :=
    search_step (BalancedSet.construct mem) 1 false CubeSearcherV2.new (by decide)
  have hs : (s2, total2) = (s', total) := Option.some.inj (k1.symm.trans h1)
  obtain ⟨rfl, rfl⟩ := Prod.mk.inj hs
  rw [flatMap_getD_range (BalancedSet.construct mem).filteredShiftSets
    (fun r => sequencesFrom (BalancedSet.construct mem).filteredShiftSets 7 [r.base] [r]),
    ← sequencesFrom_roots, filteredShiftSets_eq] at h2
  have hflag : ∀ (used : List Nat) (b : Nat),
      (∀ u ∈ used, u ∈ (filteredBases.map mkShiftSet).map (·.base)) →
      b ∈ (filteredBases.map mkShiftSet).map (·.base) →
      (alreadyUsed (usedBitsetOf used) used b = true ↔ b ∈ used) := by
    have e : (filteredBases.map mkShiftSet).map (·.base) = filteredBases := by
      rw [List.map_map]
      exact List.map_id _
    rw [e]
    intro used b hu hb
    exact alreadyUsed_pool used b hu hb
  refine ⟨s2, total2, h1, ?_, ?_, ?_⟩
  · intro x
    rw [h2, mem_sequencesFrom_iff hflag 8 [] [] x (by simp) List.nodup_nil, filteredShiftSets_eq]
    constructor
    · rintro ⟨ext, e1, e2, e3, e4, e5⟩
      rw [List.nil_append] at e1 e4
      subst e1
      exact ⟨e2, e3, e4, (validateZAxis_iff_counts x e2).mp e5⟩
    · rintro ⟨e2, e3, e4, e5⟩
      exact ⟨x, rfl, e2, e3, by simpa using e4, (validateZAxis_iff_counts x e2).mpr e5⟩
  · rw [h2]
    exact sequencesFrom_nodup filteredBases_nodup 8 [] []
  · rw [k3, k2]
    simp [CubeSearcherV2.new]

/-! ## Theorems: row values of accepted cubes -/

/-- C14, amended. For every thread count `>= 1` and either mode, `search`
returns and every stack it passed to `saveResult` consists of 8 records of
`filteredShiftSets` with 8 pairwise distinct base bytes, each of whose layers
has 8 pairwise distinct balanced row bytes; only the base bytes are compared
across layers.  A cube materialised by `searchWithLookup` whose first layer
has a balanced row 0 and row 4 equal to the bitwise NOT of row 0, as every
generated layer has, repeats a row value: `data[7][0]` equals `data[0][4]`. -/
theorem accepted_rows_distinct_within_layer (mem : Nat → Nat) :
    (∀ (nThreads : Nat) (findOnlyFirst : Bool), nThreads ≠ 0 →
        ∃ s' total,
          search (BalancedSet.construct mem) nThreads findOnlyFirst CubeSearcherV2.new
            = some (s', total)
          ∧ ∀ e ∈ s'.saved, e.1.length = 8
              ∧ (e.1.map (·.base)).Nodup
              ∧ ∀ z < 8,
                  e.1.getD z ShiftSet.zero ∈ (BalancedSet.construct mem).filteredShiftSets
                    ∧ ((List.range 8).map (fun y => (stackCube e.1).cell z y)).Nodup
                    ∧ ∀ y < 8, (stackCube e.1).cell z y ∈ balancedBytes)
      ∧ (∀ (rows : List (List Nat)) (cand : Layer),
          (rows.getD 0 []).getD 0 0 ∈ balancedBytes →
          (rows.getD 0 []).getD 4 0 = bitNot8 ((rows.getD 0 []).getD 0 0) →
          (materialiseCube (BalancedSet.construct mem) rows cand).cell 7 0
              = (materialiseCube (BalancedSet.construct mem) rows cand).cell 0 4
            ∧ ¬ (materialiseCube (BalancedSet.construct mem) rows cand).rowValues.Nodup) := by
  constructor
  · intro nThreads findOnlyFirst ht
    obtain ⟨s', total, h1, -, new, h2, -, h3⟩ :=
      search_step (BalancedSet.construct mem) nThreads findOnlyFirst CubeSearcherV2.new ht
    refine ⟨s', total, h1, ?_⟩
    intro e he
    have hdist : (e.1.map (·.base)).Nodup :=
      search_distinct (BalancedSet.construct mem) nThreads findOnlyFirst CubeSearcherV2.new s'
        total (fun x hx => by simp [CubeSearcherV2.new] at hx) h1 e.1
        (List.mem_map_of_mem _ he)
    rw [h2] at he
    obtain ⟨hlen, -, hpool, -⟩ := h3 e (by simpa [CubeSearcherV2.new] using he)
    refine ⟨hlen, hdist, ?_⟩
    intro z hz
    have hm := hpool z (Nat.zero_le _) hz
    refine ⟨hm, ?_⟩
    have hm2 := hm
    rw [construct_filteredShiftSets] at hm2
    obtain ⟨b, hb, eb⟩ := List.mem_map.mp (List.mem_filter.mp hm2).1
    obtain ⟨hbal, hvalid⟩ := List.mem_filter.mp hb
    obtain ⟨hl, -, -, hnd, hall, -⟩ := rotation_orbit_facts b hbal hvalid
    have hcell : ∀ y, (stackCube e.1).cell z y = (rotationFill 8 b).getD y 0 := by
      intro y
      rw [cell_stackCube, ← eb]
      rfl
    constructor
    · have : (List.range 8).map (fun y => (stackCube e.1).cell z y)
          = (List.range 8).map (fun y => (rotationFill 8 b).getD y 0) :=
        List.map_congr_left (fun y _ => hcell y)
      rw [this, map_getD_range _ hl]
      exact hnd
    · intro y hy
      rw [hcell y, List.getD_eq_getElem _ _ (by omega)]
      exact mem_balancedBytes.mpr (hall _ (List.getElem_mem _))
  · intro rows cand hbal h4
    have hc := cell_materialiseCube (BalancedSet.construct mem) rows cand
      (fun z => if z = 0 then rows.getD 0 [] else if z = 1 then rows.getD 1 []
        else if z = 2 then rows.getD 2 [] else cand.rows) rfl rfl rfl rfl
    have h70 := (hc 0 (by omega) 0 (by omega)).2
    have h04 := (hc 0 (by omega) 4 (by omega)).1
    simp only [if_true, Nat.sub_zero] at h70 h04
    have heq : (materialiseCube (BalancedSet.construct mem) rows cand).cell 7 0
        = (materialiseCube (BalancedSet.construct mem) rows cand).cell 0 4 := by
      rw [h70, h04, h4]
      exact getComplement_balanced mem hbal
    refine ⟨heq, ?_⟩
    intro hnd
    have hinj := List.inj_on_of_nodup_map hnd
      ((mem_nestedIndices 7 0).mpr ⟨by omega, by omega⟩)
      ((mem_nestedIndices 0 4).mpr ⟨by omega, by omega⟩) heq
    exact absurd (Prod.mk.inj hinj).1 (by decide)

end PerfectBitCube
